import Mathlib

/-! # netio: a verification development

Shallow embedding of the TCP endpoint core of the `netio` library
(`src/netio/netio.c`, `src/netio/message.h`, `src/netio/poolalloc.h`).

Conventions of the embedding.

* C `int` values are `Int`; conversions to the unsigned and the 32-bit signed
  types are written out (`u16`, `u32`, `i32`, `u64`) where a value can leave the
  range of its type.  The slot counters of a pool are not wrapped: a pool of
  `2 ^ 31` slots is beyond the caps of the library.
* A byte is a `Nat`; a buffer is a `List Nat`.  Reading past the end of a
  buffer yields `0`.
* A pointer is `Option Nat` (`none` is `NULL`), the number being the address.
* A loop that follows links takes `fuel` and returns `none` when the fuel runs
  out; a loop that consumes at least one byte per pass is bounded by the number
  of bytes.  A call that dereferences `NULL` ends in `outcome.null_deref`.
* What an endpoint does to the outside world (system calls, calls of user
  callbacks) is appended to its `log`; the answers of the outside world
  (`malloc`, `send(2)`) are arguments of the model.
-/

namespace Netio

/-! ## Machine integers -/

/-- Conversion to `uint16_t`. -/
def u16 (x : Int) : Int := x % 65536

/-- Conversion to `unsigned int` / `uint32_t`. -/
def u32 (x : Int) : Int := x % 4294967296

/-- Conversion of an out-of-range value to `int` (two's complement wrap). -/
def i32 (x : Int) : Int := (x + 2147483648) % 4294967296 - 2147483648

/-- Conversion to `unsigned long` (LP64). -/
def u64 (x : Int) : Int := x % 18446744073709551616

/-! ## Length-prefixed framers (`netio.c`, "parser" section) -/

/-- The value a parse callback leaves behind: its return value, the value stored
in `*parsed_data_len`, and the bytes it stored at the start of `parsed_data`. -/
structure ParseOut where
  ret : Int
  parsed_data_len : Int
  parsed_data : List Nat
deriving DecidableEq, Repr

/-- The 16-bit big-endian number in the first two bytes: `memcpy` followed by `ntohs`. -/
def be16 (data : List Nat) : Int :=
  (data.getD 0 0 : Int) * 256 + (data.getD 1 0 : Int)

/-- The 32-bit big-endian number in the first four bytes: `memcpy` followed by `ntohl`. -/
def be32 (data : List Nat) : Int :=
  (data.getD 0 0 : Int) * 16777216 + (data.getD 1 0 : Int) * 65536
    + (data.getD 2 0 : Int) * 256 + (data.getD 3 0 : Int)

/-- Model of `netio_parse16(data, datalen, parsed_data, parsed_data_len)`; the
third argument is the value of `*parsed_data_len` on entry. -/
def netio_parse16 (data : List Nat) (datalen : Int) (parsed_data_len : Int) : ParseOut :=
  let max_parsed_len := parsed_data_len
  if u32 datalen ≤ 2 then ⟨0, 0, []⟩
  else
    let len := be16 data
    if len + 2 > u32 datalen then ⟨0, 0, []⟩
    else if len > max_parsed_len then ⟨-1, -1, []⟩
    else ⟨len + 2, len, (data.drop 2).take len.toNat⟩

/-- Model of `netio_pack16_length`: the two header bytes (`htons` of the
truncated length, in memory order) and the header length. -/
def netio_pack16_length (datalen : Int) : List Nat × Int :=
  ([(u16 datalen / 256).toNat, (u16 datalen % 256).toNat], 2)

/-- Model of `netio_pack16`: the return value and the bytes stored in `pack_data`. -/
def netio_pack16 (data : List Nat) (datalen : Int) (max_pack_data : Int) : Int × List Nat :=
  if u16 max_pack_data < u16 datalen + 2 then (-1, [])
  else
    let hd := netio_pack16_length datalen
    (datalen + hd.2, hd.1 ++ data.take datalen.toNat)

/-- Model of `netio_parse32`. -/
def netio_parse32 (data : List Nat) (datalen : Int) (parsed_data_len : Int) : ParseOut :=
  let max_parsed_len := parsed_data_len
  if u32 datalen ≤ 4 then ⟨0, 0, []⟩
  else
    let len := be32 data
    if u32 len + 4 > u32 datalen then ⟨0, 0, []⟩
    else if len > u32 max_parsed_len then ⟨-1, -1, []⟩
    else ⟨i32 (len + 4), i32 len, (data.drop 4).take len.toNat⟩

/-- Model of `netio_pack32_length`. -/
def netio_pack32_length (datalen : Int) : List Nat × Int :=
  ([(u32 datalen / 16777216).toNat, (u32 datalen / 65536 % 256).toNat,
    (u32 datalen / 256 % 256).toNat, (u32 datalen % 256).toNat], 4)

/-- Model of `netio_pack32`. -/
def netio_pack32 (data : List Nat) (datalen : Int) (max_pack_data : Int) : Int × List Nat :=
  if u32 max_pack_data < u32 datalen + 4 then (-1, [])
  else
    let hd := netio_pack32_length datalen
    (datalen + hd.2, hd.1 ++ data.take datalen.toNat)

/-! ## Object pool (`poolalloc.h`)

A pool owns a table of blocks; a block is an array of slots, a slot is a
`memelement_t` header followed by `size` bytes of user data.  The memory of the
slots is the map `mem`, indexed by the address of the slot header.  The user
data of a slot is a value of type `α`.  The pointer handed to the user is the
address of the header plus `sizeof(memelement_t)`. -/

/-- `sizeof(memelement_t)`: an `int`, padding and a pointer (LP64). -/
def sizeof_memelement_t : Nat := 16

/-- A slot: the `memelement_t` header and the user data that follows it. -/
structure memelement_t (α : Type) where
  in_use : Int
  next : Option Nat
  data : α

/-- A block: the number of slots and the address of the first slot. -/
structure memblock_t where
  num : Int
  element : Nat
deriving DecidableEq, Repr

/-- The pool header, together with the memory of its slots. -/
structure mempool_t (α : Type) where
  num : Int
  use_num : Int
  max_num : Int
  size : Int
  n_block : Int
  block : List memblock_t
  not_use : Option Nat
  mem : Nat → memelement_t α

/-- Memory write at one address. -/
def mem_write {β : Type} (mem : Nat → β) (a : Nat) (v : β) : Nat → β :=
  fun x => if x = a then v else mem x

/-- The distance between two slots, `sizeof(memelement_t) + size`. -/
def elem_stride (size : Int) : Nat := sizeof_memelement_t + size.toNat

/-- The number of bytes of a block. -/
def block_bytes (size : Int) (b : memblock_t) : Nat := b.num.toNat * elem_stride size

/-- The user data behind a user pointer. -/
def mempool_t.deref {α : Type} (mp : mempool_t α) (p : Nat) : α :=
  (mp.mem (p - sizeof_memelement_t)).data

/-- Store into the user data behind a user pointer. -/
def mempool_t.store {α : Type} (mp : mempool_t α) (p : Nat) (v : α) : mempool_t α :=
  let e := mp.mem (p - sizeof_memelement_t)
  { mp with mem := mem_write mp.mem (p - sizeof_memelement_t) { e with data := v } }

/-- Whether `bytes` bytes at `base` lie in the address space and touch no block
of the pool. -/
def region_free {α : Type} (mp : mempool_t α) (base bytes : Nat) : Bool :=
  decide (0 < base) && decide (base + bytes ≤ 18446744073709551616) &&
    mp.block.all (fun b =>
      decide (base + bytes ≤ b.element) || decide (b.element + block_bytes mp.size b ≤ base))

/-- Contract of the C library `malloc` as the pool uses it.  `m` is what the
allocator answers; an answer is honoured only when the request is positive and
below `PTRDIFF_MAX` and the region is free, otherwise the call counts as failed
(`NULL`). -/
def malloc_block {α : Type} (mp : mempool_t α) (bytes : Int) (m : Option Nat) : Option Nat :=
  match m with
  | none => none
  | some a =>
    if 0 < bytes ∧ bytes < 9223372036854775808 ∧ region_free mp a bytes.toNat = true
    then some a else none

/-- The loop of `alloc_block`: clears the in-use flag of `n` consecutive slots
starting at `pelement` and links each one to the next, the last one to `NULL`. -/
def init_elements {α : Type} (stride : Nat) :
    Nat → Nat → (Nat → memelement_t α) → (Nat → memelement_t α)
  | 0, _, mem => mem
  | n + 1, pelement, mem =>
    init_elements stride n (pelement + stride)
      (mem_write mem pelement
        { (mem pelement) with
          in_use := 0, next := if n = 0 then none else some (pelement + stride) })

/-- Model of `alloc_block(mpool, block, num)`; `m` is the answer of `malloc`.
Returns the pool (slot memory and free list updated) and the new block, or
`none` when `malloc` failed. -/
def alloc_block {α : Type} (mpool : mempool_t α) (num : Int) (m : Option Nat) :
    Option (mempool_t α × memblock_t) :=
  match malloc_block mpool (((sizeof_memelement_t : Int) + mpool.size) * num) m with
  | none => none
  | some element =>
    some ({ mpool with
            mem := init_elements (elem_stride mpool.size) num.toNat element mpool.mem,
            not_use := some element },
          { num := num, element := element })

/-- The empty memory a pool is created over (its contents are unspecified; the
model fixes them to `dflt`). -/
def mem_init {α : Type} (dflt : α) : Nat → memelement_t α :=
  fun _ => { in_use := 0, next := none, data := dflt }

/-- Model of `init_pool_with_max(size, num, max_num)`. -/
def init_pool_with_max {α : Type} (dflt : α) (size num max_num : Int) (m : Option Nat) :
    Option (mempool_t α) :=
  if size ≤ 0 ∨ num ≤ 0 then none
  else
    let mpool : mempool_t α :=
      { num := num, use_num := 0, max_num := max_num, size := size, n_block := 1,
        block := [], not_use := none, mem := mem_init dflt }
    match alloc_block mpool mpool.num m with
    | none => none
    | some (mp, b) => some { mp with block := [b] }

/-- Model of `init_pool(size, num)`. -/
def init_pool {α : Type} (dflt : α) (size num : Int) (m : Option Nat) : Option (mempool_t α) :=
  init_pool_with_max dflt size num 0 m

/-- Model of `extend_pool`; `realloc` of the block table is taken to succeed,
`m` is the answer of the `malloc` of the slots. -/
def extend_pool {α : Type} (mpool : mempool_t α) (m : Option Nat) : mempool_t α :=
  if mpool.not_use ≠ none then mpool
  else if mpool.max_num = mpool.num then mpool
  else
    let new_num :=
      if mpool.max_num = 0 then mpool.num else min mpool.num (mpool.max_num - mpool.num)
    match alloc_block mpool new_num m with
    | none => mpool
    | some (mp, b) =>
      { mp with n_block := mpool.n_block + 1, block := mpool.block ++ [b],
                num := mpool.num + new_num }

/-- Model of `pool_alloc`: the pool afterwards and the user pointer (`none` is `NULL`). -/
def pool_alloc {α : Type} (mp : mempool_t α) (m : Option Nat) : mempool_t α × Option Nat :=
  let mpool := if mp.not_use = none then extend_pool mp m else mp
  match mpool.not_use with
  | none => (mpool, none)
  | some e =>
    let el := mpool.mem e
    ({ mpool with
        not_use := el.next,
        mem := mem_write mpool.mem e { el with in_use := 1, next := none },
        use_num := mpool.use_num + 1 },
     some (e + sizeof_memelement_t))

/-- Model of `pool_free`. -/
def pool_free {α : Type} (mpool : mempool_t α) (element : Nat) : mempool_t α :=
  let pelement := element - sizeof_memelement_t
  if (mpool.mem pelement).in_use = 0 then mpool
  else
    let el := mpool.mem pelement
    { mpool with
      mem := mem_write mpool.mem pelement { el with in_use := 0, next := mpool.not_use },
      not_use := some pelement,
      use_num := mpool.use_num - 1 }

/-- The inner loops of the iteration functions: starting at slot `e`, the user
pointer of the first of `n` consecutive slots whose flag passes `test`. -/
def scan_elements {α : Type} (mem : Nat → memelement_t α) (stride : Nat) (test : Int → Bool) :
    Nat → Nat → Option Nat
  | 0, _ => none
  | n + 1, e =>
    if test (mem e).in_use then some (e + sizeof_memelement_t)
    else scan_elements mem stride test n (e + stride)

/-- The outer loop of `get_element_first` over the block table. -/
def first_loop {α : Type} (mpool : mempool_t α) : List memblock_t → Option Nat
  | [] => none
  | b :: bs =>
    match scan_elements mpool.mem (elem_stride mpool.size) (fun f => decide (f = 1))
        b.num.toNat b.element with
    | some p => some p
    | none => first_loop mpool bs

/-- Model of `get_element_first`. -/
def get_element_first {α : Type} (mpool : mempool_t α) : Option Nat :=
  first_loop mpool mpool.block

/-- The byte size of a block as `get_element_next` computes it: the product is
formed in `size_t` and stored in an `int`. -/
def esize {α : Type} (mpool : mempool_t α) (b : memblock_t) : Int :=
  i32 (u64 (b.num * ((sizeof_memelement_t : Int) + mpool.size)))

/-- The outer loop of `get_element_next`; `hit` is the C variable of that name. -/
def next_loop {α : Type} (mpool : mempool_t α) (pelement : Nat) :
    List memblock_t → Bool → Option Nat
  | [], _ => none
  | b :: bs, hit =>
    if (pelement : Int) ≥ b.element ∧ (pelement : Int) < u64 ((b.element : Int) + esize mpool b) then
      let e := pelement + elem_stride mpool.size
      let n := i32 (((e : Int) - b.element) / elem_stride mpool.size)
      match scan_elements mpool.mem (elem_stride mpool.size) (fun f => decide (f ≠ 0))
          (b.num - n).toNat e with
      | some p => some p
      | none => next_loop mpool pelement bs true
    else if hit then
      match scan_elements mpool.mem (elem_stride mpool.size) (fun f => decide (f ≠ 0))
          b.num.toNat b.element with
      | some p => some p
      | none => next_loop mpool pelement bs hit
    else next_loop mpool pelement bs hit

/-- Model of `get_element_next`. -/
def get_element_next {α : Type} (mpool : mempool_t α) (element : Nat) : Option Nat :=
  next_loop mpool (element - sizeof_memelement_t) mpool.block false

/-- Model of `get_element_max_num`. -/
def get_element_max_num {α : Type} (mpool : mempool_t α) : Int := mpool.num

/-- Model of `get_element_use_num`. -/
def get_element_use_num {α : Type} (mpool : mempool_t α) : Int := mpool.use_num

/-- Model of `pool_element_is_valid`. -/
def pool_element_is_valid {α : Type} (mpool : mempool_t α) (element : Nat) : Int :=
  if (mpool.mem (element - sizeof_memelement_t)).in_use = 0 then 0 else 1

/-! ## Keyed FIFO queue (`message.h`)

The elements live in the slots of the inner pool `element_a`; an element is
named by the user pointer of its slot, and the pointer to its `data` member is
represented by the same number.  Loops that follow `next` / `hashnext` links
take a bound on the number of iterations (`fuel`) and yield `none` when the
bound is reached before the loop ends. -/

/-- `element_t`: the FIFO link, the hash-chain link, the key and the payload. -/
structure element_t (δ : Type) where
  next : Option Nat
  hashnext : Option Nat
  key : Nat
  data : δ

/-- `messageheader_t`; `element` is the table of hash-chain heads. -/
structure messageheader_t (δ : Type) where
  basenum : Int
  datasize : Int
  element : Nat → Option Nat
  top : Option Nat
  last : Option Nat
  element_a : mempool_t (element_t δ)

/-- `sizeof(element_t)` without the flexible payload (LP64). -/
def sizeof_element_t : Int := 24

/-- The element behind an element pointer. -/
def messageheader_t.elem {δ : Type} (msg : messageheader_t δ) (e : Nat) : element_t δ :=
  msg.element_a.deref e

/-- Store into the element behind an element pointer. -/
def messageheader_t.set_elem {δ : Type} (msg : messageheader_t δ) (e : Nat) (v : element_t δ) :
    messageheader_t δ :=
  { msg with element_a := msg.element_a.store e v }

/-- The hash index `key % msg->basenum` (the division is unsigned). -/
def bucket_index {δ : Type} (msg : messageheader_t δ) (key : Nat) : Nat :=
  key % (u64 msg.basenum).toNat

/-- Model of `message_create(basenum, datasize, initial_num)`. -/
def message_create {δ : Type} (dflt : δ) (basenum datasize initial_num : Int) (m : Option Nat) :
    Option (messageheader_t δ) :=
  match init_pool (⟨none, none, 0, dflt⟩ : element_t δ) (sizeof_element_t + datasize)
      initial_num m with
  | none => none
  | some pool =>
    some { basenum := basenum, datasize := datasize, element := fun _ => none,
           top := none, last := none, element_a := pool }

/-- The loop of `__message_find` from the element `elem` on. -/
def find_loop {δ : Type} (msg : messageheader_t δ) (key : Nat) :
    Nat → Option Nat → Option (Option Nat)
  | 0, _ => none
  | _ + 1, none => some none
  | fuel + 1, some elem =>
    if key = (msg.elem elem).key then some (some elem)
    else find_loop msg key fuel (msg.elem elem).hashnext

/-- Model of `__message_find`. -/
def __message_find {δ : Type} (fuel : Nat) (msg : messageheader_t δ) (key : Nat) :
    Option (Option Nat) :=
  find_loop msg key fuel (msg.element (bucket_index msg key))

/-- Model of `message_find`: the pointer to the payload of the element found. -/
def message_find {δ : Type} (fuel : Nat) (msg : messageheader_t δ) (key : Nat) :
    Option (Option Nat) :=
  __message_find fuel msg key

/-- The pending `pool_free(msg->element_a, delelem)` of `__message_del_hash`. -/
def free_delelem {δ : Type} (msg : messageheader_t δ) (delelem : Option Nat) :
    messageheader_t δ :=
  match delelem with
  | none => msg
  | some d => { msg with element_a := pool_free msg.element_a d }

/-- The loop of `__message_del_hash`; yields the queue and the value of `delelem`
when the loop ends. -/
def del_hash_loop {δ : Type} (key idx : Nat) :
    Nat → messageheader_t δ → Option Nat → Option Nat → Option Nat →
      Option (messageheader_t δ × Option Nat)
  | 0, _, _, _, _ => none
  | _ + 1, msg, _, delelem, none => some (msg, delelem)
  | fuel + 1, msg, prev, delelem, some elem =>
    let msg1 := free_delelem msg delelem
    if key = (msg1.elem elem).key then
      let msg2 :=
        match prev with
        | none => { msg1 with element := mem_write msg1.element idx (msg1.elem elem).hashnext }
        | some p => msg1.set_elem p { (msg1.elem p) with hashnext := (msg1.elem elem).hashnext }
      del_hash_loop key idx fuel msg2 prev (some elem) (msg2.elem elem).hashnext
    else del_hash_loop key idx fuel msg1 (some elem) none (msg1.elem elem).hashnext

/-- Model of `__message_del_hash`. -/
def __message_del_hash {δ : Type} (fuel : Nat) (msg : messageheader_t δ) (key : Nat) :
    Option (messageheader_t δ) :=
  let idx := bucket_index msg key
  match del_hash_loop key idx fuel msg none none (msg.element idx) with
  | none => none
  | some (msg1, delelem) => some (free_delelem msg1 delelem)

/-- The loop of `message_del` over the FIFO list; yields the queue and the value
of `prev` when the loop ends. -/
def del_loop {δ : Type} (key : Nat) :
    Nat → messageheader_t δ → Option Nat → Option Nat → Option (messageheader_t δ × Option Nat)
  | 0, _, _, _ => none
  | _ + 1, msg, prev, none => some (msg, prev)
  | fuel + 1, msg, prev, some elem =>
    if key = (msg.elem elem).key then
      let msg1 :=
        match prev with
        | none => { msg with top := (msg.elem elem).next }
        | some p => msg.set_elem p { (msg.elem p) with next := (msg.elem elem).next }
      del_loop key fuel msg1 prev (msg1.elem elem).next
    else del_loop key fuel msg (some elem) (msg.elem elem).next

/-- Model of `message_del`. -/
def message_del {δ : Type} (fuel : Nat) (msg : messageheader_t δ) (key : Nat) :
    Option (messageheader_t δ) :=
  match del_loop key fuel msg none msg.top with
  | none => none
  | some (msg1, prev) => __message_del_hash fuel { msg1 with last := prev } key

/-- Model of `message_add`: the queue afterwards and the pointer to the payload
of the new element (`none` when the pool gave no slot). -/
def message_add {δ : Type} (msg : messageheader_t δ) (key : Nat) (m : Option Nat) :
    messageheader_t δ × Option Nat :=
  match pool_alloc msg.element_a m with
  | (pool, none) => ({ msg with element_a := pool }, none)
  | (pool, some elem) =>
    let idx := bucket_index msg key
    let msg1 : messageheader_t δ :=
      { msg with
        element_a := pool.store elem
          { (pool.deref elem) with key := key, next := none, hashnext := msg.element idx },
        element := mem_write msg.element idx (some elem) }
    let msg2 : messageheader_t δ :=
      match msg1.last with
      | some l => msg1.set_elem l { (msg1.elem l) with next := some elem }
      | none => { msg1 with top := some elem }
    ({ msg2 with last := some elem }, some elem)

/-- Model of `message_get_one`. -/
def message_get_one {δ : Type} (msg : messageheader_t δ) : Option Nat := msg.top

/-- The loop of `message_delete_one` that unlinks `e` from its hash chain. -/
def delete_one_loop {δ : Type} (e idx : Nat) :
    Nat → messageheader_t δ → Option Nat → Option Nat → Option (messageheader_t δ)
  | 0, _, _, _ => none
  | _ + 1, msg, _, none => some msg
  | fuel + 1, msg, prev, some elem =>
    if e = elem then
      match prev with
      | none => some { msg with element := mem_write msg.element idx (msg.elem elem).hashnext }
      | some p => some (msg.set_elem p { (msg.elem p) with hashnext := (msg.elem elem).hashnext })
    else delete_one_loop e idx fuel msg (some elem) (msg.elem elem).hashnext

/-- Model of `message_delete_one`; the queue must not be empty (the C function
dereferences `msg->top`), on an empty queue the model yields `none`. -/
def message_delete_one {δ : Type} (fuel : Nat) (msg : messageheader_t δ) :
    Option (messageheader_t δ) :=
  match msg.top with
  | none => none
  | some e =>
    let msg1 := if msg.last = some e then { msg with last := none } else msg
    let msg2 := { msg1 with top := (msg1.elem e).next }
    let idx := bucket_index msg2 (msg2.elem e).key
    match delete_one_loop e idx fuel msg2 none (msg2.element idx) with
    | none => none
    | some msg3 => some { msg3 with element_a := pool_free msg3.element_a e }

/-- One call of a client of the queue. -/
inductive queue_op where
  | add (key : Nat) (m : Option Nat)
  | delete_one
  | del (key : Nat)

/-- The call applied to the queue; the second component is the pointer
`message_add` returns. -/
def queue_step {δ : Type} (fuel : Nat) (msg : messageheader_t δ) :
    queue_op → Option (messageheader_t δ × Option Nat)
  | queue_op.add key m => some (message_add msg key m)
  | queue_op.delete_one => (message_delete_one fuel msg).map (fun q => (q, none))
  | queue_op.del key => (message_del fuel msg key).map (fun q => (q, none))

/-- The FIFO of the specification: the entries appended and not yet removed,
oldest first, each with the key it was appended with.  An append that got no
slot (`r = none`) appends nothing. -/
def fifo_step (A : List (Nat × Nat)) (op : queue_op) (r : Option Nat) : List (Nat × Nat) :=
  match op, r with
  | queue_op.add key _, some p => A ++ [(p, key)]
  | queue_op.add _ _, none => A
  | queue_op.delete_one, _ => A.tail
  | queue_op.del key, _ => A.filter (fun x => decide (x.2 ≠ key))

/-- A sequence of calls, run on the queue and on the FIFO of the specification. -/
def queue_run {δ : Type} (fuel : Nat) :
    messageheader_t δ → List (Nat × Nat) → List queue_op →
      Option (messageheader_t δ × List (Nat × Nat))
  | msg, A, [] => some (msg, A)
  | msg, A, op :: ops =>
    match queue_step fuel msg op with
    | none => none
    | some (msg2, r) => queue_run fuel msg2 (fifo_step A op r) ops

/-- Every `message_delete_one` of the sequence meets a queue that is not empty
(`message_get_one` is not `NULL`). -/
def ops_valid {δ : Type} (fuel : Nat) : messageheader_t δ → List queue_op → Bool
  | _, [] => true
  | msg, op :: ops =>
    (match op with
      | queue_op.delete_one => (message_get_one msg).isSome
      | _ => true) &&
    (match queue_step fuel msg op with
      | none => true
      | some (msg2, _) => ops_valid fuel msg2 ops)

/-! ## Write queue of an endpoint (`netio.c`) -/

/-- `NIO_BUFFER_SIZE`, also `BUFFER_SIZE` and `RW_BUFFER_SIZE`. -/
def NIO_BUFFER_SIZE : Int := 65536

/-- `MESSAGE_HASH_SIZE`. -/
def MESSAGE_HASH_SIZE : Int := 103

/-- `_DEFAULT_CONNECTION_NUM` (release build). -/
def _DEFAULT_CONNECTION_NUM : Int := 200

/-- `_MAX_CONNECTION_NUM`. -/
def _MAX_CONNECTION_NUM : Int := 65536 * 4

/-- `_PUSH_BUFFER_NUM_PAR_LOOP` (release build). -/
def _PUSH_BUFFER_NUM_PAR_LOOP : Int := 128

/-- `write_buffer_t`: the connection, the byte array and the number of bytes in use. -/
structure write_buffer_t where
  conn : Option Nat
  buffer : List Nat
  buffer_len : Int
deriving DecidableEq, Repr

/-- `sizeof(write_buffer_t)` (LP64). -/
def sizeof_write_buffer_t : Int := 65552

/-- The write queue as `netio_init_tcp` creates it:
`message_create(MESSAGE_HASH_SIZE, sizeof(write_buffer_t), MAX(_DEFAULT_CONNECTION_NUM / 8, 16))`. -/
def wbuffer_create (m : Option Nat) : Option (messageheader_t write_buffer_t) :=
  message_create (⟨none, [], 0⟩ : write_buffer_t) MESSAGE_HASH_SIZE sizeof_write_buffer_t
    (max (_DEFAULT_CONNECTION_NUM / 8) 16) m

/-- The empty write queue of an endpoint whose slots were allocated at address
`4096`. -/
def wq0 : messageheader_t write_buffer_t :=
  (wbuffer_create (some 4096)).getD
    ⟨0, 0, fun _ => none, none, none, ⟨0, 0, 0, 0, 0, [], none, mem_init ⟨none, none, 0, ⟨none, [], 0⟩⟩⟩⟩

/-- The queue `wq0` after two `message_add` with the key `7000`. -/
def wq2 : messageheader_t write_buffer_t :=
  (message_add (message_add wq0 7000 none).1 7000 none).1

/-! ## TCP endpoint (`netio.c`)

The endpoint `tcp_t` owns the connection pool, the write queue and the pool of
receive chunks.  What the endpoint does to the outside world (system calls on
sockets, calls of user callbacks) is recorded, in order, in `log`.  A user
callback is taken not to call back into the library. -/

/-- `recv_buffer_t`: the byte array, the number of bytes in use and the link. -/
structure recv_buffer_t where
  data : List Nat
  len : Int
  next : Option Nat
deriving DecidableEq, Repr

/-- A parse callback: input bytes, `datalen` and the value of `*max_parsed_data`
on entry. -/
abbrev parse_callback := List Nat → Int → Int → ParseOut

/-- `connection_t`.  The close, receive and admission callbacks are named by a
number (`none` is `NULL`); the event registration and the back reference to the
endpoint are not represented. -/
structure connection_t where
  soc : Int
  close_func : Option Nat
  recv_func : Option Nat
  parse_func : Option parse_callback
  rcheck_func : Option Nat
  rbuffer : recv_buffer_t
  pair : Option Nat

/-- What the endpoint does to the outside world. -/
inductive event_t where
  | close_cb (conn : Nat) (code : Int)
  | recv_cb (conn : Nat) (data : List Nat) (len : Int)
  | sys_close (soc : Int)
  | event_del (conn : Nat)
  | sys_send (conn : Nat) (soc : Int) (data : List Nat)
  | parse_cb (conn : Nat) (datalen : Int) (ret : Int)
deriving DecidableEq, Repr

/-- `tcp_t` with the record of its outside effects. -/
structure tcp_t where
  connection_a : mempool_t connection_t
  wbuffer_m : messageheader_t write_buffer_t
  rbuffer_a : mempool_t recv_buffer_t
  log : List event_t

/-- The answer of one `send(2)`: `n` bytes accepted, a retryable error
(`EAGAIN`, `EWOULDBLOCK`, `EINTR`), or another error. -/
inductive send_result where
  | ok (n : Nat)
  | again
  | fail (errno : Int)
deriving DecidableEq, Repr

/-- `memcpy(dst, src, n)` on byte arrays: the first `n` bytes of `dst` become the
first `n` bytes of `src`. -/
def memcpy (dst src : List Nat) (n : Nat) : List Nat := src.take n ++ dst.drop n

/-- `send(c->soc, data, len, MSG_NOSIGNAL)` on the socket of connection `c`: the
endpoint afterwards, the return value and whether `errno` is retryable.  The
kernel accepts at most `len` bytes. -/
def sys_send (t : tcp_t) (c : Nat) (data : List Nat) (len : Int) (r : send_result) :
    tcp_t × Int × Bool :=
  match r with
  | send_result.ok n =>
    let k := min n len.toNat
    ({ t with log := t.log ++ [event_t.sys_send c (t.connection_a.deref c).soc (data.take k)] },
      (k : Int), false)
  | send_result.again => (t, -1, true)
  | send_result.fail _ => (t, -1, false)

/-- The loop of `netio_tcp_append_write_buffer`; `ms` holds the answers of
`malloc` for the calls of `message_add`, in order (no answer left counts as
`NULL`).  Every pass stores at least one byte, so `n` passes suffice for `n`
bytes. -/
def append_loop : Nat → tcp_t → Nat → List Nat → Int → Int → List (Option Nat) → tcp_t × Int
  | 0, t, _, _, _, _, _ => (t, 1)
  | n + 1, t, c, data, storedlen, len, ms =>
    if len > 0 then
      let datalen := min len NIO_BUFFER_SIZE
      match message_add t.wbuffer_m c ms.head?.join with
      | (q, none) => ({ t with wbuffer_m := q }, 0)
      | (q, some wb) =>
        let w : write_buffer_t :=
          { conn := some c,
            buffer := memcpy (q.elem wb).data.buffer (data.drop storedlen.toNat) datalen.toNat,
            buffer_len := datalen }
        append_loop n { t with wbuffer_m := q.set_elem wb { (q.elem wb) with data := w } }
          c data (storedlen + datalen) (len - datalen) ms.tail
    else (t, 1)

/-- Model of `netio_tcp_append_write_buffer(tcp, c, data, len)`. -/
def netio_tcp_append_write_buffer (t : tcp_t) (c : Nat) (data : List Nat) (len : Int)
    (ms : List (Option Nat)) : tcp_t × Int :=
  append_loop len.toNat t c data 0 len ms

/-- Model of `netio_tcp_delete_write_buffer`. -/
def netio_tcp_delete_write_buffer (fuel : Nat) (t : tcp_t) (c : Nat) : Option tcp_t :=
  (message_del fuel t.wbuffer_m c).map (fun q => { t with wbuffer_m := q })

/-- The loop of `netio_tcp_push_write_buffer`; `rs` holds the answers of the
`send(2)` calls, in order (no answer left counts as a retryable error). -/
def push_loop (fuel : Nat) : Nat → tcp_t → Int → List send_result → Option (tcp_t × Int)
  | 0, t, result, _ => some (t, result)
  | n + 1, t, result, rs =>
    match message_get_one t.wbuffer_m with
    | none => some (t, result)
    | some wb =>
      let w := (t.wbuffer_m.elem wb).data
      match w.conn with
      | none => none
      | some c =>
        match sys_send t c w.buffer w.buffer_len (rs.head?.getD send_result.again) with
        | (t1, k, _) =>
          if k < 0 then some (t1, result)
          else if k < w.buffer_len then
            let w2 : write_buffer_t :=
              { w with buffer_len := w.buffer_len - k,
                       buffer := memcpy w.buffer (w.buffer.drop k.toNat)
                         (w.buffer_len - k).toNat }
            some ({ t1 with wbuffer_m :=
                      t1.wbuffer_m.set_elem wb { (t1.wbuffer_m.elem wb) with data := w2 } },
                  result + 1)
          else
            match message_delete_one fuel t1.wbuffer_m with
            | none => none
            | some q => push_loop fuel n { t1 with wbuffer_m := q } (result + 1) rs.tail

/-- Model of `netio_tcp_push_write_buffer(t, count)`. -/
def netio_tcp_push_write_buffer (fuel : Nat) (t : tcp_t) (count : Int)
    (rs : List send_result) : Option (tcp_t × Int) :=
  push_loop fuel count.toNat t 0 rs

/-- Model of `netio_sender(ncon, data, datalen)`; `r` is the answer of the
`send(2)` it may attempt. -/
def netio_sender (fuel : Nat) (t : tcp_t) (ncon : Option Nat) (data : List Nat) (datalen : Int)
    (r : send_result) (ms : List (Option Nat)) : Option (tcp_t × Int) :=
  match ncon with
  | none => some (t, -2)
  | some c =>
    match message_find fuel t.wbuffer_m c with
    | none => none
    | some (some _) =>
      match netio_tcp_append_write_buffer t c data datalen ms with
      | (t1, ret) => if ret = 0 then some (t1, -1) else some (t1, datalen)
    | some none =>
      match sys_send t c data datalen r with
      | (t1, k, retry) =>
        if k < 0 ∧ retry = false then some (t1, k)
        else
          let n := if k < 0 then 0 else k
          if n < datalen then
            match netio_tcp_append_write_buffer t1 c (data.drop n.toNat) (datalen - n) ms with
            | (t2, ret) => if ret = 0 then some (t2, -1) else some (t2, n)
          else some (t1, n)

/-- A step of the send path of an endpoint: a call of `netio_sender` on the
connection `c`, or a firing of the flush timer. -/
inductive tcp_op where
  | sender (c : Nat) (data : List Nat) (r : send_result) (ms : List (Option Nat))
  | tick (rs : List send_result)

/-- The step applied to the endpoint, with the value returned by `netio_sender`
or by `netio_tcp_push_write_buffer`.  The timer callback drains with
`_PUSH_BUFFER_NUM_PAR_LOOP`. -/
def tcp_step (fuel : Nat) (t : tcp_t) : tcp_op → Option (tcp_t × Int)
  | tcp_op.sender c data r ms => netio_sender fuel t (some c) data data.length r ms
  | tcp_op.tick rs => netio_tcp_push_write_buffer fuel t _PUSH_BUFFER_NUM_PAR_LOOP rs

/-- A sequence of steps; the list holds the values returned by the calls of
`netio_sender`, in order. -/
def tcp_run (fuel : Nat) : tcp_t → List tcp_op → Option (tcp_t × List Int)
  | t, [] => some (t, [])
  | t, op :: ops =>
    match tcp_step fuel t op with
    | none => none
    | some (t1, ret) =>
      match tcp_run fuel t1 ops with
      | none => none
      | some (t2, rets) =>
        some (t2, (match op with
                    | tcp_op.sender _ _ _ _ => [ret]
                    | tcp_op.tick _ => []) ++ rets)

/-- The bytes handed to the socket of connection `c` so far, in order. -/
def sent_bytes (log : List event_t) (c : Nat) : List Nat :=
  log.flatMap (fun ev =>
    match ev with
    | event_t.sys_send c2 _ d => if c2 = c then d else []
    | _ => [])

/-- The bytes a write-queue entry holds. -/
def entry_bytes (q : messageheader_t write_buffer_t) (e : Nat) : List Nat :=
  (q.elem e).data.buffer.take (q.elem e).data.buffer_len.toNat

/-- The bytes the write-queue entries of connection `c` hold, in queue order;
`F` is the FIFO list of the queue. -/
def queued_bytes (q : messageheader_t write_buffer_t) (F : List Nat) (c : Nat) : List Nat :=
  (F.filter (fun e => decide ((q.elem e).key = c))).flatMap (entry_bytes q)

/-- The data of the `netio_sender` calls on connection `c`, in call order. -/
def sender_data (ops : List tcp_op) (c : Nat) : List Nat :=
  ops.flatMap (fun op =>
    match op with
    | tcp_op.sender c2 d _ _ => if c2 = c then d else []
    | tcp_op.tick _ => [])

/-- The number of bytes the `netio_sender` calls of a sequence pass. -/
def sender_len (ops : List tcp_op) : Nat :=
  (ops.map (fun op =>
    match op with
    | tcp_op.sender _ d _ _ => d.length
    | tcp_op.tick _ => 0)).sum

/-! ## Line framers (`netio.c`, "parser" section) -/

/-- The loop of `netio_parse_text`: `k` bytes are left to read, `i` is the loop
index, `pdata` the input from position `i` on, `out` the bytes stored so far in
`parsed_data` (positions `0` to `i - 1`).  A byte is stored before the capacity
is tested. -/
def parse_text_loop (max_parsed_len : Int) : Nat → Int → List Nat → List Nat → ParseOut
  | 0, _, _, out => ⟨0, 0, out⟩
  | k + 1, i, pdata, out =>
    if pdata.headD 0 = 10 ∨ pdata.headD 0 = 0 then ⟨i + 1, i + 1, out ++ [0]⟩
    else
      let out1 := out ++ [if pdata.headD 0 = 13 then 0 else pdata.headD 0]
      if i > max_parsed_len then ⟨-1, -1, out1⟩
      else parse_text_loop max_parsed_len k (i + 1) pdata.tail out1

/-- Model of `netio_parse_text(data, datalen, parsed_data, parsed_data_len)`; the
third argument is the value of `*parsed_data_len` on entry.  `parsed_data` of the
result holds every byte the call stored, whatever it returns. -/
def netio_parse_text (data : List Nat) (datalen : Int) (parsed_data_len : Int) : ParseOut :=
  parse_text_loop parsed_data_len datalen.toNat 0 data []

/-- Model of `netio_pack_text(data, datalen, pack_data, max_pack_data)`: the
return value and the contents of `pack_data` afterwards, `pack_data` being its
contents before the call. -/
def netio_pack_text (data : List Nat) (datalen : Int) (pack_data : List Nat)
    (max_pack_data : Int) : Int × List Nat :=
  if max_pack_data > i32 (datalen + 1) then (-1, pack_data)
  else
    let out := memcpy pack_data data datalen.toNat
    if out.getD datalen.toNat 0 ≠ 10 ∧ out.getD datalen.toNat 0 ≠ 0 then
      (i32 (datalen + 1), out.set datalen.toNat 10)
    else (datalen, out)

/-! ## Endpoint set-up and teardown (`netio.c`) -/

/-- `sizeof(connection_t)` without the connection buffer: LP64, with the 128-byte
`struct event` of libevent 2. -/
def sizeof_connection_t : Int := 65736

/-- `sizeof(recv_buffer_t)`. -/
def sizeof_recv_buffer_t : Int := 65552

/-- The contents of a receive chunk that was never written. -/
def recv_buffer_init : recv_buffer_t := ⟨[], 0, none⟩

/-- The contents of a connection slot that was never written. -/
def connection_init : connection_t := ⟨0, none, none, none, none, recv_buffer_init, none⟩

/-- Model of `netio_init_tcp(tcpbuffsize, conbuffsize)`; `m1`, `m2`, `m3` are the
answers of `malloc` for the slots of the three pools.  The slot size reaches
`init_pool_with_max` as an `int`. -/
def netio_init_tcp (conbuffsize : Int) (m1 m2 m3 : Option Nat) : Option tcp_t :=
  match init_pool_with_max connection_init (i32 (u64 (sizeof_connection_t + u32 conbuffsize)))
      _DEFAULT_CONNECTION_NUM _MAX_CONNECTION_NUM m1 with
  | none => none
  | some ca =>
    match wbuffer_create m2 with
    | none => none
    | some wm =>
      match init_pool_with_max recv_buffer_init sizeof_recv_buffer_t 4 _MAX_CONNECTION_NUM m3 with
      | none => none
      | some ra => some { connection_a := ca, wbuffer_m := wm, rbuffer_a := ra, log := [] }

/-- The part of `__accept_event_callback` that follows `accept(2)`: `soc` is the
accepted socket, the three callbacks are those of the listening connection, no
accept callback is installed, and `m` is the answer of `malloc` should the pool
grow.  Returns the endpoint and the new connection. -/
def __accept_event_callback (t : tcp_t) (soc : Int) (recv_func close_func : Option Nat)
    (parse_func : Option parse_callback) (m : Option Nat) : tcp_t × Option Nat :=
  match pool_alloc t.connection_a m with
  | (ca, none) => ({ t with connection_a := ca, log := t.log ++ [event_t.sys_close soc] }, none)
  | (ca, some c) =>
    let old := ca.deref c
    let conn : connection_t :=
      { old with soc := soc, recv_func := recv_func, close_func := close_func,
                 parse_func := parse_func, rcheck_func := none,
                 rbuffer := { old.rbuffer with len := 0, next := none }, pair := none }
    ({ t with connection_a := ca.store c conn }, some c)

/-- A pointer to a `recv_buffer_t`: the chunk embedded in the connection `conn`,
or a chunk of the pool `rbuffer_a`. -/
inductive rbref where
  | head (conn : Nat)
  | node (p : Nat)
deriving DecidableEq, Repr

/-- Reading through a chunk pointer. -/
def get_rb (t : tcp_t) : rbref → recv_buffer_t
  | rbref.head c => (t.connection_a.deref c).rbuffer
  | rbref.node p => t.rbuffer_a.deref p

/-- Writing through a chunk pointer. -/
def set_rb (t : tcp_t) (r : rbref) (v : recv_buffer_t) : tcp_t :=
  match r with
  | rbref.head c =>
    { t with connection_a := t.connection_a.store c { (t.connection_a.deref c) with rbuffer := v } }
  | rbref.node p => { t with rbuffer_a := t.rbuffer_a.store p v }

/-- The loop of `__get_receive_buffer_len` over the chunks that follow the
embedded one; the sum is an `int`. -/
def rb_len_loop (pool : mempool_t recv_buffer_t) : Nat → Option Nat → Int → Option Int
  | 0, _, _ => none
  | _ + 1, none, len => some len
  | fuel + 1, some p, len =>
    rb_len_loop pool fuel (pool.deref p).next (i32 (len + (pool.deref p).len))

/-- Model of `__get_receive_buffer_len(conn)`. -/
def __get_receive_buffer_len (fuel : Nat) (t : tcp_t) (c : Nat) : Option Int :=
  rb_len_loop t.rbuffer_a fuel (t.connection_a.deref c).rbuffer.next
    (i32 (t.connection_a.deref c).rbuffer.len)

/-- The loop of `__purge_recv_buffer`. -/
def purge_loop : Nat → mempool_t recv_buffer_t → Option Nat → Option (mempool_t recv_buffer_t)
  | 0, _, _ => none
  | _ + 1, pool, none => some pool
  | fuel + 1, pool, some d =>
    let trb := (pool.deref d).next
    purge_loop fuel (pool_free (pool.store d { (pool.deref d) with len := 0, next := none }) d) trb

/-- Model of `__purge_recv_buffer(tcp, rb)`. -/
def __purge_recv_buffer (fuel : Nat) (t : tcp_t) (rb : Option rbref) : Option tcp_t :=
  match rb with
  | none => some t
  | some r =>
    match purge_loop fuel t.rbuffer_a (get_rb t r).next with
    | none => none
    | some pool =>
      some (set_rb { t with rbuffer_a := pool } r
        { (get_rb { t with rbuffer_a := pool } r) with next := none })

/-- The macro `CONN_CLEAR(conn)`. -/
def CONN_CLEAR (fuel : Nat) (t : tcp_t) (c : Nat) : Option tcp_t :=
  let t1 : tcp_t :=
    { t with log := t.log ++ [event_t.sys_close (t.connection_a.deref c).soc, event_t.event_del c] }
  match netio_tcp_delete_write_buffer fuel t1 c with
  | none => none
  | some t2 =>
    match __purge_recv_buffer fuel t2 (some (rbref.head c)) with
    | none => none
    | some t3 =>
      let t4 := set_rb t3 (rbref.head c) { (get_rb t3 (rbref.head c)) with len := 0 }
      some { t4 with connection_a := pool_free t4.connection_a c }

/-- The call `c->close_func(c, code)` when a close callback is installed. -/
def call_close_func (t : tcp_t) (c : Nat) (code : Int) : tcp_t :=
  match (t.connection_a.deref c).close_func with
  | none => t
  | some _ => { t with log := t.log ++ [event_t.close_cb c code] }

/-- Model of `netio_connection_close(ncon)`. -/
def netio_connection_close (fuel : Nat) (t : tcp_t) (ncon : Option Nat) : Option (tcp_t × Int) :=
  match ncon with
  | none => some (t, 0)
  | some c => (CONN_CLEAR fuel (call_close_func t c (-3)) c).map (fun t1 => (t1, 1))

/-- The loop of `netio_release_server` and of `netio_release_client` over the
connections in use; `n` bounds the number of passes. -/
def release_loop (fuel : Nat) : Nat → tcp_t → Option Nat → Option tcp_t
  | 0, _, _ => none
  | _ + 1, t, none => some t
  | n + 1, t, some c =>
    match CONN_CLEAR fuel (call_close_func t c (-1)) c with
    | none => none
    | some t1 => release_loop fuel n t1 (get_element_next t1.connection_a c)

/-- Model of `netio_release_server(s)` up to the end of the loop over the
connections; what follows returns the memory of the endpoint to the system. -/
def netio_release_server (fuel : Nat) (t : tcp_t) : Option tcp_t :=
  release_loop fuel fuel t (get_element_first t.connection_a)

/-- Model of `netio_release_client(tcp)`, which runs the same loop. -/
def netio_release_client (fuel : Nat) (t : tcp_t) : Option tcp_t :=
  release_loop fuel fuel t (get_element_first t.connection_a)

/-- The connections whose close callback was called with `code`, in call order. -/
def closed_with (log : List event_t) (code : Int) : List Nat :=
  log.filterMap (fun ev =>
    match ev with
    | event_t.close_cb c k => if k = code then some c else none
    | _ => none)

/-! ## Receive chain (`netio.c`) -/

/-- How a call that may dereference `NULL` ends. -/
inductive outcome (σ : Type) where
  | done (s : σ)
  | null_deref

/-- The bytes a chunk holds: the first `len` bytes of its array. -/
def rb_bytes (b : recv_buffer_t) : List Nat := b.data.take b.len.toNat

/-- `MIN(sizeof(rb->data), last_len)` stored in an `int`: the comparison is made
in `size_t`. -/
def cplen_of (last_len : Int) : Int :=
  i32 (if (65536 : Int) < u64 last_len then 65536 else u64 last_len)

/-- The statements `memcpy(rb->data, pdata, cplen); rb->len = cplen;` of
`__stack_recv_buffer`, `cplen` being `MIN(sizeof(rb->data), last_len)`. -/
def copy_chunk (t : tcp_t) (rb : rbref) (pdata : List Nat) (last_len : Int) : tcp_t :=
  set_rb t rb
    { (get_rb t rb) with
      data := memcpy (get_rb t rb).data pdata (cplen_of last_len).toNat,
      len := cplen_of last_len }

/-- The statements `rb->next = p; rb->next->len = 0; rb->next->next = NULL;` of
`__stack_recv_buffer`, `p` being the chunk `pool_alloc` returned. -/
def link_chunk (t : tcp_t) (rb : rbref) (p : Nat) : tcp_t :=
  let t1 := set_rb t rb { (get_rb t rb) with next := some p }
  set_rb t1 (rbref.node p) { (get_rb t1 (rbref.node p)) with len := 0, next := none }

/-- The `while` loop of `__stack_recv_buffer`.  `ms` holds the answers of
`malloc` for the calls of `pool_alloc`, in order.  Every pass stores at least one
byte, so `n` passes suffice for `n` bytes.  When `pool_alloc` returns `NULL` the
test `rb == NULL` does not fire and `rb->next->len = 0` dereferences `NULL`; when
`rb->next` is set, `rb` is not advanced. -/
def stack_loop : Nat → tcp_t → rbref → List Nat → Int → List (Option Nat) →
    outcome (tcp_t × rbref)
  | 0, t, rb, _, _, _ => outcome.done (t, rb)
  | n + 1, t, rb, pdata, last_len, ms =>
    if last_len > 0 then
      if (get_rb t rb).next = none then
        match pool_alloc t.rbuffer_a ms.head?.join with
        | (_, none) => outcome.null_deref
        | (ra, some p) =>
          stack_loop n
            (copy_chunk (link_chunk { t with rbuffer_a := ra } rb p) (rbref.node p) pdata last_len)
            (rbref.node p) (pdata.drop (cplen_of last_len).toNat)
            (last_len - cplen_of last_len) ms.tail
      else
        stack_loop n (copy_chunk t rb pdata last_len) rb (pdata.drop (cplen_of last_len).toNat)
          (last_len - cplen_of last_len) ms
    else outcome.done (t, rb)

/-- Model of `__stack_recv_buffer(conn, data, len)`: the endpoint afterwards and
the value returned.  `none` is the model running out of fuel. -/
def __stack_recv_buffer (fuel : Nat) (t : tcp_t) (c : Nat) (data : List Nat) (len : Int)
    (ms : List (Option Nat)) : Option (outcome (tcp_t × Int)) :=
  if len = 0 then
    let t1 := set_rb t (rbref.head c) { (get_rb t (rbref.head c)) with len := 0 }
    (__purge_recv_buffer fuel t1 (some (rbref.head c))).map (fun t2 => outcome.done (t2, 1))
  else
    match stack_loop (len - cplen_of len).toNat (copy_chunk t (rbref.head c) data len)
        (rbref.head c) (data.drop (cplen_of len).toNat) (len - cplen_of len) ms with
    | outcome.null_deref => some outcome.null_deref
    | outcome.done (t2, rb) =>
      (__purge_recv_buffer fuel t2 (some rb)).map (fun t3 => outcome.done (t3, 1))

/-- The loop of `__parse_receive` that copies the chunks after the embedded one
into the work buffer. -/
def gather_loop (pool : mempool_t recv_buffer_t) : Nat → Option Nat → List Nat →
    Option (List Nat)
  | 0, _, _ => none
  | _ + 1, none, acc => some acc
  | fuel + 1, some p, acc =>
    gather_loop pool fuel (pool.deref p).next (acc ++ rb_bytes (pool.deref p))

/-- The bytes the receive chain of the connection `c` holds, read as
`__parse_receive` reads them. -/
def chain_data (fuel : Nat) (t : tcp_t) (c : Nat) : Option (List Nat) :=
  gather_loop t.rbuffer_a fuel (t.connection_a.deref c).rbuffer.next
    (rb_bytes (t.connection_a.deref c).rbuffer)

/-- The call of the receive callback in the parse loop of `__parse_receive`. -/
def call_recv_func (t : tcp_t) (c : Nat) (out : ParseOut) : tcp_t :=
  match (t.connection_a.deref c).recv_func with
  | none => t
  | some _ => { t with log := t.log ++ [event_t.recv_cb c out.parsed_data out.parsed_data_len] }

/-- The parse loop of `__parse_receive`: the endpoint, the rest of the work
buffer, `n_data`, and the negative value of the parse callback if it returned
one.  Every pass that goes on consumes at least one byte. -/
def parse_loop (pf : parse_callback) (c : Nat) (cap : Int) :
    Nat → tcp_t → List Nat → Int → tcp_t × List Nat × Int × Option Int
  | 0, t, pdata, n_data => (t, pdata, n_data, none)
  | k + 1, t, pdata, n_data =>
    if n_data > 0 then
      let out := pf pdata n_data cap
      let t1 : tcp_t := { t with log := t.log ++ [event_t.parse_cb c n_data out.ret] }
      if out.ret < 0 then (t1, pdata, n_data, some out.ret)
      else if out.ret = 0 then (t1, pdata, n_data, none)
      else
        parse_loop pf c cap k (call_recv_func t1 c out) (pdata.drop out.ret.toNat)
          (i32 (n_data - out.ret))
    else (t, pdata, n_data, none)

/-- The part of `__parse_receive` from the parse loop on: `t1` is the endpoint
when the work buffer `pdata` of `n_data` bytes is ready, `cap` is
`databuffer_len`. -/
def parse_tail (fuel : Nat) (pf : parse_callback) (c : Nat) (cap : Int) (t1 : tcp_t)
    (pdata : List Nat) (n_data : Int) (ms : List (Option Nat)) :
    Option (outcome (tcp_t × Int)) :=
  match parse_loop pf c cap n_data.toNat t1 pdata n_data with
  | (t2, _, _, some read_len) => some (outcome.done (t2, read_len))
  | (t2, pdata2, n_data2, none) =>
    if n_data2 > 0 then
      match __stack_recv_buffer fuel t2 c pdata2 n_data2 ms with
      | none => none
      | some outcome.null_deref => some outcome.null_deref
      | some (outcome.done (t3, ok)) =>
        if ok = 0 then some (outcome.done (t3, -2)) else some (outcome.done (t3, n_data2))
    else some (outcome.done (t2, n_data2))

/-- Model of `__parse_receive(conn, data, len)`.  The two work buffers are taken
to be allocated (the code stops at `assert(0)` otherwise). -/
def __parse_receive (fuel : Nat) (t : tcp_t) (c : Nat) (data : List Nat) (len : Int)
    (ms : List (Option Nat)) : Option (outcome (tcp_t × Int)) :=
  match (t.connection_a.deref c).parse_func with
  | none => some (outcome.done (t, -1))
  | some pf =>
    match __get_receive_buffer_len fuel t c with
    | none => none
    | some erb_len =>
      let databuffer_len := i32 (i32 (len + erb_len) + 1)
      if erb_len > 0 then
        match chain_data fuel t c with
        | none => none
        | some stored =>
          match __purge_recv_buffer fuel t (some (rbref.head c)) with
          | none => none
          | some t1 =>
            parse_tail fuel pf c databuffer_len
              (set_rb t1 (rbref.head c) { (get_rb t1 (rbref.head c)) with len := 0 })
              (stored ++ data.take len.toNat) (i32 (len + erb_len)) ms
      else parse_tail fuel pf c databuffer_len t data len ms

/-- The chunks of a receive sequence handed to `__parse_receive` one after the
other, each with the answers of `malloc` for its call; the list holds the values
returned. -/
def recv_run (fuel : Nat) (c : Nat) :
    tcp_t → List (List Nat × List (Option Nat)) → Option (outcome (tcp_t × List Int))
  | t, [] => some (outcome.done (t, []))
  | t, (data, ms) :: rest =>
    match __parse_receive fuel t c data data.length ms with
    | none => none
    | some outcome.null_deref => some outcome.null_deref
    | some (outcome.done (t1, r)) =>
      match recv_run fuel c t1 rest with
      | none => none
      | some outcome.null_deref => some outcome.null_deref
      | some (outcome.done (t2, rs)) => some (outcome.done (t2, r :: rs))

/-- The number of bytes the parse callback of `c` consumed: the sum of the
positive values it returned. -/
def consumed (log : List event_t) (c : Nat) : Int :=
  (log.map (fun ev =>
    match ev with
    | event_t.parse_cb c2 _ ret => if c2 = c ∧ 0 < ret then ret else 0
    | _ => 0)).sum

/-- The calls of the receive callback of `c`, in order: the message and its
length. -/
def delivered (log : List event_t) (c : Nat) : List (List Nat × Int) :=
  log.filterMap (fun ev =>
    match ev with
    | event_t.recv_cb c2 d n => if c2 = c then some (d, n) else none
    | _ => none)

/-! ## Concrete endpoints -/

/-- The endpoint `netio_init_tcp(0, 0)` returns when `malloc` places the
connection slots at `16777216`, the write-queue slots at `4096` and the receive
chunks at `33554432`. -/
def tcp0 : tcp_t :=
  (netio_init_tcp 0 (some 16777216) (some 4096) (some 33554432)).getD
    { connection_a := ⟨0, 0, 0, 0, 0, [], none, mem_init connection_init⟩,
      wbuffer_m := wq0,
      rbuffer_a := ⟨0, 0, 0, 0, 0, [], none, mem_init recv_buffer_init⟩,
      log := [] }

/-- The endpoint `tcp0` after accepting `n` connections on the sockets `5`, `6`,
and so on, the listening connection having the close callback `1`, the receive
callback `2` and the parse callback `pf`. -/
def tcp_accept (pf : Option parse_callback) : Nat → tcp_t
  | 0 => tcp0
  | n + 1 => (__accept_event_callback (tcp_accept pf n) (5 + n) (some 2) (some 1) pf none).1

/-- The first connection slot of `tcp0`. -/
def conn1 : Nat := 16777232

/-- Two calls of `netio_sender` on `conn1` with a drain tick after each; the
sockets accept one byte, one byte, then everything. -/
def ops1 : List tcp_op :=
  [tcp_op.sender conn1 [1, 2, 3] (send_result.ok 1) [],
   tcp_op.tick [send_result.ok 1],
   tcp_op.sender conn1 [4, 5] (send_result.ok 2) [],
   tcp_op.tick [send_result.ok 5]]

/-- The endpoint `netio_init_tcp(0, 16777216)` returns (16 MiB of connection
buffer for every connection) when `malloc` places the connection slots at
`8589934592`. -/
def tcp_big : tcp_t :=
  (netio_init_tcp 16777216 (some 8589934592) (some 4096) (some 33554432)).getD
    { connection_a := ⟨0, 0, 0, 0, 0, [], none, mem_init connection_init⟩,
      wbuffer_m := wq0,
      rbuffer_a := ⟨0, 0, 0, 0, 0, [], none, mem_init recv_buffer_init⟩,
      log := [] }

/-- The endpoint `tcp_big` after accepting `n` connections, the listening
connection having the close callback `1` and the receive callback `2`. -/
def tcp_big_accept : Nat → tcp_t
  | 0 => tcp_big
  | n + 1 => (__accept_event_callback (tcp_big_accept n) (5 + n) (some 2) (some 1) none none).1

/-- The second connection slot of `tcp0`. -/
def conn2 : Nat := 16842984

/-- Three calls of `netio_sender`, on `conn1`, `conn2` and `conn1`, whose
`send(2)` reports a retryable error, so that the data is queued. -/
def ops2 : List tcp_op :=
  [tcp_op.sender conn1 [1, 2] send_result.again [],
   tcp_op.sender conn2 [3] send_result.again [],
   tcp_op.sender conn1 [4] send_result.again []]

/-- The endpoint with two connections after the calls `ops2`: the write queue
holds the entries `4112` and `135296` of `conn1` and the entry `69704` of
`conn2`. -/
def tcp_w : tcp_t := ((tcp_run 10 (tcp_accept none 2) ops2).map Prod.fst).getD tcp0

/-- The frame `[00 07] "abcdefg"` received in two parts, `[00 07] "abcde"` and
`"fg"`. -/
def chunks1 : List (List Nat × List (Option Nat)) :=
  [([0, 7, 97, 98, 99, 100, 101], []), ([102, 103], [])]

/-! ## Representation invariants -/

/-- `Chain nxt p l`: following the link `nxt` from the pointer `p` visits exactly
the addresses of `l`, in this order, and then reaches `NULL`. -/
def Chain (nxt : Nat → Option Nat) : Option Nat → List Nat → Prop
  | p, [] => p = none
  | p, a :: l => p = some a ∧ Chain nxt (nxt a) l

/-- `Seg nxt p l q`: following the link `nxt` from the pointer `p` visits exactly
the addresses of `l`, in this order, and then reaches the pointer `q`. -/
def Seg (nxt : Nat → Option Nat) : Option Nat → List Nat → Option Nat → Prop
  | p, [], q => p = q
  | p, a :: l, q => p = some a ∧ Seg nxt (nxt a) l q

/-- The addresses of the slot headers of a block, in increasing order. -/
def block_slots (size : Int) (b : memblock_t) : List Nat :=
  (List.range b.num.toNat).map (fun j => b.element + j * elem_stride size)

/-- The addresses of the slot headers of a pool, block after block. -/
def pool_slots {α : Type} (mp : mempool_t α) : List Nat :=
  mp.block.flatMap (block_slots mp.size)

/-- Two blocks do not overlap. -/
def blocks_apart (size : Int) (b1 b2 : memblock_t) : Prop :=
  b1.element + block_bytes size b1 ≤ b2.element ∨ b2.element + block_bytes size b2 ≤ b1.element

/-- Well-formed pool with free list `L`: the blocks are apart, and the free list
is a chain of distinct slots of the pool whose in-use flag is clear. -/
structure PoolInv {α : Type} (mp : mempool_t α) (L : List Nat) : Prop where
  size_pos : 0 < mp.size
  apart : mp.block.Pairwise (blocks_apart mp.size)
  free_chain : Chain (fun a => (mp.mem a).next) mp.not_use L
  free_nodup : L.Nodup
  free_slot : ∀ a ∈ L, a ∈ pool_slots mp
  free_flag : ∀ a ∈ L, (mp.mem a).in_use = 0

/-- `p` is the user pointer of a slot of the pool. -/
def IsUser {α : Type} (mp : mempool_t α) (p : Nat) : Prop :=
  ∃ a ∈ pool_slots mp, p = a + sizeof_memelement_t

/-- Well-formed queue holding the elements `F`, oldest first: the elements are
distinct slots in use, the `next` links from `top` spell `F`, `last` is the last
element of `F`, and the hash chain of every index holds the elements of `F` with
that index, newest first. -/
structure QInv {δ : Type} (msg : messageheader_t δ) (F : List Nat) : Prop where
  pool : ∃ L, PoolInv msg.element_a L
  base_pos : 0 < msg.basenum
  user : ∀ e ∈ F, IsUser msg.element_a e
  used : ∀ e ∈ F, (msg.element_a.mem (e - sizeof_memelement_t)).in_use ≠ 0
  nodup : F.Nodup
  fifo : Chain (fun e => (msg.elem e).next) msg.top F
  last_eq : msg.last = F.getLast?
  hash : ∀ i, Chain (fun e => (msg.elem e).hashnext) (msg.element i)
    ((F.filter (fun e => decide (bucket_index msg (msg.elem e).key = i))).reverse)

/-- The second half of `pool_alloc`: taking the head of the free list. -/
def pool_take {α : Type} (mpool : mempool_t α) : mempool_t α × Option Nat :=
  match mpool.not_use with
  | none => (mpool, none)
  | some e =>
    let el := mpool.mem e
    ({ mpool with
        not_use := el.next,
        mem := mem_write mpool.mem e { el with in_use := 1, next := none },
        use_num := mpool.use_num + 1 },
     some (e + sizeof_memelement_t))

/-- What `pool_alloc` guarantees on a well-formed pool `mp`: `mp2` is the pool
afterwards and `r` the pointer returned. -/
structure AllocPost {α : Type} (mp mp2 : mempool_t α) (r : Option Nat) : Prop where
  inv : ∃ L, PoolInv mp2 L
  size_eq : mp2.size = mp.size
  deref_eq : ∀ q, mp2.deref q = mp.deref q
  slots_mono : ∀ a ∈ pool_slots mp, a ∈ pool_slots mp2
  flag_eq : ∀ a ∈ pool_slots mp, r ≠ some (a + sizeof_memelement_t) →
    (mp2.mem a).in_use = (mp.mem a).in_use
  user : ∀ p, r = some p → IsUser mp2 p
  flag_new : ∀ p, r = some p → (mp2.mem (p - sizeof_memelement_t)).in_use = 1
  fresh : ∀ a ∈ pool_slots mp, r = some (a + sizeof_memelement_t) → (mp.mem a).in_use = 0
  use_num_eq : ∀ p, r = some p → mp2.use_num = mp.use_num + 1
  fail : r = none → mp2 = mp

/-- Taking the element `e` out of the hash chain of index `idx`, `pred` being the
element before it in the chain (`none` when `e` is the head of the chain). -/
def unlink_hash {δ : Type} (msg : messageheader_t δ) (idx : Nat) (pred : Option Nat) (e : Nat) :
    messageheader_t δ :=
  match pred with
  | none => { msg with element := mem_write msg.element idx (msg.elem e).hashnext }
  | some p => msg.set_elem p { (msg.elem p) with hashnext := (msg.elem e).hashnext }

/-- What the FIFO loop of `message_del` leaves alone: everything but `top`, `last`
and the `next` links of the elements. -/
structure FifoFrame {δ : Type} (msg msg2 : messageheader_t δ) : Prop where
  basenum_eq : msg2.basenum = msg.basenum
  element_eq : msg2.element = msg.element
  size_eq : msg2.element_a.size = msg.element_a.size
  block_eq : msg2.element_a.block = msg.element_a.block
  not_use_eq : msg2.element_a.not_use = msg.element_a.not_use
  use_num_eq : msg2.element_a.use_num = msg.element_a.use_num
  flag_eq : ∀ a, (msg2.element_a.mem a).in_use = (msg.element_a.mem a).in_use
  link_eq : ∀ a, (msg2.element_a.mem a).next = (msg.element_a.mem a).next
  key_eq : ∀ q, (msg2.elem q).key = (msg.elem q).key
  data_eq : ∀ q, (msg2.elem q).data = (msg.elem q).data
  hashnext_eq : ∀ q, (msg2.elem q).hashnext = (msg.elem q).hashnext

/-- What the hash loop of `message_del` leaves alone.  `idx` is the index of the
chain it works on, `T` holds the elements whose `hashnext` link may have been
written and `R` the elements that were handed to `pool_free`. -/
structure HashFrame {δ : Type} (idx : Nat) (T R : List Nat) (msg msg2 : messageheader_t δ) :
    Prop where
  basenum_eq : msg2.basenum = msg.basenum
  top_eq : msg2.top = msg.top
  last_eq : msg2.last = msg.last
  element_eq : ∀ i, i ≠ idx → msg2.element i = msg.element i
  size_eq : msg2.element_a.size = msg.element_a.size
  block_eq : msg2.element_a.block = msg.element_a.block
  use_num_eq : msg2.element_a.use_num = msg.element_a.use_num - R.length
  flag_eq : ∀ q, sizeof_memelement_t ≤ q → q ∉ R →
    (msg2.element_a.mem (q - sizeof_memelement_t)).in_use
      = (msg.element_a.mem (q - sizeof_memelement_t)).in_use
  key_eq : ∀ q, (msg2.elem q).key = (msg.elem q).key
  data_eq : ∀ q, (msg2.elem q).data = (msg.elem q).data
  next_eq : ∀ q, (msg2.elem q).next = (msg.elem q).next
  hashnext_eq : ∀ q, sizeof_memelement_t ≤ q → q ∉ T →
    (msg2.elem q).hashnext = (msg.elem q).hashnext

/-- The test of `message_del`: the element stays in the queue. -/
def keeps {δ : Type} (msg : messageheader_t δ) (key : Nat) (e : Nat) : Bool :=
  !decide (key = (msg.elem e).key)

/-- The queue `msg` holds the entries of the FIFO `A` of the specification. -/
def QRel {δ : Type} (msg : messageheader_t δ) (A : List (Nat × Nat)) : Prop :=
  QInv msg (A.map Prod.fst) ∧ ∀ x ∈ A, (msg.elem x.1).key = x.2

/-- Well-formed write queue of an endpoint with FIFO list `F`: every entry is
keyed by the connection it names, and its length is within its byte array. -/
def WInv (t : tcp_t) (F : List Nat) : Prop :=
  QInv t.wbuffer_m F ∧
  ∀ e ∈ F, (t.wbuffer_m.elem e).data.conn = some (t.wbuffer_m.elem e).key ∧
    0 ≤ (t.wbuffer_m.elem e).data.buffer_len ∧
    (t.wbuffer_m.elem e).data.buffer_len.toNat ≤ (t.wbuffer_m.elem e).data.buffer.length

/-- The keys of a list of elements. -/
def keys_of {δ : Type} (msg : messageheader_t δ) (F : List Nat) : List Nat :=
  F.map (fun e => (msg.elem e).key)

/-- Well-formed receive chain of the connection `c`; `R` lists the chunks of the
pool that follow the embedded chunk.  The chunks of `R` are distinct slots in use,
every chunk holds at most as many bytes as its array, and a chunk of the pool is
never empty. -/
structure RInv (t : tcp_t) (c : Nat) (R : List Nat) : Prop where
  pool : ∃ L, PoolInv t.rbuffer_a L
  chain : Chain (fun a => (t.rbuffer_a.deref a).next) (t.connection_a.deref c).rbuffer.next R
  nodup : R.Nodup
  user : ∀ a ∈ R, IsUser t.rbuffer_a a
  used : ∀ a ∈ R, (t.rbuffer_a.mem (a - sizeof_memelement_t)).in_use ≠ 0
  head_len : 0 ≤ (t.connection_a.deref c).rbuffer.len ∧
    (t.connection_a.deref c).rbuffer.len.toNat ≤ (t.connection_a.deref c).rbuffer.data.length
  node_len : ∀ a ∈ R, 0 < (t.rbuffer_a.deref a).len ∧
    (t.rbuffer_a.deref a).len.toNat ≤ (t.rbuffer_a.deref a).data.length

/-- The bytes of a well-formed receive chain, in order. -/
def chain_bytes (t : tcp_t) (c : Nat) (R : List Nat) : List Nat :=
  rb_bytes (t.connection_a.deref c).rbuffer
    ++ R.flatMap (fun a => rb_bytes (t.rbuffer_a.deref a))

/-- The last chunk of the receive chain of `c` whose pool chunks are `R`. -/
def last_ref (c : Nat) (R : List Nat) : rbref :=
  match R.getLast? with
  | none => rbref.head c
  | some r => rbref.node r

/-- The sum of the `len` fields of the pool chunks `R`. -/
def nodes_len (t : tcp_t) (R : List Nat) : Int :=
  (R.map (fun a => (t.rbuffer_a.deref a).len)).sum

/-- The number of bytes of the receive chain of `c`, as the sum of the `len`
fields. -/
def chain_len (t : tcp_t) (c : Nat) (R : List Nat) : Int :=
  (t.connection_a.deref c).rbuffer.len + nodes_len t R

/-- What the receive path leaves alone: the write queue and the callbacks of the
connection `c`. -/
structure ConnFrame (t t2 : tcp_t) (c : Nat) : Prop where
  wbuffer_eq : t2.wbuffer_m = t.wbuffer_m
  parse_eq : (t2.connection_a.deref c).parse_func = (t.connection_a.deref c).parse_func
  recv_eq : (t2.connection_a.deref c).recv_func = (t.connection_a.deref c).recv_func
  close_eq : (t2.connection_a.deref c).close_func = (t.connection_a.deref c).close_func

/-- The bytes of a receive sequence, in order. -/
def stream_of (chunks : List (List Nat × List (Option Nat))) : List Nat :=
  chunks.flatMap Prod.fst

/-! ## Pool runs -/

/-- One call on a pool: `pool_alloc`, with the answer of `malloc` should the pool
grow, or `pool_free` of a user pointer. -/
inductive pool_op where
  | alloc (m : Option Nat)
  | free (element : Nat)
deriving DecidableEq, Repr

/-- The pool after one call, and the pointer returned (`none` for `pool_free`
and for a `pool_alloc` that returns `NULL`). -/
def pool_step {α : Type} (mp : mempool_t α) : pool_op → mempool_t α × Option Nat
  | pool_op.alloc m => pool_alloc mp m
  | pool_op.free element => (pool_free mp element, none)

/-- The pool after a sequence of calls. -/
def pool_run {α : Type} : mempool_t α → List pool_op → mempool_t α
  | mp, [] => mp
  | mp, op :: ops => pool_run (pool_step mp op).1 ops

/-- The slots whose in-use flag is set, in block order. -/
def used_slots {α : Type} (mp : mempool_t α) : List Nat :=
  (pool_slots mp).filter (fun a => decide ((mp.mem a).in_use ≠ 0))

/-- The largest number of slots in use at the same time during a sequence of
calls, the states before the first and after the last call included. -/
def peak_in_use {α : Type} : mempool_t α → List pool_op → Nat
  | mp, [] => (used_slots mp).length
  | mp, op :: ops => max (used_slots mp).length (peak_in_use (pool_step mp op).1 ops)

/-- Every `pool_free` of the sequence is given the user pointer of a slot of the
pool, in use or not. -/
def frees_valid {α : Type} : mempool_t α → List pool_op → Prop
  | _, [] => True
  | mp, pool_op.alloc m :: ops => frees_valid (pool_alloc mp m).1 ops
  | mp, pool_op.free element :: ops => IsUser mp element ∧ frees_valid (pool_free mp element) ops

/-- Well-formed pool whose counters agree with its slots: the slots are distinct,
`num` counts them, the free list `L` holds every slot whose flag is clear, and
`use_num` counts the others. -/
structure PoolCount {α : Type} (mp : mempool_t α) (L : List Nat) : Prop where
  inv : PoolInv mp L
  slots_nodup : (pool_slots mp).Nodup
  count : mp.use_num + L.length = mp.num
  total : mp.num = (pool_slots mp).length
  free_all : ∀ a ∈ pool_slots mp, (mp.mem a).in_use = 0 → a ∈ L

/-- A pool of two slots of 8 bytes with the cap 4, its block at address `4096`. -/
def pool24 : mempool_t Nat :=
  (init_pool_with_max 0 8 2 4 (some 4096)).getD ⟨0, 0, 0, 0, 0, [], none, mem_init 0⟩

/-! ## Read event (`netio.c`) -/

/-- The answer of one `recv(2)` into the buffer of `BUFFER_SIZE` bytes: the bytes
the socket holds (none at all is the end of the stream, `recv` returning `0`), a
retryable error (`EWOULDBLOCK`, `EAGAIN`, `EINTR`), or another error. -/
inductive recv_result where
  | data (d : List Nat)
  | again
  | fail (errno : Int)
deriving DecidableEq, Repr

/-- Model of `__read_event_callback(soc, events, conn)`.  `ev_read` is
`events & EV_READ`, `rcheck` is what the admission callback returns if there is
one, `r` is the answer of `recv`, `sr` the answer of the `send` that the relay
to the pair may attempt, and `ms` holds the answers of `malloc`.  The value that
`__parse_receive` returns is only printed. -/
def __read_event_callback (fuel : Nat) (t : tcp_t) (c : Nat) (ev_read : Bool) (rcheck : Int)
    (r : recv_result) (sr : send_result) (ms : List (Option Nat)) : Option (outcome tcp_t) :=
  if (t.connection_a.deref c).rcheck_func ≠ none ∧ rcheck < 0 then some (outcome.done t)
  else if ev_read = false then some (outcome.done t)
  else
    match r with
    | recv_result.again => some (outcome.done t)
    | recv_result.fail errno =>
      (CONN_CLEAR fuel (call_close_func t c errno) c).map outcome.done
    | recv_result.data d =>
      let buff := d.take NIO_BUFFER_SIZE.toNat
      let ret : Int := buff.length
      if ret = 0 then (CONN_CLEAR fuel (call_close_func t c 0) c).map outcome.done
      else
        match (t.connection_a.deref c).pair with
        | some p => (netio_sender fuel t (some p) buff ret sr ms).map (fun x => outcome.done x.1)
        | none =>
          match (t.connection_a.deref c).parse_func with
          | some _ =>
            match __parse_receive fuel t c buff ret ms with
            | none => none
            | some outcome.null_deref => some outcome.null_deref
            | some (outcome.done (t1, _)) => some (outcome.done t1)
          | none =>
            match (t.connection_a.deref c).recv_func with
            | some _ =>
              some (outcome.done { t with log := t.log ++ [event_t.recv_cb c buff ret] })
            | none => some (outcome.done t)

/-- A parse callback of an application: it rejects an input that starts with the
byte `'X'` and reads a frame with a 16-bit length otherwise. -/
def parse_x : parse_callback :=
  fun data datalen cap =>
    if data.head? = some 88 then ⟨-1, -1, []⟩ else netio_parse16 data datalen cap

/-! ## Serializer (`packet.h`, `sample.c`)

Unsigned integers of 8, 16, 32 and 64 bits are natural numbers reduced modulo
`2 ^ 8`, `2 ^ 16`, `2 ^ 32` and `2 ^ 64`.  The buffer is a map from addresses
to bytes and a cursor is an address.  The byte order of the host is the
parameter `little`. -/

/-- The bytes of a number, least significant first, `w` of them. -/
def le_bytes : Nat → Nat → List Nat
  | 0, _ => []
  | w + 1, x => (x % 256) :: le_bytes w (x / 256)

/-- The number whose bytes, least significant first, are `bs`. -/
def le_value : List Nat → Nat
  | [] => 0
  | b :: bs => b + 256 * le_value bs

/-- The bytes of a `w`-byte integer in the memory of the host, lowest address
first. -/
def int_bytes (little : Bool) (w x : Nat) : List Nat :=
  if little then le_bytes w x else (le_bytes w x).reverse

/-- The integer that the host reads from the bytes `bs`. -/
def int_value (little : Bool) (bs : List Nat) : Nat :=
  if little then le_value bs else le_value bs.reverse

/-- The two bytes of a `uint16_t` exchanged. -/
def bswap16 (x : Nat) : Nat := x % 256 * 256 + x / 256 % 256

/-- The four bytes of a `uint32_t` reversed. -/
def bswap32 (x : Nat) : Nat :=
  x % 256 * 16777216 + x / 256 % 256 * 65536 + x / 65536 % 256 * 256 + x / 16777216 % 256

/-- The C library `htons` on a `uint16_t`. -/
def htons (little : Bool) (x : Nat) : Nat := if little then bswap16 (x % 65536) else x % 65536

/-- The C library `ntohs`. -/
def ntohs (little : Bool) (x : Nat) : Nat := if little then bswap16 (x % 65536) else x % 65536

/-- The C library `htonl` on a `uint32_t`. -/
def htonl (little : Bool) (x : Nat) : Nat :=
  if little then bswap32 (x % 4294967296) else x % 4294967296

/-- The C library `ntohl`. -/
def ntohl (little : Bool) (x : Nat) : Nat :=
  if little then bswap32 (x % 4294967296) else x % 4294967296

/-- Model of `htonll` of `packet.h`. -/
def htonll (little : Bool) (ull : Nat) : Nat :=
  let upper := ((ull % 18446744073709551616) >>> 32) % 4294967296
  let lower := ((ull % 18446744073709551616) &&& 0xffffffff) % 4294967296
  let n_upper := htonl little upper
  let n_lower := htonl little lower
  ((n_upper <<< 32) % 18446744073709551616) ||| n_lower

/-- Model of `ntohll` of `packet.h`. -/
def ntohll (little : Bool) (n_ull : Nat) : Nat :=
  let n_upper := ((n_ull % 18446744073709551616) >>> 32) % 4294967296
  let n_lower := ((n_ull % 18446744073709551616) &&& 0xffffffff) % 4294967296
  let upper := ntohl little n_upper
  let lower := ntohl little n_lower
  ((upper <<< 32) % 18446744073709551616) ||| lower

/-- `memcpy(mem + p, bs, bs.length)`. -/
def poke (mem : Nat → Nat) (p : Nat) (bs : List Nat) : Nat → Nat :=
  fun a => if p ≤ a ∧ a < p + bs.length then bs.getD (a - p) 0 else mem a

/-- The `n` bytes of the buffer from the address `p` on. -/
def peek (mem : Nat → Nat) (p n : Nat) : List Nat := (List.range n).map (fun i => mem (p + i))

/-- `strlen`: the number of bytes before the first `'\0'` of a byte array. -/
def strlen (s : List Nat) : Nat := (s.takeWhile (fun x => decide (x ≠ 0))).length

/-- The macro `_PUSH_DATA_1`: the buffer and the cursor afterwards. -/
def _PUSH_DATA_1 (mem : Nat → Nat) (p : Nat) (i : Nat) : (Nat → Nat) × Nat :=
  (poke mem p [i % 256], p + 1)

/-- The macro `_PUSH_DATA_2`. -/
def _PUSH_DATA_2 (little : Bool) (mem : Nat → Nat) (p : Nat) (i : Nat) : (Nat → Nat) × Nat :=
  (poke mem p (int_bytes little 2 (htons little i)), p + 2)

/-- The macro `_PUSH_DATA_4`. -/
def _PUSH_DATA_4 (little : Bool) (mem : Nat → Nat) (p : Nat) (i : Nat) : (Nat → Nat) × Nat :=
  (poke mem p (int_bytes little 4 (htonl little i)), p + 4)

/-- The macro `_PUSH_DATA_8`. -/
def _PUSH_DATA_8 (little : Bool) (mem : Nat → Nat) (p : Nat) (i : Nat) : (Nat → Nat) × Nat :=
  (poke mem p (int_bytes little 8 (htonll little i)), p + 8)

/-- The macro `_PUSH_ARRAYF`: `len` bytes of the array `a`. -/
def _PUSH_ARRAYF (mem : Nat → Nat) (p : Nat) (a : List Nat) (len : Nat) : (Nat → Nat) × Nat :=
  (poke mem p (a.take len), p + len)

/-- The macro `_PUSH_ARRAYW`: the length as a 32-bit number, then the bytes. -/
def _PUSH_ARRAYW (little : Bool) (mem : Nat → Nat) (p : Nat) (a : List Nat) (len : Nat) :
    (Nat → Nat) × Nat :=
  _PUSH_ARRAYF (_PUSH_DATA_4 little mem p len).1 (_PUSH_DATA_4 little mem p len).2 a len

/-- The macro `_PUSH_STRING`: the bytes of the string and a `'\0'`; the string has
less than `2 ^ 31` bytes, so that the `int` holds `strlen(str)`. -/
def _PUSH_STRING (mem : Nat → Nat) (p : Nat) (str : List Nat) : (Nat → Nat) × Nat :=
  (poke (poke mem p (str.take (strlen str))) (p + strlen str) [0], p + strlen str + 1)

/-- The macro `_POP_DATA_1`: the value read and the cursor afterwards. -/
def _POP_DATA_1 (mem : Nat → Nat) (p : Nat) : Nat × Nat := (mem p, p + 1)

/-- The macro `_POP_DATA_2`. -/
def _POP_DATA_2 (little : Bool) (mem : Nat → Nat) (p : Nat) : Nat × Nat :=
  (ntohs little (int_value little (peek mem p 2)), p + 2)

/-- The macro `_POP_DATA_4`. -/
def _POP_DATA_4 (little : Bool) (mem : Nat → Nat) (p : Nat) : Nat × Nat :=
  (ntohl little (int_value little (peek mem p 4)), p + 4)

/-- The macro `_POP_DATA_8`. -/
def _POP_DATA_8 (little : Bool) (mem : Nat → Nat) (p : Nat) : Nat × Nat :=
  (ntohll little (int_value little (peek mem p 8)), p + 8)

/-- The macro `_POP_ARRAYF`: the pointer to the array, which lies in the buffer,
and the cursor afterwards. -/
def _POP_ARRAYF (p : Nat) (len : Nat) : Nat × Nat := (p, p + len)

/-- The macro `_POP_ARRAYW` with an `int` for the length, as `deserialize` uses
it: the pointer to the array, its length and the cursor afterwards. -/
def _POP_ARRAYW (little : Bool) (mem : Nat → Nat) (p : Nat) : Nat × Int × Nat :=
  ((_POP_DATA_4 little mem p).2, i32 (_POP_DATA_4 little mem p).1,
    (((_POP_DATA_4 little mem p).2 : Int) + i32 (_POP_DATA_4 little mem p).1).toNat)

/-- The loop of the macro `_LENGTH_STRING` over the bytes at `tmp`; `alen` is a
`uint32_t`.  `none` is the model running out of fuel. -/
def length_string_loop (mem : Nat → Nat) : Nat → Nat → Nat → Option Nat
  | 0, _, _ => none
  | fuel + 1, tmp, alen =>
    if mem tmp ≠ 0 then length_string_loop mem fuel (tmp + 1) ((alen + 1) % 4294967296)
    else some ((alen + 1) % 4294967296)

/-- The macro `_POP_STRING`: the pointer to the string, which lies in the buffer,
and the cursor afterwards. -/
def _POP_STRING (fuel : Nat) (mem : Nat → Nat) (p : Nat) : Option (Nat × Nat) :=
  (length_string_loop mem fuel p 0).map (fun alen => (p, p + alen))

/-- The macros `_LENGTH_DATA_1`, `_LENGTH_DATA_2`, `_LENGTH_DATA_4` and
`_LENGTH_DATA_8`, `w` being the number of bytes. -/
def _LENGTH_DATA (w : Nat) (alen : Nat) : Nat := alen + w

/-- The macro `_LENGTH_ARRAYF`. -/
def _LENGTH_ARRAYF (len : Nat) (alen : Nat) : Nat := alen + len

/-- The macro `_LENGTH_ARRAYW`. -/
def _LENGTH_ARRAYW (len : Nat) (alen : Nat) : Nat := alen + 4 + len

/-- The macro `_LENGTH_STRING` on a string. -/
def _LENGTH_STRING (str : List Nat) (alen : Nat) : Nat := alen + strlen str + 1

/-- The function `serialize` of `sample.c` with the values as parameters: the
buffer afterwards and `total_len`.  `sample.c` passes `1`, `20`, `400`, `8000`,
the 64 bytes of `fixed_array`, 6 bytes of `array` and `"stringstring"`. -/
def serialize (little : Bool) (mem : Nat → Nat) (buffer : Nat) (d1 d2 d4 d8 : Nat)
    (fixed_array : List Nat) (fixed_len : Nat) (array : List Nat) (array_len : Nat)
    (str : List Nat) : (Nat → Nat) × Nat :=
  let s1 := _PUSH_DATA_1 mem buffer d1
  let s2 := _PUSH_DATA_2 little s1.1 s1.2 d2
  let s3 := _PUSH_DATA_4 little s2.1 s2.2 d4
  let s4 := _PUSH_DATA_8 little s3.1 s3.2 d8
  let s5 := _PUSH_ARRAYF s4.1 s4.2 fixed_array fixed_len
  let s6 := _PUSH_ARRAYW little s5.1 s5.2 array array_len
  let s7 := _PUSH_STRING s6.1 s6.2 str
  (s7.1, s7.2 - buffer)

/-- What `deserialize` reads. -/
structure record_t where
  d1 : Nat
  d2 : Nat
  d4 : Nat
  d8 : Nat
  fixed_array_ptr : Nat
  recv_array : Nat
  recv_array_len : Int
  bufstr : Nat
  pbuffer : Nat
deriving DecidableEq, Repr

/-- The function `deserialize` of `sample.c`: the values it reads and the cursor
at the end; `fixed_len` is `sizeof(fixed_array)`. -/
def deserialize (little : Bool) (fuel : Nat) (mem : Nat → Nat) (buffer : Nat)
    (fixed_len : Nat) : Option record_t :=
  let r1 := _POP_DATA_1 mem buffer
  let r2 := _POP_DATA_2 little mem r1.2
  let r3 := _POP_DATA_4 little mem r2.2
  let r4 := _POP_DATA_8 little mem r3.2
  let r5 := _POP_ARRAYF r4.2 fixed_len
  let r6 := _POP_ARRAYW little mem r5.2
  (_POP_STRING fuel mem r6.2.2).map (fun r7 =>
    { d1 := r1.1, d2 := r2.1, d4 := r3.1, d8 := r4.1, fixed_array_ptr := r5.1,
      recv_array := r6.1, recv_array_len := r6.2.1, bufstr := r7.1, pbuffer := r7.2 })

/-- The string at an address of the buffer: the bytes before the first `'\0'`,
looked for among `fuel` bytes. -/
def string_at (mem : Nat → Nat) (p fuel : Nat) : List Nat :=
  (peek mem p fuel).takeWhile (fun x => decide (x ≠ 0))

/-- The buffer holds the bytes `W` from the address `p` on. -/
def holds (mem : Nat → Nat) (p : Nat) (W : List Nat) : Prop :=
  ∀ i, i < W.length → mem (p + i) = W.getD i 0

/-- The character array `"1234"` of 64 bytes of `sample.c`. -/
def fixed_array : List Nat := [49, 50, 51, 52] ++ List.replicate 60 0

/-- The character array `"5678"` of 64 bytes of `sample.c`. -/
def array : List Nat := [53, 54, 55, 56] ++ List.replicate 60 0

/-- The string `"stringstring"`. -/
def stringstring : List Nat := [115, 116, 114, 105, 110, 103, 115, 116, 114, 105, 110, 103]

/-! ## More of the connection interface (`netio.c`) -/

/-- `timer_inteval`, in microseconds. -/
def timer_inteval : Int := 1000

/-- The value the `static struct timeval ti` of `__timer_event_callback` starts
with, in microseconds. -/
def ti_init : Int := 500000

/-- Model of `__timer_event_callback`.  `ti` is the value of the static variable
`ti` on entry and `rs` holds the answers of `send`.  Returns the endpoint, the
value `r` of `netio_tcp_push_write_buffer`, and the value of `ti` afterwards,
which is the interval handed to `evtimer_add`. -/
def __timer_event_callback (fuel : Nat) (t : tcp_t) (ti : Int) (rs : List send_result) :
    Option (tcp_t × Int × Int) :=
  (netio_tcp_push_write_buffer fuel t _PUSH_BUFFER_NUM_PAR_LOOP rs).map
    (fun x => (x.1, x.2, if x.2 > 0 then timer_inteval else ti))

/-- A sequence of firings of the flush timer, each with the answers of its
`send`: the endpoint at the end and, for every firing, the value `r` and the
interval the timer was re-armed with. -/
def timer_run (fuel : Nat) : tcp_t → Int → List (List send_result) →
    Option (tcp_t × List (Int × Int))
  | t, _, [] => some (t, [])
  | t, ti, rs :: rest =>
    match __timer_event_callback fuel t ti rs with
    | none => none
    | some (t1, r, ti1) =>
      (timer_run fuel t1 ti1 rest).map (fun x => (x.1, (r, ti1) :: x.2))

/-- Model of `netio_connection_is_valid(ncon)`. -/
def netio_connection_is_valid (t : tcp_t) (ncon : Option Nat) : Int :=
  match ncon with
  | none => 0
  | some c => if (t.connection_a.deref c).soc < 0 then 0 else 1

/-- Model of `netio_connection_get_wbuff_len(ncon)`. -/
def netio_connection_get_wbuff_len (fuel : Nat) (t : tcp_t) (ncon : Option Nat) : Option Int :=
  match ncon with
  | none => some 0
  | some c =>
    match message_find fuel t.wbuffer_m c with
    | none => none
    | some none => some 0
    | some (some wb) => some (t.wbuffer_m.elem wb).data.buffer_len

/-- Model of `netio_conn_set_recv_check_func(ncon, checkfunc)`: the endpoint and
the callback that was installed before. -/
def netio_conn_set_recv_check_func (t : tcp_t) (ncon : Option Nat) (checkfunc : Option Nat) :
    tcp_t × Option Nat :=
  match ncon with
  | none => (t, none)
  | some c =>
    ({ t with connection_a :=
        t.connection_a.store c { (t.connection_a.deref c) with rcheck_func := checkfunc } },
      (t.connection_a.deref c).rcheck_func)

/-- Model of `netio_conn_set_pair_connection(ncon, pair_conn)`. -/
def netio_conn_set_pair_connection (t : tcp_t) (ncon pair_conn : Option Nat) : tcp_t :=
  match ncon with
  | none => t
  | some c =>
    match pair_conn with
    | none => t
    | some pairc =>
      { t with connection_a :=
          t.connection_a.store c { (t.connection_a.deref c) with pair := some pairc } }

/-- Model of `netio_client_connect(nclient)`.  `soc` is what `socket` returns,
`connected` tells that `connect` succeeded or is in progress, the three
callbacks are those of the client endpoint, and `m` is the answer of `malloc`
should the pool grow.  Returns the endpoint and the connection (`none` is
`NIO_INVALID_HANDLE`). -/
def netio_client_connect (t : tcp_t) (soc : Int) (connected : Bool)
    (recv_func close_func : Option Nat) (parse_func : Option parse_callback) (m : Option Nat) :
    tcp_t × Option Nat :=
  match pool_alloc t.connection_a m with
  | (ca, none) => ({ t with connection_a := ca }, none)
  | (ca, some c) =>
    let old := ca.deref c
    if soc = -1 then
      ({ t with connection_a := pool_free (ca.store c { old with soc := soc }) c }, none)
    else if connected = false then
      ({ t with connection_a := pool_free (ca.store c { old with soc := soc }) c,
                log := t.log ++ [event_t.sys_close soc] }, none)
    else
      let conn : connection_t :=
        { old with soc := soc, close_func := close_func, recv_func := recv_func,
                   parse_func := parse_func,
                   rbuffer := { old.rbuffer with len := 0, next := none } }
      ({ t with connection_a := ca.store c conn }, some c)

/-- Model of `netio_client_connect_by_address(nclient, address, port)`;
`address_ok` tells that `inet_aton` accepted the address. -/
def netio_client_connect_by_address (t : tcp_t) (address_ok : Bool) (soc : Int)
    (connected : Bool) (recv_func close_func : Option Nat) (parse_func : Option parse_callback)
    (m : Option Nat) : tcp_t × Option Nat :=
  if address_ok = false then (t, none)
  else
    match pool_alloc t.connection_a m with
    | (ca, none) => ({ t with connection_a := ca }, none)
    | (ca, some c) =>
      let old := ca.deref c
      if soc = -1 then
        ({ t with connection_a := pool_free (ca.store c { old with soc := soc }) c }, none)
      else if connected = false then
        ({ t with connection_a := pool_free (ca.store c { old with soc := soc }) c,
                  log := t.log ++ [event_t.sys_close soc] }, none)
      else
        let conn : connection_t :=
          { old with soc := soc, close_func := close_func, recv_func := recv_func,
                     parse_func := parse_func,
                     rbuffer := { old.rbuffer with len := 0, next := none }, pair := none }
        ({ t with connection_a := ca.store c conn }, some c)

/-- The loop of `netio_tcp_connection_close_all` over the connections in use;
`n` bounds the number of passes and `count` is the C variable of that name. -/
def close_all_loop (fuel : Nat) : Nat → tcp_t → Option Nat → Int → Option (tcp_t × Int)
  | 0, _, _, _ => none
  | _ + 1, t, none, count => some (t, count)
  | n + 1, t, some c, count =>
    match CONN_CLEAR fuel (call_close_func t c (-2)) c with
    | none => none
    | some t1 => close_all_loop fuel n t1 (get_element_next t1.connection_a c) (count + 1)

/-- Model of `netio_tcp_connection_close_all(tcp)` on a valid handle. -/
def netio_tcp_connection_close_all (fuel : Nat) (t : tcp_t) : Option (tcp_t × Int) :=
  close_all_loop fuel fuel t (get_element_first t.connection_a) 0

/-- The endpoint `tcp0` used as a client: a connection made by
`netio_client_connect` with the socket 7, then given the pair `conn2` and the
admission callback `9`, then closed by `netio_connection_close`. -/
def tcp_reuse : tcp_t :=
  let t1 := (netio_client_connect tcp0 7 true (some 2) (some 1) none none).1
  let t2 := netio_conn_set_pair_connection t1 (some conn1) (some conn2)
  let t3 := (netio_conn_set_recv_check_func t2 (some conn1) (some 9)).1
  ((netio_connection_close 5 t3 (some conn1)).map Prod.fst).getD tcp0

/-- The endpoint with one connection whose chunk pool has handed out its four
chunks. -/
def tcp_full : tcp_t :=
  { tcp_accept none 1 with
    rbuffer_a := pool_run (tcp_accept none 1).rbuffer_a
      [pool_op.alloc none, pool_op.alloc none, pool_op.alloc none, pool_op.alloc none] }

/-! ## Teardown paths (`netio.c`) -/

/-- What a teardown of the connection `c` with the close code `code` does to the
outside world, `t` being the endpoint before it: the call of the close callback
of `c`, when one is set, then `close(2)` on its socket and the removal of its
read event. -/
def teardown_events (t : tcp_t) (c : Nat) (code : Int) : List event_t :=
  (match (t.connection_a.deref c).close_func with
    | none => []
    | some _ => [event_t.close_cb c code])
  ++ [event_t.sys_close (t.connection_a.deref c).soc, event_t.event_del c]

/-- Well-formed endpoint, as the teardown paths need it: the write queue is well
formed and holds the elements `F`, the in-use flag is set on slots of the
connection pool only, and the receive chain of every connection ends after fewer
than `n` chunks. -/
structure TInv (t : tcp_t) (F : List Nat) (n : Nat) : Prop where
  wq : WInv t F
  flags : ∀ a, (t.connection_a.mem a).in_use ≠ 0 → a ∈ pool_slots t.connection_a
  chains : ∀ c, ∃ R, R.length < n ∧
    Chain (fun a => (t.rbuffer_a.deref a).next) (t.connection_a.deref c).rbuffer.next R

/-! ## Endpoints out of memory -/

/-- 25 calls of `netio_sender` on `conn2`, of one byte each, whose `send(2)`
reports a retryable error: each call queues its byte in an entry of its own. -/
def ops25 : List tcp_op :=
  List.replicate 25 (tcp_op.sender conn2 [7] send_result.again [])

/-- The endpoint with two connections after the calls `ops25`: the 25 elements
the pool of the write queue was created with are all in use. -/
def tcp_wfull : tcp_t := ((tcp_run 40 (tcp_accept none 2) ops25).map Prod.fst).getD tcp0

/-- A parse callback that waits for more bytes: it returns `0` whatever it is
given. -/
def parse_wait : parse_callback := fun _ _ _ => ⟨0, 0, []⟩

/-- A received chunk of 65536 bytes, the most one `recv` of
`__read_event_callback` yields. -/
def full_chunk : List Nat := List.replicate 65536 7

/-- A received chunk of 4464 bytes. -/
def short_chunk : List Nat := List.replicate 4464 8

/-! ## Theorems -/

/-! ### Chains -/

theorem Chain_nil {nxt : Nat → Option Nat} {p : Option Nat} : Chain nxt p [] ↔ p = none :=
  Iff.rfl

theorem Chain_cons {nxt : Nat → Option Nat} {p : Option Nat} {a : Nat} {l : List Nat} :
    Chain nxt p (a :: l) ↔ p = some a ∧ Chain nxt (nxt a) l :=
  Iff.rfl

theorem Chain_congr {nxt nxt2 : Nat → Option Nat} {l : List Nat} :
    ∀ {p : Option Nat}, (∀ a ∈ l, nxt2 a = nxt a) → Chain nxt p l → Chain nxt2 p l := by
  induction l with
  | nil => intro p _ h; exact h
  | cons a l ih =>
    intro p hag h
    rw [Chain_cons] at h ⊢
    refine ⟨h.1, ?_⟩
    rw [hag a (List.mem_cons_self a l)]
    exact ih (fun b hb => hag b (List.mem_cons_of_mem a hb)) h.2

theorem Chain_unique {nxt : Nat → Option Nat} {l1 : List Nat} :
    ∀ {l2 : List Nat} {p : Option Nat}, Chain nxt p l1 → Chain nxt p l2 → l1 = l2 := by
  induction l1 with
  | nil =>
    intro l2 p h1 h2
    cases l2 with
    | nil => rfl
    | cons b l2 =>
      rw [Chain_nil] at h1; rw [Chain_cons] at h2
      rw [h1] at h2; exact absurd h2.1 (by simp)
  | cons a l1 ih =>
    intro l2 p h1 h2
    cases l2 with
    | nil =>
      rw [Chain_nil] at h2; rw [Chain_cons] at h1
      rw [h2] at h1; exact absurd h1.1 (by simp)
    | cons b l2 =>
      rw [Chain_cons] at h1 h2
      have hab : a = b := by
        have := h1.1.symm.trans h2.1
        exact Option.some.inj this
      subst hab
      rw [ih h1.2 h2.2]

/-- The pointer a chain starts at is the head of its list. -/
theorem Chain_head {nxt : Nat → Option Nat} {p : Option Nat} {l : List Nat}
    (h : Chain nxt p l) : p = l.head? := by
  cases l with
  | nil => exact h
  | cons a l => exact h.1

theorem be16_pack16_length (n : Int) (h0 : 0 ≤ n) (h1 : n < 65536) (rest : List Nat) :
    be16 ((netio_pack16_length n).1 ++ rest) = n := by
  simp only [be16, netio_pack16_length, u16, List.cons_append, List.nil_append,
    List.getD_cons_zero, List.getD_cons_succ]
  have h : n % 65536 = n := Int.emod_eq_of_lt h0 h1
  rw [h]
  have h2 : (0 : Int) ≤ n / 256 := Int.ediv_nonneg h0 (by norm_num)
  have h3 : (0 : Int) ≤ n % 256 := Int.emod_nonneg _ (by norm_num)
  rw [Int.toNat_of_nonneg h2, Int.toNat_of_nonneg h3]
  omega

theorem be32_pack32_length (n : Int) (h0 : 0 ≤ n) (h1 : n < 4294967296) (rest : List Nat) :
    be32 ((netio_pack32_length n).1 ++ rest) = n := by
  simp only [be32, netio_pack32_length, u32, List.cons_append, List.nil_append,
    List.getD_cons_zero, List.getD_cons_succ]
  have h : n % 4294967296 = n := Int.emod_eq_of_lt h0 h1
  rw [h]
  have h2 : (0 : Int) ≤ n / 16777216 := Int.ediv_nonneg h0 (by norm_num)
  have h3 : (0 : Int) ≤ n / 65536 % 256 := Int.emod_nonneg _ (by norm_num)
  have h4 : (0 : Int) ≤ n / 256 % 256 := Int.emod_nonneg _ (by norm_num)
  have h5 : (0 : Int) ≤ n % 256 := Int.emod_nonneg _ (by norm_num)
  rw [Int.toNat_of_nonneg h2, Int.toNat_of_nonneg h3, Int.toNat_of_nonneg h4,
    Int.toNat_of_nonneg h5]
  omega

/-- Round trip of the 16-bit framer on every non-empty payload of at most 65533
bytes: `netio_parse16` consumes the whole frame of `netio_pack16` and yields the
payload. -/
theorem parse16_pack16_nonempty (s : List Nat) (cap pcap : Int)
    (hne : s ≠ []) (hlen : s.length ≤ 65533)
    (hcap : (s.length : Int) + 2 ≤ u16 cap) (hpcap : (s.length : Int) ≤ pcap) :
    netio_pack16 s s.length cap = ((s.length : Int) + 2, (netio_pack16_length s.length).1 ++ s) ∧
    netio_parse16 (netio_pack16 s s.length cap).2 (netio_pack16 s s.length cap).1 pcap
      = ⟨(s.length : Int) + 2, s.length, s⟩ := by
  have hpos : 0 < s.length := List.length_pos.mpr hne
  have hu : u16 (s.length : Int) = s.length := by
    unfold u16; omega
  have hpk : netio_pack16 s s.length cap
      = ((s.length : Int) + 2, (netio_pack16_length s.length).1 ++ s) := by
    unfold netio_pack16
    rw [if_neg (by rw [hu]; omega)]
    simp [netio_pack16_length]
  refine ⟨hpk, ?_⟩
  rw [hpk]
  have hb := be16_pack16_length (s.length : Int) (by omega) (by omega) s
  unfold netio_parse16
  simp only [hb]
  have hu2 : u32 ((s.length : Int) + 2) = s.length + 2 := by
    unfold u32; omega
  rw [hu2, if_neg (by omega), if_neg (by omega), if_neg (by omega)]
  simp [netio_pack16_length]

/-! ### Segments -/

theorem Seg_nil {nxt : Nat → Option Nat} {p q : Option Nat} : Seg nxt p [] q ↔ p = q :=
  Iff.rfl

theorem Seg_cons {nxt : Nat → Option Nat} {p q : Option Nat} {a : Nat} {l : List Nat} :
    Seg nxt p (a :: l) q ↔ p = some a ∧ Seg nxt (nxt a) l q :=
  Iff.rfl

theorem Chain_iff_Seg {nxt : Nat → Option Nat} {l : List Nat} :
    ∀ {p : Option Nat}, Chain nxt p l ↔ Seg nxt p l none := by
  induction l with
  | nil => intro p; exact Iff.rfl
  | cons a l ih =>
    intro p
    rw [Chain_cons, Seg_cons, ih]

theorem Seg_congr {nxt nxt2 : Nat → Option Nat} {l : List Nat} {q : Option Nat} :
    ∀ {p : Option Nat}, (∀ a ∈ l, nxt2 a = nxt a) → Seg nxt p l q → Seg nxt2 p l q := by
  induction l with
  | nil => intro p _ h; exact h
  | cons a l ih =>
    intro p hag h
    rw [Seg_cons] at h ⊢
    refine ⟨h.1, ?_⟩
    rw [hag a (List.mem_cons_self a l)]
    exact ih (fun b hb => hag b (List.mem_cons_of_mem a hb)) h.2

/-- A segment followed by a chain is a chain. -/
theorem Seg_chain {nxt : Nat → Option Nat} {l1 l2 : List Nat} {q : Option Nat} :
    ∀ {p : Option Nat}, Seg nxt p l1 q → Chain nxt q l2 → Chain nxt p (l1 ++ l2) := by
  induction l1 with
  | nil => intro p h1 h2; rw [Seg_nil] at h1; rw [h1]; exact h2
  | cons a l1 ih =>
    intro p h1 h2
    rw [Seg_cons] at h1
    exact ⟨h1.1, ih h1.2 h2⟩

/-- A chain splits into a segment and the chain that follows it. -/
theorem Chain_split {nxt : Nat → Option Nat} {l1 l2 : List Nat} :
    ∀ {p : Option Nat}, Chain nxt p (l1 ++ l2) → ∃ q, Seg nxt p l1 q ∧ Chain nxt q l2 := by
  induction l1 with
  | nil => intro p h; exact ⟨p, rfl, h⟩
  | cons a l1 ih =>
    intro p h
    rw [List.cons_append, Chain_cons] at h
    obtain ⟨q, h1, h2⟩ := ih h.2
    exact ⟨q, ⟨h.1, h1⟩, h2⟩

/-- Extending a segment by the element it arrives at. -/
theorem Seg_snoc {nxt : Nat → Option Nat} {l : List Nat} {e : Nat} :
    ∀ {p : Option Nat}, Seg nxt p l (some e) → Seg nxt p (l ++ [e]) (nxt e) := by
  induction l with
  | nil => intro p h; rw [Seg_nil] at h; exact ⟨h, rfl⟩
  | cons a l ih =>
    intro p h
    rw [Seg_cons] at h
    exact ⟨h.1, ih h.2⟩

/-- Writing the link of the last element of a segment retargets the segment. -/
theorem Seg_retarget {nxt nxt2 : Nat → Option Nat} {l : List Nat} {x : Nat} {q r : Option Nat} :
    ∀ {p : Option Nat}, Seg nxt p (l ++ [x]) q → x ∉ l → (∀ a ∈ l, nxt2 a = nxt a) →
      nxt2 x = r → Seg nxt2 p (l ++ [x]) r := by
  induction l with
  | nil =>
    intro p h _ _ hx
    simp only [List.nil_append] at h ⊢
    rw [Seg_cons] at h ⊢
    exact ⟨h.1, by rw [hx]; exact rfl⟩
  | cons a l ih =>
    intro p h hnot hag hx
    rw [List.cons_append, Seg_cons] at h ⊢
    refine ⟨h.1, ?_⟩
    rw [hag a (List.mem_cons_self a l)]
    exact ih h.2 (fun hm => hnot (List.mem_cons_of_mem a hm))
      (fun b hb => hag b (List.mem_cons_of_mem a hb)) hx

/-- The last element of a list that ends with `x`. -/
theorem getLast?_snoc (l : List Nat) (x : Nat) : (l ++ [x]).getLast? = some x := by
  simp

/-- A non-empty list ends with its last element. -/
theorem exists_snoc_of_getLast? {l : List Nat} {x : Nat} (h : l.getLast? = some x) :
    ∃ l0, l = l0 ++ [x] := by
  have hne : l ≠ [] := by
    intro h0; subst h0; simp at h
  refine ⟨l.dropLast, ?_⟩
  have h1 := List.dropLast_append_getLast hne
  have h2 : l.getLast hne = x := by
    rw [List.getLast?_eq_getLast l hne] at h
    exact Option.some.inj h
  rw [h2] at h1
  exact h1.symm

/-! ### Memory of a pool -/

theorem mem_write_same {β : Type} (mem : Nat → β) (a : Nat) (v : β) :
    mem_write mem a v a = v := by
  simp [mem_write]

theorem mem_write_ne {β : Type} (mem : Nat → β) {a x : Nat} (v : β) (h : x ≠ a) :
    mem_write mem a v x = mem x := by
  simp [mem_write, h]

theorem deref_store_same {α : Type} (mp : mempool_t α) (p : Nat) (v : α) :
    (mp.store p v).deref p = v := by
  simp [mempool_t.store, mempool_t.deref, mem_write]

theorem deref_store_ne {α : Type} (mp : mempool_t α) {p q : Nat} (v : α)
    (hp : sizeof_memelement_t ≤ p) (hq : sizeof_memelement_t ≤ q) (h : q ≠ p) :
    (mp.store p v).deref q = mp.deref q := by
  have : q - sizeof_memelement_t ≠ p - sizeof_memelement_t := by omega
  simp [mempool_t.store, mempool_t.deref, mem_write, this]

theorem store_in_use {α : Type} (mp : mempool_t α) (p : Nat) (v : α) (a : Nat) :
    ((mp.store p v).mem a).in_use = (mp.mem a).in_use := by
  simp only [mempool_t.store, mem_write]
  split <;> simp_all

theorem store_next {α : Type} (mp : mempool_t α) (p : Nat) (v : α) (a : Nat) :
    ((mp.store p v).mem a).next = (mp.mem a).next := by
  simp only [mempool_t.store, mem_write]
  split <;> simp_all

/-- A pool that agrees with a well-formed pool on the block table, the head of
the free list and the slot headers is well formed. -/
theorem PoolInv_congr {α : Type} {mp mp2 : mempool_t α} {L : List Nat} (h : PoolInv mp L)
    (hsize : mp2.size = mp.size) (hblock : mp2.block = mp.block)
    (hnot : mp2.not_use = mp.not_use)
    (hflag : ∀ a, (mp2.mem a).in_use = (mp.mem a).in_use)
    (hnext : ∀ a, (mp2.mem a).next = (mp.mem a).next) : PoolInv mp2 L := by
  have hslots : pool_slots mp2 = pool_slots mp := by
    simp [pool_slots, hsize, hblock]
  refine ⟨by rw [hsize]; exact h.size_pos, by rw [hsize, hblock]; exact h.apart, ?_,
    h.free_nodup, ?_, ?_⟩
  · rw [hnot]
    exact Chain_congr (fun a _ => hnext a) h.free_chain
  · intro a ha; rw [hslots]; exact h.free_slot a ha
  · intro a ha; rw [hflag]; exact h.free_flag a ha

theorem PoolInv_store {α : Type} {mp : mempool_t α} {L : List Nat} (h : PoolInv mp L)
    (p : Nat) (v : α) : PoolInv (mp.store p v) L :=
  PoolInv_congr h rfl rfl rfl (store_in_use mp p v) (store_next mp p v)

/-! ### `pool_free` -/

theorem pool_free_deref {α : Type} (mp : mempool_t α) (x q : Nat) :
    (pool_free mp x).deref q = mp.deref q := by
  unfold pool_free mempool_t.deref
  by_cases h : (mp.mem (x - sizeof_memelement_t)).in_use = 0
  · simp [h]
  · simp only [h, if_false, mem_write]
    split <;> simp_all

theorem pool_free_size {α : Type} (mp : mempool_t α) (x : Nat) :
    (pool_free mp x).size = mp.size := by
  unfold pool_free
  by_cases h : (mp.mem (x - sizeof_memelement_t)).in_use = 0 <;> simp [h]

theorem pool_free_block {α : Type} (mp : mempool_t α) (x : Nat) :
    (pool_free mp x).block = mp.block := by
  unfold pool_free
  by_cases h : (mp.mem (x - sizeof_memelement_t)).in_use = 0 <;> simp [h]

theorem pool_free_slots {α : Type} (mp : mempool_t α) (x : Nat) :
    pool_slots (pool_free mp x) = pool_slots mp := by
  simp [pool_slots, pool_free_size, pool_free_block]

theorem pool_free_in_use {α : Type} (mp : mempool_t α) (x a : Nat) :
    ((pool_free mp x).mem a).in_use
      = if a = x - sizeof_memelement_t then 0 else (mp.mem a).in_use := by
  unfold pool_free
  by_cases h : (mp.mem (x - sizeof_memelement_t)).in_use = 0
  · simp only [h, if_true]
    split
    · next h2 => rw [h2]; exact h
    · rfl
  · simp only [h, if_false, mem_write]
    split <;> simp_all

/-- Freeing a slot that is not in use changes nothing. -/
theorem pool_free_idle {α : Type} (mp : mempool_t α) (x : Nat)
    (h : (mp.mem (x - sizeof_memelement_t)).in_use = 0) : pool_free mp x = mp := by
  unfold pool_free
  simp [h]

theorem pool_free_use_num {α : Type} (mp : mempool_t α) (x : Nat)
    (h : (mp.mem (x - sizeof_memelement_t)).in_use ≠ 0) :
    (pool_free mp x).use_num = mp.use_num - 1 := by
  unfold pool_free
  simp [h]

theorem pool_free_num {α : Type} (mp : mempool_t α) (x : Nat) :
    (pool_free mp x).num = mp.num := by
  unfold pool_free
  by_cases h : (mp.mem (x - sizeof_memelement_t)).in_use = 0 <;> simp [h]

/-- Freeing a slot in use puts it at the head of the free list. -/
theorem PoolInv_free {α : Type} {mp : mempool_t α} {L : List Nat} (h : PoolInv mp L)
    {x : Nat} (hx : IsUser mp x) (hu : (mp.mem (x - sizeof_memelement_t)).in_use ≠ 0) :
    PoolInv (pool_free mp x) ((x - sizeof_memelement_t) :: L) := by
  obtain ⟨a, ha, rfl⟩ := hx
  have hsub : a + sizeof_memelement_t - sizeof_memelement_t = a := by omega
  rw [hsub] at hu ⊢
  have hnotin : a ∉ L := fun hm => hu (h.free_flag a hm)
  have hfree : pool_free mp (a + sizeof_memelement_t)
      = { mp with
          mem := mem_write mp.mem a { (mp.mem a) with in_use := 0, next := mp.not_use },
          not_use := some a, use_num := mp.use_num - 1 } := by
    unfold pool_free
    simp [hsub, hu]
  rw [hfree]
  refine ⟨h.size_pos, h.apart, ?_, ?_, ?_, ?_⟩
  · refine ⟨rfl, ?_⟩
    simp only [mem_write_same]
    refine Chain_congr ?_ h.free_chain
    intro b hb
    have : b ≠ a := fun hba => hnotin (hba ▸ hb)
    simp [mem_write, this]
  · exact List.nodup_cons.mpr ⟨hnotin, h.free_nodup⟩
  · intro b hb
    rcases List.mem_cons.mp hb with hb | hb
    · rw [hb]; exact ha
    · exact h.free_slot b hb
  · intro b hb
    rcases List.mem_cons.mp hb with hb | hb
    · rw [hb]; simp [mem_write]
    · have : b ≠ a := fun hba => hnotin (hba ▸ hb)
      simp only [mem_write, this, if_false]
      exact h.free_flag b hb

/-- `pool_free` keeps a pool well formed. -/
theorem PoolInv_free_any {α : Type} {mp : mempool_t α} {L : List Nat} (h : PoolInv mp L)
    {x : Nat} (hx : IsUser mp x) : ∃ L2, PoolInv (pool_free mp x) L2 := by
  by_cases hu : (mp.mem (x - sizeof_memelement_t)).in_use = 0
  · exact ⟨L, by rw [pool_free_idle mp x hu]; exact h⟩
  · exact ⟨_, PoolInv_free h hx hu⟩

/-! ### `alloc_block` -/

/-- The addresses of `n` consecutive slots starting at `p`. -/
theorem range_slots_succ (p stride n : Nat) :
    (List.range (n + 1)).map (fun j => p + j * stride)
      = p :: (List.range n).map (fun j => (p + stride) + j * stride) := by
  rw [List.range_succ_eq_map, List.map_cons, List.map_map]
  simp only [Nat.zero_mul, Nat.add_zero, List.cons.injEq, true_and]
  apply List.map_congr_left
  intro j _
  simp only [Function.comp, Nat.succ_eq_add_one]
  ring

theorem init_elements_other {α : Type} (stride : Nat) :
    ∀ (n p : Nat) (mem : Nat → memelement_t α) (a : Nat),
      (∀ j, j < n → a ≠ p + j * stride) → init_elements stride n p mem a = mem a := by
  intro n
  induction n with
  | zero => intro p mem a _; rfl
  | succ n ih =>
    intro p mem a h
    rw [init_elements, ih]
    · have : a ≠ p := by simpa using h 0 (Nat.succ_pos n)
      exact mem_write_ne mem _ this
    · intro j hj
      have := h (j + 1) (by omega)
      intro hc; apply this; rw [hc]; ring

theorem init_elements_data {α : Type} (stride : Nat) :
    ∀ (n p : Nat) (mem : Nat → memelement_t α) (a : Nat),
      (init_elements stride n p mem a).data = (mem a).data := by
  intro n
  induction n with
  | zero => intro p mem a; rfl
  | succ n ih =>
    intro p mem a
    rw [init_elements, ih]
    simp only [mem_write]
    split <;> simp_all

theorem init_elements_flag {α : Type} (stride : Nat) :
    ∀ (n p : Nat) (mem : Nat → memelement_t α) (j : Nat), j < n →
      (init_elements stride n p mem (p + j * stride)).in_use = 0 := by
  intro n
  induction n with
  | zero => intro p mem j hj; omega
  | succ n ih =>
    intro p mem j hj
    rw [init_elements]
    cases j with
    | zero =>
      by_cases hs : ∃ i, i < n ∧ p + 0 * stride = (p + stride) + i * stride
      · obtain ⟨i, hi, he⟩ := hs
        rw [he]; exact ih _ _ i hi
      · rw [init_elements_other]
        · simp [mem_write]
        · intro i hi hc; exact hs ⟨i, hi, hc⟩
    | succ j =>
      have : p + (j + 1) * stride = (p + stride) + j * stride := by ring
      rw [this]
      exact ih _ _ j (by omega)

theorem init_elements_chain {α : Type} (stride : Nat) (hs : 0 < stride) :
    ∀ (n p : Nat) (mem : Nat → memelement_t α), 0 < n →
      Chain (fun a => (init_elements stride n p mem a).next) (some p)
        ((List.range n).map (fun j => p + j * stride)) := by
  intro n
  induction n with
  | zero => intro p mem h; omega
  | succ n ih =>
    intro p mem _
    rw [range_slots_succ, Chain_cons]
    refine ⟨rfl, ?_⟩
    have hp : init_elements stride (n + 1) p mem p
        = { (mem p) with in_use := 0, next := if n = 0 then none else some (p + stride) } := by
      rw [init_elements, init_elements_other]
      · exact mem_write_same _ _ _
      · intro j _ hc
        have : 0 < stride + j * stride := by omega
        omega
    simp only [hp]
    by_cases hn : n = 0
    · subst hn
      simp only [if_true, List.range_zero, List.map_nil]
      exact rfl
    · simp only [hn, if_false]
      have := ih (p + stride) (mem_write mem p
        { (mem p) with in_use := 0, next := if n = 0 then none else some (p + stride) })
        (Nat.pos_of_ne_zero hn)
      simpa [init_elements] using this

theorem elem_stride_pos (size : Int) : 0 < elem_stride size := by
  unfold elem_stride sizeof_memelement_t; omega

/-- A slot of a block lies inside the bytes of the block. -/
theorem block_slots_range {size : Int} {b : memblock_t} {a : Nat}
    (ha : a ∈ block_slots size b) :
    b.element ≤ a ∧ a + elem_stride size ≤ b.element + block_bytes size b := by
  unfold block_slots at ha
  obtain ⟨j, hj, rfl⟩ := List.mem_map.mp ha
  have hj2 : j < b.num.toNat := List.mem_range.mp hj
  refine ⟨Nat.le_add_right _ _, ?_⟩
  unfold block_bytes
  have : (j + 1) * elem_stride size ≤ b.num.toNat * elem_stride size :=
    Nat.mul_le_mul_right _ hj2
  have h2 : (j + 1) * elem_stride size = j * elem_stride size + elem_stride size := by ring
  omega

theorem block_slots_nodup (size : Int) (b : memblock_t) : (block_slots size b).Nodup := by
  unfold block_slots
  apply List.Nodup.map_on _ (List.nodup_range _)
  intro x _ y _ hxy
  have hs := elem_stride_pos size
  have : x * elem_stride size = y * elem_stride size := by omega
  exact Nat.eq_of_mul_eq_mul_right hs this

theorem mem_pool_slots {α : Type} {mp : mempool_t α} {a : Nat} :
    a ∈ pool_slots mp ↔ ∃ b ∈ mp.block, a ∈ block_slots mp.size b := by
  unfold pool_slots
  exact List.mem_flatMap

/-- What a successful `alloc_block` returns. -/
theorem alloc_block_some {α : Type} {mp mp1 : mempool_t α} {num : Int} {m : Option Nat}
    {b : memblock_t} (hsz : 0 < mp.size) (h : alloc_block mp num m = some (mp1, b)) :
    0 < num ∧ b.num = num ∧
    mp1 = { mp with
            mem := init_elements (elem_stride mp.size) num.toNat b.element mp.mem,
            not_use := some b.element } ∧
    ∀ b2 ∈ mp.block, blocks_apart mp.size b2 b := by
  unfold alloc_block at h
  cases hm : malloc_block mp (((sizeof_memelement_t : Int) + mp.size) * num) m with
  | none => rw [hm] at h; exact absurd h (by simp)
  | some element =>
    rw [hm] at h
    simp only [Option.some.injEq, Prod.mk.injEq] at h
    obtain ⟨h1, h2⟩ := h
    subst h2
    unfold malloc_block at hm
    cases m with
    | none => exact absurd hm (by simp)
    | some a =>
      simp only at hm
      split at hm
      · next hc =>
        obtain ⟨hb1, _, hb3⟩ := hc
        have hae : a = element := Option.some.inj hm
        subst hae
        have hnum : 0 < num := by
          have h16 : (0 : Int) < (sizeof_memelement_t : Int) + mp.size := by
            unfold sizeof_memelement_t; omega
          by_contra hc
          have hc2 : num ≤ 0 := not_lt.mp hc
          nlinarith
        refine ⟨hnum, rfl, h1.symm, ?_⟩
        intro b2 hb2
        unfold region_free at hb3
        simp only [Bool.and_eq_true, decide_eq_true_eq, List.all_eq_true, Bool.or_eq_true] at hb3
        have hr := hb3.2 b2 hb2
        have hbytes : (((sizeof_memelement_t : Int) + mp.size) * num).toNat
            = block_bytes mp.size { num := num, element := a } := by
          unfold block_bytes elem_stride
          have e1 : ((sizeof_memelement_t : Int) + mp.size) * num
              = ((num.toNat * (sizeof_memelement_t + mp.size.toNat) : Nat) : Int) := by
            push_cast
            rw [Int.toNat_of_nonneg (le_of_lt hnum), Int.toNat_of_nonneg (le_of_lt hsz)]
            ring
          rw [e1, Int.toNat_ofNat]
        rw [hbytes] at hr
        unfold blocks_apart
        rcases hr with hr | hr
        · exact Or.inr hr
        · exact Or.inl hr
      · exact absurd hm (by simp)

/-- The slots of two blocks that are apart are different. -/
theorem block_slots_disjoint {size : Int} {b1 b2 : memblock_t} (h : blocks_apart size b1 b2)
    {a : Nat} (h1 : a ∈ block_slots size b1) : a ∉ block_slots size b2 := by
  intro h2
  have r1 := block_slots_range h1
  have r2 := block_slots_range h2
  have hs := elem_stride_pos size
  unfold blocks_apart at h
  omega

/-- Extension of a pool whose free list is empty: either nothing changes, or a
block of fresh slots is added and its slots form the free list. -/
theorem extend_pool_spec {α : Type} {mp : mempool_t α} (h : PoolInv mp []) (m : Option Nat) :
    extend_pool mp m = mp ∨
    ∃ b, 0 < b.num ∧ PoolInv (extend_pool mp m) (block_slots mp.size b) ∧
      (extend_pool mp m).block = mp.block ++ [b] ∧
      (extend_pool mp m).size = mp.size ∧
      (extend_pool mp m).use_num = mp.use_num ∧
      (extend_pool mp m).mem
        = init_elements (elem_stride mp.size) b.num.toNat b.element mp.mem ∧
      (∀ a ∈ pool_slots mp, a ∉ block_slots mp.size b) := by
  have hnone : mp.not_use = none := h.free_chain
  unfold extend_pool
  simp only [hnone, ne_eq, not_true_eq_false, if_false]
  by_cases hmax : mp.max_num = mp.num
  · simp [hmax]
  · simp only [hmax, if_false]
    cases ha : alloc_block mp
        (if mp.max_num = 0 then mp.num else min mp.num (mp.max_num - mp.num)) m with
    | none => left; rfl
    | some r =>
      obtain ⟨mp1, b⟩ := r
      right
      obtain ⟨hnum, hbn, hmp1, hap⟩ := alloc_block_some h.size_pos ha
      have hdis : ∀ a ∈ pool_slots mp, a ∉ block_slots mp.size b := by
        intro a ha2
        obtain ⟨b2, hb2, hab2⟩ := mem_pool_slots.mp ha2
        exact block_slots_disjoint (hap b2 hb2) hab2
      have hbpos : 0 < b.num := by rw [hbn]; exact hnum
      refine ⟨b, hbpos, ?_, rfl, by rw [hmp1], by rw [hmp1], by rw [hmp1, hbn], hdis⟩
      subst hmp1
      refine ⟨h.size_pos, ?_, ?_, block_slots_nodup _ _, ?_, ?_⟩
      · show (mp.block ++ [b]).Pairwise (blocks_apart mp.size)
        rw [List.pairwise_append]
        refine ⟨h.apart, List.pairwise_singleton _ _, ?_⟩
        intro x hx y hy
        rw [List.mem_singleton] at hy
        rw [hy]; exact hap x hx
      · show Chain _ (some b.element) (block_slots mp.size b)
        have hc := @init_elements_chain α (elem_stride mp.size) (elem_stride_pos _)
          b.num.toNat b.element mp.mem (by omega)
        rw [← hbn]
        exact hc
      · intro a ha2
        apply mem_pool_slots.mpr
        exact ⟨b, by simp, ha2⟩
      · intro a ha2
        unfold block_slots at ha2
        obtain ⟨j, hj, rfl⟩ := List.mem_map.mp ha2
        have := @init_elements_flag α (elem_stride mp.size) b.num.toNat b.element mp.mem j
          (List.mem_range.mp hj)
        rw [← hbn]
        exact this

/-- Taking the head of a non-empty free list. -/
theorem pool_pop_spec {α : Type} {mp : mempool_t α} {e : Nat} {L : List Nat}
    (h : PoolInv mp (e :: L)) :
    PoolInv { mp with
        not_use := (mp.mem e).next,
        mem := mem_write mp.mem e { (mp.mem e) with in_use := 1, next := none },
        use_num := mp.use_num + 1 } L := by
  have hnod := List.nodup_cons.mp h.free_nodup
  have hch : mp.not_use = some e ∧ Chain (fun a => (mp.mem a).next) ((mp.mem e).next) L :=
    h.free_chain
  refine ⟨h.size_pos, h.apart, ?_, hnod.2, ?_, ?_⟩
  · refine Chain_congr ?_ hch.2
    intro b hb
    have : b ≠ e := fun hbe => hnod.1 (hbe ▸ hb)
    simp [mem_write, this]
  · intro a ha
    exact h.free_slot a (List.mem_cons_of_mem e ha)
  · intro a ha
    have : a ≠ e := fun hbe => hnod.1 (hbe ▸ ha)
    simp only [mem_write, this, if_false]
    exact h.free_flag a (List.mem_cons_of_mem e ha)

theorem pool_alloc_eq_take {α : Type} (mp : mempool_t α) (m : Option Nat) :
    pool_alloc mp m = pool_take (if mp.not_use = none then extend_pool mp m else mp) := rfl

theorem IsUser_sub {α : Type} {mp : mempool_t α} {p : Nat} (h : IsUser mp p) :
    sizeof_memelement_t ≤ p ∧ p - sizeof_memelement_t ∈ pool_slots mp := by
  obtain ⟨a, ha, rfl⟩ := h
  refine ⟨Nat.le_add_left _ _, ?_⟩
  have : a + sizeof_memelement_t - sizeof_memelement_t = a := by omega
  rw [this]; exact ha

/-- Taking the head of the free list of a well-formed pool. -/
theorem pool_take_spec {α : Type} {mp : mempool_t α} {L : List Nat} (h : PoolInv mp L) :
    AllocPost mp (pool_take mp).1 (pool_take mp).2 := by
  cases L with
  | nil =>
    have hnone : mp.not_use = none := h.free_chain
    have hr : pool_take mp = (mp, none) := by
      unfold pool_take; rw [hnone]
    rw [hr]
    exact ⟨⟨[], h⟩, rfl, fun _ => rfl, fun a ha => ha, fun _ _ _ => rfl,
      fun p hp => absurd hp (by simp), fun p hp => absurd hp (by simp),
      fun a _ hp => absurd hp (by simp), fun p hp => absurd hp (by simp), fun _ => rfl⟩
  | cons e L =>
    have hsome : mp.not_use = some e := h.free_chain.1
    have hr : pool_take mp = ({ mp with
        not_use := (mp.mem e).next,
        mem := mem_write mp.mem e { (mp.mem e) with in_use := 1, next := none },
        use_num := mp.use_num + 1 }, some (e + sizeof_memelement_t)) := by
      unfold pool_take; rw [hsome]
    rw [hr]
    have he : e ∈ pool_slots mp := h.free_slot e (List.mem_cons_self e L)
    have hsub : e + sizeof_memelement_t - sizeof_memelement_t = e := by omega
    refine ⟨⟨L, pool_pop_spec h⟩, rfl, ?_, fun a ha => ha, ?_, ?_, ?_, ?_, ?_, ?_⟩
    · intro q
      simp only [mempool_t.deref, mem_write]
      split <;> simp_all
    · intro a _ hne
      have : a ≠ e := fun hae => hne (by rw [hae])
      simp [mem_write, this]
    · intro p hp
      simp only [Option.some.injEq] at hp
      exact ⟨e, he, hp.symm⟩
    · intro p hp
      simp only [Option.some.injEq] at hp
      rw [← hp, hsub]
      simp [mem_write]
    · intro a _ hp
      simp only [Option.some.injEq] at hp
      have : a = e := by omega
      rw [this]
      exact h.free_flag e (List.mem_cons_self e L)
    · intro p _; rfl
    · intro hp; exact absurd hp (by simp)

/-- `pool_alloc` on a well-formed pool: the pool stays well formed, user data is
untouched, and a pointer returned names a slot that was not in use. -/
theorem pool_alloc_spec {α : Type} {mp : mempool_t α} {L : List Nat} (h : PoolInv mp L)
    (m : Option Nat) : AllocPost mp (pool_alloc mp m).1 (pool_alloc mp m).2 := by
  rw [pool_alloc_eq_take]
  by_cases hn : mp.not_use = none
  · simp only [hn, if_true]
    have hL : L = [] := by
      cases L with
      | nil => rfl
      | cons e L => exact absurd (h.free_chain.1.symm.trans hn) (by simp)
    subst hL
    rcases extend_pool_spec h m with he | ⟨b, hb, hinv, hblock, hsize, huse, hmem, hdis⟩
    · rw [he]; exact pool_take_spec h
    · have ht := pool_take_spec hinv
      have hslots : ∀ a ∈ pool_slots mp, a ∈ pool_slots (extend_pool mp m) := by
        intro a ha
        obtain ⟨b2, hb2, hab2⟩ := mem_pool_slots.mp ha
        apply mem_pool_slots.mpr
        refine ⟨b2, by rw [hblock]; exact List.mem_append_left _ hb2, by rw [hsize]; exact hab2⟩
      have hold : ∀ a ∈ pool_slots mp, (extend_pool mp m).mem a = mp.mem a := by
        intro a ha
        rw [hmem]
        apply init_elements_other
        intro j hj hc
        apply hdis a ha
        unfold block_slots
        exact List.mem_map.mpr ⟨j, List.mem_range.mpr hj, hc.symm⟩
      have hnew : ∀ p, (pool_take (extend_pool mp m)).2 = some p →
          p - sizeof_memelement_t ∈ block_slots mp.size b := by
        intro p hp
        have hne : block_slots mp.size b ≠ [] := by
          unfold block_slots
          have : 0 < b.num.toNat := by omega
          intro hc
          have hl := congrArg List.length hc
          simp at hl
          omega
        obtain ⟨e, L2, hL2⟩ := List.exists_cons_of_ne_nil hne
        have hhead : (extend_pool mp m).not_use = some e := by
          have := hinv.free_chain
          rw [hL2] at this
          exact this.1
        unfold pool_take at hp
        rw [hhead] at hp
        simp only [Option.some.injEq] at hp
        rw [← hp, hL2]
        have : e + sizeof_memelement_t - sizeof_memelement_t = e := by omega
        rw [this]
        exact List.mem_cons_self e L2
      refine ⟨ht.inv, ht.size_eq.trans hsize, ?_, fun a ha => ht.slots_mono a (hslots a ha),
        ?_, ht.user, ht.flag_new, ?_, ?_, ?_⟩
      · intro q
        rw [ht.deref_eq]
        simp only [mempool_t.deref, hmem, init_elements_data]
      · intro a ha hne
        rw [ht.flag_eq a (hslots a ha) hne, hold a ha]
      · intro a ha hp
        have := hnew _ hp
        have hsub : a + sizeof_memelement_t - sizeof_memelement_t = a := by omega
        rw [hsub] at this
        exact absurd this (hdis a ha)
      · intro p hp
        rw [ht.use_num_eq p hp, huse]
      · intro hp
        have hne : block_slots mp.size b ≠ [] := by
          unfold block_slots
          have : 0 < b.num.toNat := by omega
          intro hc
          have hl := congrArg List.length hc
          simp at hl
          omega
        obtain ⟨e, L2, hL2⟩ := List.exists_cons_of_ne_nil hne
        have hhead : (extend_pool mp m).not_use = some e := by
          have := hinv.free_chain
          rw [hL2] at this
          exact this.1
        unfold pool_take at hp
        rw [hhead] at hp
        exact absurd hp (by simp)
  · simp only [hn, if_false]
    exact pool_take_spec h

/-! ### Elements of the queue -/

theorem deref_store {α : Type} (mp : mempool_t α) (p q : Nat) (v : α) :
    (mp.store p v).deref q
      = if q - sizeof_memelement_t = p - sizeof_memelement_t then v else mp.deref q := by
  simp only [mempool_t.store, mempool_t.deref, mem_write]
  split <;> rfl

theorem elem_set_elem {δ : Type} (msg : messageheader_t δ) (p q : Nat) (v : element_t δ) :
    (msg.set_elem p v).elem q
      = if q - sizeof_memelement_t = p - sizeof_memelement_t then v else msg.elem q := by
  simp only [messageheader_t.set_elem, messageheader_t.elem, deref_store]

theorem elem_set_elem_same {δ : Type} (msg : messageheader_t δ) (p : Nat) (v : element_t δ) :
    (msg.set_elem p v).elem p = v := by
  rw [elem_set_elem]; simp

theorem elem_set_elem_ne {δ : Type} (msg : messageheader_t δ) {p q : Nat} (v : element_t δ)
    (hp : sizeof_memelement_t ≤ p) (hq : sizeof_memelement_t ≤ q) (h : q ≠ p) :
    (msg.set_elem p v).elem q = msg.elem q := by
  rw [elem_set_elem]
  have : q - sizeof_memelement_t ≠ p - sizeof_memelement_t := by omega
  simp [this]

theorem QInv.ge {δ : Type} {msg : messageheader_t δ} {F : List Nat} (h : QInv msg F)
    {e : Nat} (he : e ∈ F) : sizeof_memelement_t ≤ e :=
  (IsUser_sub (h.user e he)).1

/-- Appending `x` to a chain: the link of the old last element is set to `x` and
the link of `x` to `NULL`, the other links are kept. -/
theorem Chain_snoc {nxt nxt2 : Nat → Option Nat} {l : List Nat} {x : Nat} {p : Option Nat}
    (h : Chain nxt p l) (hnd : l.Nodup) (hx : x ∉ l) (hxn : nxt2 x = none)
    (hkeep : ∀ a ∈ l, l.getLast? ≠ some a → nxt2 a = nxt a)
    (hlast : ∀ a, l.getLast? = some a → nxt2 a = some x) :
    Chain nxt2 (if l = [] then some x else p) (l ++ [x]) := by
  by_cases hl : l = []
  · subst hl
    simp only [if_true, List.nil_append]
    exact ⟨rfl, hxn⟩
  · simp only [hl, if_false]
    obtain ⟨a, ha⟩ : ∃ a, l.getLast? = some a := by
      cases hg : l.getLast? with
      | none => exact absurd (List.getLast?_eq_none_iff.mp hg) hl
      | some a => exact ⟨a, rfl⟩
    obtain ⟨l0, rfl⟩ := exists_snoc_of_getLast? ha
    obtain ⟨q, hseg, hch⟩ := Chain_split h
    have hnd2 := List.nodup_append.mp hnd
    have hal0 : a ∉ l0 := fun hm => by
      have := hnd2.2.2
      exact (List.disjoint_left.mp this) hm (List.mem_singleton_self a)
    have hseg2 : Seg nxt2 p l0 q := by
      refine Seg_congr ?_ hseg
      intro b hb
      apply hkeep b (List.mem_append_left _ hb)
      rw [ha]
      intro hc
      have : a = b := Option.some.inj hc
      exact hal0 (this ▸ hb)
    rw [List.append_assoc]
    refine Seg_chain hseg2 ?_
    have hq : q = some a := hch.1
    exact ⟨hq, hlast a ha, hxn⟩

/-! ### `message_find` -/

theorem find_loop_spec {δ : Type} (msg : messageheader_t δ) (key : Nat) :
    ∀ (l : List Nat) (fuel : Nat) (p : Option Nat),
      Chain (fun e => (msg.elem e).hashnext) p l → l.length < fuel →
      find_loop msg key fuel p
        = some (l.find? (fun e => decide (key = (msg.elem e).key))) := by
  intro l
  induction l with
  | nil =>
    intro fuel p h hf
    rw [Chain_nil] at h; subst h
    cases fuel with
    | zero => simp at hf
    | succ fuel => rfl
  | cons a l ih =>
    intro fuel p h hf
    rw [Chain_cons] at h
    obtain ⟨hp, hrest⟩ := h
    subst hp
    cases fuel with
    | zero => simp at hf
    | succ fuel =>
      rw [find_loop]
      by_cases hk : key = (msg.elem a).key
      · simp [hk]
      · simp only [hk, if_false]
        rw [ih fuel _ hrest (by simpa using hf)]
        simp [List.find?_cons, hk]

/-- The element a list search from the newest end finds. -/
theorem find?_reverse_filter (F : List Nat) (q r : Nat → Bool) (h : ∀ e, r e = true → q e = true) :
    (F.filter q).reverse.find? r = F.reverse.find? r := by
  induction F with
  | nil => rfl
  | cons a F ih =>
    by_cases hq : q a = true
    · rw [List.filter_cons_of_pos hq]
      simp only [List.reverse_cons, List.find?_append, ih]
    · have hr : r a = false := by
        cases hra : r a with
        | false => rfl
        | true => exact absurd (h a hra) hq
      rw [List.filter_cons_of_neg hq]
      simp only [List.reverse_cons, List.find?_append, ih]
      simp [List.find?_cons, hr]

/-- `message_find` on a well-formed queue returns the element with the key that
was appended last. -/
theorem message_find_spec {δ : Type} {msg : messageheader_t δ} {F : List Nat} (h : QInv msg F)
    (key fuel : Nat) (hf : F.length < fuel) :
    message_find fuel msg key
      = some (F.reverse.find? (fun e => decide (key = (msg.elem e).key))) := by
  unfold message_find __message_find
  have hc := h.hash (bucket_index msg key)
  rw [find_loop_spec msg key _ fuel _ hc]
  · rw [find?_reverse_filter]
    intro e he
    have : key = (msg.elem e).key := of_decide_eq_true he
    simp [← this]
  · rw [List.length_reverse]
    exact lt_of_le_of_lt (List.length_filter_le _ _) hf

/-! ### `message_create` and `message_add` -/

/-- A pool created by `init_pool_with_max` is well formed; its free list is the
slots of its only block. -/
theorem init_pool_with_max_spec {α : Type} {dflt : α} {size num max_num : Int} {m : Option Nat}
    {mp : mempool_t α} (h : init_pool_with_max dflt size num max_num m = some mp) :
    ∃ b, PoolInv mp (block_slots size b) ∧ mp.block = [b] ∧ b.num = num ∧ mp.use_num = 0 ∧
      mp.num = num ∧ mp.size = size ∧ mp.max_num = max_num ∧ 0 < num := by
  unfold init_pool_with_max at h
  by_cases hc : size ≤ 0 ∨ num ≤ 0
  · simp [hc] at h
  · simp only [hc, if_false] at h
    have hsz : 0 < size := by omega
    have hn : 0 < num := by omega
    split at h
    · exact absurd h (by simp)
    · next mp1 b ha =>
      simp only [Option.some.injEq] at h
      obtain ⟨_, hbn, hmp1, _⟩ := alloc_block_some (by exact hsz) ha
      subst hmp1
      subst h
      refine ⟨b, ⟨hsz, List.pairwise_singleton _ _, ?_, block_slots_nodup _ _, ?_, ?_⟩,
        rfl, hbn, rfl, rfl, rfl, rfl, hn⟩
      · show Chain _ (some b.element) (block_slots size b)
        have hc2 := @init_elements_chain α (elem_stride size) (elem_stride_pos _)
          b.num.toNat b.element (mem_init dflt) (by omega)
        rw [← hbn]
        exact hc2
      · intro a ha2
        apply mem_pool_slots.mpr
        exact ⟨b, by simp, ha2⟩
      · intro a ha2
        unfold block_slots at ha2
        obtain ⟨j, hj, rfl⟩ := List.mem_map.mp ha2
        have := @init_elements_flag α (elem_stride size) b.num.toNat b.element
          (mem_init dflt) j (List.mem_range.mp hj)
        rw [← hbn]
        exact this

/-- A queue made by `message_create` is well formed and empty. -/
theorem QInv_create {δ : Type} {dflt : δ} {basenum datasize initial_num : Int} {m : Option Nat}
    {msg : messageheader_t δ} (hb : 0 < basenum)
    (h : message_create dflt basenum datasize initial_num m = some msg) : QInv msg [] := by
  unfold message_create init_pool at h
  cases hp : init_pool_with_max (⟨none, none, 0, dflt⟩ : element_t δ)
      (sizeof_element_t + datasize) initial_num 0 m with
  | none => rw [hp] at h; exact absurd h (by simp)
  | some pool =>
    rw [hp] at h
    simp only [Option.some.injEq] at h
    subst h
    obtain ⟨b, hinv, _⟩ := init_pool_with_max_spec hp
    exact ⟨⟨_, hinv⟩, hb, fun e he => absurd he (List.not_mem_nil e),
      fun e he => absurd he (List.not_mem_nil e), List.nodup_nil, rfl, rfl, fun i => rfl⟩

theorem filter_snoc_reverse (F : List Nat) (x : Nat) (q : Nat → Bool) :
    ((F ++ [x]).filter q).reverse = (if q x = true then [x] else []) ++ (F.filter q).reverse := by
  rw [List.filter_append, List.reverse_append]
  by_cases hq : q x = true
  · simp [List.filter_cons, hq]
  · simp [List.filter_cons, hq]

/-- Linking a fresh element `p` with key `key` at the tail of the FIFO list and
at the head of its hash chain gives a well-formed queue. -/
theorem QInv_link {δ : Type} {msg msg2 : messageheader_t δ} {F : List Nat} (h : QInv msg F)
    {p key : Nat}
    (hpool : ∃ L, PoolInv msg2.element_a L)
    (hbase : msg2.basenum = msg.basenum)
    (huser : ∀ e ∈ F, IsUser msg2.element_a e)
    (hused : ∀ e ∈ F, (msg2.element_a.mem (e - sizeof_memelement_t)).in_use ≠ 0)
    (hpuser : IsUser msg2.element_a p)
    (hpused : (msg2.element_a.mem (p - sizeof_memelement_t)).in_use ≠ 0)
    (hpF : p ∉ F)
    (hkey : ∀ e ∈ F, (msg2.elem e).key = (msg.elem e).key)
    (hhash : ∀ e ∈ F, (msg2.elem e).hashnext = (msg.elem e).hashnext)
    (hnext : ∀ e ∈ F, F.getLast? ≠ some e → (msg2.elem e).next = (msg.elem e).next)
    (hlast : ∀ l, F.getLast? = some l → (msg2.elem l).next = some p)
    (hpkey : (msg2.elem p).key = key)
    (hpnext : (msg2.elem p).next = none)
    (hphash : (msg2.elem p).hashnext = msg.element (bucket_index msg key))
    (htop : msg2.top = if F = [] then some p else msg.top)
    (hlast2 : msg2.last = some p)
    (helement : msg2.element = mem_write msg.element (bucket_index msg key) (some p)) :
    QInv msg2 (F ++ [p]) := by
  have hbi : ∀ k, bucket_index msg2 k = bucket_index msg k := by
    intro k; unfold bucket_index; rw [hbase]
  refine ⟨hpool, by rw [hbase]; exact h.base_pos, ?_, ?_, ?_, ?_, ?_, ?_⟩
  · intro e he
    rcases List.mem_append.mp he with he | he
    · exact huser e he
    · rw [List.mem_singleton.mp he]; exact hpuser
  · intro e he
    rcases List.mem_append.mp he with he | he
    · exact hused e he
    · rw [List.mem_singleton.mp he]; exact hpused
  · rw [List.nodup_append]
    refine ⟨h.nodup, List.nodup_singleton p, ?_⟩
    intro a ha hb
    rw [List.mem_singleton] at hb
    exact hpF (hb ▸ ha)
  · rw [htop]
    exact Chain_snoc h.fifo h.nodup hpF hpnext hnext hlast
  · rw [hlast2]; simp
  · intro i
    rw [filter_snoc_reverse]
    have hfilter : F.filter (fun e => decide (bucket_index msg2 (msg2.elem e).key = i))
        = F.filter (fun e => decide (bucket_index msg (msg.elem e).key = i)) := by
      apply List.filter_congr
      intro e he
      rw [hbi, hkey e he]
    rw [hfilter]
    have hold : Chain (fun e => (msg2.elem e).hashnext) (msg.element i)
        (F.filter (fun e => decide (bucket_index msg (msg.elem e).key = i))).reverse := by
      refine Chain_congr ?_ (h.hash i)
      intro a ha
      have : a ∈ F := List.mem_of_mem_filter (List.mem_reverse.mp ha)
      exact hhash a this
    rw [hbi, hpkey, helement]
    by_cases hi : bucket_index msg key = i
    · subst hi
      simp only [decide_True, if_true, List.singleton_append, mem_write_same]
      exact ⟨rfl, by show Chain _ (msg2.elem p).hashnext _; rw [hphash]; exact hold⟩
    · have hi2 : i ≠ bucket_index msg key := fun hc => hi hc.symm
      simp only [hi, decide_False, Bool.false_eq_true, if_false, List.nil_append]
      rw [mem_write_ne _ _ hi2]
      exact hold

theorem store_slots {α : Type} (mp : mempool_t α) (p : Nat) (v : α) :
    pool_slots (mp.store p v) = pool_slots mp := rfl

theorem ne_sub_of_ne {p q : Nat} (hp : sizeof_memelement_t ≤ p) (hq : sizeof_memelement_t ≤ q)
    (h : q ≠ p) : ¬ (q - sizeof_memelement_t = p - sizeof_memelement_t) := by
  omega

/-- `message_add` on a well-formed queue: when the pool gives no slot nothing
changes; otherwise the new element is fresh, carries the key and is appended at
the end of the FIFO order, and the keys and payloads of the other elements are
kept. -/
theorem message_add_spec {δ : Type} {msg : messageheader_t δ} {F : List Nat} (h : QInv msg F)
    (key : Nat) (m : Option Nat) :
    ((message_add msg key m).2 = none → (message_add msg key m).1 = msg) ∧
    (message_add msg key m).1.basenum = msg.basenum ∧
    (∀ e ∈ F, ((message_add msg key m).1.elem e).key = (msg.elem e).key ∧
        ((message_add msg key m).1.elem e).data = (msg.elem e).data) ∧
    ∀ p, (message_add msg key m).2 = some p →
      p ∉ F ∧ QInv (message_add msg key m).1 (F ++ [p]) ∧
      ((message_add msg key m).1.elem p).key = key ∧
      ((message_add msg key m).1.elem p).data = (msg.elem p).data ∧
      (message_add msg key m).1.element_a.use_num = msg.element_a.use_num + 1 := by
  obtain ⟨L, hL⟩ := h.pool
  have hpost := pool_alloc_spec hL m
  cases hr : pool_alloc msg.element_a m with
  | mk pool r =>
    rw [hr] at hpost
    simp only at hpost
    cases r with
    | none =>
      have hm : message_add msg key m = ({ msg with element_a := pool }, none) := by
        unfold message_add; rw [hr]
      rw [hm]
      have hpm : pool = msg.element_a := hpost.fail rfl
      subst hpm
      exact ⟨fun _ => rfl, rfl, fun e _ => ⟨rfl, rfl⟩, fun p hp => absurd hp (by simp)⟩
    | some p =>
      have hp16 : sizeof_memelement_t ≤ p := (IsUser_sub (hpost.user p rfl)).1
      have hpF : p ∉ F := by
        intro hin
        obtain ⟨a, ha, hpa⟩ := h.user p hin
        have h0 := hpost.fresh a ha (by rw [hpa])
        have hu := h.used p hin
        have hsub : a + sizeof_memelement_t - sizeof_memelement_t = a := by omega
        rw [hpa, hsub] at hu
        exact hu h0
      have hF16 : ∀ e ∈ F, sizeof_memelement_t ≤ e := fun e he => h.ge he
      have hFp : ∀ e ∈ F, ¬ (e - sizeof_memelement_t = p - sizeof_memelement_t) :=
        fun e he => ne_sub_of_ne hp16 (hF16 e he) (fun hc => hpF (hc ▸ he))
      have huserF : ∀ e ∈ F, IsUser pool e := by
        intro e he
        obtain ⟨a, ha, hea⟩ := h.user e he
        exact ⟨a, hpost.slots_mono a ha, hea⟩
      have husedF : ∀ e ∈ F, (pool.mem (e - sizeof_memelement_t)).in_use ≠ 0 := by
        intro e he
        obtain ⟨a, ha, hea⟩ := h.user e he
        have hsub : a + sizeof_memelement_t - sizeof_memelement_t = a := by omega
        have hne : some p ≠ some (a + sizeof_memelement_t) := by
          intro hc
          exact hpF ((Option.some.inj hc) ▸ hea ▸ he)
        have := hpost.flag_eq a ha hne
        have hu := h.used e he
        rw [hea, hsub] at hu ⊢
        rw [this]; exact hu
      have hderef : ∀ q, pool.deref q = msg.elem q := hpost.deref_eq
      cases hl : msg.last with
      | none =>
        have hFnil : F = [] := by
          have := h.last_eq
          rw [hl] at this
          exact List.getLast?_eq_none_iff.mp this.symm
        have hm : message_add msg key m
            = ({ msg with
                  element_a := pool.store p
                    { (pool.deref p) with
                      key := key, next := none, hashnext := msg.element (bucket_index msg key) },
                  element := mem_write msg.element (bucket_index msg key) (some p),
                  top := some p, last := some p }, some p) := by
          unfold message_add; rw [hr]; simp only [hl]
        rw [hm]
        subst hFnil
        refine ⟨fun hc => absurd hc (by simp), rfl, fun e he => absurd he (List.not_mem_nil e), ?_⟩
        intro p2 hp2
        simp only [Option.some.injEq] at hp2
        subst hp2
        refine ⟨hpF, ?_, ?_, ?_, hpost.use_num_eq p rfl⟩
        · refine QInv_link h ⟨_, PoolInv_store hpost.inv.choose_spec _ _⟩ rfl
            (fun e he => absurd he (List.not_mem_nil e))
            (fun e he => absurd he (List.not_mem_nil e)) (hpost.user p rfl) ?_ hpF
            (fun e he => absurd he (List.not_mem_nil e))
            (fun e he => absurd he (List.not_mem_nil e))
            (fun e he => absurd he (List.not_mem_nil e))
            (fun l hl2 => absurd hl2 (by simp)) ?_ ?_ ?_ (by simp) rfl rfl
          · rw [store_in_use, hpost.flag_new p rfl]; decide
          · simp [messageheader_t.elem, deref_store]
          · simp [messageheader_t.elem, deref_store]
          · simp [messageheader_t.elem, deref_store]
        · simp [messageheader_t.elem, deref_store]
        · simp [messageheader_t.elem, deref_store, hderef]
      | some l =>
        have hlF : l ∈ F := by
          have := h.last_eq
          rw [hl] at this
          exact List.mem_of_getLast?_eq_some this.symm
        have hFne : F ≠ [] := List.ne_nil_of_mem hlF
        have hlast : F.getLast? = some l := by rw [← hl]; exact h.last_eq.symm
        have hm : message_add msg key m
            = ({ msg with
                  element_a := (pool.store p
                    { (pool.deref p) with
                      key := key, next := none,
                      hashnext := msg.element (bucket_index msg key) }).store l
                    { ((pool.store p
                        { (pool.deref p) with
                          key := key, next := none,
                          hashnext := msg.element (bucket_index msg key) }).deref l) with
                      next := some p },
                  element := mem_write msg.element (bucket_index msg key) (some p),
                  last := some p }, some p) := by
          unfold message_add; rw [hr]
          simp only [hl, messageheader_t.set_elem, messageheader_t.elem]
        rw [hm]
        have hlp := hFp l hlF
        have hpl : ¬ (p - sizeof_memelement_t = l - sizeof_memelement_t) := fun hc => hlp hc.symm
        refine ⟨fun hc => absurd hc (by simp), rfl, ?_, ?_⟩
        · intro e he
          have hep := hFp e he
          by_cases hel : e - sizeof_memelement_t = l - sizeof_memelement_t
          · have : e = l := by have := hF16 e he; have := hF16 l hlF; omega
            subst this
            simp [messageheader_t.elem, deref_store, hep, hderef]
          · simp [messageheader_t.elem, deref_store, hep, hel, hderef]
        · intro p2 hp2
          simp only [Option.some.injEq] at hp2
          subst hp2
          refine ⟨hpF, ?_, ?_, ?_, hpost.use_num_eq p rfl⟩
          · refine QInv_link h
              ⟨_, PoolInv_store (PoolInv_store hpost.inv.choose_spec _ _) _ _⟩ rfl
              huserF ?_ (hpost.user p rfl) ?_ hpF ?_ ?_ ?_ ?_ ?_ ?_ ?_ (by simp [hFne]) rfl rfl
            · intro e he
              rw [store_in_use, store_in_use]; exact husedF e he
            · rw [store_in_use, store_in_use, hpost.flag_new p rfl]; decide
            · intro e he
              have hep := hFp e he
              by_cases hel : e - sizeof_memelement_t = l - sizeof_memelement_t
              · have : e = l := by have := hF16 e he; have := hF16 l hlF; omega
                subst this
                simp [messageheader_t.elem, deref_store, hep, hderef]
              · simp [messageheader_t.elem, deref_store, hep, hel, hderef]
            · intro e he
              have hep := hFp e he
              by_cases hel : e - sizeof_memelement_t = l - sizeof_memelement_t
              · have : e = l := by have := hF16 e he; have := hF16 l hlF; omega
                subst this
                simp [messageheader_t.elem, deref_store, hep, hderef]
              · simp [messageheader_t.elem, deref_store, hep, hel, hderef]
            · intro e he hne
              have hep := hFp e he
              have hel : ¬ (e - sizeof_memelement_t = l - sizeof_memelement_t) := by
                intro hc
                have : e = l := by have := hF16 e he; have := hF16 l hlF; omega
                exact hne (by rw [hlast, this])
              simp [messageheader_t.elem, deref_store, hep, hel, hderef]
            · intro l2 hl2
              rw [hlast] at hl2
              have : l = l2 := Option.some.inj hl2
              subst this
              simp [messageheader_t.elem, deref_store]
            · simp [messageheader_t.elem, deref_store, hpl]
            · simp [messageheader_t.elem, deref_store, hpl]
            · simp [messageheader_t.elem, deref_store, hpl]
          · simp [messageheader_t.elem, deref_store, hpl]
          · simp [messageheader_t.elem, deref_store, hpl, hderef]

/-! ### `message_delete_one` -/

theorem delete_one_loop_spec {δ : Type} (msg : messageheader_t δ) (e idx : Nat) :
    ∀ (l1 : List Nat) (fuel : Nat) (prev cur : Option Nat),
      Seg (fun a => (msg.elem a).hashnext) cur l1 (some e) → e ∉ l1 → l1.length < fuel →
      delete_one_loop e idx fuel msg prev cur
        = some (unlink_hash msg idx (if l1 = [] then prev else l1.getLast?) e) := by
  intro l1
  induction l1 with
  | nil =>
    intro fuel prev cur h _ hf
    rw [Seg_nil] at h; subst h
    cases fuel with
    | zero => simp at hf
    | succ fuel =>
      simp only [delete_one_loop, if_true]
      cases prev <;> rfl
  | cons a l1 ih =>
    intro fuel prev cur h hne hf
    rw [Seg_cons] at h
    obtain ⟨hc, hrest⟩ := h
    subst hc
    cases fuel with
    | zero => simp at hf
    | succ fuel =>
      have hea : e ≠ a := fun hc => hne (hc ▸ List.mem_cons_self _ _)
      simp only [delete_one_loop, hea, if_false]
      rw [ih fuel (some a) _ hrest (fun hm => hne (List.mem_cons_of_mem a hm))
        (by simpa using hf)]
      congr 2
      cases l1 with
      | nil => simp
      | cons b l1 => simp [List.getLast?_cons_cons]

theorem unlink_hash_frame {δ : Type} (msg : messageheader_t δ) (idx : Nat) (pred : Option Nat)
    (e : Nat) :
    (unlink_hash msg idx pred e).top = msg.top ∧ (unlink_hash msg idx pred e).last = msg.last ∧
    (unlink_hash msg idx pred e).basenum = msg.basenum ∧
    (unlink_hash msg idx pred e).element_a.size = msg.element_a.size ∧
    (unlink_hash msg idx pred e).element_a.block = msg.element_a.block ∧
    (unlink_hash msg idx pred e).element_a.not_use = msg.element_a.not_use ∧
    (unlink_hash msg idx pred e).element_a.use_num = msg.element_a.use_num ∧
    (∀ a, ((unlink_hash msg idx pred e).element_a.mem a).in_use = (msg.element_a.mem a).in_use) ∧
    (∀ a, ((unlink_hash msg idx pred e).element_a.mem a).next = (msg.element_a.mem a).next) ∧
    (∀ q, ((unlink_hash msg idx pred e).elem q).key = (msg.elem q).key) ∧
    (∀ q, ((unlink_hash msg idx pred e).elem q).data = (msg.elem q).data) ∧
    (∀ q, ((unlink_hash msg idx pred e).elem q).next = (msg.elem q).next) := by
  cases pred with
  | none =>
    exact ⟨rfl, rfl, rfl, rfl, rfl, rfl, rfl, fun _ => rfl, fun _ => rfl, fun _ => rfl,
      fun _ => rfl, fun _ => rfl⟩
  | some p =>
    refine ⟨rfl, rfl, rfl, rfl, rfl, rfl, rfl, fun a => store_in_use _ _ _ a,
      fun a => store_next _ _ _ a, ?_, ?_, ?_⟩
    · intro q
      simp only [unlink_hash, elem_set_elem]
      split
      · next hq =>
        simp only [messageheader_t.elem, mempool_t.deref, hq]
      · rfl
    · intro q
      simp only [unlink_hash, elem_set_elem]
      split
      · next hq =>
        simp only [messageheader_t.elem, mempool_t.deref, hq]
      · rfl
    · intro q
      simp only [unlink_hash, elem_set_elem]
      split
      · next hq =>
        simp only [messageheader_t.elem, mempool_t.deref, hq]
      · rfl

theorem unlink_hash_pool {δ : Type} {msg : messageheader_t δ} {L : List Nat}
    (h : PoolInv msg.element_a L) (idx : Nat) (pred : Option Nat) (e : Nat) :
    PoolInv (unlink_hash msg idx pred e).element_a L := by
  obtain ⟨_, _, _, h4, h5, h6, _, h8, h9, _⟩ := unlink_hash_frame msg idx pred e
  exact PoolInv_congr h h4 h5 h6 h8 h9

theorem unlink_hash_slots {δ : Type} (msg : messageheader_t δ) (idx : Nat) (pred : Option Nat)
    (e : Nat) : pool_slots (unlink_hash msg idx pred e).element_a = pool_slots msg.element_a := by
  obtain ⟨_, _, _, h4, h5, _⟩ := unlink_hash_frame msg idx pred e
  simp [pool_slots, h4, h5]

/-- The hash chains after `unlink_hash`: the chain of `idx` loses `e`, the other
chains are kept.  `B0` and `B1` are the parts of the chain before and after `e`. -/
theorem unlink_hash_chain {δ : Type} {msg : messageheader_t δ} {idx e : Nat} {B0 B1 : List Nat}
    (hch : Chain (fun a => (msg.elem a).hashnext) (msg.element idx) (B0 ++ e :: B1))
    (hnd : (B0 ++ e :: B1).Nodup) (hge : ∀ a ∈ B0 ++ e :: B1, sizeof_memelement_t ≤ a) :
    Chain (fun a => ((unlink_hash msg idx B0.getLast? e).elem a).hashnext)
      ((unlink_hash msg idx B0.getLast? e).element idx) (B0 ++ B1) := by
  obtain ⟨q, hseg, hrest⟩ := Chain_split hch
  rw [Chain_cons] at hrest
  obtain ⟨hq, hB1⟩ := hrest
  subst hq
  have hnd2 := List.nodup_append.mp hnd
  have hnd3 := List.nodup_cons.mp hnd2.2.1
  cases hB : B0.getLast? with
  | none =>
    have hB0 : B0 = [] := List.getLast?_eq_none_iff.mp hB
    subst hB0
    simp only [List.nil_append, unlink_hash, mem_write_same]
    exact hB1
  | some p =>
    obtain ⟨B00, rfl⟩ := exists_snoc_of_getLast? hB
    have hpB00 : p ∉ B00 := by
      have := (List.nodup_append.mp hnd2.1).2.2
      intro hm
      exact (List.disjoint_left.mp this) hm (List.mem_singleton_self p)
    have hp16 : sizeof_memelement_t ≤ p := hge p (by simp)
    have hne : ∀ a ∈ B00 ++ e :: B1, a ≠ p := by
      intro a ha hc
      subst hc
      rcases List.mem_append.mp ha with ha | ha
      · exact hpB00 ha
      · have := hnd2.2.2
        exact (List.disjoint_left.mp this) (by simp) ha
    have hhn : ∀ a ∈ B00 ++ e :: B1,
        ((unlink_hash msg idx (some p) e).elem a).hashnext = (msg.elem a).hashnext := by
      intro a ha
      have ha16 : sizeof_memelement_t ≤ a := hge a (by
        rcases List.mem_append.mp ha with ha | ha
        · exact List.mem_append_left _ (List.mem_append_left _ ha)
        · exact List.mem_append_right _ ha)
      simp only [unlink_hash]
      rw [elem_set_elem_ne _ _ hp16 ha16 (hne a ha)]
    have hp : ((unlink_hash msg idx (some p) e).elem p).hashnext = (msg.elem e).hashnext := by
      simp only [unlink_hash, elem_set_elem_same]
    have hseg2 : Seg (fun a => ((unlink_hash msg idx (some p) e).elem a).hashnext)
        (msg.element idx) (B00 ++ [p]) ((msg.elem e).hashnext) :=
      Seg_retarget hseg hpB00 (fun a ha => hhn a (List.mem_append_left _ ha)) hp
    have hB1' : Chain (fun a => ((unlink_hash msg idx (some p) e).elem a).hashnext)
        ((msg.elem e).hashnext) B1 := by
      refine Chain_congr ?_ hB1
      intro a ha
      exact hhn a (List.mem_append_right _ (List.mem_cons_of_mem e ha))
    exact Seg_chain hseg2 hB1'

/-- The queue `message_delete_one` hands to its hash loop: `top` moved to the
second element and `last` cleared when the head was the only element. -/
theorem message_delete_one_eq {δ : Type} (msg : messageheader_t δ) (fuel e : Nat)
    (htop : msg.top = some e) :
    message_delete_one fuel msg
      = match delete_one_loop e (bucket_index msg (msg.elem e).key) fuel
          { msg with last := (if msg.last = some e then none else msg.last),
                     top := (msg.elem e).next } none
          (msg.element (bucket_index msg (msg.elem e).key)) with
        | none => none
        | some msg3 => some { msg3 with element_a := pool_free msg3.element_a e } := by
  unfold message_delete_one
  rw [htop]
  by_cases hl : msg.last = some e
  · simp only [hl, if_true]; rfl
  · simp only [hl, if_false]; rfl

/-- `message_delete_one` on a well-formed, non-empty queue removes the oldest
element and keeps the keys and payloads of the others. -/
theorem message_delete_one_spec {δ : Type} {msg : messageheader_t δ} {e : Nat} {F : List Nat}
    (h : QInv msg (e :: F)) (fuel : Nat) (hf : F.length + 1 < fuel) :
    ∃ msg2, message_delete_one fuel msg = some msg2 ∧ QInv msg2 F ∧
      msg2.basenum = msg.basenum ∧
      (∀ q, (msg2.elem q).key = (msg.elem q).key) ∧
      (∀ q, (msg2.elem q).data = (msg.elem q).data) ∧
      msg2.element_a.use_num = msg.element_a.use_num - 1 := by
  have htop : msg.top = some e := h.fifo.1
  have hfifo : Chain (fun a => (msg.elem a).next) ((msg.elem e).next) F := h.fifo.2
  have hnd := List.nodup_cons.mp h.nodup
  have hB := h.hash (bucket_index msg (msg.elem e).key)
  rw [List.filter_cons_of_pos (by simp), List.reverse_cons] at hB
  have hBnd : ((F.filter (fun a => decide (bucket_index msg (msg.elem a).key
      = bucket_index msg (msg.elem e).key))).reverse ++ [e]).Nodup := by
    rw [List.nodup_append]
    refine ⟨List.nodup_reverse.mpr (hnd.2.filter _), List.nodup_singleton e, ?_⟩
    intro a ha hb
    rw [List.mem_singleton] at hb
    subst hb
    exact hnd.1 (List.mem_of_mem_filter (List.mem_reverse.mp ha))
  have hBge : ∀ a ∈ (F.filter (fun a => decide (bucket_index msg (msg.elem a).key
      = bucket_index msg (msg.elem e).key))).reverse ++ [e], sizeof_memelement_t ≤ a := by
    intro a ha
    rcases List.mem_append.mp ha with ha | ha
    · exact h.ge (List.mem_cons_of_mem e (List.mem_of_mem_filter (List.mem_reverse.mp ha)))
    · rw [List.mem_singleton.mp ha]; exact h.ge (List.mem_cons_self e F)
  obtain ⟨q, hseg, hq⟩ := Chain_split hB
  have hqe : q = some e := hq.1
  subst hqe
  have heB : e ∉ (F.filter (fun a => decide (bucket_index msg (msg.elem a).key
      = bucket_index msg (msg.elem e).key))).reverse := by
    intro hm
    exact hnd.1 (List.mem_of_mem_filter (List.mem_reverse.mp hm))
  have hlen : ((F.filter (fun a => decide (bucket_index msg (msg.elem a).key
      = bucket_index msg (msg.elem e).key))).reverse).length < fuel := by
    rw [List.length_reverse]
    exact lt_of_le_of_lt (List.length_filter_le _ _) (by omega)
  have hloop := delete_one_loop_spec
    ({ msg with last := (if msg.last = some e then none else msg.last),
                top := (msg.elem e).next } : messageheader_t δ)
    e (bucket_index msg (msg.elem e).key) _ fuel none _ hseg heB hlen
  have hpred : (if (F.filter (fun a => decide (bucket_index msg (msg.elem a).key
        = bucket_index msg (msg.elem e).key))).reverse = [] then (none : Option Nat)
      else ((F.filter (fun a => decide (bucket_index msg (msg.elem a).key
        = bucket_index msg (msg.elem e).key))).reverse).getLast?)
      = ((F.filter (fun a => decide (bucket_index msg (msg.elem a).key
        = bucket_index msg (msg.elem e).key))).reverse).getLast? := by
    split
    · next hc => rw [hc]; rfl
    · rfl
  rw [hpred] at hloop
  rw [message_delete_one_eq msg fuel e htop]
  have hch := @unlink_hash_chain δ ({ msg with
      last := (if msg.last = some e then none else msg.last),
      top := (msg.elem e).next } : messageheader_t δ) _ _ _ [] hB hBnd hBge
  rw [List.append_nil] at hch
  obtain ⟨f1, f2, f3, f4, f5, f6, f7, f8, f9, f10, f11, f12⟩ := unlink_hash_frame
    ({ msg with last := (if msg.last = some e then none else msg.last),
                top := (msg.elem e).next } : messageheader_t δ)
    (bucket_index msg (msg.elem e).key)
    ((F.filter (fun a => decide (bucket_index msg (msg.elem a).key
        = bucket_index msg (msg.elem e).key))).reverse).getLast? e
  have hslots := unlink_hash_slots
    ({ msg with last := (if msg.last = some e then none else msg.last),
                top := (msg.elem e).next } : messageheader_t δ)
    (bucket_index msg (msg.elem e).key)
    ((F.filter (fun a => decide (bucket_index msg (msg.elem a).key
        = bucket_index msg (msg.elem e).key))).reverse).getLast? e
  obtain ⟨L, hL⟩ := h.pool
  have hpool3 := @unlink_hash_pool δ ({ msg with
      last := (if msg.last = some e then none else msg.last),
      top := (msg.elem e).next } : messageheader_t δ) L hL
    (bucket_index msg (msg.elem e).key)
    ((F.filter (fun a => decide (bucket_index msg (msg.elem a).key
        = bucket_index msg (msg.elem e).key))).reverse).getLast? e
  generalize hm3 : unlink_hash
    ({ msg with last := (if msg.last = some e then none else msg.last),
                top := (msg.elem e).next } : messageheader_t δ)
    (bucket_index msg (msg.elem e).key)
    ((F.filter (fun a => decide (bucket_index msg (msg.elem a).key
        = bucket_index msg (msg.elem e).key))).reverse).getLast? e = msg3 at *
  rw [hloop]
  have heuser : IsUser msg3.element_a e := by
    obtain ⟨a, ha, hea⟩ := h.user e (List.mem_cons_self e F)
    exact ⟨a, by rw [hslots]; exact ha, hea⟩
  have heused : (msg3.element_a.mem (e - sizeof_memelement_t)).in_use ≠ 0 := by
    rw [f8]; exact h.used e (List.mem_cons_self e F)
  have he16 : sizeof_memelement_t ≤ e := h.ge (List.mem_cons_self e F)
  have helem : ∀ a, ({ msg3 with element_a := pool_free msg3.element_a e } :
      messageheader_t δ).elem a = msg3.elem a := fun a => pool_free_deref _ _ _
  have hk : ∀ a, (({ msg3 with element_a := pool_free msg3.element_a e } :
      messageheader_t δ).elem a).key = (msg.elem a).key :=
    fun a => (congrArg element_t.key (helem a)).trans (f10 a)
  have hbi : ∀ k, bucket_index ({ msg3 with element_a := pool_free msg3.element_a e } :
      messageheader_t δ) k = bucket_index msg k :=
    fun k => congrArg (fun b => k % (u64 b).toNat) f3
  refine ⟨_, rfl, ?_, f3, hk, ?_, ?_⟩
  · refine ⟨PoolInv_free_any hpool3 heuser, by show 0 < msg3.basenum; rw [f3]; exact h.base_pos,
      ?_, ?_, hnd.2, ?_, ?_, ?_⟩
    · intro a ha
      obtain ⟨b, hb, hab⟩ := h.user a (List.mem_cons_of_mem e ha)
      refine ⟨b, ?_, hab⟩
      show b ∈ pool_slots (pool_free msg3.element_a e)
      rw [pool_free_slots, hslots]; exact hb
    · intro a ha
      show ((pool_free msg3.element_a e).mem (a - sizeof_memelement_t)).in_use ≠ 0
      rw [pool_free_in_use]
      have ha16 : sizeof_memelement_t ≤ a := h.ge (List.mem_cons_of_mem e ha)
      have hae : a ≠ e := fun hc => hnd.1 (hc ▸ ha)
      have : ¬ (a - sizeof_memelement_t = e - sizeof_memelement_t) := ne_sub_of_ne he16 ha16 hae
      simp only [this, if_false]
      rw [f8]; exact h.used a (List.mem_cons_of_mem e ha)
    · show Chain _ msg3.top F
      rw [f1]
      refine Chain_congr ?_ hfifo
      intro a _
      exact (congrArg element_t.next (helem a)).trans (f12 a)
    · show msg3.last = F.getLast?
      rw [f2]
      show (if msg.last = some e then none else msg.last) = F.getLast?
      have hlast := h.last_eq
      cases F with
      | nil =>
        simp only [List.getLast?_singleton] at hlast
        simp [hlast]
      | cons b F =>
        rw [List.getLast?_cons_cons] at hlast
        have hbe : msg.last ≠ some e := by
          rw [hlast]
          intro hc
          exact hnd.1 (List.mem_of_getLast?_eq_some hc)
        simp only [hbe, if_false]
        exact hlast
    · intro i
      have hfilter : F.filter (fun a => decide (bucket_index
            ({ msg3 with element_a := pool_free msg3.element_a e } : messageheader_t δ)
            (({ msg3 with element_a := pool_free msg3.element_a e } :
              messageheader_t δ).elem a).key = i))
          = F.filter (fun a => decide (bucket_index msg (msg.elem a).key = i)) := by
        apply List.filter_congr
        intro a _
        beta_reduce
        rw [hbi, hk]
      rw [hfilter]
      by_cases hi : i = bucket_index msg (msg.elem e).key
      · subst hi
        refine Chain_congr ?_ hch
        intro a _
        exact congrArg element_t.hashnext (helem a)
      · have hold := h.hash i
        have hne : ¬ (bucket_index msg (msg.elem e).key = i) := fun hc => hi hc.symm
        rw [List.filter_cons_of_neg (by simpa using hne)] at hold
        have hel : msg3.element i = msg.element i := by
          rw [← hm3]
          cases hg : ((F.filter (fun a => decide (bucket_index msg (msg.elem a).key
              = bucket_index msg (msg.elem e).key))).reverse).getLast? with
          | none =>
            simp only [unlink_hash]
            exact mem_write_ne _ _ hi
          | some p => rfl
        show Chain _ (msg3.element i) _
        rw [hel]
        refine Chain_congr ?_ hold
        intro a ha
        refine (congrArg element_t.hashnext (helem a)).trans ?_
        have haF : a ∈ F := List.mem_of_mem_filter (List.mem_reverse.mp ha)
        have hai : bucket_index msg (msg.elem a).key = i := by
          have := (List.mem_filter.mp (List.mem_reverse.mp ha)).2
          exact of_decide_eq_true this
        rw [← hm3]
        cases hg : ((F.filter (fun a => decide (bucket_index msg (msg.elem a).key
            = bucket_index msg (msg.elem e).key))).reverse).getLast? with
        | none => rfl
        | some p =>
          have hp := List.mem_of_getLast?_eq_some hg
          have hp2 := List.mem_filter.mp (List.mem_reverse.mp hp)
          have hpi : bucket_index msg (msg.elem p).key = bucket_index msg (msg.elem e).key :=
            of_decide_eq_true hp2.2
          have hap : a ≠ p := by
            intro hc
            rw [hc] at hai
            exact hne (hpi.symm.trans hai)
          have ha16 : sizeof_memelement_t ≤ a := h.ge (List.mem_cons_of_mem e haF)
          have hp16 : sizeof_memelement_t ≤ p := h.ge (List.mem_cons_of_mem e hp2.1)
          simp only [unlink_hash]
          rw [elem_set_elem_ne _ _ hp16 ha16 hap]
          rfl
  · intro q2; exact (congrArg element_t.data (helem q2)).trans (f11 q2)
  · show (pool_free msg3.element_a e).use_num = msg.element_a.use_num - 1
    rw [pool_free_use_num _ _ heused, f7]

/-! ### `message_del`: the FIFO loop -/

theorem FifoFrame_refl {δ : Type} (msg : messageheader_t δ) : FifoFrame msg msg :=
  ⟨rfl, rfl, rfl, rfl, rfl, rfl, fun _ => rfl, fun _ => rfl, fun _ => rfl, fun _ => rfl,
    fun _ => rfl⟩

theorem FifoFrame_trans {δ : Type} {m1 m2 m3 : messageheader_t δ} (h1 : FifoFrame m1 m2)
    (h2 : FifoFrame m2 m3) : FifoFrame m1 m3 :=
  ⟨h2.basenum_eq.trans h1.basenum_eq, h2.element_eq.trans h1.element_eq,
    h2.size_eq.trans h1.size_eq, h2.block_eq.trans h1.block_eq,
    h2.not_use_eq.trans h1.not_use_eq, h2.use_num_eq.trans h1.use_num_eq,
    fun a => (h2.flag_eq a).trans (h1.flag_eq a), fun a => (h2.link_eq a).trans (h1.link_eq a),
    fun q => (h2.key_eq q).trans (h1.key_eq q), fun q => (h2.data_eq q).trans (h1.data_eq q),
    fun q => (h2.hashnext_eq q).trans (h1.hashnext_eq q)⟩

theorem FifoFrame_top {δ : Type} (msg : messageheader_t δ) (t : Option Nat) :
    FifoFrame msg { msg with top := t } :=
  ⟨rfl, rfl, rfl, rfl, rfl, rfl, fun _ => rfl, fun _ => rfl, fun _ => rfl, fun _ => rfl,
    fun _ => rfl⟩

theorem FifoFrame_set_next {δ : Type} (msg : messageheader_t δ) (p : Nat) (t : Option Nat) :
    FifoFrame msg (msg.set_elem p { (msg.elem p) with next := t }) := by
  refine ⟨rfl, rfl, rfl, rfl, rfl, rfl, fun a => store_in_use _ _ _ a,
    fun a => store_next _ _ _ a, ?_, ?_, ?_⟩
  · intro q
    rw [elem_set_elem]
    split
    · next hq => simp only [messageheader_t.elem, mempool_t.deref, hq]
    · rfl
  · intro q
    rw [elem_set_elem]
    split
    · next hq => simp only [messageheader_t.elem, mempool_t.deref, hq]
    · rfl
  · intro q
    rw [elem_set_elem]
    split
    · next hq => simp only [messageheader_t.elem, mempool_t.deref, hq]
    · rfl

theorem keeps_congr {δ : Type} {msg msg2 : messageheader_t δ}
    (h : ∀ q, (msg2.elem q).key = (msg.elem q).key) (key : Nat) :
    keeps msg2 key = keeps msg key := by
  funext e
  simp only [keeps, h]

/-- The FIFO loop of `message_del`.  `K` holds the elements already passed and
kept, `rest` the elements still to visit. -/
theorem del_loop_spec {δ : Type} (key : Nat) :
    ∀ (rest : List Nat) (fuel : Nat) (msg : messageheader_t δ) (K : List Nat),
      Seg (fun a => (msg.elem a).next) msg.top K rest.head? →
      Chain (fun a => (msg.elem a).next) rest.head? rest →
      (K ++ rest).Nodup → (∀ a ∈ K ++ rest, sizeof_memelement_t ≤ a) → rest.length < fuel →
      ∃ msg2, del_loop key fuel msg K.getLast? rest.head?
          = some (msg2, (K ++ rest.filter (keeps msg key)).getLast?) ∧
        Chain (fun a => (msg2.elem a).next) msg2.top (K ++ rest.filter (keeps msg key)) ∧
        FifoFrame msg msg2 ∧ msg2.last = msg.last := by
  intro rest
  induction rest with
  | nil =>
    intro fuel msg K hseg _ _ _ hf
    cases fuel with
    | zero => simp at hf
    | succ fuel =>
      refine ⟨msg, ?_, ?_, FifoFrame_refl msg, rfl⟩
      · simp only [List.head?_nil, del_loop, List.filter_nil, List.append_nil]
      · simp only [List.filter_nil, List.append_nil]
        exact Chain_iff_Seg.mpr hseg
  | cons e rest ih =>
    intro fuel msg K hseg hch hnd hge hf
    cases fuel with
    | zero => simp at hf
    | succ fuel =>
      have hf2 : rest.length < fuel := by simpa using hf
      rw [Chain_cons] at hch
      have hrest : Chain (fun a => (msg.elem a).next) ((msg.elem e).next) rest := hch.2
      have hhead : (msg.elem e).next = rest.head? := Chain_head hrest
      have hrest2 : Chain (fun a => (msg.elem a).next) rest.head? rest := by
        rw [← hhead]; exact hrest
      simp only [List.head?_cons] at hseg ⊢
      have hnd2 := List.nodup_append.mp hnd
      have hnd3 := List.nodup_cons.mp hnd2.2.1
      have heK : e ∉ K := fun hm =>
        (List.disjoint_left.mp hnd2.2.2) hm (List.mem_cons_self e rest)
      have he16 : sizeof_memelement_t ≤ e := hge e (by simp)
      by_cases hk : key = (msg.elem e).key
      · -- the element is taken out of the list
        have hfil : (e :: rest).filter (keeps msg key) = rest.filter (keeps msg key) := by
          rw [List.filter_cons_of_neg]
          simp [keeps, hk]
        rw [hfil]
        cases hK : K.getLast? with
        | none =>
          have hK0 : K = [] := List.getLast?_eq_none_iff.mp hK
          subst hK0
          have hstep : del_loop key (fuel + 1) msg none (some e)
              = del_loop key fuel { msg with top := rest.head? } none rest.head? := by
            simp only [del_loop]
            rw [if_pos hk]
            show del_loop key fuel { msg with top := (msg.elem e).next } none
              (msg.elem e).next = _
            rw [hhead]
          rw [hstep]
          obtain ⟨msg2, h1, h2, h3, h4⟩ := ih fuel { msg with top := rest.head? } []
            (by rw [Seg_nil]) hrest2
            (by simpa using hnd3.2) (fun a ha => hge a (by simp at ha ⊢; exact Or.inr ha)) hf2
          exact ⟨msg2, h1, h2, FifoFrame_trans (FifoFrame_top msg _) h3, h4⟩
        | some p =>
          obtain ⟨K0, rfl⟩ := exists_snoc_of_getLast? hK
          have hp16 : sizeof_memelement_t ≤ p := hge p (by simp)
          have hpK0 : p ∉ K0 := by
            have := (List.nodup_append.mp hnd2.1).2.2
            intro hm
            exact (List.disjoint_left.mp this) hm (List.mem_singleton_self p)
          have hpe : e ≠ p := fun hc => heK (by rw [hc]; simp)
          have hstep : del_loop key (fuel + 1) msg (some p) (some e)
              = del_loop key fuel (msg.set_elem p { (msg.elem p) with next := rest.head? })
                  (some p) rest.head? := by
            simp only [del_loop]
            rw [if_pos hk, elem_set_elem_ne _ _ hp16 he16 hpe, hhead]
          rw [hstep]
          have hne : ∀ a ∈ K0 ++ rest, a ≠ p := by
            intro a ha hc
            subst hc
            rcases List.mem_append.mp ha with ha | ha
            · exact hpK0 ha
            · exact (List.disjoint_left.mp hnd2.2.2) (by simp) (List.mem_cons_of_mem e ha)
          have hnx : ∀ a ∈ K0 ++ rest,
              ((msg.set_elem p { (msg.elem p) with next := rest.head? }).elem a).next
                = (msg.elem a).next := by
            intro a ha
            have ha16 : sizeof_memelement_t ≤ a := hge a (by
              rcases List.mem_append.mp ha with ha | ha
              · simp [ha]
              · simp [ha])
            rw [elem_set_elem_ne _ _ hp16 ha16 (hne a ha)]
          have hfr := FifoFrame_set_next msg p rest.head?
          obtain ⟨msg2, h1, h2, h3, h4⟩ := ih fuel
            (msg.set_elem p { (msg.elem p) with next := rest.head? }) (K0 ++ [p])
            (Seg_retarget hseg hpK0 (fun a ha => hnx a (List.mem_append_left _ ha))
                (by rw [elem_set_elem_same]))
            (Chain_congr (fun a ha => hnx a (List.mem_append_right _ ha)) hrest2)
            (by
              rw [List.nodup_append] at hnd ⊢
              refine ⟨hnd.1, hnd3.2, ?_⟩
              intro a ha hb
              exact hnd.2.2 ha (List.mem_cons_of_mem e hb))
            (fun a ha => hge a (by
              rcases List.mem_append.mp ha with ha | ha
              · exact List.mem_append_left _ ha
              · exact List.mem_append_right _ (List.mem_cons_of_mem e ha))) hf2
          rw [keeps_congr hfr.key_eq] at h1 h2
          refine ⟨msg2, ?_, h2, FifoFrame_trans hfr h3, h4⟩
          simpa using h1
      · -- the element stays
        have hfil : (e :: rest).filter (keeps msg key) = e :: rest.filter (keeps msg key) := by
          rw [List.filter_cons_of_pos]
          simp [keeps, hk]
        rw [hfil]
        have hstep : del_loop key (fuel + 1) msg K.getLast? (some e)
            = del_loop key fuel msg (some e) rest.head? := by
          simp only [del_loop]
          rw [if_neg hk, hhead]
        rw [hstep]
        have hs2 := Seg_snoc hseg
        simp only [hhead] at hs2
        obtain ⟨msg2, h1, h2, h3, h4⟩ := ih fuel msg (K ++ [e])
          hs2 hrest2
          (by simpa using hnd) (fun a ha => hge a (by simpa using ha)) hf2
        refine ⟨msg2, ?_, ?_, h3, h4⟩
        · simpa using h1
        · simpa using h2

/-! ### `message_del`: the hash loop -/

theorem HashFrame_refl {δ : Type} (idx : Nat) (T : List Nat) (msg : messageheader_t δ) :
    HashFrame idx T [] msg msg :=
  ⟨rfl, rfl, rfl, fun _ _ => rfl, rfl, rfl, by simp, fun _ _ _ => rfl, fun _ => rfl,
    fun _ => rfl, fun _ => rfl, fun _ _ _ => rfl⟩

theorem HashFrame_trans {δ : Type} {idx : Nat} {T R1 R2 : List Nat}
    {m1 m2 m3 : messageheader_t δ} (h1 : HashFrame idx T R1 m1 m2)
    (h2 : HashFrame idx T R2 m2 m3) : HashFrame idx T (R1 ++ R2) m1 m3 := by
  refine ⟨h2.basenum_eq.trans h1.basenum_eq, h2.top_eq.trans h1.top_eq,
    h2.last_eq.trans h1.last_eq, fun i hi => (h2.element_eq i hi).trans (h1.element_eq i hi),
    h2.size_eq.trans h1.size_eq, h2.block_eq.trans h1.block_eq, ?_, ?_,
    fun q => (h2.key_eq q).trans (h1.key_eq q), fun q => (h2.data_eq q).trans (h1.data_eq q),
    fun q => (h2.next_eq q).trans (h1.next_eq q),
    fun q hq hT => (h2.hashnext_eq q hq hT).trans (h1.hashnext_eq q hq hT)⟩
  · rw [h2.use_num_eq, h1.use_num_eq, List.length_append]
    push_cast
    ring
  · intro q hq hR
    have hR1 : q ∉ R1 := fun hm => hR (List.mem_append_left _ hm)
    have hR2 : q ∉ R2 := fun hm => hR (List.mem_append_right _ hm)
    exact (h2.flag_eq q hq hR2).trans (h1.flag_eq q hq hR1)

theorem HashFrame.mono {δ : Type} {idx : Nat} {T T2 R : List Nat} {m1 m2 : messageheader_t δ}
    (h : HashFrame idx T R m1 m2) (hT : ∀ a ∈ T, a ∈ T2) : HashFrame idx T2 R m1 m2 :=
  ⟨h.basenum_eq, h.top_eq, h.last_eq, h.element_eq, h.size_eq, h.block_eq, h.use_num_eq,
    h.flag_eq, h.key_eq, h.data_eq, h.next_eq,
    fun q hq hn => h.hashnext_eq q hq (fun hm => hn (hT q hm))⟩

theorem HashFrame.slots {δ : Type} {idx : Nat} {T R : List Nat} {m1 m2 : messageheader_t δ}
    (h : HashFrame idx T R m1 m2) : pool_slots m2.element_a = pool_slots m1.element_a := by
  simp [pool_slots, h.size_eq, h.block_eq]

theorem HashFrame_unlink {δ : Type} (msg : messageheader_t δ) (idx : Nat) (T : List Nat)
    (pred : Option Nat) (e : Nat)
    (hp : ∀ p, pred = some p → p ∈ T ∧ sizeof_memelement_t ≤ p) :
    HashFrame idx T [] msg (unlink_hash msg idx pred e) := by
  obtain ⟨f1, f2, f3, f4, f5, _, f7, f8, _, f10, f11, f12⟩ := unlink_hash_frame msg idx pred e
  refine ⟨f3, f1, f2, ?_, f4, f5, by rw [f7]; simp, fun q _ _ => f8 _, f10, f11, f12, ?_⟩
  · intro i hi
    cases pred with
    | none => exact mem_write_ne _ _ hi
    | some p => rfl
  · intro q hq hT
    cases pred with
    | none => rfl
    | some p =>
      obtain ⟨hpT, hp16⟩ := hp p rfl
      have hqp : q ≠ p := fun hc => hT (hc ▸ hpT)
      simp only [unlink_hash]
      rw [elem_set_elem_ne _ _ hp16 hq hqp]

/-- The pending `pool_free` of the hash loop, on an element in use. -/
theorem free_delelem_spec {δ : Type} {msg : messageheader_t δ} {L : List Nat} (idx : Nat)
    (T : List Nat) (D : Option Nat) (hL : PoolInv msg.element_a L)
    (hD : ∀ d, D = some d → IsUser msg.element_a d ∧
      (msg.element_a.mem (d - sizeof_memelement_t)).in_use ≠ 0) :
    HashFrame idx T D.toList msg (free_delelem msg D) ∧
    (∃ L2, PoolInv (free_delelem msg D).element_a L2) ∧
    (∀ q, (free_delelem msg D).elem q = msg.elem q) ∧
    (free_delelem msg D).element = msg.element := by
  cases D with
  | none => exact ⟨HashFrame_refl idx T msg, ⟨L, hL⟩, fun _ => rfl, rfl⟩
  | some d =>
    obtain ⟨hu, hf⟩ := hD d rfl
    have hd16 := (IsUser_sub hu).1
    have helem : ∀ q, (free_delelem msg (some d)).elem q = msg.elem q :=
      fun q => pool_free_deref _ _ _
    refine ⟨⟨rfl, rfl, rfl, fun _ _ => rfl, pool_free_size _ _, pool_free_block _ _, ?_, ?_,
      fun q => congrArg element_t.key (helem q), fun q => congrArg element_t.data (helem q),
      fun q => congrArg element_t.next (helem q),
      fun q _ _ => congrArg element_t.hashnext (helem q)⟩, ⟨_, PoolInv_free hL hu hf⟩, helem, rfl⟩
    · show (pool_free msg.element_a d).use_num = _
      rw [pool_free_use_num _ _ hf]
      simp
    · intro q hq hR
      show ((pool_free msg.element_a d).mem (q - sizeof_memelement_t)).in_use = _
      rw [pool_free_in_use]
      have hqd : q ≠ d := fun hc => hR (by simp [hc])
      have := ne_sub_of_ne hd16 hq hqd
      simp [this]

/-- The front part of a hash chain after `unlink_hash` of the element it arrives at. -/
theorem unlink_hash_seg {δ : Type} {msg : messageheader_t δ} {idx e : Nat} {K : List Nat}
    (hseg : Seg (fun a => (msg.elem a).hashnext) (msg.element idx) K (some e))
    (hnd : K.Nodup) (hge : ∀ a ∈ K, sizeof_memelement_t ≤ a) :
    Seg (fun a => ((unlink_hash msg idx K.getLast? e).elem a).hashnext)
      ((unlink_hash msg idx K.getLast? e).element idx) K ((msg.elem e).hashnext) := by
  cases hK : K.getLast? with
  | none =>
    have hK0 : K = [] := List.getLast?_eq_none_iff.mp hK
    subst hK0
    rw [Seg_nil]
    simp only [unlink_hash, mem_write_same]
  | some p =>
    obtain ⟨K0, rfl⟩ := exists_snoc_of_getLast? hK
    have hpK0 : p ∉ K0 := by
      have := (List.nodup_append.mp hnd).2.2
      intro hm
      exact (List.disjoint_left.mp this) hm (List.mem_singleton_self p)
    have hp16 : sizeof_memelement_t ≤ p := hge p (by simp)
    refine Seg_retarget hseg hpK0 ?_ ?_
    · intro a ha
      have ha16 : sizeof_memelement_t ≤ a := hge a (List.mem_append_left _ ha)
      have hap : a ≠ p := fun hc => hpK0 (hc ▸ ha)
      simp only [unlink_hash]
      rw [elem_set_elem_ne _ _ hp16 ha16 hap]
    · simp only [unlink_hash, elem_set_elem_same]

/-- The hash loop of `message_del`.  `K` holds the elements of the chain already
passed and kept, `rest` the elements still to visit, `D` the element whose
`pool_free` is pending. -/
theorem del_hash_loop_spec {δ : Type} (key idx : Nat) :
    ∀ (rest : List Nat) (fuel : Nat) (msg : messageheader_t δ) (K : List Nat) (D : Option Nat)
      (L : List Nat),
      PoolInv msg.element_a L →
      Seg (fun a => (msg.elem a).hashnext) (msg.element idx) K rest.head? →
      Chain (fun a => (msg.elem a).hashnext) rest.head? rest →
      (D.toList ++ (K ++ rest)).Nodup →
      (∀ a ∈ D.toList ++ (K ++ rest), IsUser msg.element_a a) →
      (∀ a ∈ D.toList ++ rest, (msg.element_a.mem (a - sizeof_memelement_t)).in_use ≠ 0) →
      rest.length < fuel →
      ∃ msg2 D2, del_hash_loop key idx fuel msg K.getLast? D rest.head? = some (msg2, D2) ∧
        Chain (fun a => ((free_delelem msg2 D2).elem a).hashnext)
          ((free_delelem msg2 D2).element idx) (K ++ rest.filter (keeps msg key)) ∧
        HashFrame idx (K ++ rest) (D.toList ++ rest.filter (fun a => !keeps msg key a)) msg
          (free_delelem msg2 D2) ∧
        ∃ L2, PoolInv (free_delelem msg2 D2).element_a L2 := by
  intro rest
  induction rest with
  | nil =>
    intro fuel msg K D L hL hseg _ _ huser hused hf
    cases fuel with
    | zero => simp at hf
    | succ fuel =>
      have hD : ∀ d, D = some d → IsUser msg.element_a d ∧
          (msg.element_a.mem (d - sizeof_memelement_t)).in_use ≠ 0 := by
        intro d hd; subst hd
        exact ⟨huser d (by simp), hused d (by simp)⟩
      obtain ⟨hfr, hpool, helem, helement⟩ := free_delelem_spec idx K D hL hD
      refine ⟨msg, D, by simp only [List.head?_nil, del_hash_loop], ?_, ?_, hpool⟩
      · rw [helement]
        simp only [List.filter_nil, List.append_nil]
        exact Chain_congr (fun a _ => congrArg element_t.hashnext (helem a))
          (Chain_iff_Seg.mpr hseg)
      · simpa using hfr
  | cons e rest ih =>
    intro fuel msg K D L hL hseg hch hnd huser hused hf
    cases fuel with
    | zero => simp at hf
    | succ fuel =>
      have hf2 : rest.length < fuel := by simpa using hf
      have hD : ∀ d, D = some d → IsUser msg.element_a d ∧
          (msg.element_a.mem (d - sizeof_memelement_t)).in_use ≠ 0 := by
        intro d hd; subst hd
        exact ⟨huser d (by simp), hused d (by simp)⟩
      obtain ⟨hfr1, ⟨L1, hL1⟩, helem1, helement1⟩ :=
        free_delelem_spec idx (K ++ e :: rest) D hL hD
      rw [Chain_cons] at hch
      have hrest : Chain (fun a => (msg.elem a).hashnext) ((msg.elem e).hashnext) rest := hch.2
      have hhead : (msg.elem e).hashnext = rest.head? := Chain_head hrest
      have hrest2 : Chain (fun a => (msg.elem a).hashnext) rest.head? rest := by
        rw [← hhead]; exact hrest
      simp only [List.head?_cons] at hseg ⊢
      have hndKR : (K ++ e :: rest).Nodup := (List.nodup_append.mp hnd).2.1
      have hdisj := (List.nodup_append.mp hnd).2.2
      have hndD : D.toList.Nodup := (List.nodup_append.mp hnd).1
      have hnd2 := List.nodup_append.mp hndKR
      have hnd3 := List.nodup_cons.mp hnd2.2.1
      have heK : e ∉ K := fun hm =>
        (List.disjoint_left.mp hnd2.2.2) hm (List.mem_cons_self e rest)
      have hge : ∀ a ∈ K ++ e :: rest, sizeof_memelement_t ≤ a :=
        fun a ha => (IsUser_sub (huser a (List.mem_append_right _ ha))).1
      have he16 : sizeof_memelement_t ≤ e := hge e (by simp)
      have hKge : ∀ a ∈ K, sizeof_memelement_t ≤ a :=
        fun a ha => hge a (List.mem_append_left _ ha)
      have hseg1 : Seg (fun a => ((free_delelem msg D).elem a).hashnext)
          ((free_delelem msg D).element idx) K (some e) := by
        rw [helement1]
        exact Seg_congr (fun a _ => congrArg element_t.hashnext (helem1 a)) hseg
      have hflag1 : ∀ a ∈ K ++ e :: rest,
          ((free_delelem msg D).element_a.mem (a - sizeof_memelement_t)).in_use
            = (msg.element_a.mem (a - sizeof_memelement_t)).in_use := by
        intro a ha
        refine hfr1.flag_eq a (hge a ha) ?_
        intro hm
        exact (List.disjoint_left.mp hdisj) hm ha
      by_cases hk : key = (msg.elem e).key
      · -- the element is removed and becomes the pending `delelem`
        have hpred : ∀ p, K.getLast? = some p →
            p ∈ K ++ e :: rest ∧ sizeof_memelement_t ≤ p := by
          intro p hp
          have := List.mem_of_getLast?_eq_some hp
          exact ⟨List.mem_append_left _ this, hKge p this⟩
        have hpredK : ∀ p, K.getLast? = some p → p ∈ K ∧ sizeof_memelement_t ≤ p := by
          intro p hp
          have := List.mem_of_getLast?_eq_some hp
          exact ⟨this, hKge p this⟩
        have hfr2 := HashFrame_unlink (free_delelem msg D) idx (K ++ e :: rest) K.getLast? e hpred
        have hfr2K := HashFrame_unlink (free_delelem msg D) idx K K.getLast? e hpredK
        have hhn : ∀ a, sizeof_memelement_t ≤ a → a ∉ K →
            ((unlink_hash (free_delelem msg D) idx K.getLast? e).elem a).hashnext
              = (msg.elem a).hashnext := by
          intro a ha haK
          rw [hfr2K.hashnext_eq a ha haK, helem1]
        have hstep : del_hash_loop key idx (fuel + 1) msg K.getLast? D (some e)
            = del_hash_loop key idx fuel (unlink_hash (free_delelem msg D) idx K.getLast? e)
                K.getLast? (some e) rest.head? := by
          simp only [del_hash_loop]
          rw [if_pos (by rw [helem1]; exact hk)]
          show del_hash_loop key idx fuel (unlink_hash (free_delelem msg D) idx K.getLast? e)
            K.getLast? (some e)
            ((unlink_hash (free_delelem msg D) idx K.getLast? e).elem e).hashnext = _
          rw [hhn e he16 heK, hhead]
        rw [hstep]
        have hsegU := unlink_hash_seg hseg1 hnd2.1 hKge
        rw [helem1, hhead] at hsegU
        obtain ⟨msg3, D3, h1, h2, h3, h4⟩ := ih fuel
          (unlink_hash (free_delelem msg D) idx K.getLast? e) K (some e) L1
          (unlink_hash_pool hL1 _ _ _) hsegU
          (Chain_congr (fun a ha => hhn a (hge a (by simp [ha])) (fun hm =>
            (List.disjoint_left.mp hnd2.2.2) hm (List.mem_cons_of_mem e ha))) hrest2)
          (by
            show (e :: (K ++ rest)).Nodup
            exact (List.Perm.nodup_iff List.perm_middle).mp hndKR)
          (by
            intro a ha
            have ha2 : a ∈ K ++ e :: rest := by
              simp only [Option.toList, List.singleton_append, List.mem_cons,
                List.mem_append] at ha ⊢
              tauto
            obtain ⟨b, hb, hab⟩ := huser a (List.mem_append_right _ ha2)
            exact ⟨b, by rw [hfr2.slots, hfr1.slots]; exact hb, hab⟩)
          (by
            intro a ha
            have ha2 : a ∈ K ++ e :: rest := by
              simp only [Option.toList, List.singleton_append, List.mem_cons] at ha
              simp only [List.mem_append, List.mem_cons]
              tauto
            have ha3 : a ∈ D.toList ++ e :: rest := by
              simp only [Option.toList, List.singleton_append, List.mem_cons] at ha
              simp only [List.mem_append, List.mem_cons]
              tauto
            rw [hfr2.flag_eq a (hge a ha2) (List.not_mem_nil a), hflag1 a ha2]
            exact hused a ha3) hf2
        have hkeys : keeps (unlink_hash (free_delelem msg D) idx K.getLast? e) key
            = keeps msg key :=
          keeps_congr (fun q => (hfr2.key_eq q).trans (hfr1.key_eq q)) key
        rw [hkeys] at h2
        have hfilk : (e :: rest).filter (keeps msg key) = rest.filter (keeps msg key) := by
          rw [List.filter_cons_of_neg]
          simp [keeps, hk]
        have hfilr : (e :: rest).filter (fun a => !keeps msg key a)
            = e :: rest.filter (fun a => !keeps msg key a) := by
          rw [List.filter_cons_of_pos]
          simp [keeps, hk]
        refine ⟨msg3, D3, h1, by rw [hfilk]; exact h2, ?_, h4⟩
        have h3b := @HashFrame.mono δ idx _ (K ++ e :: rest) _ _ _ h3 (by
          intro a ha
          simp only [List.mem_append, List.mem_cons] at ha ⊢
          tauto)
        have htot := HashFrame_trans (HashFrame_trans hfr1 hfr2) h3b
        rw [hkeys] at htot
        rw [hfilr]
        simpa [Option.toList] using htot
      · -- the element stays and becomes `prev`
        have hstep : del_hash_loop key idx (fuel + 1) msg K.getLast? D (some e)
            = del_hash_loop key idx fuel (free_delelem msg D) (some e) none rest.head? := by
          simp only [del_hash_loop]
          rw [if_neg (by rw [helem1]; exact hk), helem1, hhead]
        rw [hstep]
        have he1 : ((free_delelem msg D).elem e).hashnext = rest.head? := by
          rw [helem1, hhead]
        have hs2 : Seg (fun a => ((free_delelem msg D).elem a).hashnext)
            ((free_delelem msg D).element idx) (K ++ [e]) rest.head? := by
          rw [← he1]; exact Seg_snoc hseg1
        obtain ⟨msg3, D3, h1, h2, h3, h4⟩ := ih fuel (free_delelem msg D) (K ++ [e]) none L1
          hL1 hs2
          (Chain_congr (fun a _ => congrArg element_t.hashnext (helem1 a)) hrest2)
          (by
            show ([] ++ (K ++ [e] ++ rest)).Nodup
            simpa using hndKR)
          (by
            intro a ha
            have ha2 : a ∈ K ++ e :: rest := by
              simp only [Option.toList, List.nil_append, List.mem_append, List.mem_singleton,
                List.mem_cons] at ha ⊢
              tauto
            obtain ⟨b, hb, hab⟩ := huser a (List.mem_append_right _ ha2)
            exact ⟨b, by rw [hfr1.slots]; exact hb, hab⟩)
          (by
            intro a ha
            have ha2 : a ∈ K ++ e :: rest := by
              simp only [Option.toList, List.nil_append] at ha
              simp only [List.mem_append, List.mem_cons]
              tauto
            have ha3 : a ∈ D.toList ++ e :: rest := by
              simp only [Option.toList, List.nil_append] at ha
              simp only [List.mem_append, List.mem_cons]
              tauto
            rw [hflag1 a ha2]
            exact hused a ha3) hf2
        have hkeys : keeps (free_delelem msg D) key = keeps msg key :=
          keeps_congr (fun q => hfr1.key_eq q) key
        rw [hkeys] at h2
        have hfilk : (e :: rest).filter (keeps msg key) = e :: rest.filter (keeps msg key) := by
          rw [List.filter_cons_of_pos]
          simp [keeps, hk]
        have hfilr : (e :: rest).filter (fun a => !keeps msg key a)
            = rest.filter (fun a => !keeps msg key a) := by
          rw [List.filter_cons_of_neg]
          simp [keeps, hk]
        refine ⟨msg3, D3, by simpa using h1, by rw [hfilk]; simpa using h2, ?_, h4⟩
        have h3b := @HashFrame.mono δ idx _ (K ++ e :: rest) _ _ _ h3 (by
          intro a ha
          simp only [List.mem_append, List.mem_cons, List.mem_singleton] at ha ⊢
          tauto)
        have htot := HashFrame_trans hfr1 h3b
        rw [hkeys] at htot
        rw [hfilr]
        simpa [Option.toList] using htot

/-! ### `message_del` -/

theorem filter_reverse_filter (F : List Nat) (b k : Nat → Bool) :
    ((F.filter b).reverse).filter k = ((F.filter k).filter b).reverse := by
  rw [List.filter_reverse, List.filter_filter, List.filter_filter]
  congr 1
  apply List.filter_congr
  intro a _
  exact Bool.and_comm _ _

theorem bucket_index_congr {δ : Type} {msg msg2 : messageheader_t δ}
    (h : msg2.basenum = msg.basenum) (k : Nat) : bucket_index msg2 k = bucket_index msg k := by
  unfold bucket_index; rw [h]

/-- `message_del` on a well-formed queue: every element with the key is taken
out of the FIFO list and of its hash chain and handed back to the pool; the
other elements keep their order, keys and payloads. -/
theorem message_del_spec {δ : Type} {msg : messageheader_t δ} {F : List Nat} (h : QInv msg F)
    (key fuel : Nat) (hf : F.length < fuel) :
    ∃ msg2, message_del fuel msg key = some msg2 ∧ QInv msg2 (F.filter (keeps msg key)) ∧
      msg2.basenum = msg.basenum ∧
      (∀ q, (msg2.elem q).key = (msg.elem q).key) ∧
      (∀ q, (msg2.elem q).data = (msg.elem q).data) ∧
      msg2.element_a.use_num
        = msg.element_a.use_num - ((F.filter (fun a => !keeps msg key a)).length : Int) := by
  have htop : msg.top = F.head? := Chain_head h.fifo
  have hge : ∀ a ∈ F, sizeof_memelement_t ≤ a := fun a ha => h.ge ha
  obtain ⟨m1, h1, hc1, hfr1, _⟩ := del_loop_spec key F fuel msg []
    (by rw [Seg_nil]; exact htop) (by rw [← htop]; exact h.fifo) (by simpa using h.nodup)
    (by simpa using hge) hf
  simp only [List.nil_append, List.getLast?_nil] at h1 hc1
  obtain ⟨L, hL⟩ := h.pool
  have hidx : bucket_index ({ m1 with last := (F.filter (keeps msg key)).getLast? } :
      messageheader_t δ) key = bucket_index msg key :=
    bucket_index_congr hfr1.basenum_eq key
  have hB := h.hash (bucket_index msg key)
  have hBmem : ∀ a, a ∈ (F.filter (fun e => decide (bucket_index msg (msg.elem e).key
      = bucket_index msg key))).reverse → a ∈ F :=
    fun a ha => List.mem_of_mem_filter (List.mem_reverse.mp ha)
  have hL1 : PoolInv ({ m1 with last := (F.filter (keeps msg key)).getLast? } :
      messageheader_t δ).element_a L :=
    PoolInv_congr hL hfr1.size_eq hfr1.block_eq hfr1.not_use_eq hfr1.flag_eq hfr1.link_eq
  have hslots1 : pool_slots m1.element_a = pool_slots msg.element_a := by
    simp [pool_slots, hfr1.size_eq, hfr1.block_eq]
  have hB1 : Chain (fun a => (({ m1 with last := (F.filter (keeps msg key)).getLast? } :
        messageheader_t δ).elem a).hashnext)
      (F.filter (fun e => decide (bucket_index msg (msg.elem e).key
        = bucket_index msg key))).reverse.head?
      (F.filter (fun e => decide (bucket_index msg (msg.elem e).key
        = bucket_index msg key))).reverse := by
    rw [← Chain_head hB]
    exact Chain_congr (fun a _ => hfr1.hashnext_eq a) hB
  obtain ⟨m2, D2, h2, hc2, hfr2, hpool2⟩ := del_hash_loop_spec key (bucket_index msg key)
    (F.filter (fun e => decide (bucket_index msg (msg.elem e).key
        = bucket_index msg key))).reverse fuel
    ({ m1 with last := (F.filter (keeps msg key)).getLast? } : messageheader_t δ) [] none L
    hL1
    (by
      rw [Seg_nil]
      show m1.element (bucket_index msg key) = _
      rw [hfr1.element_eq]
      exact Chain_head hB)
    hB1
    (by
      show ([] ++ ([] ++ _)).Nodup
      simp only [List.nil_append]
      exact List.nodup_reverse.mpr (h.nodup.filter _))
    (by
      intro a ha
      have haF : a ∈ F := hBmem a (by simpa [Option.toList] using ha)
      obtain ⟨b, hb, hab⟩ := h.user a haF
      exact ⟨b, by show b ∈ pool_slots m1.element_a; rw [hslots1]; exact hb, hab⟩)
    (by
      intro a ha
      have haF : a ∈ F := hBmem a (by simpa [Option.toList] using ha)
      show (m1.element_a.mem (a - sizeof_memelement_t)).in_use ≠ 0
      rw [hfr1.flag_eq]
      exact h.used a haF)
    (by
      rw [List.length_reverse]
      exact lt_of_le_of_lt (List.length_filter_le _ _) hf)
  have hkeys1 : keeps ({ m1 with last := (F.filter (keeps msg key)).getLast? } :
      messageheader_t δ) key = keeps msg key :=
    keeps_congr (fun q => hfr1.key_eq q) key
  rw [hkeys1] at hc2 hfr2
  simp only [List.nil_append, Option.toList] at hc2 hfr2
  have hkey2 : ∀ q, ((free_delelem m2 D2).elem q).key = (msg.elem q).key :=
    fun q => (hfr2.key_eq q).trans (hfr1.key_eq q)
  have hbase2 : (free_delelem m2 D2).basenum = msg.basenum :=
    hfr2.basenum_eq.trans hfr1.basenum_eq
  have hkeep_bucket : ∀ a, keeps msg key a = false →
      bucket_index msg (msg.elem a).key = bucket_index msg key := by
    intro a ha
    have : key = (msg.elem a).key := by
      simpa [keeps] using ha
    rw [← this]
  refine ⟨free_delelem m2 D2, ?_, ?_, hbase2, hkey2,
    fun q => (hfr2.data_eq q).trans (hfr1.data_eq q), ?_⟩
  · unfold message_del
    rw [htop, h1]
    simp only [__message_del_hash, hidx]
    show (match del_hash_loop key (bucket_index msg key) fuel
        ({ m1 with last := (F.filter (keeps msg key)).getLast? } : messageheader_t δ)
        none none (m1.element (bucket_index msg key)) with
      | none => none
      | some (msg1, delelem) => some (free_delelem msg1 delelem)) = _
    have hel : m1.element (bucket_index msg key)
        = (F.filter (fun e => decide (bucket_index msg (msg.elem e).key
            = bucket_index msg key))).reverse.head? := by
      rw [hfr1.element_eq]; exact Chain_head hB
    rw [hel]
    have h2b : del_hash_loop key (bucket_index msg key) fuel
        ({ m1 with last := (F.filter (keeps msg key)).getLast? } : messageheader_t δ)
        none none (F.filter (fun e => decide (bucket_index msg (msg.elem e).key
            = bucket_index msg key))).reverse.head? = some (m2, D2) := h2
    rw [h2b]
  · refine ⟨hpool2, by rw [hbase2]; exact h.base_pos, ?_, ?_, h.nodup.filter _, ?_, ?_, ?_⟩
    · intro a ha
      obtain ⟨b, hb, hab⟩ := h.user a (List.mem_of_mem_filter ha)
      refine ⟨b, ?_, hab⟩
      rw [hfr2.slots]
      show b ∈ pool_slots m1.element_a
      rw [hslots1]; exact hb
    · intro a ha
      have haF := List.mem_of_mem_filter ha
      have hak : keeps msg key a = true := (List.mem_filter.mp ha).2
      rw [hfr2.flag_eq a (hge a haF) (by
        intro hm
        have := (List.mem_filter.mp hm).2
        simp [hak] at this)]
      show (m1.element_a.mem (a - sizeof_memelement_t)).in_use ≠ 0
      rw [hfr1.flag_eq]
      exact h.used a haF
    · rw [hfr2.top_eq]
      show Chain _ m1.top _
      exact Chain_congr (fun a _ => hfr2.next_eq a) hc1
    · rw [hfr2.last_eq]
    · intro i
      have hfilter : (F.filter (keeps msg key)).filter (fun e => decide (bucket_index
            (free_delelem m2 D2) ((free_delelem m2 D2).elem e).key = i))
          = (F.filter (keeps msg key)).filter
              (fun e => decide (bucket_index msg (msg.elem e).key = i)) := by
        apply List.filter_congr
        intro a _
        rw [bucket_index_congr hbase2, hkey2]
      rw [hfilter]
      by_cases hi : i = bucket_index msg key
      · subst hi
        rw [← filter_reverse_filter]
        exact hc2
      · rw [hfr2.element_eq i hi]
        show Chain _ (m1.element i) _
        rw [hfr1.element_eq]
        have hsame : (F.filter (keeps msg key)).filter
              (fun e => decide (bucket_index msg (msg.elem e).key = i))
            = F.filter (fun e => decide (bucket_index msg (msg.elem e).key = i)) := by
          rw [List.filter_filter]
          apply List.filter_congr
          intro a _
          by_cases hb : bucket_index msg (msg.elem a).key = i
          · have hk : keeps msg key a = true := by
              cases hka : keeps msg key a with
              | true => rfl
              | false => exact absurd ((hkeep_bucket a hka).symm.trans hb).symm hi
            simp [hb, hk]
          · simp [hb]
        rw [hsame]
        refine Chain_congr ?_ (h.hash i)
        intro a ha
        have haF : a ∈ F := List.mem_of_mem_filter (List.mem_reverse.mp ha)
        have hai : bucket_index msg (msg.elem a).key = i :=
          of_decide_eq_true (List.mem_filter.mp (List.mem_reverse.mp ha)).2
        rw [hfr2.hashnext_eq a (hge a haF) (by
          intro hm
          have := of_decide_eq_true (List.mem_filter.mp (List.mem_reverse.mp hm)).2
          exact hi (hai.symm.trans this))]
        exact hfr1.hashnext_eq a
  · rw [hfr2.use_num_eq]
    show m1.element_a.use_num - _ = _
    rw [hfr1.use_num_eq, filter_reverse_filter, List.length_reverse]
    congr 2
    rw [List.filter_filter]
    apply congrArg
    apply List.filter_congr
    intro a _
    by_cases hk : keeps msg key a = true
    · simp [hk]
    · have hk2 : keeps msg key a = false := by simpa using hk
      simp [hk2, hkeep_bucket a hk2]

/-! ### The write queue of an endpoint: concrete states -/

theorem wbuffer_create_wq0 : wbuffer_create (some 4096) = some wq0 := rfl

theorem QInv_wq0 : QInv wq0 [] :=
  QInv_create (by decide) wbuffer_create_wq0

theorem QInv_wq2 : QInv wq2 [4112, 69704] := by
  have h1 := (message_add_spec QInv_wq0 7000 none).2.2.2 4112 (by decide)
  have h2 := (message_add_spec h1.2.1 7000 none).2.2.2 69704 (by decide)
  exact h2.2.1

/-! ### Claims on the keyed FIFO queue -/

/-- C5, as stated, fails: in the queue `wq2`, which holds two entries of key
`7000` appended in the order `4112`, `69704`, the earliest-appended entry of the
key is `4112`, and `message_find` returns `69704`. -/
theorem message_find_oldest_counterexample :
    QInv wq2 [4112, 69704] ∧
    [4112, 69704].find? (fun e => decide ((wq2.elem e).key = 7000)) = some 4112 ∧
    message_find 3 wq2 7000 = some (some 69704) :=
  ⟨QInv_wq2, by decide, by decide⟩

/-- C5, amended: for every well-formed queue holding the entries `F` (oldest
first) and every key, `message_find` returns the entry of that key that was
appended last among those still in the queue, and returns `NULL` exactly when
no entry of the key is in the queue. -/
theorem message_find_newest {δ : Type} (msg : messageheader_t δ) (F : List Nat)
    (key fuel : Nat) (h : QInv msg F) (hf : F.length < fuel) :
    message_find fuel msg key
      = some (F.reverse.find? (fun e => decide ((msg.elem e).key = key))) ∧
    (message_find fuel msg key = some none ↔ ∀ e ∈ F, (msg.elem e).key ≠ key) := by
  have hspec := message_find_spec h key fuel hf
  have hfun : (fun e => decide (key = (msg.elem e).key))
      = (fun e => decide ((msg.elem e).key = key)) := by
    funext e
    by_cases hk : key = (msg.elem e).key
    · simp [hk]
    · have : ¬ ((msg.elem e).key = key) := fun hc => hk hc.symm
      simp [hk, this]
  rw [hfun] at hspec
  refine ⟨hspec, ?_⟩
  rw [hspec]
  simp only [Option.some.injEq, List.find?_eq_none, List.mem_reverse, decide_eq_true_eq]

theorem message_find_newest_witness :
    QInv wq2 [4112, 69704] ∧ [4112, 69704].length < 3 ∧
    (message_find 3 wq2 7000
      = some ([4112, 69704].reverse.find? (fun e => decide ((wq2.elem e).key = 7000))) ∧
    (message_find 3 wq2 7000 = some none ↔ ∀ e ∈ [4112, 69704], (wq2.elem e).key ≠ 7000)) :=
  ⟨QInv_wq2, by decide, message_find_newest wq2 [4112, 69704] 7000 3 QInv_wq2 (by decide)⟩

/-- C6: for every well-formed queue holding the entries `F` (oldest first) and
every key, `message_del` returns, and afterwards the FIFO list is `F` without
the entries of the key, the others in unchanged order (`top` is its first and
`last` its last entry, `NULL` when it is empty); `message_find` of the key is
`NULL`; `message_find` of every other key is what it was; keys and payloads of
the entries are unchanged; and the in-use count of the inner pool has dropped by
the number of entries removed. -/
theorem message_del_removes_key {δ : Type} (msg : messageheader_t δ) (F : List Nat)
    (key fuel : Nat) (h : QInv msg F) (hf : F.length < fuel) :
    ∃ msg2, message_del fuel msg key = some msg2 ∧
      QInv msg2 (F.filter (fun e => decide ((msg.elem e).key ≠ key))) ∧
      Chain (fun e => (msg2.elem e).next) msg2.top
        (F.filter (fun e => decide ((msg.elem e).key ≠ key))) ∧
      msg2.last = (F.filter (fun e => decide ((msg.elem e).key ≠ key))).getLast? ∧
      message_find fuel msg2 key = some none ∧
      (∀ k2, k2 ≠ key → message_find fuel msg2 k2 = message_find fuel msg k2) ∧
      (∀ e, (msg2.elem e).key = (msg.elem e).key ∧ (msg2.elem e).data = (msg.elem e).data) ∧
      get_element_use_num msg2.element_a
        = get_element_use_num msg.element_a
          - ((F.filter (fun e => decide ((msg.elem e).key = key))).length : Int) := by
  obtain ⟨msg2, h1, h2, _, h4, h5, h6⟩ := message_del_spec h key fuel hf
  have hkeep : keeps msg key = (fun e => decide ((msg.elem e).key ≠ key)) := by
    funext e
    by_cases hk : key = (msg.elem e).key
    · simp [keeps, hk]
    · have : ¬ ((msg.elem e).key = key) := fun hc => hk hc.symm
      simp [keeps, hk, this]
  have hrem : (fun a => !keeps msg key a) = (fun e => decide ((msg.elem e).key = key)) := by
    funext e
    by_cases hk : key = (msg.elem e).key
    · simp [keeps, hk]
    · have : ¬ ((msg.elem e).key = key) := fun hc => hk hc.symm
      simp [keeps, hk, this]
  rw [hkeep] at h2
  rw [hrem] at h6
  have hlen : (F.filter (fun e => decide ((msg.elem e).key ≠ key))).length < fuel :=
    lt_of_le_of_lt (List.length_filter_le _ _) hf
  have hfind : ∀ k2, message_find fuel msg2 k2
      = some ((F.filter (fun e => decide ((msg.elem e).key ≠ key))).reverse.find?
          (fun e => decide (k2 = (msg.elem e).key))) := by
    intro k2
    rw [message_find_spec h2 k2 fuel hlen]
    congr 2
    funext e
    rw [h4]
  refine ⟨msg2, h1, h2, h2.fifo, h2.last_eq, ?_, ?_, fun e => ⟨h4 e, h5 e⟩, h6⟩
  · rw [hfind]
    simp only [Option.some.injEq, List.find?_eq_none, List.mem_reverse, List.mem_filter,
      decide_eq_true_eq]
    intro e he hc
    exact he.2 hc.symm
  · intro k2 hk2
    rw [hfind, message_find_spec h k2 fuel hf, find?_reverse_filter]
    intro e he
    have : k2 = (msg.elem e).key := of_decide_eq_true he
    simp only [decide_eq_true_eq]
    intro hc
    exact hk2 (this.trans hc)

theorem message_del_removes_key_witness :
    QInv wq2 [4112, 69704] ∧ [4112, 69704].length < 3 ∧
    ∃ msg2, message_del 3 wq2 7000 = some msg2 ∧
      QInv msg2 ([4112, 69704].filter (fun e => decide ((wq2.elem e).key ≠ 7000))) ∧
      Chain (fun e => (msg2.elem e).next) msg2.top
        ([4112, 69704].filter (fun e => decide ((wq2.elem e).key ≠ 7000))) ∧
      msg2.last = ([4112, 69704].filter (fun e => decide ((wq2.elem e).key ≠ 7000))).getLast? ∧
      message_find 3 msg2 7000 = some none ∧
      (∀ k2, k2 ≠ 7000 → message_find 3 msg2 k2 = message_find 3 wq2 k2) ∧
      (∀ e, (msg2.elem e).key = (wq2.elem e).key ∧ (msg2.elem e).data = (wq2.elem e).data) ∧
      get_element_use_num msg2.element_a
        = get_element_use_num wq2.element_a
          - (([4112, 69704].filter (fun e => decide ((wq2.elem e).key = 7000))).length : Int) :=
  ⟨QInv_wq2, by decide, message_del_removes_key wq2 [4112, 69704] 7000 3 QInv_wq2 (by decide)⟩

theorem QRel_get_one {δ : Type} {msg : messageheader_t δ} {A : List (Nat × Nat)}
    (h : QRel msg A) : message_get_one msg = A.head?.map Prod.fst := by
  unfold message_get_one
  rw [Chain_head h.1.fifo]
  cases A <;> rfl

/-- One call keeps the queue in step with the FIFO of the specification. -/
theorem queue_step_rel {δ : Type} (fuel : Nat) {msg : messageheader_t δ}
    {A : List (Nat × Nat)} (h : QRel msg A) (op : queue_op)
    (hv : op = queue_op.delete_one → message_get_one msg ≠ none) (hf : A.length < fuel) :
    ∃ msg2 r, queue_step fuel msg op = some (msg2, r) ∧ QRel msg2 (fifo_step A op r) ∧
      (fifo_step A op r).length ≤ A.length + 1 := by
  obtain ⟨hq, hk⟩ := h
  cases op with
  | add key m =>
    obtain ⟨h1, _, h3, h4⟩ := message_add_spec hq key m
    refine ⟨(message_add msg key m).1, (message_add msg key m).2, rfl, ?_⟩
    cases hr : (message_add msg key m).2 with
    | none =>
      have hm := h1 hr
      rw [hm]
      exact ⟨⟨hq, hk⟩, Nat.le_succ _⟩
    | some p =>
      obtain ⟨_, h6, h7, _⟩ := h4 p hr
      refine ⟨⟨by simpa [fifo_step] using h6, ?_⟩, by simp [fifo_step]⟩
      intro x hx
      simp only [fifo_step, List.mem_append, List.mem_singleton] at hx
      rcases hx with hx | hx
      · rw [(h3 x.1 (List.mem_map_of_mem Prod.fst hx)).1]
        exact hk x hx
      · rw [hx]; exact h7
  | delete_one =>
    have hne := hv rfl
    cases A with
    | nil =>
      exfalso
      apply hne
      unfold message_get_one
      exact Chain_head hq.fifo
    | cons x A =>
      obtain ⟨msg2, h1, h2, _, h4, _⟩ := message_delete_one_spec
        (show QInv msg (x.1 :: A.map Prod.fst) from hq) fuel
        (by simpa using hf)
      refine ⟨msg2, none, by simp [queue_step, h1], ⟨h2, ?_⟩, by
        simp only [fifo_step, List.tail_cons, List.length_cons]; omega⟩
      intro y hy
      rw [h4]
      exact hk y (List.mem_cons_of_mem x hy)
  | del key =>
    obtain ⟨msg2, h1, h2, _, h4, _⟩ := message_del_spec hq key fuel (by simpa using hf)
    have hfil : (A.map Prod.fst).filter (keeps msg key)
        = (A.filter (fun x => decide (x.2 ≠ key))).map Prod.fst := by
      rw [List.filter_map]
      congr 1
      apply List.filter_congr
      intro x hx
      simp only [Function.comp, keeps, hk x hx]
      by_cases hc : key = x.2
      · simp [hc]
      · have : ¬ (x.2 = key) := fun h => hc h.symm
        simp [hc, this]
    rw [hfil] at h2
    refine ⟨msg2, none, by simp [queue_step, h1], ⟨h2, ?_⟩, ?_⟩
    · intro y hy
      rw [h4]
      exact hk y (List.mem_of_mem_filter hy)
    · exact le_trans (List.length_filter_le _ _) (Nat.le_succ _)

/-- A sequence of calls keeps the queue in step with the FIFO of the
specification. -/
theorem queue_run_rel {δ : Type} (fuel : Nat) :
    ∀ (ops : List queue_op) (msg : messageheader_t δ) (A : List (Nat × Nat)),
      QRel msg A → ops_valid fuel msg ops = true → A.length + ops.length < fuel →
      ∃ msg2 A2, queue_run fuel msg A ops = some (msg2, A2) ∧ QRel msg2 A2 := by
  intro ops
  induction ops with
  | nil => intro msg A h _ _; exact ⟨msg, A, rfl, h⟩
  | cons op ops ih =>
    intro msg A h hv hf
    simp only [ops_valid, Bool.and_eq_true] at hv
    have hv1 : op = queue_op.delete_one → message_get_one msg ≠ none := by
      intro hop
      subst hop
      have := hv.1
      simp only [Option.isSome_iff_ne_none] at this
      exact this
    simp only [List.length_cons] at hf
    obtain ⟨msg2, r, h1, h2, h3⟩ := queue_step_rel fuel h op hv1 (by omega)
    have hv2 := hv.2
    rw [h1] at hv2
    obtain ⟨msg3, A3, h4, h5⟩ := ih msg2 (fifo_step A op r) h2 hv2 (by omega)
    exact ⟨msg3, A3, by simp only [queue_run, h1]; exact h4, h5⟩

/-- C7: for every sequence of `message_add`, `message_delete_one` (on a non-empty
queue) and `message_del` calls on a well-formed queue, the run returns and the
queue holds the entries of the FIFO of the specification (appended and not yet
removed, oldest first, several entries of one key included): `message_get_one`
returns its oldest entry, `NULL` when it is empty, and each entry still carries
the key it was appended with. -/
theorem message_get_one_fifo {δ : Type} (fuel : Nat) (ops : List queue_op)
    (msg : messageheader_t δ) (A : List (Nat × Nat)) (h : QRel msg A)
    (hv : ops_valid fuel msg ops = true) (hf : A.length + ops.length < fuel) :
    ∃ msg2 A2, queue_run fuel msg A ops = some (msg2, A2) ∧
      message_get_one msg2 = A2.head?.map Prod.fst ∧
      (∀ x ∈ A2, (msg2.elem x.1).key = x.2) ∧ QInv msg2 (A2.map Prod.fst) := by
  obtain ⟨msg2, A2, h1, h2⟩ := queue_run_rel fuel ops msg A h hv hf
  exact ⟨msg2, A2, h1, QRel_get_one h2, h2.2, h2.1⟩

theorem QRel_wq0 : QRel wq0 [] :=
  ⟨QInv_wq0, fun x hx => absurd hx (List.not_mem_nil x)⟩

theorem message_get_one_fifo_witness :
    QRel wq0 [] ∧
    ops_valid 9 wq0 [queue_op.add 7000 none, queue_op.add 7103 none, queue_op.add 7000 none,
      queue_op.delete_one, queue_op.del 7103] = true ∧
    ([] : List (Nat × Nat)).length + [queue_op.add 7000 none, queue_op.add 7103 none,
      queue_op.add 7000 none, queue_op.delete_one, queue_op.del 7103].length < 9 ∧
    ∃ msg2 A2, queue_run 9 wq0 [] [queue_op.add 7000 none, queue_op.add 7103 none,
        queue_op.add 7000 none, queue_op.delete_one, queue_op.del 7103] = some (msg2, A2) ∧
      message_get_one msg2 = A2.head?.map Prod.fst ∧
      (∀ x ∈ A2, (msg2.elem x.1).key = x.2) ∧ QInv msg2 (A2.map Prod.fst) :=
  ⟨QRel_wq0, by decide, by decide,
    message_get_one_fifo 9 [queue_op.add 7000 none, queue_op.add 7103 none,
      queue_op.add 7000 none, queue_op.delete_one, queue_op.del 7103] wq0 [] QRel_wq0
      (by decide) (by decide)⟩

/-! ### Claims on the length-prefixed framers -/

/-- Round trip of the 32-bit framer on every non-empty payload of at most
`2 ^ 31 - 5` bytes. -/
theorem parse32_pack32_nonempty (s : List Nat) (cap pcap : Int)
    (hne : s ≠ []) (hlen : s.length ≤ 2147483643)
    (hcap : (s.length : Int) + 4 ≤ u32 cap) (hpcap : (s.length : Int) ≤ u32 pcap) :
    netio_pack32 s s.length cap = ((s.length : Int) + 4, (netio_pack32_length s.length).1 ++ s) ∧
    netio_parse32 (netio_pack32 s s.length cap).2 (netio_pack32 s s.length cap).1 pcap
      = ⟨(s.length : Int) + 4, s.length, s⟩ := by
  have hpos : 0 < s.length := List.length_pos.mpr hne
  have hu : u32 (s.length : Int) = s.length := by
    unfold u32; omega
  have hpk : netio_pack32 s s.length cap
      = ((s.length : Int) + 4, (netio_pack32_length s.length).1 ++ s) := by
    unfold netio_pack32
    rw [if_neg (by rw [hu]; omega)]
    simp [netio_pack32_length]
  refine ⟨hpk, ?_⟩
  rw [hpk]
  have hb := be32_pack32_length (s.length : Int) (by omega) (by omega) s
  unfold netio_parse32
  simp only [hb]
  have hu2 : u32 ((s.length : Int) + 4) = s.length + 4 := by
    unfold u32; omega
  have hi1 : i32 ((s.length : Int) + 4) = s.length + 4 := by
    unfold i32; omega
  have hi2 : i32 (s.length : Int) = s.length := by
    unfold i32; omega
  rw [hu2, hu, hi1, hi2, if_neg (by omega), if_neg (by omega), if_neg (by omega)]
  simp [netio_pack32_length]

/-- C2, the failing input: the frame `netio_pack16` makes of the empty payload is
the two bytes `00 00`, and `netio_parse16` answers `0` (more data needed) on it
instead of consuming it; likewise `netio_pack32` / `netio_parse32` with the four
bytes `00 00 00 00`.  The same empty frame is consumed once one more byte
follows it. -/
theorem parse_pack_empty_payload :
    netio_pack16 [] 0 65535 = (2, [0, 0]) ∧
    netio_parse16 [0, 0] 2 65535 = ⟨0, 0, []⟩ ∧
    netio_parse16 [0, 0, 9] 3 65535 = ⟨2, 0, []⟩ ∧
    netio_pack32 [] 0 65535 = (4, [0, 0, 0, 0]) ∧
    netio_parse32 [0, 0, 0, 0] 4 65535 = ⟨0, 0, []⟩ ∧
    netio_parse32 [0, 0, 0, 0, 9] 5 65535 = ⟨4, 0, []⟩ := by
  decide

/-! ### The send path -/

/-- A queue that agrees with a well-formed queue on everything but the payloads
of its elements is well formed. -/
theorem QInv_congr {δ : Type} {msg msg2 : messageheader_t δ} {F : List Nat} (h : QInv msg F)
    (hpool : ∃ L, PoolInv msg2.element_a L)
    (hbase : msg2.basenum = msg.basenum) (htop : msg2.top = msg.top)
    (hlast : msg2.last = msg.last) (helement : msg2.element = msg.element)
    (hslots : pool_slots msg2.element_a = pool_slots msg.element_a)
    (hflag : ∀ e ∈ F, (msg2.element_a.mem (e - sizeof_memelement_t)).in_use
      = (msg.element_a.mem (e - sizeof_memelement_t)).in_use)
    (hkey : ∀ e ∈ F, (msg2.elem e).key = (msg.elem e).key)
    (hnext : ∀ e ∈ F, (msg2.elem e).next = (msg.elem e).next)
    (hhash : ∀ e ∈ F, (msg2.elem e).hashnext = (msg.elem e).hashnext) : QInv msg2 F := by
  refine ⟨hpool, by rw [hbase]; exact h.base_pos, ?_, ?_, h.nodup, ?_, ?_, ?_⟩
  · intro e he
    obtain ⟨a, ha, hea⟩ := h.user e he
    exact ⟨a, by rw [hslots]; exact ha, hea⟩
  · intro e he
    rw [hflag e he]; exact h.used e he
  · rw [htop]
    exact Chain_congr hnext h.fifo
  · rw [hlast]; exact h.last_eq
  · intro i
    have hfilter : F.filter (fun e => decide (bucket_index msg2 (msg2.elem e).key = i))
        = F.filter (fun e => decide (bucket_index msg (msg.elem e).key = i)) := by
      apply List.filter_congr
      intro e he
      rw [bucket_index_congr hbase, hkey e he]
    rw [hfilter, helement]
    refine Chain_congr ?_ (h.hash i)
    intro a ha
    exact hhash a (List.mem_of_mem_filter (List.mem_reverse.mp ha))

/-- The element after a write of its payload. -/
theorem elem_set_data {δ : Type} (msg : messageheader_t δ) (p : Nat) (d : δ) (q : Nat) :
    ((msg.set_elem p { (msg.elem p) with data := d }).elem q).key = (msg.elem q).key ∧
    ((msg.set_elem p { (msg.elem p) with data := d }).elem q).next = (msg.elem q).next ∧
    ((msg.set_elem p { (msg.elem p) with data := d }).elem q).hashnext
      = (msg.elem q).hashnext := by
  rw [elem_set_elem]
  split
  · next hq => simp only [messageheader_t.elem, mempool_t.deref, hq, and_self]
  · exact ⟨rfl, rfl, rfl⟩

/-- Writing the payload of an element keeps the queue well formed. -/
theorem QInv_set_data {δ : Type} {msg : messageheader_t δ} {F : List Nat} (h : QInv msg F)
    (p : Nat) (d : δ) : QInv (msg.set_elem p { (msg.elem p) with data := d }) F := by
  obtain ⟨L, hL⟩ := h.pool
  exact QInv_congr h ⟨L, PoolInv_store hL _ _⟩ rfl rfl rfl rfl rfl
    (fun e _ => store_in_use _ _ _ _) (fun e _ => (elem_set_data msg p d e).1)
    (fun e _ => (elem_set_data msg p d e).2.1) (fun e _ => (elem_set_data msg p d e).2.2)

theorem queued_bytes_congr {q q2 : messageheader_t write_buffer_t} {F : List Nat}
    (h : ∀ e ∈ F, (q2.elem e).key = (q.elem e).key ∧ (q2.elem e).data = (q.elem e).data)
    (c : Nat) : queued_bytes q2 F c = queued_bytes q F c := by
  unfold queued_bytes
  have hf : F.filter (fun e => decide ((q2.elem e).key = c))
      = F.filter (fun e => decide ((q.elem e).key = c)) := by
    apply List.filter_congr
    intro e he
    rw [(h e he).1]
  rw [hf]
  apply List.flatMap_congr
  intro e he
  unfold entry_bytes
  rw [(h e (List.mem_of_mem_filter he)).2]

theorem queued_bytes_snoc (q : messageheader_t write_buffer_t) (F : List Nat) (x c : Nat) :
    queued_bytes q (F ++ [x]) c
      = queued_bytes q F c ++ (if (q.elem x).key = c then entry_bytes q x else []) := by
  unfold queued_bytes
  rw [List.filter_append, List.flatMap_append]
  congr 1
  by_cases hk : (q.elem x).key = c
  · simp [List.filter_cons, hk]
  · simp [List.filter_cons, hk]

theorem sent_bytes_append (l1 l2 : List event_t) (c : Nat) :
    sent_bytes (l1 ++ l2) c = sent_bytes l1 c ++ sent_bytes l2 c := by
  unfold sent_bytes
  rw [List.flatMap_append]

theorem WInv_ge {t : tcp_t} {F : List Nat} (h : WInv t F) {e : Nat} (he : e ∈ F) :
    sizeof_memelement_t ≤ e :=
  h.1.ge he

/-- The loop of `netio_tcp_append_write_buffer` on a well-formed write queue: the
queue stays well formed, and when the loop reports success the bytes
`data[stored ..]` have been appended, in order, to the entries of `c`. -/
theorem append_loop_spec (c : Nat) (data : List Nat) :
    ∀ (n : Nat) (t : tcp_t) (F : List Nat) (stored len : Int) (ms : List (Option Nat)),
      WInv t F → 0 ≤ stored → 0 ≤ len → stored + len = data.length → len.toNat ≤ n →
      ∃ F1, WInv (append_loop n t c data stored len ms).1 F1 ∧
        F1.length ≤ F.length + len.toNat ∧
        (append_loop n t c data stored len ms).1.log = t.log ∧
        (append_loop n t c data stored len ms).1.connection_a = t.connection_a ∧
        (append_loop n t c data stored len ms).1.rbuffer_a = t.rbuffer_a ∧
        ((append_loop n t c data stored len ms).2 ≠ 0 →
          ∀ c2, queued_bytes (append_loop n t c data stored len ms).1.wbuffer_m F1 c2
            = queued_bytes t.wbuffer_m F c2
              ++ (if c = c2 then data.drop stored.toNat else [])) := by
  intro n
  induction n with
  | zero =>
    intro t F stored len ms h hs hl hsum hn
    have hdrop : data.drop stored.toNat = [] := List.drop_eq_nil_of_le (by omega)
    have happ : append_loop 0 t c data stored len ms = (t, 1) := rfl
    rw [happ]
    exact ⟨F, h, by omega, rfl, rfl, rfl, fun _ c2 => by simp [hdrop]⟩
  | succ n ih =>
    intro t F stored len ms h hs hl hsum hn
    by_cases hpos : len > 0
    · obtain ⟨h1, _, h3, h4⟩ := message_add_spec h.1 c (ms.head?.join)
      cases hr : message_add t.wbuffer_m c ms.head?.join with
      | mk q r =>
        rw [hr] at h1 h3 h4
        simp only at h1 h3 h4
        cases r with
        | none =>
          have hq : q = t.wbuffer_m := h1 rfl
          have happ : append_loop (n + 1) t c data stored len ms
              = ({ t with wbuffer_m := q }, 0) := by
            simp only [append_loop]
            rw [if_pos hpos, hr]
          rw [happ]
          subst hq
          exact ⟨F, h, by omega, rfl, rfl, rfl, fun hne => absurd rfl hne⟩
        | some wb =>
          obtain ⟨hwbF, hq, hkey, _, _⟩ := h4 wb rfl
          have hd1 : 0 < min len NIO_BUFFER_SIZE := lt_min hpos (by decide)
          have hd2 : min len NIO_BUFFER_SIZE ≤ len := min_le_left _ _
          have happ : append_loop (n + 1) t c data stored len ms
              = append_loop n
                  { t with wbuffer_m := q.set_elem wb { (q.elem wb) with data :=
                      { conn := some c,
                        buffer := memcpy (q.elem wb).data.buffer (data.drop stored.toNat)
                          (min len NIO_BUFFER_SIZE).toNat,
                        buffer_len := min len NIO_BUFFER_SIZE } } }
                  c data (stored + min len NIO_BUFFER_SIZE) (len - min len NIO_BUFFER_SIZE)
                  ms.tail := by
            simp only [append_loop]
            rw [if_pos hpos, hr]
          rw [happ]
          have hwb16 : sizeof_memelement_t ≤ wb := hq.ge (by simp)
          have hold : ∀ e ∈ F,
              (q.set_elem wb { (q.elem wb) with data :=
                ({ conn := some c,
                   buffer := memcpy (q.elem wb).data.buffer (data.drop stored.toNat)
                     (min len NIO_BUFFER_SIZE).toNat,
                   buffer_len := min len NIO_BUFFER_SIZE } : write_buffer_t) }).elem e
              = q.elem e := by
            intro e he
            exact elem_set_elem_ne _ _ hwb16 (WInv_ge h he) (fun hc => hwbF (hc ▸ he))
          have hdlen : (min len NIO_BUFFER_SIZE).toNat ≤ (data.drop stored.toNat).length := by
            rw [List.length_drop]
            omega
          have hW1 : WInv
              { t with wbuffer_m := q.set_elem wb { (q.elem wb) with data :=
                  { conn := some c,
                    buffer := memcpy (q.elem wb).data.buffer (data.drop stored.toNat)
                      (min len NIO_BUFFER_SIZE).toNat,
                    buffer_len := min len NIO_BUFFER_SIZE } } } (F ++ [wb]) := by
            refine ⟨QInv_set_data hq wb _, ?_⟩
            intro e he
            rcases List.mem_append.mp he with he | he
            · show _ ∧ _ ∧ _
              rw [hold e he, (h3 e he).1, (h3 e he).2]
              exact h.2 e he
            · rw [List.mem_singleton.mp he]
              show _ ∧ _ ∧ _
              rw [elem_set_elem_same]
              refine ⟨by simp [hkey], le_of_lt hd1, ?_⟩
              simp only [memcpy, List.length_append, List.length_take, List.length_drop]
              omega
          obtain ⟨F1, g1, g2, g3, g4, g5, g6⟩ := ih _ (F ++ [wb])
            (stored + min len NIO_BUFFER_SIZE) (len - min len NIO_BUFFER_SIZE) ms.tail hW1
            (by omega) (by omega) (by omega) (by omega)
          refine ⟨F1, g1, ?_, g3, g4, g5, ?_⟩
          · simp only [List.length_append, List.length_singleton] at g2
            omega
          · intro hne c2
            rw [g6 hne c2, queued_bytes_snoc]
            have hq1 : queued_bytes (q.set_elem wb { (q.elem wb) with data :=
                  ({ conn := some c,
                     buffer := memcpy (q.elem wb).data.buffer (data.drop stored.toNat)
                       (min len NIO_BUFFER_SIZE).toNat,
                     buffer_len := min len NIO_BUFFER_SIZE } : write_buffer_t) }) F c2
                = queued_bytes t.wbuffer_m F c2 := by
              apply queued_bytes_congr
              intro e he
              rw [hold e he]
              exact h3 e he
            have hk2 : ((q.set_elem wb { (q.elem wb) with data :=
                  ({ conn := some c,
                     buffer := memcpy (q.elem wb).data.buffer (data.drop stored.toNat)
                       (min len NIO_BUFFER_SIZE).toNat,
                     buffer_len := min len NIO_BUFFER_SIZE } : write_buffer_t) }).elem wb).key
                = c := by
              rw [elem_set_elem_same]
              exact hkey
            have he : entry_bytes (q.set_elem wb { (q.elem wb) with data :=
                  ({ conn := some c,
                     buffer := memcpy (q.elem wb).data.buffer (data.drop stored.toNat)
                       (min len NIO_BUFFER_SIZE).toNat,
                     buffer_len := min len NIO_BUFFER_SIZE } : write_buffer_t) }) wb
                = (data.drop stored.toNat).take (min len NIO_BUFFER_SIZE).toNat := by
              unfold entry_bytes
              rw [elem_set_elem_same]
              simp only [memcpy]
              rw [List.take_append_of_le_length (by
                rw [List.length_take]; omega)]
              rw [List.take_take]
              simp
            have hdd : data.drop (stored + min len NIO_BUFFER_SIZE).toNat
                = (data.drop stored.toNat).drop (min len NIO_BUFFER_SIZE).toNat := by
              rw [List.drop_drop]
              congr 1
              omega
            show queued_bytes _ F c2 ++ _ ++ _ = _
            rw [hq1, hk2, he, hdd]
            by_cases hc : c = c2
            · simp only [hc, if_true, List.append_assoc, List.take_append_drop]
            · simp [hc]
    · have hlen0 : len = 0 := by omega
      have hdrop : data.drop stored.toNat = [] := List.drop_eq_nil_of_le (by omega)
      have happ : append_loop (n + 1) t c data stored len ms = (t, 1) := by
        simp only [append_loop]
        rw [if_neg hpos]
      rw [happ]
      exact ⟨F, h, by omega, rfl, rfl, rfl, fun _ c2 => by simp [hdrop]⟩

theorem queued_bytes_cons (q : messageheader_t write_buffer_t) (F : List Nat) (x c : Nat) :
    queued_bytes q (x :: F) c
      = (if (q.elem x).key = c then entry_bytes q x else []) ++ queued_bytes q F c := by
  unfold queued_bytes
  by_cases hk : (q.elem x).key = c
  · simp [List.filter_cons, hk]
  · simp [List.filter_cons, hk]

theorem take_memmove (b : List Nat) (k len : Nat) (hk : k ≤ len) (hl : len ≤ b.length) :
    b.take k ++ (memcpy b (b.drop k) (len - k)).take (len - k) = b.take len := by
  unfold memcpy
  rw [List.take_append_of_le_length (by rw [List.length_take, List.length_drop]; omega),
    List.take_take, Nat.min_self]
  have h : len = k + (len - k) := by omega
  conv => rhs; rw [h, List.take_add]

theorem length_memmove (b : List Nat) (k len : Nat) (hk : k ≤ len) (hl : len ≤ b.length) :
    len - k ≤ (memcpy b (b.drop k) (len - k)).length := by
  unfold memcpy
  simp only [List.length_append, List.length_take, List.length_drop]
  omega

/-- A send that accepts `k` bytes of the head entry, fewer than it holds: the entry
keeps the rest and the stream of its connection is unchanged. -/
theorem push_partial {t : tcp_t} {wb : Nat} {F : List Nat} (h : WInv t (wb :: F))
    (k : Nat) (hk : (k : Int) < (t.wbuffer_m.elem wb).data.buffer_len) (ev : List event_t) :
    WInv { t with
        log := ev,
        wbuffer_m := t.wbuffer_m.set_elem wb { (t.wbuffer_m.elem wb) with data :=
          { (t.wbuffer_m.elem wb).data with
            buffer_len := (t.wbuffer_m.elem wb).data.buffer_len - k,
            buffer := memcpy (t.wbuffer_m.elem wb).data.buffer
              ((t.wbuffer_m.elem wb).data.buffer.drop k)
              ((t.wbuffer_m.elem wb).data.buffer_len - k).toNat } } } (wb :: F) ∧
    ∀ c, (if (t.wbuffer_m.elem wb).key = c then (t.wbuffer_m.elem wb).data.buffer.take k else [])
        ++ queued_bytes (t.wbuffer_m.set_elem wb { (t.wbuffer_m.elem wb) with data :=
          { (t.wbuffer_m.elem wb).data with
            buffer_len := (t.wbuffer_m.elem wb).data.buffer_len - k,
            buffer := memcpy (t.wbuffer_m.elem wb).data.buffer
              ((t.wbuffer_m.elem wb).data.buffer.drop k)
              ((t.wbuffer_m.elem wb).data.buffer_len - k).toNat } }) (wb :: F) c
      = queued_bytes t.wbuffer_m (wb :: F) c := by
  have hwb16 : sizeof_memelement_t ≤ wb := WInv_ge h (by simp)
  have hnd := List.nodup_cons.mp h.1.nodup
  obtain ⟨hconn, hlen0, hlen⟩ := h.2 wb (by simp)
  generalize hw2 : ({ (t.wbuffer_m.elem wb).data with
            buffer_len := (t.wbuffer_m.elem wb).data.buffer_len - k,
            buffer := memcpy (t.wbuffer_m.elem wb).data.buffer
              ((t.wbuffer_m.elem wb).data.buffer.drop k)
              ((t.wbuffer_m.elem wb).data.buffer_len - k).toNat } : write_buffer_t) = w2
  have hold : ∀ e ∈ F,
      (t.wbuffer_m.set_elem wb { (t.wbuffer_m.elem wb) with data := w2 }).elem e
        = t.wbuffer_m.elem e := by
    intro e he
    exact elem_set_elem_ne _ _ hwb16 (WInv_ge h (List.mem_cons_of_mem _ he))
      (fun hc => hnd.1 (hc ▸ he))
  have htn : ((t.wbuffer_m.elem wb).data.buffer_len - (k : Int)).toNat
      = (t.wbuffer_m.elem wb).data.buffer_len.toNat - k := by omega
  constructor
  · refine ⟨QInv_set_data h.1 wb w2, ?_⟩
    intro e he
    rcases List.mem_cons.mp he with he | he
    · rw [he]
      show _ ∧ _ ∧ _
      rw [elem_set_elem_same]
      subst hw2
      refine ⟨hconn, by show 0 ≤ _ - _; omega, ?_⟩
      show (_ - _ : Int).toNat ≤ (memcpy _ _ _).length
      rw [htn]
      exact length_memmove _ _ _ (by omega) hlen
    · show _ ∧ _ ∧ _
      rw [hold e he]
      exact h.2 e (List.mem_cons_of_mem _ he)
  · intro c
    rw [queued_bytes_cons, queued_bytes_cons]
    have hq1 : queued_bytes (t.wbuffer_m.set_elem wb
        { (t.wbuffer_m.elem wb) with data := w2 }) F c = queued_bytes t.wbuffer_m F c := by
      apply queued_bytes_congr
      intro e he
      rw [hold e he]
      exact ⟨rfl, rfl⟩
    have hk2 : ((t.wbuffer_m.set_elem wb
        { (t.wbuffer_m.elem wb) with data := w2 }).elem wb).key = (t.wbuffer_m.elem wb).key := by
      rw [elem_set_elem_same]
    have he : (t.wbuffer_m.elem wb).data.buffer.take k ++ entry_bytes (t.wbuffer_m.set_elem wb
        { (t.wbuffer_m.elem wb) with data := w2 }) wb = entry_bytes t.wbuffer_m wb := by
      unfold entry_bytes
      rw [elem_set_elem_same]
      subst hw2
      show _ ++ (memcpy _ _ _).take (_ - _ : Int).toNat = _
      rw [htn]
      exact take_memmove _ _ _ (by omega) hlen
    rw [hq1, hk2]
    by_cases hc : (t.wbuffer_m.elem wb).key = c
    · subst hc
      rw [if_pos rfl, if_pos rfl, ← List.append_assoc, he, if_pos rfl]
    · simp [hc]

theorem sent_bytes_single (c0 : Nat) (s : Int) (d : List Nat) (c : Nat) :
    sent_bytes [event_t.sys_send c0 s d] c = if c0 = c then d else [] := by
  simp [sent_bytes]

/-- The drain loop on a well-formed write queue returns, keeps the queue well
formed and moves bytes from the queue head to the socket only: for every
connection the bytes sent followed by the bytes queued are unchanged. -/
theorem push_loop_spec (fuel : Nat) :
    ∀ (n : Nat) (t : tcp_t) (F : List Nat) (result : Int) (rs : List send_result),
      WInv t F → F.length < fuel →
      ∃ t1 r F1, push_loop fuel n t result rs = some (t1, r) ∧ WInv t1 F1 ∧
        F1.length ≤ F.length ∧ t1.connection_a = t.connection_a ∧
        t1.rbuffer_a = t.rbuffer_a ∧
        (∀ c, sent_bytes t1.log c ++ queued_bytes t1.wbuffer_m F1 c
          = sent_bytes t.log c ++ queued_bytes t.wbuffer_m F c) ∧
        ∃ evs, t1.log = t.log ++ evs ∧
          ∀ ev ∈ evs, ∃ e ∈ F, ∃ s d, ev = event_t.sys_send (t.wbuffer_m.elem e).key s d := by
  intro n
  induction n with
  | zero =>
    intro t F result rs h hf
    exact ⟨t, result, F, rfl, h, le_refl _, rfl, rfl, fun _ => rfl, [], by simp, by simp⟩
  | succ n ih =>
    intro t F result rs h hf
    cases F with
    | nil =>
      have htop : message_get_one t.wbuffer_m = none := h.1.fifo
      refine ⟨t, result, [], ?_, h, le_refl _, rfl, rfl, fun _ => rfl, [], by simp, by simp⟩
      simp only [push_loop, htop]
    | cons wb F =>
      have htop : message_get_one t.wbuffer_m = some wb := h.1.fifo.1
      obtain ⟨hconn, hlen0, hlen⟩ := h.2 wb (by simp)
      cases hr : rs.head?.getD send_result.again with
      | ok m =>
        by_cases hk : ((min m (t.wbuffer_m.elem wb).data.buffer_len.toNat : Nat) : Int)
            < (t.wbuffer_m.elem wb).data.buffer_len
        · obtain ⟨hW, hB⟩ := push_partial h (min m (t.wbuffer_m.elem wb).data.buffer_len.toNat)
            hk (t.log ++ [event_t.sys_send (t.wbuffer_m.elem wb).key
              (t.connection_a.deref (t.wbuffer_m.elem wb).key).soc
              ((t.wbuffer_m.elem wb).data.buffer.take
                (min m (t.wbuffer_m.elem wb).data.buffer_len.toNat))])
          refine ⟨_, result + 1, wb :: F, ?_, hW, le_refl _, rfl, rfl, ?_, _, rfl, ?_⟩
          · simp only [push_loop, htop, hconn, hr, sys_send]
            rw [if_neg (by omega), if_pos hk]
            simp only [Int.toNat_ofNat]
          · intro c
            show sent_bytes (t.log ++ _) c ++ _ = _
            rw [sent_bytes_append, sent_bytes_single, List.append_assoc, hB c]
          · intro ev hev
            rw [List.mem_singleton] at hev
            exact ⟨wb, by simp, _, _, hev⟩
        · have hkeq : min m (t.wbuffer_m.elem wb).data.buffer_len.toNat
              = (t.wbuffer_m.elem wb).data.buffer_len.toNat := by omega
          obtain ⟨q, hq, hQ, _, hkey, hdata, _⟩ :=
            message_delete_one_spec h.1 fuel (by simpa using hf)
          have hW2 : WInv { t with
              log := t.log ++ [event_t.sys_send (t.wbuffer_m.elem wb).key
                (t.connection_a.deref (t.wbuffer_m.elem wb).key).soc
                ((t.wbuffer_m.elem wb).data.buffer.take
                  (min m (t.wbuffer_m.elem wb).data.buffer_len.toNat))],
              wbuffer_m := q } F := by
            refine ⟨hQ, ?_⟩
            intro e he
            show _ ∧ _ ∧ _
            rw [hkey e, hdata e]
            exact h.2 e (List.mem_cons_of_mem _ he)
          obtain ⟨t3, r, F1, g1, g2, g3, g4, g5, g6, evs, g7, g8⟩ :=
            ih _ F (result + 1) rs.tail hW2 (by simp only [List.length_cons] at hf; omega)
          refine ⟨t3, r, F1, ?_, g2, ?_, g4, g5, ?_,
            event_t.sys_send (t.wbuffer_m.elem wb).key
              (t.connection_a.deref (t.wbuffer_m.elem wb).key).soc
              ((t.wbuffer_m.elem wb).data.buffer.take
                (min m (t.wbuffer_m.elem wb).data.buffer_len.toNat)) :: evs, ?_, ?_⟩
          · simp only [push_loop, htop, hconn, hr, sys_send]
            rw [if_neg (by omega), if_neg hk]
            show (match message_delete_one fuel t.wbuffer_m with
              | none => none
              | some q => _) = _
            rw [hq]
            exact g1
          · simp only [List.length_cons]
            omega
          · intro c
            rw [g6 c]
            show sent_bytes (t.log ++ _) c ++ queued_bytes q F c = _
            rw [sent_bytes_append, sent_bytes_single, List.append_assoc, queued_bytes_cons,
              hkeq]
            congr 2
            exact queued_bytes_congr (fun e _ => ⟨hkey e, hdata e⟩) c
          · rw [g7]
            show (t.log ++ [_]) ++ evs = _
            rw [List.append_assoc]
            rfl
          · intro ev hev
            rcases List.mem_cons.mp hev with hev | hev
            · exact ⟨wb, by simp, _, _, hev⟩
            · obtain ⟨e, he, s, d, hd⟩ := g8 ev hev
              exact ⟨e, List.mem_cons_of_mem _ he, s, d, by rw [hd]; exact congrArg (fun k => event_t.sys_send k s d) (hkey e)⟩
      | again =>
        refine ⟨t, result, wb :: F, ?_, h, le_refl _, rfl, rfl, fun _ => rfl, [], by simp,
          by simp⟩
        simp only [push_loop, htop, hconn, hr, sys_send]
        rfl
      | fail e =>
        refine ⟨t, result, wb :: F, ?_, h, le_refl _, rfl, rfl, fun _ => rfl, [], by simp,
          by simp⟩
        simp only [push_loop, htop, hconn, hr, sys_send]
        rfl

/-- `netio_tcp_append_write_buffer` with the whole of `data`: the queue stays well
formed and, when the call succeeds, `data` has been appended to the entries of
`c`. -/
theorem append_write_buffer_spec {t : tcp_t} {F : List Nat} (h : WInv t F) (c : Nat)
    (data : List Nat) (len : Int) (hlen : len = data.length) (ms : List (Option Nat)) :
    ∃ F1, WInv (netio_tcp_append_write_buffer t c data len ms).1 F1 ∧
      F1.length ≤ F.length + data.length ∧
      (netio_tcp_append_write_buffer t c data len ms).1.log = t.log ∧
      (netio_tcp_append_write_buffer t c data len ms).1.connection_a = t.connection_a ∧
      (netio_tcp_append_write_buffer t c data len ms).1.rbuffer_a = t.rbuffer_a ∧
      ((netio_tcp_append_write_buffer t c data len ms).2 ≠ 0 →
        ∀ c2, queued_bytes (netio_tcp_append_write_buffer t c data len ms).1.wbuffer_m F1 c2
          = queued_bytes t.wbuffer_m F c2 ++ (if c = c2 then data else [])) := by
  obtain ⟨F1, g1, g2, g3, g4, g5, g6⟩ := append_loop_spec c data len.toNat t F 0 len ms h
    (le_refl _) (by omega) (by omega) (le_refl _)
  refine ⟨F1, g1, by omega, g3, g4, g5, ?_⟩
  intro hne c2
  have := g6 hne c2
  simpa using this

theorem queued_bytes_nil_of_find {q : messageheader_t write_buffer_t} {F : List Nat} {c : Nat}
    (h : F.reverse.find? (fun e => decide (c = (q.elem e).key)) = none) :
    queued_bytes q F c = [] := by
  unfold queued_bytes
  have hf : F.filter (fun e => decide ((q.elem e).key = c)) = [] := by
    rw [List.filter_eq_nil_iff]
    intro e he
    have := List.find?_eq_none.mp h e (List.mem_reverse.mpr he)
    simp only [decide_eq_true_eq] at this ⊢
    exact fun hc => this hc.symm
  rw [hf]
  rfl

/-- A call of `netio_sender` on a well-formed write queue returns and keeps the
queue well formed; when it reports no error, the stream of the connection (bytes
sent, then bytes queued) has grown by exactly `data`, and the streams of the other
connections are unchanged. -/
theorem netio_sender_spec (fuel : Nat) {t : tcp_t} {F : List Nat} (h : WInv t F)
    (hf : F.length < fuel) (c : Nat) (data : List Nat) (r : send_result)
    (ms : List (Option Nat)) :
    ∃ t1 ret F1, netio_sender fuel t (some c) data data.length r ms = some (t1, ret) ∧
      WInv t1 F1 ∧ F1.length ≤ F.length + data.length ∧
      t1.connection_a = t.connection_a ∧ t1.rbuffer_a = t.rbuffer_a ∧
      (0 ≤ ret → ∀ c2, sent_bytes t1.log c2 ++ queued_bytes t1.wbuffer_m F1 c2
        = (sent_bytes t.log c2 ++ queued_bytes t.wbuffer_m F c2)
          ++ (if c = c2 then data else [])) := by
  have hfind := message_find_spec h.1 c fuel hf
  cases hx : F.reverse.find? (fun e => decide (c = (t.wbuffer_m.elem e).key)) with
  | some e =>
    rw [hx] at hfind
    obtain ⟨F1, g1, g2, g3, g4, g5, g6⟩ :=
      append_write_buffer_spec h c data data.length rfl ms
    by_cases hret : (netio_tcp_append_write_buffer t c data data.length ms).2 = 0
    · refine ⟨_, -1, F1, ?_, g1, g2, g4, g5, fun hneg => absurd hneg (by decide)⟩
      simp only [netio_sender, hfind]
      rw [if_pos hret]
    · refine ⟨_, data.length, F1, ?_, g1, g2, g4, g5, fun _ c2 => ?_⟩
      · simp only [netio_sender, hfind]
        rw [if_neg hret]
      · rw [g3, g6 hret c2, List.append_assoc]
  | none =>
    rw [hx] at hfind
    have hq0 : queued_bytes t.wbuffer_m F c = [] := queued_bytes_nil_of_find hx
    cases r with
    | ok m =>
      have hW1 : WInv { t with log := t.log ++ [event_t.sys_send c (t.connection_a.deref c).soc
          (data.take (min m data.length))] } F := h
      have hn : (if ((min m data.length : Nat) : Int) < 0 then (0 : Int)
          else ((min m data.length : Nat) : Int)) = ((min m data.length : Nat) : Int) :=
        if_neg (by omega)
      by_cases hk : ((min m data.length : Nat) : Int) < (data.length : Int)
      · obtain ⟨F1, g1, g2, g3, g4, g5, g6⟩ :=
          append_write_buffer_spec hW1 c (data.drop (min m data.length))
            ((data.length : Int) - ((min m data.length : Nat) : Int))
            (by rw [List.length_drop]; omega) ms
        by_cases hret : (netio_tcp_append_write_buffer
            { t with log := t.log ++ [event_t.sys_send c (t.connection_a.deref c).soc
              (data.take (min m data.length))] } c (data.drop (min m data.length))
            ((data.length : Int) - ((min m data.length : Nat) : Int)) ms).2 = 0
        · refine ⟨_, -1, F1, ?_, g1, ?_, g4, g5, fun hneg => absurd hneg (by decide)⟩
          · simp only [netio_sender, hfind, sys_send, hn, Int.toNat_ofNat, and_true]
            rw [if_neg (by omega), if_pos hk, if_pos hret]
          · rw [List.length_drop] at g2
            omega
        · refine ⟨_, ((min m data.length : Nat) : Int), F1, ?_, g1, ?_, g4, g5,
            fun _ c2 => ?_⟩
          · simp only [netio_sender, hfind, sys_send, hn, Int.toNat_ofNat, and_true]
            rw [if_neg (by omega), if_pos hk, if_neg hret]
          · rw [List.length_drop] at g2
            omega
          · rw [g3, g6 hret c2]
            show sent_bytes (t.log ++ _) c2 ++ _ = _
            rw [sent_bytes_append, sent_bytes_single]
            by_cases hc : c = c2
            · subst hc
              simp only [if_true, hq0, List.append_nil, List.nil_append, List.append_assoc,
                List.take_append_drop]
            · simp [hc]
      · have hkeq : min m data.length = data.length := by omega
        refine ⟨_, ((min m data.length : Nat) : Int), F, ?_, hW1, by omega, rfl, rfl,
          fun _ c2 => ?_⟩
        · simp only [netio_sender, hfind, sys_send, hn, Int.toNat_ofNat, and_true]
          rw [if_neg (by omega), if_neg hk]
        · show sent_bytes (t.log ++ _) c2 ++ _ = _
          rw [sent_bytes_append, sent_bytes_single, hkeq, List.take_length]
          by_cases hc : c = c2
          · subst hc
            simp only [if_true, hq0, List.append_nil]
          · simp [hc]
    | again =>
      by_cases hk : (0 : Int) < (data.length : Int)
      · obtain ⟨F1, g1, g2, g3, g4, g5, g6⟩ :=
          append_write_buffer_spec h c (data.drop 0) ((data.length : Int) - 0)
            (by simp) ms
        by_cases hret : (netio_tcp_append_write_buffer t c (data.drop 0)
            ((data.length : Int) - 0) ms).2 = 0
        · refine ⟨_, -1, F1, ?_, g1, by simpa using g2, g4, g5,
            fun hneg => absurd hneg (by decide)⟩
          simp only [netio_sender, hfind, sys_send]
          simp only [show ((-1 : Int) < 0) = True from by simp, if_true, Int.toNat_zero]
          rw [if_neg (by simp), if_pos hk, if_pos hret]
        · refine ⟨_, 0, F1, ?_, g1, by simpa using g2, g4, g5, fun _ c2 => ?_⟩
          · simp only [netio_sender, hfind, sys_send]
            simp only [show ((-1 : Int) < 0) = True from by simp, if_true, Int.toNat_zero]
            rw [if_neg (by simp), if_pos hk, if_neg hret]
          · rw [g3, g6 hret c2, List.append_assoc]
            rfl
      · have hnil : data = [] := List.length_eq_zero.mp (by omega)
        refine ⟨t, 0, F, ?_, h, by omega, rfl, rfl, fun _ c2 => ?_⟩
        · simp only [netio_sender, hfind, sys_send]
          simp only [show ((-1 : Int) < 0) = True from by simp, if_true]
          rw [if_neg (by simp), if_neg hk]
        · simp [hnil]
    | fail e =>
      refine ⟨t, -1, F, ?_, h, by omega, rfl, rfl, fun hneg => absurd hneg (by decide)⟩
      simp only [netio_sender, hfind, sys_send]
      rw [if_pos (by simp)]

theorem sender_len_cons_sender (c : Nat) (d : List Nat) (r : send_result)
    (ms : List (Option Nat)) (ops : List tcp_op) :
    sender_len (tcp_op.sender c d r ms :: ops) = d.length + sender_len ops := by
  simp [sender_len]

theorem sender_len_cons_tick (rs : List send_result) (ops : List tcp_op) :
    sender_len (tcp_op.tick rs :: ops) = sender_len ops := by
  simp [sender_len]

theorem sender_data_cons_sender (c : Nat) (d : List Nat) (r : send_result)
    (ms : List (Option Nat)) (ops : List tcp_op) (c2 : Nat) :
    sender_data (tcp_op.sender c d r ms :: ops) c2
      = (if c = c2 then d else []) ++ sender_data ops c2 := by
  simp [sender_data]

theorem sender_data_cons_tick (rs : List send_result) (ops : List tcp_op) (c2 : Nat) :
    sender_data (tcp_op.tick rs :: ops) c2 = sender_data ops c2 := by
  simp [sender_data]

/-- Every sequence of `netio_sender` calls and drain ticks on a well-formed write
queue runs to its end, and when no call reports an error every connection's stream
(bytes sent, then bytes queued) has grown by the data of its calls, in call
order. -/
theorem tcp_run_spec (fuel : Nat) :
    ∀ (ops : List tcp_op) (t : tcp_t) (F : List Nat),
      WInv t F → F.length + sender_len ops < fuel →
      ∃ t2 rets F2, tcp_run fuel t ops = some (t2, rets) ∧ WInv t2 F2 ∧
        F2.length ≤ F.length + sender_len ops ∧
        t2.connection_a = t.connection_a ∧ t2.rbuffer_a = t.rbuffer_a ∧
        ((∀ r ∈ rets, 0 ≤ r) →
          ∀ c, sent_bytes t2.log c ++ queued_bytes t2.wbuffer_m F2 c
            = (sent_bytes t.log c ++ queued_bytes t.wbuffer_m F c) ++ sender_data ops c) := by
  intro ops
  induction ops with
  | nil =>
    intro t F h hf
    exact ⟨t, [], F, rfl, h, by omega, rfl, rfl, fun _ c => by simp [sender_data]⟩
  | cons op ops ih =>
    intro t F h hf
    cases op with
    | sender c0 data r ms =>
      rw [sender_len_cons_sender] at hf ⊢
      obtain ⟨t1, ret, F1, hs, hW1, hl1, hc1, hr1, hb1⟩ :=
        netio_sender_spec fuel h (by omega) c0 data r ms
      obtain ⟨t2, rets, F2, hr, hW2, hl2, hc2, hr2, hb2⟩ := ih t1 F1 hW1 (by omega)
      refine ⟨t2, [ret] ++ rets, F2, ?_, hW2, by omega, hc2.trans hc1, hr2.trans hr1, ?_⟩
      · simp only [tcp_run, tcp_step, hs, hr]
      · intro hok c
        have h0 : 0 ≤ ret := hok ret (by simp)
        have hrest : ∀ r ∈ rets, 0 ≤ r := fun r hr => hok r (by simp [hr])
        rw [hb2 hrest c, hb1 h0 c, sender_data_cons_sender, List.append_assoc]
    | tick rs =>
      rw [sender_len_cons_tick] at hf ⊢
      obtain ⟨t1, ret, F1, hs, hW1, hl1, hc1, hr1, hb1, _⟩ :=
        push_loop_spec fuel _PUSH_BUFFER_NUM_PAR_LOOP.toNat t F 0 rs h (by omega)
      obtain ⟨t2, rets, F2, hr, hW2, hl2, hc2, hr2, hb2⟩ := ih t1 F1 hW1 (by omega)
      refine ⟨t2, rets, F2, ?_, hW2, by omega, hc2.trans hc1, hr2.trans hr1, ?_⟩
      · simp only [tcp_run, tcp_step, netio_tcp_push_write_buffer, hs, hr, List.nil_append]
      · intro hok c
        rw [hb2 hok c, hb1 c, sender_data_cons_tick]

theorem tcp_accept_wbuffer (pf : Option parse_callback) :
    ∀ n, (tcp_accept pf n).wbuffer_m = wq0 := by
  intro n
  induction n with
  | zero => rfl
  | succ n ih =>
    show (__accept_event_callback (tcp_accept pf n) _ _ _ pf none).1.wbuffer_m = wq0
    unfold __accept_event_callback
    split <;> exact ih

theorem WInv_tcp_accept (pf : Option parse_callback) (n : Nat) : WInv (tcp_accept pf n) [] :=
  ⟨by rw [tcp_accept_wbuffer]; exact QInv_wq0, fun e he => absurd he (List.not_mem_nil e)⟩

/-- C1 (write ordering).  On an endpoint whose write queue is well formed, every
sequence of `netio_sender` calls and drain ticks (`netio_tcp_push_write_buffer`
with `_PUSH_BUFFER_NUM_PAR_LOOP`) runs to its end whatever each `send(2)` accepts,
and when no `netio_sender` call returned an error, for every connection `c` the
bytes handed to the socket of `c` followed by the contents of the write-queue
entries of `c` in queue order are what they were before, followed by the data of
the `netio_sender` calls on `c` in call order.  From a fresh endpoint (nothing
sent, nothing queued) this is the concatenation of the data of all calls. -/
theorem write_ordering (fuel : Nat) (t : tcp_t) (F : List Nat) (ops : List tcp_op)
    (h : WInv t F) (hf : F.length + sender_len ops < fuel) :
    ∃ t2 rets F2, tcp_run fuel t ops = some (t2, rets) ∧ WInv t2 F2 ∧
      ((∀ r ∈ rets, 0 ≤ r) →
        ∀ c, sent_bytes t2.log c ++ queued_bytes t2.wbuffer_m F2 c
          = (sent_bytes t.log c ++ queued_bytes t.wbuffer_m F c) ++ sender_data ops c) := by
  obtain ⟨t2, rets, F2, hr, hW, _, _, _, hb⟩ := tcp_run_spec fuel ops t F h hf
  exact ⟨t2, rets, F2, hr, hW, hb⟩

theorem write_ordering_witness :
    WInv (tcp_accept none 1) [] ∧ ([] : List Nat).length + sender_len ops1 < 10 ∧
    ∃ t2 rets F2, tcp_run 10 (tcp_accept none 1) ops1 = some (t2, rets) ∧ WInv t2 F2 ∧
      ((∀ r ∈ rets, 0 ≤ r) →
        ∀ c, sent_bytes t2.log c ++ queued_bytes t2.wbuffer_m F2 c
          = (sent_bytes (tcp_accept none 1).log c
              ++ queued_bytes (tcp_accept none 1).wbuffer_m [] c) ++ sender_data ops1 c) :=
  ⟨WInv_tcp_accept none 1, by decide,
    write_ordering 10 (tcp_accept none 1) [] ops1 (WInv_tcp_accept none 1) (by decide)⟩

/-- The run of `ops1` on the endpoint with one connection, evaluated: every call
succeeds, the socket has received `1 2 3`, and the queue holds `4 5` in the one
entry `69704` that is left. -/
theorem tcp_run_ops1 :
    (tcp_run 10 (tcp_accept none 1) ops1).map
        (fun r => (r.2, sent_bytes r.1.log conn1,
          message_get_one r.1.wbuffer_m, queued_bytes r.1.wbuffer_m [69704] conn1))
      = some ([1, 2], [1, 2, 3], some 69704, [4, 5]) := by
  decide

/-- C9 (close callback exactly once), evaluated on the endpoint with the one live
connection `conn1`, which has a close callback: `netio_connection_close` called
twice on the handle returns `1` both times and calls the close callback both
times with the code `-3`; nothing in the function or in `CONN_CLEAR` tests whether
the connection was torn down before. -/
theorem connection_close_twice :
    ((netio_connection_close 5 (tcp_accept none 1) (some conn1)).bind
        (fun r => (netio_connection_close 5 r.1 (some conn1)).map
          (fun r2 => (r.2, r2.2, closed_with r.1.log (-3), closed_with r2.1.log (-3),
            get_element_use_num r2.1.connection_a))))
      = some (1, 1, [conn1], [conn1, conn1], 0) := by
  decide

set_option maxRecDepth 100000 in
/-- C10 (endpoint release closes every live connection), evaluated on the endpoint
created with 16 MiB of connection buffer and two live connections: the block of
200 slots has 3368593600 bytes, `get_element_next` stores that size in an `int`,
takes no slot to lie in the block, and returns `NULL` after the first connection;
the release loop calls one close callback and leaves the second connection in
use. -/
theorem release_skips_connection :
    (get_element_use_num (tcp_big_accept 2).connection_a,
     esize (tcp_big_accept 2).connection_a ⟨200, 8589934592⟩,
     (netio_release_server 5 (tcp_big_accept 2)).map
        (fun t => (closed_with t.log (-1), get_element_use_num t.connection_a,
          get_element_first t.connection_a)))
      = (2, -926373696, some ([8589934608], 1, some 8606777576)) := by
  decide

set_option maxRecDepth 1000000 in
/-- The release loop on the endpoint of the default size with 50 live connections:
50 close callbacks with the code `-1`, and no connection left in use. -/
theorem release_50 :
    (netio_release_server 60 (tcp_accept none 50)).map
        (fun t => ((closed_with t.log (-1)).length, decide (closed_with t.log (-1)).Nodup,
          get_element_use_num t.connection_a, get_element_first t.connection_a))
      = some (50, true, 0, none) := by
  decide!

/-! ### Teardown -/

theorem IsUser_congr {α : Type} {mp mp2 : mempool_t α} (h : pool_slots mp2 = pool_slots mp)
    {p : Nat} (hp : IsUser mp p) : IsUser mp2 p := by
  obtain ⟨a, ha, rfl⟩ := hp
  exact ⟨a, h ▸ ha, rfl⟩

/-- The loop of `__purge_recv_buffer` on a well-formed chain `R` returns; the pool
stays well formed and the chunks outside `R` keep their contents. -/
theorem purge_loop_spec :
    ∀ (R : List Nat) (fuel : Nat) (pool : mempool_t recv_buffer_t) (p : Option Nat),
      (∃ L, PoolInv pool L) → Chain (fun a => (pool.deref a).next) p R → R.Nodup →
      (∀ a ∈ R, IsUser pool a) → R.length < fuel →
      ∃ pool2, purge_loop fuel pool p = some pool2 ∧ (∃ L2, PoolInv pool2 L2) ∧
        pool_slots pool2 = pool_slots pool ∧
        (∀ q, sizeof_memelement_t ≤ q → q ∉ R → pool2.deref q = pool.deref q) := by
  intro R
  induction R with
  | nil =>
    intro fuel pool p hL hc _ _ hf
    rw [Chain_nil] at hc
    subst hc
    cases fuel with
    | zero => exact absurd hf (by simp)
    | succ f => exact ⟨pool, rfl, hL, rfl, fun _ _ _ => rfl⟩
  | cons d R ih =>
    intro fuel pool p hL hc hnd hu hf
    rw [Chain_cons] at hc
    obtain ⟨hp, hrest⟩ := hc
    subst hp
    have hnd2 := List.nodup_cons.mp hnd
    have hd16 : sizeof_memelement_t ≤ d := (IsUser_sub (hu d (by simp))).1
    cases fuel with
    | zero => exact absurd hf (by simp)
    | succ f =>
      obtain ⟨L, hPL⟩ := hL
      have hslots : pool_slots (pool_free
          (pool.store d { (pool.deref d) with len := 0, next := none }) d) = pool_slots pool := by
        rw [pool_free_slots, store_slots]
      have hderef : ∀ q, sizeof_memelement_t ≤ q → q ≠ d →
          (pool_free (pool.store d { (pool.deref d) with len := 0, next := none }) d).deref q
            = pool.deref q := by
        intro q hq hne
        rw [pool_free_deref, deref_store_ne _ _ hd16 hq hne]
      obtain ⟨pool2, g1, g2, g3, g4⟩ := ih f
        (pool_free (pool.store d { (pool.deref d) with len := 0, next := none }) d)
        (pool.deref d).next
        (PoolInv_free_any (PoolInv_store hPL d _)
          (IsUser_congr (store_slots pool d _) (hu d (by simp))))
        (Chain_congr (fun a ha => congrArg recv_buffer_t.next
          (hderef a (IsUser_sub (hu a (List.mem_cons_of_mem _ ha))).1
            (fun hc => hnd2.1 (hc ▸ ha)))) hrest)
        hnd2.2
        (fun a ha => IsUser_congr hslots (hu a (List.mem_cons_of_mem _ ha)))
        (by simp only [List.length_cons] at hf; omega)
      refine ⟨pool2, ?_, g2, g3.trans hslots, ?_⟩
      · simp only [purge_loop]
        exact g1
      · intro q hq hqR
        rw [List.mem_cons, not_or] at hqR
        rw [g4 q hq hqR.2, hderef q hq hqR.1]

/-- What `CONN_CLEAR` does to the write queue of an endpoint whose write queue and
receive chain are well formed: it returns, and the write queue is the one
`message_del` leaves. -/
theorem CONN_CLEAR_spec (fuel : Nat) {t : tcp_t} {F R : List Nat} (c : Nat) (h : WInv t F)
    (hr : RInv t c R) (hf : F.length < fuel) (hfr : R.length < fuel) :
    ∃ t1, CONN_CLEAR fuel t c = some t1 ∧
      message_del fuel t.wbuffer_m c = some t1.wbuffer_m ∧
      t1.log = t.log ++ [event_t.sys_close (t.connection_a.deref c).soc, event_t.event_del c] := by
  obtain ⟨msg2, hm, _⟩ := message_del_spec h.1 c fuel hf
  obtain ⟨pool2, hp, _⟩ := purge_loop_spec R fuel t.rbuffer_a
    (t.connection_a.deref c).rbuffer.next hr.pool hr.chain hr.nodup hr.user hfr
  unfold CONN_CLEAR
  simp only [netio_tcp_delete_write_buffer, hm, Option.map_some', __purge_recv_buffer, get_rb,
    hp]
  exact ⟨_, rfl, rfl, rfl⟩

theorem WInv_call_close_func {t : tcp_t} {F : List Nat} (h : WInv t F) (c : Nat) (k : Int) :
    WInv (call_close_func t c k) F := by
  unfold call_close_func
  split <;> exact h

theorem RInv_call_close_func {t : tcp_t} {R : List Nat} {c : Nat} (h : RInv t c R) (k : Int) :
    RInv (call_close_func t c k) c R := by
  unfold call_close_func
  split
  · exact h
  · exact ⟨h.pool, h.chain, h.nodup, h.user, h.used, h.head_len, h.node_len⟩

theorem call_close_func_wbuffer (t : tcp_t) (c : Nat) (k : Int) :
    (call_close_func t c k).wbuffer_m = t.wbuffer_m := by
  unfold call_close_func
  split <;> rfl

theorem filter_keeps {δ : Type} (msg : messageheader_t δ) (c : Nat) (F : List Nat) :
    F.filter (keeps msg c) = F.filter (fun e => decide ((msg.elem e).key ≠ c)) := by
  apply List.filter_congr
  intro e _
  by_cases hk : c = (msg.elem e).key
  · simp [keeps, hk]
  · have hk2 : ¬ (msg.elem e).key = c := fun h => hk h.symm
    simp [keeps, hk, hk2]

/-- The teardown of the connection `c` on an endpoint whose write queue and receive
chain are well formed: `netio_connection_close` returns `1`, the write queue is
well formed and holds the former entries of the other connections in their order,
with their keys and contents. -/
theorem connection_close_spec (fuel : Nat) {t : tcp_t} {F R : List Nat} (c : Nat)
    (h : WInv t F) (hr : RInv t c R) (hf : F.length < fuel) (hfr : R.length < fuel) :
    ∃ t1, netio_connection_close fuel t (some c) = some (t1, 1) ∧
      WInv t1 (F.filter (fun e => decide ((t.wbuffer_m.elem e).key ≠ c))) ∧
      (∀ q, (t1.wbuffer_m.elem q).key = (t.wbuffer_m.elem q).key) ∧
      (∀ q, (t1.wbuffer_m.elem q).data = (t.wbuffer_m.elem q).data) := by
  obtain ⟨t1, h1, h2, _⟩ := CONN_CLEAR_spec fuel c (WInv_call_close_func h c (-3))
    (RInv_call_close_func hr (-3)) hf hfr
  rw [call_close_func_wbuffer] at h2
  obtain ⟨msg2, hm, hQ, _, hkey, hdata, _⟩ := message_del_spec h.1 c fuel hf
  have he : t1.wbuffer_m = msg2 := by
    rw [hm] at h2
    exact (Option.some.inj h2).symm
  rw [filter_keeps] at hQ
  refine ⟨t1, ?_, ⟨he ▸ hQ, ?_⟩, he ▸ hkey, he ▸ hdata⟩
  · simp only [netio_connection_close, h1, Option.map_some']
  · intro e hm2
    rw [he, hkey e, hdata e]
    exact h.2 e (List.mem_of_mem_filter hm2)

/-- C8 (teardown purges writes).  On an endpoint whose write queue and whose
receive chain of the connection `c` are well formed, `netio_connection_close(c)`
returns `1`; afterwards `message_find(c)` is absent, the write queue holds exactly
the former entries of the other connections, in their previous order and with
their contents, and a drain tick, whatever `send(2)` answers, hands nothing to the
socket of `c`. -/
theorem close_purges_writes (fuel : Nat) (t : tcp_t) (F R : List Nat) (c : Nat)
    (h : WInv t F) (hr : RInv t c R) (hf : F.length < fuel) (hfr : R.length < fuel) :
    ∃ t1, netio_connection_close fuel t (some c) = some (t1, 1) ∧
      message_find fuel t1.wbuffer_m c = some none ∧
      WInv t1 (F.filter (fun e => decide ((t.wbuffer_m.elem e).key ≠ c))) ∧
      (∀ e ∈ F, (t1.wbuffer_m.elem e).key = (t.wbuffer_m.elem e).key ∧
        (t1.wbuffer_m.elem e).data = (t.wbuffer_m.elem e).data) ∧
      ∀ rs, ∃ t2 r evs,
        netio_tcp_push_write_buffer fuel t1 _PUSH_BUFFER_NUM_PAR_LOOP rs = some (t2, r) ∧
        t2.log = t1.log ++ evs ∧ ∀ s d, event_t.sys_send c s d ∉ evs := by
  obtain ⟨t1, h1, hW, hkey, hdata⟩ := connection_close_spec fuel c h hr hf hfr
  have hlen : (F.filter (fun e => decide ((t.wbuffer_m.elem e).key ≠ c))).length < fuel :=
    lt_of_le_of_lt (List.length_filter_le _ _) hf
  refine ⟨t1, h1, ?_, hW, fun e _ => ⟨hkey e, hdata e⟩, ?_⟩
  · rw [message_find_spec hW.1 c fuel hlen]
    congr 1
    rw [List.find?_eq_none]
    intro e he
    have hm := List.mem_filter.mp (List.mem_reverse.mp he)
    simp only [decide_eq_true_eq] at hm ⊢
    rw [hkey e]
    exact fun hc => hm.2 hc.symm
  · intro rs
    obtain ⟨t2, r, F2, g1, _, _, _, _, _, evs, g7, g8⟩ :=
      push_loop_spec fuel _PUSH_BUFFER_NUM_PAR_LOOP.toNat t1 _ 0 rs hW hlen
    refine ⟨t2, r, evs, g1, g7, ?_⟩
    intro s d hev
    obtain ⟨e, he, s2, d2, heq⟩ := g8 _ hev
    have hm := List.mem_filter.mp he
    simp only [decide_eq_true_eq] at hm
    rw [hkey e] at heq
    injection heq with hc
    exact hm.2 hc.symm

theorem tcp_accept_rbuffer (pf : Option parse_callback) :
    ∀ n, (tcp_accept pf n).rbuffer_a = tcp0.rbuffer_a := by
  intro n
  induction n with
  | zero => rfl
  | succ n ih =>
    show (__accept_event_callback (tcp_accept pf n) _ _ _ pf none).1.rbuffer_a = _
    unfold __accept_event_callback
    split <;> exact ih

theorem tcp0_rbuffer :
    init_pool_with_max recv_buffer_init sizeof_recv_buffer_t 4 _MAX_CONNECTION_NUM
      (some 33554432) = some tcp0.rbuffer_a := rfl

theorem PoolInv_tcp0_rbuffer : ∃ L, PoolInv tcp0.rbuffer_a L := by
  obtain ⟨b, hb, _⟩ := init_pool_with_max_spec tcp0_rbuffer
  exact ⟨_, hb⟩

theorem WInv_tcp_w : WInv tcp_w [4112, 69704, 135296] := by
  obtain ⟨t2, rets, F2, hr, hW, _, _, _, _⟩ :=
    tcp_run_spec 10 ops2 (tcp_accept none 2) [] (WInv_tcp_accept none 2) (by decide)
  have ht : tcp_w = t2 := by
    unfold tcp_w
    rw [hr]
    rfl
  have hc : Chain (fun e => (tcp_w.wbuffer_m.elem e).next) tcp_w.wbuffer_m.top
      [4112, 69704, 135296] := by
    show _ = _ ∧ _ = _ ∧ _ = _ ∧ _ = _
    refine ⟨?_, ?_, ?_, ?_⟩ <;> decide!
  rw [← ht] at hW
  have hF : F2 = [4112, 69704, 135296] := Chain_unique hW.1.fifo hc
  rw [← hF]
  exact hW

theorem RInv_tcp_w : RInv tcp_w conn1 [] := by
  obtain ⟨t2, rets, F2, hr, _, _, _, hrb, _⟩ :=
    tcp_run_spec 10 ops2 (tcp_accept none 2) [] (WInv_tcp_accept none 2) (by decide)
  have ht : tcp_w = t2 := by
    unfold tcp_w
    rw [hr]
    rfl
  rw [← ht, tcp_accept_rbuffer] at hrb
  refine ⟨by rw [hrb]; exact PoolInv_tcp0_rbuffer, ?_, List.nodup_nil,
    fun a ha => absurd ha (List.not_mem_nil a), fun a ha => absurd ha (List.not_mem_nil a),
    by decide!, fun a ha => absurd ha (List.not_mem_nil a)⟩
  show _ = none
  decide!

theorem close_purges_writes_witness :
    WInv tcp_w [4112, 69704, 135296] ∧ RInv tcp_w conn1 [] ∧
    ([4112, 69704, 135296] : List Nat).length < 10 ∧ ([] : List Nat).length < 10 ∧
    [4112, 69704, 135296].filter (fun e => decide ((tcp_w.wbuffer_m.elem e).key ≠ conn1))
      = [69704] ∧
    ∃ t1, netio_connection_close 10 tcp_w (some conn1) = some (t1, 1) ∧
      message_find 10 t1.wbuffer_m conn1 = some none ∧
      WInv t1 ([4112, 69704, 135296].filter
        (fun e => decide ((tcp_w.wbuffer_m.elem e).key ≠ conn1))) ∧
      (∀ e ∈ [4112, 69704, 135296],
        (t1.wbuffer_m.elem e).key = (tcp_w.wbuffer_m.elem e).key ∧
        (t1.wbuffer_m.elem e).data = (tcp_w.wbuffer_m.elem e).data) ∧
      ∀ rs, ∃ t2 r evs,
        netio_tcp_push_write_buffer 10 t1 _PUSH_BUFFER_NUM_PAR_LOOP rs = some (t2, r) ∧
        t2.log = t1.log ++ evs ∧ ∀ s d, event_t.sys_send conn1 s d ∉ evs :=
  ⟨WInv_tcp_w, RInv_tcp_w, by decide, by decide, by decide!,
    close_purges_writes 10 tcp_w [4112, 69704, 135296] [] conn1 WInv_tcp_w RInv_tcp_w
      (by decide) (by decide)⟩

/-! ### The receive chain -/

theorem i32_of_range {x : Int} (h1 : -2147483648 ≤ x) (h2 : x < 2147483648) : i32 x = x := by
  unfold i32
  omega

theorem u64_of_range {x : Int} (h1 : 0 ≤ x) (h2 : x < 18446744073709551616) : u64 x = x := by
  unfold u64
  omega

theorem cplen_of_pos {l : Int} (h1 : 0 < l) (h2 : l < 2147483648) :
    cplen_of l = min 65536 l := by
  unfold cplen_of
  rw [u64_of_range (le_of_lt h1) (by omega)]
  by_cases h : (65536 : Int) < l
  · rw [if_pos h, i32_of_range (by omega) (by omega)]
    omega
  · rw [if_neg h, i32_of_range (by omega) h2]
    omega

theorem rb_bytes_length {b : recv_buffer_t} (h : b.len.toNat ≤ b.data.length) :
    (rb_bytes b).length = b.len.toNat := by
  unfold rb_bytes
  rw [List.length_take]
  omega

theorem Chain_last {nxt : Nat → Option Nat} {l : List Nat} :
    ∀ {p : Option Nat} {a : Nat}, Chain nxt p l → l.getLast? = some a → nxt a = none := by
  induction l with
  | nil => intro p a _ h; simp at h
  | cons b l ih =>
    intro p a hc hl
    rw [Chain_cons] at hc
    cases l with
    | nil =>
      simp only [List.getLast?_singleton, Option.some.injEq] at hl
      subst hl
      exact hc.2
    | cons b2 l2 =>
      rw [List.getLast?_cons_cons] at hl
      exact ih hc.2 hl

theorem consumed_append (l1 l2 : List event_t) (c : Nat) :
    consumed (l1 ++ l2) c = consumed l1 c + consumed l2 c := by
  unfold consumed
  rw [List.map_append, List.sum_append]

theorem consumed_recv_cb (c c2 : Nat) (d : List Nat) (n : Int) :
    consumed [event_t.recv_cb c2 d n] c = 0 := by
  simp [consumed]

theorem delivered_append (l1 l2 : List event_t) (c : Nat) :
    delivered (l1 ++ l2) c = delivered l1 c ++ delivered l2 c := by
  unfold delivered
  rw [List.filterMap_append]

/-- The loop of `__get_receive_buffer_len` over a chain `R`: the sum of the `len`
fields, as long as the sum fits an `int`. -/
theorem rb_len_loop_spec (pool : mempool_t recv_buffer_t) :
    ∀ (R : List Nat) (fuel : Nat) (p : Option Nat) (acc : Int),
      Chain (fun a => (pool.deref a).next) p R → R.length < fuel → 0 ≤ acc →
      (∀ a ∈ R, 0 ≤ (pool.deref a).len) →
      acc + (R.map (fun a => (pool.deref a).len)).sum < 2147483648 →
      rb_len_loop pool fuel p acc = some (acc + (R.map (fun a => (pool.deref a).len)).sum) := by
  intro R
  induction R with
  | nil =>
    intro fuel p acc hc hf _ _ _
    rw [Chain_nil] at hc
    subst hc
    cases fuel with
    | zero => exact absurd hf (by simp)
    | succ f => simp [rb_len_loop]
  | cons d R ih =>
    intro fuel p acc hc hf hacc hpos hsum
    rw [Chain_cons] at hc
    obtain ⟨hp, hrest⟩ := hc
    subst hp
    cases fuel with
    | zero => exact absurd hf (by simp)
    | succ f =>
      have hd : 0 ≤ (pool.deref d).len := hpos d (by simp)
      have hR : 0 ≤ (R.map (fun a => (pool.deref a).len)).sum :=
        List.sum_nonneg (fun x hx => by
          obtain ⟨a, ha, rfl⟩ := List.mem_map.mp hx
          exact hpos a (List.mem_cons_of_mem _ ha))
      simp only [List.map_cons, List.sum_cons] at hsum ⊢
      simp only [rb_len_loop]
      rw [i32_of_range (by omega) (by omega),
        ih f _ _ hrest (by simp only [List.length_cons] at hf; omega) (by omega)
          (fun a ha => hpos a (List.mem_cons_of_mem _ ha)) (by omega)]
      congr 1
      omega

/-- The copy loop of `__parse_receive` over a chain `R`: the bytes of the chunks,
in order. -/
theorem gather_loop_spec (pool : mempool_t recv_buffer_t) :
    ∀ (R : List Nat) (fuel : Nat) (p : Option Nat) (acc : List Nat),
      Chain (fun a => (pool.deref a).next) p R → R.length < fuel →
      gather_loop pool fuel p acc
        = some (acc ++ R.flatMap (fun a => rb_bytes (pool.deref a))) := by
  intro R
  induction R with
  | nil =>
    intro fuel p acc hc hf
    rw [Chain_nil] at hc
    subst hc
    cases fuel with
    | zero => exact absurd hf (by simp)
    | succ f => simp [gather_loop]
  | cons d R ih =>
    intro fuel p acc hc hf
    rw [Chain_cons] at hc
    obtain ⟨hp, hrest⟩ := hc
    subst hp
    cases fuel with
    | zero => exact absurd hf (by simp)
    | succ f =>
      simp only [gather_loop]
      rw [ih f _ _ hrest (by simp only [List.length_cons] at hf; omega)]
      simp [List.flatMap_cons]

theorem ConnFrame_refl (t : tcp_t) (c : Nat) : ConnFrame t t c := ⟨rfl, rfl, rfl, rfl⟩

theorem ConnFrame_trans {t t2 t3 : tcp_t} {c : Nat} (h1 : ConnFrame t t2 c)
    (h2 : ConnFrame t2 t3 c) : ConnFrame t t3 c :=
  ⟨h2.wbuffer_eq.trans h1.wbuffer_eq, h2.parse_eq.trans h1.parse_eq,
    h2.recv_eq.trans h1.recv_eq, h2.close_eq.trans h1.close_eq⟩

theorem nodes_bytes_length (t : tcp_t) :
    ∀ (R : List Nat), (∀ a ∈ R, 0 < (t.rbuffer_a.deref a).len ∧
        (t.rbuffer_a.deref a).len.toNat ≤ (t.rbuffer_a.deref a).data.length) →
      ((R.flatMap (fun a => rb_bytes (t.rbuffer_a.deref a))).length : Int) = nodes_len t R ∧
      R.length ≤ (R.flatMap (fun a => rb_bytes (t.rbuffer_a.deref a))).length := by
  intro R
  induction R with
  | nil => intro _; simp [nodes_len]
  | cons d R ih =>
    intro h
    obtain ⟨h1, h2⟩ := ih (fun a ha => h a (List.mem_cons_of_mem _ ha))
    obtain ⟨hd1, hd2⟩ := h d (by simp)
    have hl := rb_bytes_length hd2
    unfold nodes_len at h1 ⊢
    simp only [List.flatMap_cons, List.length_append, List.map_cons, List.sum_cons,
      List.length_cons, Nat.cast_add]
    constructor
    · rw [h1, hl]
      omega
    · omega

theorem chain_bytes_length {t : tcp_t} {c : Nat} {R : List Nat} (h : RInv t c R) :
    ((chain_bytes t c R).length : Int) = chain_len t c R ∧
    R.length ≤ (chain_bytes t c R).length := by
  obtain ⟨h1, h2⟩ := nodes_bytes_length t R h.node_len
  have hl := rb_bytes_length h.head_len.2
  have h0 := h.head_len.1
  unfold chain_bytes chain_len
  simp only [List.length_append, Nat.cast_add]
  constructor
  · rw [h1, hl]
    omega
  · omega

theorem nodes_len_nonneg {t : tcp_t} {c : Nat} {R : List Nat} (h : RInv t c R) :
    0 ≤ nodes_len t R :=
  List.sum_nonneg (fun x hx => by
    obtain ⟨a, ha, rfl⟩ := List.mem_map.mp hx
    exact le_of_lt (h.node_len a ha).1)

/-- On a well-formed chain `__get_receive_buffer_len` returns the number of bytes
the chain holds. -/
theorem get_receive_buffer_len_spec {t : tcp_t} {c : Nat} {R : List Nat} (h : RInv t c R)
    (fuel : Nat) (hf : R.length < fuel) (hb : chain_len t c R < 2147483648) :
    __get_receive_buffer_len fuel t c = some (chain_len t c R) := by
  have h0 := h.head_len.1
  have hn := nodes_len_nonneg h
  unfold chain_len at hb ⊢
  unfold __get_receive_buffer_len
  rw [i32_of_range (by omega) (by omega)]
  exact rb_len_loop_spec t.rbuffer_a R fuel _ _ h.chain hf h0
    (fun a ha => le_of_lt (h.node_len a ha).1) hb

/-- On a well-formed chain the copy loop of `__parse_receive` reads the bytes of
the chain. -/
theorem chain_data_spec {t : tcp_t} {c : Nat} {R : List Nat} (h : RInv t c R)
    (fuel : Nat) (hf : R.length < fuel) :
    chain_data fuel t c = some (chain_bytes t c R) :=
  gather_loop_spec t.rbuffer_a R fuel _ _ h.chain hf

/-- Emptying the chain: `__purge_recv_buffer` on the embedded chunk followed by
`conn->rbuffer.len = 0`. -/
theorem purge_head_spec {t : tcp_t} {c : Nat} {R : List Nat} (h : RInv t c R)
    (fuel : Nat) (hf : R.length < fuel) :
    ∃ t1, __purge_recv_buffer fuel t (some (rbref.head c)) = some t1 ∧
      RInv (set_rb t1 (rbref.head c) { (get_rb t1 (rbref.head c)) with len := 0 }) c [] ∧
      chain_bytes (set_rb t1 (rbref.head c) { (get_rb t1 (rbref.head c)) with len := 0 }) c []
        = [] ∧
      ConnFrame t (set_rb t1 (rbref.head c) { (get_rb t1 (rbref.head c)) with len := 0 }) c ∧
      (set_rb t1 (rbref.head c) { (get_rb t1 (rbref.head c)) with len := 0 }).log = t.log := by
  obtain ⟨pool2, hp, hL2, _, _⟩ := purge_loop_spec R fuel t.rbuffer_a
    (t.connection_a.deref c).rbuffer.next h.pool h.chain h.nodup h.user hf
  have hq : __purge_recv_buffer fuel t (some (rbref.head c))
      = some (set_rb { t with rbuffer_a := pool2 } (rbref.head c)
          { (get_rb { t with rbuffer_a := pool2 } (rbref.head c)) with next := none }) := by
    simp only [__purge_recv_buffer, get_rb, hp]
  refine ⟨_, hq, ?_, ?_, ?_, ?_⟩
  · refine ⟨hL2, ?_, List.nodup_nil, fun a ha => absurd ha (List.not_mem_nil a),
      fun a ha => absurd ha (List.not_mem_nil a), ?_,
      fun a ha => absurd ha (List.not_mem_nil a)⟩
    · simp only [set_rb, get_rb, deref_store_same, Chain_nil]
    · simp only [set_rb, get_rb, deref_store_same]
      exact ⟨le_refl _, Nat.zero_le _⟩
  · simp only [chain_bytes, set_rb, get_rb, deref_store_same, rb_bytes]
    simp
  · refine ⟨rfl, ?_, ?_, ?_⟩ <;> simp only [set_rb, get_rb, deref_store_same]
  · rfl

theorem call_recv_func_spec (t : tcp_t) (c : Nat) (out : ParseOut) :
    (call_recv_func t c out).connection_a = t.connection_a ∧
    (call_recv_func t c out).rbuffer_a = t.rbuffer_a ∧
    (call_recv_func t c out).wbuffer_m = t.wbuffer_m ∧
    consumed (call_recv_func t c out).log c = consumed t.log c := by
  unfold call_recv_func
  split
  · exact ⟨rfl, rfl, rfl, rfl⟩
  · refine ⟨rfl, rfl, rfl, ?_⟩
    show consumed (t.log ++ _) c = _
    rw [consumed_append, consumed_recv_cb]
    omega

theorem memcpy_take (dst src : List Nat) {k : Nat} (hk : k ≤ src.length) :
    (memcpy dst src k).take k = src.take k := by
  unfold memcpy
  rw [List.take_append_of_le_length (by rw [List.length_take]; omega), List.take_take,
    Nat.min_self]

theorem memcpy_length (dst src : List Nat) {k : Nat} (hk : k ≤ src.length) :
    k ≤ (memcpy dst src k).length := by
  unfold memcpy
  simp only [List.length_append, List.length_take, List.length_drop]
  omega

theorem cplen_of_bounds {l : Int} (h1 : 0 < l) (h2 : l < 2147483648) :
    0 < cplen_of l ∧ cplen_of l ≤ l ∧ cplen_of l ≤ 65536 := by
  rw [cplen_of_pos h1 h2]
  omega

/-- The first copy of `__stack_recv_buffer`, into the embedded chunk of a
connection whose chain has no pool chunk. -/
theorem head_copy_spec {t : tcp_t} {c : Nat} (h : RInv t c []) (data : List Nat) {len : Int}
    (h1 : 0 < len) (h2 : len < 2147483648) (h3 : len ≤ data.length) :
    RInv (copy_chunk t (rbref.head c) data len) c [] ∧
    chain_bytes (copy_chunk t (rbref.head c) data len) c [] = data.take (cplen_of len).toNat ∧
    ConnFrame t (copy_chunk t (rbref.head c) data len) c ∧
    (copy_chunk t (rbref.head c) data len).log = t.log := by
  obtain ⟨hc1, hc2, _⟩ := cplen_of_bounds h1 h2
  have hk : (cplen_of len).toNat ≤ data.length := by omega
  have hnext : (t.connection_a.deref c).rbuffer.next = none := h.chain
  refine ⟨⟨h.pool, ?_, List.nodup_nil, fun a ha => absurd ha (List.not_mem_nil a),
    fun a ha => absurd ha (List.not_mem_nil a), ?_,
    fun a ha => absurd ha (List.not_mem_nil a)⟩, ?_, ?_, rfl⟩
  · simp only [copy_chunk, set_rb, get_rb, deref_store_same, Chain_nil]
    exact hnext
  · simp only [copy_chunk, set_rb, get_rb, deref_store_same]
    exact ⟨le_of_lt hc1, memcpy_length _ _ hk⟩
  · simp only [chain_bytes, copy_chunk, set_rb, get_rb, deref_store_same, rb_bytes,
      List.flatMap_nil, List.append_nil]
    exact memcpy_take _ _ hk
  · refine ⟨rfl, ?_, ?_, ?_⟩ <;> simp only [copy_chunk, set_rb, get_rb, deref_store_same]

theorem rb_bytes_congr {b b2 : recv_buffer_t} (hd : b2.data = b.data) (hl : b2.len = b.len) :
    rb_bytes b2 = rb_bytes b := by
  unfold rb_bytes
  rw [hd, hl]

/-- Appending the chunk `p` to a well-formed chain `R`: the new state `T` has the
chunks of `R` with their bytes, the last of them linked to `p`. -/
theorem append_chunk_inv {t T : tcp_t} {c p : Nat} {R : List Nat} (h : RInv t c R)
    (hp : p ∉ R) (hpool : ∃ L, PoolInv T.rbuffer_a L)
    (huser : ∀ a ∈ R ++ [p], IsUser T.rbuffer_a a)
    (hused : ∀ a ∈ R ++ [p], (T.rbuffer_a.mem (a - sizeof_memelement_t)).in_use ≠ 0)
    (hnew : (T.rbuffer_a.deref p).next = none ∧ 0 < (T.rbuffer_a.deref p).len ∧
      (T.rbuffer_a.deref p).len.toNat ≤ (T.rbuffer_a.deref p).data.length)
    (hold : ∀ a ∈ R, (T.rbuffer_a.deref a).data = (t.rbuffer_a.deref a).data ∧
      (T.rbuffer_a.deref a).len = (t.rbuffer_a.deref a).len ∧
      (R.getLast? ≠ some a → (T.rbuffer_a.deref a).next = (t.rbuffer_a.deref a).next) ∧
      (R.getLast? = some a → (T.rbuffer_a.deref a).next = some p))
    (hhead : (T.connection_a.deref c).rbuffer.data = (t.connection_a.deref c).rbuffer.data ∧
      (T.connection_a.deref c).rbuffer.len = (t.connection_a.deref c).rbuffer.len ∧
      (T.connection_a.deref c).rbuffer.next
        = if R = [] then some p else (t.connection_a.deref c).rbuffer.next) :
    RInv T c (R ++ [p]) ∧
    chain_bytes T c (R ++ [p]) = chain_bytes t c R ++ rb_bytes (T.rbuffer_a.deref p) := by
  constructor
  · refine ⟨hpool, ?_, ?_, huser, hused, ?_, ?_⟩
    · rw [hhead.2.2]
      exact Chain_snoc h.chain h.nodup hp hnew.1 (fun a ha hl => (hold a ha).2.2.1 hl)
        (fun a hl => (hold a (List.mem_of_getLast?_eq_some hl)).2.2.2 hl)
    · rw [List.nodup_append]
      refine ⟨h.nodup, List.nodup_singleton p, ?_⟩
      intro a ha hb
      rw [List.mem_singleton] at hb
      exact hp (hb ▸ ha)
    · rw [hhead.1, hhead.2.1]
      exact h.head_len
    · intro a ha
      rcases List.mem_append.mp ha with ha | ha
      · rw [(hold a ha).1, (hold a ha).2.1]
        exact h.node_len a ha
      · rw [List.mem_singleton.mp ha]
        exact hnew.2
  · unfold chain_bytes
    rw [List.flatMap_append, rb_bytes_congr hhead.1 hhead.2.1, List.append_assoc]
    congr 2
    · apply List.flatMap_congr
      intro a ha
      exact rb_bytes_congr (hold a ha).1 (hold a ha).2.1
    · simp

theorem last_ref_nil (c : Nat) : last_ref c [] = rbref.head c := rfl

theorem last_ref_snoc (c : Nat) (R : List Nat) (p : Nat) :
    last_ref c (R ++ [p]) = rbref.node p := by
  simp [last_ref]

/-- One pass of the loop of `__stack_recv_buffer` that obtains the chunk `p` from
the pool: the chain is well formed again, with `p` at its end holding the bytes
copied. -/
theorem node_append_spec {t : tcp_t} {c : Nat} {R : List Nat} (h : RInv t c R)
    {m : Option Nat} {ra : mempool_t recv_buffer_t} {p : Nat}
    (hpa : pool_alloc t.rbuffer_a m = (ra, some p)) (pdata : List Nat) {l : Int}
    (h1 : 0 < l) (h2 : l < 2147483648) (h3 : l ≤ pdata.length) :
    RInv (copy_chunk (link_chunk { t with rbuffer_a := ra } (last_ref c R) p) (rbref.node p)
      pdata l) c (R ++ [p]) ∧
    chain_bytes (copy_chunk (link_chunk { t with rbuffer_a := ra } (last_ref c R) p)
      (rbref.node p) pdata l) c (R ++ [p])
      = chain_bytes t c R ++ pdata.take (cplen_of l).toNat ∧
    ConnFrame t (copy_chunk (link_chunk { t with rbuffer_a := ra } (last_ref c R) p)
      (rbref.node p) pdata l) c ∧
    (copy_chunk (link_chunk { t with rbuffer_a := ra } (last_ref c R) p) (rbref.node p)
      pdata l).log = t.log := by
  obtain ⟨L, hL⟩ := h.pool
  have hA := pool_alloc_spec hL m
  rw [hpa] at hA
  obtain ⟨hc1, hc2, _⟩ := cplen_of_bounds h1 h2
  have hk : (cplen_of l).toNat ≤ pdata.length := by omega
  have hp16 : sizeof_memelement_t ≤ p := (IsUser_sub (hA.user p rfl)).1
  have hR16 : ∀ a ∈ R, sizeof_memelement_t ≤ a := fun a ha => (IsUser_sub (h.user a ha)).1
  have hpR : p ∉ R := by
    intro hp
    obtain ⟨a, ha, hpa2⟩ := h.user p hp
    have hf := hA.fresh a ha (by rw [hpa2])
    have hu := h.used p hp
    have : p - sizeof_memelement_t = a := by omega
    rw [this] at hu
    exact hu hf
  have hflag : ∀ a ∈ R, (ra.mem (a - sizeof_memelement_t)).in_use ≠ 0 := by
    intro a ha
    obtain ⟨hq1, hq2⟩ := IsUser_sub (h.user a ha)
    rw [hA.flag_eq _ hq2 (by
      intro hc
      have hh := Option.some.inj hc
      have : p = a := by omega
      exact hpR (this ▸ ha))]
    exact h.used a ha
  have huser : ∀ a ∈ R ++ [p], IsUser ra a := by
    intro a ha
    rcases List.mem_append.mp ha with ha | ha
    · obtain ⟨x, hx, hxa⟩ := h.user a ha
      exact ⟨x, hA.slots_mono x hx, hxa⟩
    · rw [List.mem_singleton.mp ha]
      exact hA.user p rfl
  have hused : ∀ a ∈ R ++ [p], (ra.mem (a - sizeof_memelement_t)).in_use ≠ 0 := by
    intro a ha
    rcases List.mem_append.mp ha with ha | ha
    · exact hflag a ha
    · rw [List.mem_singleton.mp ha, hA.flag_new p rfl]
      decide
  obtain ⟨L2, hL2⟩ := hA.inv
  cases hg : R.getLast? with
  | none =>
    have hRnil : R = [] := List.getLast?_eq_none_iff.mp hg
    subst hRnil
    rw [last_ref_nil]
    have hT := @append_chunk_inv t
      (copy_chunk (link_chunk { t with rbuffer_a := ra } (rbref.head c) p) (rbref.node p)
        pdata l) c p [] h hpR
      ⟨L2, by
        simp only [copy_chunk, link_chunk, set_rb, get_rb]
        exact PoolInv_store (PoolInv_store hL2 _ _) _ _⟩
      (fun a ha => by
        simp only [copy_chunk, link_chunk, set_rb, get_rb]
        exact IsUser_congr (by rw [store_slots, store_slots]) (huser a ha))
      (fun a ha => by
        simp only [copy_chunk, link_chunk, set_rb, get_rb, store_in_use]
        exact hused a ha)
      (by
        refine ⟨?_, ?_, ?_⟩
        · simp only [copy_chunk, link_chunk, set_rb, get_rb, deref_store_same]
        · simp only [copy_chunk, link_chunk, set_rb, get_rb, deref_store_same]
          exact hc1
        · simp only [copy_chunk, link_chunk, set_rb, get_rb, deref_store_same]
          exact memcpy_length _ _ hk)
      (fun a ha => absurd ha (List.not_mem_nil a))
      (by
        refine ⟨?_, ?_, ?_⟩ <;>
          simp only [copy_chunk, link_chunk, set_rb, get_rb, deref_store_same, if_true])
    refine ⟨hT.1, ?_, ?_, rfl⟩
    · rw [hT.2]
      congr 1
      simp only [copy_chunk, link_chunk, set_rb, get_rb, deref_store_same, rb_bytes]
      exact memcpy_take _ _ hk
    · refine ⟨rfl, ?_, ?_, ?_⟩ <;>
        simp only [copy_chunk, link_chunk, set_rb, get_rb, deref_store_same]
  | some r =>
    have hrR : r ∈ R := List.mem_of_getLast?_eq_some hg
    have hr16 := hR16 r hrR
    have hrp : r ≠ p := fun hc => hpR (hc ▸ hrR)
    have hRne : R ≠ [] := List.ne_nil_of_mem hrR
    have hlast : last_ref c R = rbref.node r := by simp [last_ref, hg]
    rw [hlast]
    have hT := @append_chunk_inv t
      (copy_chunk (link_chunk { t with rbuffer_a := ra } (rbref.node r) p) (rbref.node p)
        pdata l) c p R h hpR
      ⟨L2, by
        simp only [copy_chunk, link_chunk, set_rb, get_rb]
        exact PoolInv_store (PoolInv_store (PoolInv_store hL2 _ _) _ _) _ _⟩
      (fun a ha => by
        simp only [copy_chunk, link_chunk, set_rb, get_rb]
        exact IsUser_congr (by rw [store_slots, store_slots, store_slots]) (huser a ha))
      (fun a ha => by
        simp only [copy_chunk, link_chunk, set_rb, get_rb, store_in_use]
        exact hused a ha)
      (by
        refine ⟨?_, ?_, ?_⟩
        · simp only [copy_chunk, link_chunk, set_rb, get_rb, deref_store_same]
        · simp only [copy_chunk, link_chunk, set_rb, get_rb, deref_store_same]
          exact hc1
        · simp only [copy_chunk, link_chunk, set_rb, get_rb, deref_store_same]
          exact memcpy_length _ _ hk)
      (fun a ha => by
        have ha16 := hR16 a ha
        have hap : a ≠ p := fun hc => hpR (hc ▸ ha)
        have e1 : (copy_chunk (link_chunk { t with rbuffer_a := ra } (rbref.node r) p)
            (rbref.node p) pdata l).rbuffer_a.deref a
            = (ra.store r { (ra.deref r) with next := some p }).deref a := by
          simp only [copy_chunk, link_chunk, set_rb, get_rb, deref_store_ne _ _ hp16 ha16 hap]
        rw [e1]
        by_cases har : a = r
        · subst har
          rw [deref_store_same, hA.deref_eq]
          exact ⟨rfl, rfl, fun hne => absurd hg hne, fun _ => rfl⟩
        · rw [deref_store_ne _ _ hr16 ha16 har, hA.deref_eq]
          exact ⟨rfl, rfl, fun _ => rfl,
            fun he => absurd (Option.some.inj (hg.symm.trans he)).symm har⟩)
      (by
        refine ⟨?_, ?_, ?_⟩ <;>
          simp only [copy_chunk, link_chunk, set_rb, get_rb, hRne, if_false])
    refine ⟨hT.1, ?_, ?_, rfl⟩
    · rw [hT.2]
      congr 1
      simp only [copy_chunk, link_chunk, set_rb, get_rb, deref_store_same, rb_bytes]
      exact memcpy_take _ _ hk
    · exact ⟨rfl, rfl, rfl, rfl⟩

theorem store_deref {α : Type} (mp : mempool_t α) (p : Nat) : mp.store p (mp.deref p) = mp := by
  unfold mempool_t.store mempool_t.deref
  have hm : mem_write mp.mem (p - sizeof_memelement_t)
      { (mp.mem (p - sizeof_memelement_t)) with data := (mp.mem (p - sizeof_memelement_t)).data }
      = mp.mem := by
    funext x
    unfold mem_write
    by_cases hx : x = p - sizeof_memelement_t
    · rw [if_pos hx, hx]
    · rw [if_neg hx]
  simp only [hm]

theorem set_rb_next_none (t : tcp_t) (rb : rbref) (h : (get_rb t rb).next = none) :
    set_rb t rb { (get_rb t rb) with next := none } = t := by
  have he : ({ (get_rb t rb) with next := none } : recv_buffer_t) = get_rb t rb := by
    cases hb : get_rb t rb with
    | mk d l n =>
      rw [hb] at h
      simp only at h
      rw [h]
  rw [he]
  cases rb with
  | head c =>
    simp only [set_rb, get_rb]
    have hc : ({ (t.connection_a.deref c) with rbuffer := (t.connection_a.deref c).rbuffer }
        : connection_t) = t.connection_a.deref c := rfl
    rw [hc, store_deref]
  | node p =>
    simp only [set_rb, get_rb]
    rw [store_deref]

theorem last_next {t : tcp_t} {c : Nat} {R : List Nat} (h : RInv t c R) :
    (get_rb t (last_ref c R)).next = none := by
  cases hg : R.getLast? with
  | none =>
    have hRnil : R = [] := List.getLast?_eq_none_iff.mp hg
    subst hRnil
    exact h.chain
  | some r =>
    have hl : last_ref c R = rbref.node r := by simp [last_ref, hg]
    rw [hl]
    exact Chain_last h.chain hg

/-- `__purge_recv_buffer` on the last chunk of a well-formed chain changes
nothing. -/
theorem purge_last {t : tcp_t} {c : Nat} {R : List Nat} (h : RInv t c R) (fuel : Nat)
    (hf : 0 < fuel) : __purge_recv_buffer fuel t (some (last_ref c R)) = some t := by
  have hn := last_next h
  obtain ⟨f, rfl⟩ : ∃ f, fuel = f + 1 := ⟨fuel - 1, by omega⟩
  simp only [__purge_recv_buffer, hn, purge_loop]
  exact congrArg some (set_rb_next_none t _ hn)

/-- The loop of `__stack_recv_buffer` on a well-formed chain: it dereferences
`NULL` when the pool gives no chunk, and otherwise appends the bytes `pdata` to
the chain. -/
theorem stack_loop_spec (c : Nat) :
    ∀ (n : Nat) (t : tcp_t) (R : List Nat) (pdata : List Nat) (last_len : Int)
      (ms : List (Option Nat)),
      RInv t c R → 0 ≤ last_len → last_len < 2147483648 → last_len = pdata.length →
      last_len.toNat ≤ n →
      stack_loop n t (last_ref c R) pdata last_len ms = outcome.null_deref ∨
      ∃ t2 R2, stack_loop n t (last_ref c R) pdata last_len ms
          = outcome.done (t2, last_ref c R2) ∧
        RInv t2 c R2 ∧ chain_bytes t2 c R2 = chain_bytes t c R ++ pdata ∧
        ConnFrame t t2 c ∧ t2.log = t.log := by
  intro n
  induction n with
  | zero =>
    intro t R pdata last_len ms h h0 _ hlen hn
    have hnil : pdata = [] := List.length_eq_zero.mp (by omega)
    exact Or.inr ⟨t, R, rfl, h, by simp [hnil], ConnFrame_refl t c, rfl⟩
  | succ n ih =>
    intro t R pdata last_len ms h h0 hb hlen hn
    by_cases hpos : last_len > 0
    · have hnext := last_next h
      obtain ⟨hc1, hc2, _⟩ := cplen_of_bounds hpos hb
      cases hpa : pool_alloc t.rbuffer_a ms.head?.join with
      | mk ra o =>
        cases o with
        | none =>
          left
          simp only [stack_loop]
          rw [if_pos hpos, if_pos hnext, hpa]
        | some p =>
          obtain ⟨g1, g2, g3, g4⟩ := node_append_spec h hpa pdata hpos hb (by omega)
          have hq : stack_loop (n + 1) t (last_ref c R) pdata last_len ms
              = stack_loop n
                  (copy_chunk (link_chunk { t with rbuffer_a := ra } (last_ref c R) p)
                    (rbref.node p) pdata last_len)
                  (last_ref c (R ++ [p])) (pdata.drop (cplen_of last_len).toNat)
                  (last_len - cplen_of last_len) ms.tail := by
            rw [last_ref_snoc]
            simp only [stack_loop]
            rw [if_pos hpos, if_pos hnext, hpa]
          rw [hq]
          rcases ih _ (R ++ [p]) (pdata.drop (cplen_of last_len).toNat)
              (last_len - cplen_of last_len) ms.tail g1 (by omega) (by omega)
              (by rw [List.length_drop]; omega) (by omega) with hnull | ⟨t2, R2, k1, k2, k3, k4, k5⟩
          · exact Or.inl hnull
          · refine Or.inr ⟨t2, R2, k1, k2, ?_, ConnFrame_trans g3 k4, k5.trans g4⟩
            rw [k3, g2, List.append_assoc, List.take_append_drop]
    · have hnil : pdata = [] := List.length_eq_zero.mp (by omega)
      refine Or.inr ⟨t, R, ?_, h, by simp [hnil], ConnFrame_refl t c, rfl⟩
      simp only [stack_loop]
      rw [if_neg hpos]

/-- `__stack_recv_buffer` with a non-empty residual on a connection whose chain
has no pool chunk: it dereferences `NULL` when the pool gives no chunk, and
otherwise returns `1` with the chain holding exactly the residual. -/
theorem stack_recv_buffer_spec {t : tcp_t} {c : Nat} (h : RInv t c []) (fuel : Nat)
    (hf : 0 < fuel) (data : List Nat) {len : Int} (h1 : 0 < len) (h2 : len < 2147483648)
    (h3 : len = data.length) (ms : List (Option Nat)) :
    __stack_recv_buffer fuel t c data len ms = some outcome.null_deref ∨
    ∃ t3 R3, __stack_recv_buffer fuel t c data len ms = some (outcome.done (t3, 1)) ∧
      RInv t3 c R3 ∧ chain_bytes t3 c R3 = data ∧ ConnFrame t t3 c ∧ t3.log = t.log := by
  obtain ⟨g1, g2, g3, g4⟩ := head_copy_spec h data h1 h2 (le_of_eq h3)
  obtain ⟨hc1, hc2, _⟩ := cplen_of_bounds h1 h2
  have hne : ¬ len = 0 := by omega
  rcases stack_loop_spec c (len - cplen_of len).toNat (copy_chunk t (rbref.head c) data len) []
      (data.drop (cplen_of len).toNat) (len - cplen_of len) ms g1 (by omega) (by omega)
      (by rw [List.length_drop]; omega) (le_refl _) with hnull | ⟨t2, R2, k1, k2, k3, k4, k5⟩
  · left
    rw [last_ref_nil] at hnull
    simp only [__stack_recv_buffer]
    rw [if_neg hne, hnull]
  · right
    rw [last_ref_nil] at k1
    refine ⟨t2, R2, ?_, k2, ?_, ConnFrame_trans g3 k4, k5.trans g4⟩
    · simp only [__stack_recv_buffer]
      rw [if_neg hne, k1]
      simp only [purge_last k2 fuel hf, Option.map_some']
    · rw [k3, g2, List.take_append_drop]

theorem RInv_of_fields {t t2 : tcp_t} {c : Nat} {R : List Nat} (h : RInv t c R)
    (hc : t2.connection_a = t.connection_a) (hr : t2.rbuffer_a = t.rbuffer_a) :
    RInv t2 c R ∧ chain_bytes t2 c R = chain_bytes t c R := by
  refine ⟨⟨?_, ?_, h.nodup, ?_, ?_, ?_, ?_⟩, ?_⟩
  · rw [hr]; exact h.pool
  · rw [hr, hc]; exact h.chain
  · rw [hr]; exact h.user
  · rw [hr]; exact h.used
  · rw [hc]; exact h.head_len
  · rw [hr]; exact h.node_len
  · unfold chain_bytes
    rw [hr, hc]

theorem ConnFrame_of_fields {t t2 : tcp_t} {c : Nat} (hc : t2.connection_a = t.connection_a)
    (hw : t2.wbuffer_m = t.wbuffer_m) : ConnFrame t t2 c :=
  ⟨hw, by rw [hc], by rw [hc], by rw [hc]⟩

/-- A residual that fits the embedded chunk needs no chunk of the pool. -/
theorem stack_recv_buffer_small (fuel : Nat) (t : tcp_t) (c : Nat) (data : List Nat) {len : Int}
    (h1 : 0 < len) (h2 : len ≤ 65536) (ms : List (Option Nat)) :
    __stack_recv_buffer fuel t c data len ms ≠ some outcome.null_deref := by
  have hc : cplen_of len = len := by
    rw [cplen_of_pos h1 (by omega)]
    omega
  have hne : ¬ len = 0 := by omega
  simp only [__stack_recv_buffer]
  rw [if_neg hne, hc, sub_self]
  simp only [Int.toNat_zero, stack_loop]
  cases __purge_recv_buffer fuel (copy_chunk t (rbref.head c) data len) (some (rbref.head c)) with
  | none => simp
  | some t3 => simp

theorem stream_of_cons (data : List Nat) (ms : List (Option Nat))
    (rest : List (List Nat × List (Option Nat))) :
    stream_of ((data, ms) :: rest) = data ++ stream_of rest := by
  simp [stream_of]

set_option maxRecDepth 100000 in
theorem tcp_accept_connection (pf : Option parse_callback) :
    (tcp_accept pf 1).connection_a.deref conn1
      = { connection_init with soc := 5, recv_func := some 2, close_func := some 1,
                               parse_func := pf } := rfl

theorem RInv_tcp_accept (pf : Option parse_callback) : RInv (tcp_accept pf 1) conn1 [] := by
  refine ⟨by rw [tcp_accept_rbuffer]; exact PoolInv_tcp0_rbuffer, ?_, List.nodup_nil,
    fun a ha => absurd ha (List.not_mem_nil a), fun a ha => absurd ha (List.not_mem_nil a),
    ?_, fun a ha => absurd ha (List.not_mem_nil a)⟩
  · rw [tcp_accept_connection]
    rfl
  · rw [tcp_accept_connection]
    exact ⟨le_refl _, Nat.zero_le _⟩

theorem chain_bytes_tcp_accept (pf : Option parse_callback) :
    chain_bytes (tcp_accept pf 1) conn1 [] = [] := by
  unfold chain_bytes
  rw [tcp_accept_connection]
  rfl

/-! ### A frame received in two parts -/

theorem parse_loop_done (pf : parse_callback) (c : Nat) (cap : Int) (k : Nat) (t : tcp_t)
    (pdata : List Nat) : parse_loop pf c cap k t pdata 0 = (t, pdata, 0, none) := by
  cases k with
  | zero => rfl
  | succ k =>
    simp only [parse_loop]
    rw [if_neg (by omega)]

/-- `__parse_receive` on a connection whose chain is empty works on the chunk
received. -/
theorem parse_receive_empty {t : tcp_t} {c : Nat} (h : RInv t c [])
    (hempty : chain_bytes t c [] = []) {pf : parse_callback}
    (hp : (t.connection_a.deref c).parse_func = some pf) (fuel : Nat) (hf : 0 < fuel)
    (data : List Nat) (len : Int) (ms : List (Option Nat)) :
    __parse_receive fuel t c data len ms
      = parse_tail fuel pf c (i32 (i32 (len + 0) + 1)) t data len ms := by
  obtain ⟨hl1, _⟩ := chain_bytes_length h
  rw [hempty] at hl1
  have hz : chain_len t c [] = 0 := by
    simp only [List.length_nil, Nat.cast_zero] at hl1
    omega
  have hlen := get_receive_buffer_len_spec h fuel hf (by omega)
  rw [hz] at hlen
  simp only [__parse_receive, hp, hlen]
  rw [if_neg (by omega)]

/-- `__parse_receive` on a connection whose chain holds bytes works on these
bytes followed by the chunk received, the chain being emptied first. -/
theorem parse_receive_stored {t : tcp_t} {c : Nat} {R : List Nat} (h : RInv t c R)
    (hpos : 0 < (chain_bytes t c R).length) {pf : parse_callback}
    (hp : (t.connection_a.deref c).parse_func = some pf) (fuel : Nat)
    (hf : (chain_bytes t c R).length < fuel) (hb : (chain_bytes t c R).length < 2147483648)
    (data : List Nat) (len : Int) (ms : List (Option Nat)) :
    ∃ T1, RInv T1 c [] ∧ chain_bytes T1 c [] = [] ∧ ConnFrame t T1 c ∧ T1.log = t.log ∧
      __parse_receive fuel t c data len ms
        = parse_tail fuel pf c (i32 (i32 (len + (chain_bytes t c R).length) + 1)) T1
            (chain_bytes t c R ++ data.take len.toNat)
            (i32 (len + (chain_bytes t c R).length)) ms := by
  obtain ⟨hl1, hl2⟩ := chain_bytes_length h
  have hfR : R.length < fuel := by omega
  have hlen := get_receive_buffer_len_spec h fuel hfR (by omega)
  rw [← hl1] at hlen
  obtain ⟨t1, hq, k1, k2, k3, k4⟩ := purge_head_spec h fuel hfR
  refine ⟨_, k1, k2, k3, k4, ?_⟩
  simp only [__parse_receive, hp, hlen]
  rw [if_pos (by omega)]
  simp only [chain_data_spec h fuel hfR]
  simp only [hq]

/-- The parse callback returns `0` on a work buffer of at most 65536 bytes: the
buffer is put into the chain and its length is returned. -/
theorem parse_tail_incomplete {t : tcp_t} {c : Nat} (h : RInv t c []) (pf : parse_callback)
    (fuel : Nat) (hf : 0 < fuel) (cap : Int) (pdata : List Nat) {n : Int}
    (hn : n = pdata.length) (h1 : 0 < n) (h2 : n ≤ 65536) (hz : (pf pdata n cap).ret = 0)
    (ms : List (Option Nat)) :
    ∃ t3 R3, parse_tail fuel pf c cap t pdata n ms = some (outcome.done (t3, n)) ∧
      RInv t3 c R3 ∧ chain_bytes t3 c R3 = pdata ∧ ConnFrame t t3 c ∧
      t3.log = t.log ++ [event_t.parse_cb c n 0] := by
  obtain ⟨k, hk⟩ : ∃ k, n.toNat = k + 1 := ⟨n.toNat - 1, by omega⟩
  have hpl : parse_loop pf c cap n.toNat t pdata n
      = ({ t with log := t.log ++ [event_t.parse_cb c n 0] }, pdata, n, none) := by
    rw [hk]
    simp only [parse_loop]
    rw [if_pos h1, if_neg (by omega), if_pos hz, hz]
  obtain ⟨hR, _⟩ := @RInv_of_fields t
    { t with log := t.log ++ [event_t.parse_cb c n 0] } c [] h rfl rfl
  have hsmall := stack_recv_buffer_small fuel
    { t with log := t.log ++ [event_t.parse_cb c n 0] } c pdata h1 h2 ms
  rcases stack_recv_buffer_spec hR fuel hf pdata h1 (by omega) hn ms with
    hnull | ⟨t3, R3, k1, k2, k3, k4, k5⟩
  · exact absurd hnull hsmall
  · have hF0 : ConnFrame t { t with log := t.log ++ [event_t.parse_cb c n 0] } c :=
      ⟨rfl, rfl, rfl, rfl⟩
    refine ⟨t3, R3, ?_, k2, k3, ConnFrame_trans hF0 k4, k5⟩
    simp only [parse_tail, hpl]
    rw [if_pos h1, k1]
    simp

/-- The parse callback consumes the whole work buffer: the message is delivered
and nothing is put into the chain. -/
theorem parse_tail_whole (t : tcp_t) (c rf : Nat) (pf : parse_callback)
    (hr : (t.connection_a.deref c).recv_func = some rf) (fuel : Nat) (cap : Int)
    (pdata : List Nat) {n : Int} (h1 : 0 < n) (h2 : n < 2147483648)
    (hw : (pf pdata n cap).ret = n) (ms : List (Option Nat)) :
    parse_tail fuel pf c cap t pdata n ms
      = some (outcome.done
          ({ t with log := (t.log ++ [event_t.parse_cb c n n])
              ++ [event_t.recv_cb c (pf pdata n cap).parsed_data
                    (pf pdata n cap).parsed_data_len] }, 0)) := by
  obtain ⟨k, hk⟩ : ∃ k, n.toNat = k + 1 := ⟨n.toNat - 1, by omega⟩
  have hcr : call_recv_func { t with log := t.log ++ [event_t.parse_cb c n n] } c
      (pf pdata n cap)
      = { t with log := (t.log ++ [event_t.parse_cb c n n])
            ++ [event_t.recv_cb c (pf pdata n cap).parsed_data
                  (pf pdata n cap).parsed_data_len] } := by
    simp only [call_recv_func, hr]
  have hpl : parse_loop pf c cap n.toNat t pdata n
      = ({ t with log := (t.log ++ [event_t.parse_cb c n n])
              ++ [event_t.recv_cb c (pf pdata n cap).parsed_data
                    (pf pdata n cap).parsed_data_len] }, pdata.drop n.toNat, 0, none) := by
    rw [hk]
    simp only [parse_loop]
    rw [if_pos h1, if_neg (by omega), if_neg (by omega), hw, hcr, sub_self]
    have h0 : i32 0 = 0 := by decide
    rw [h0, parse_loop_done, hk]
  simp only [parse_tail, hpl]
  rw [if_neg (by omega)]

theorem pack16_length_length (n : Int) : (netio_pack16_length n).1.length = 2 := rfl

/-- `netio_parse16` on a proper prefix of a frame returns `0`. -/
theorem parse16_incomplete (s : List Nat) (hlen : s.length ≤ 65533) (k : Nat) (hk : k < s.length + 2)
    (cap : Int) :
    (netio_parse16 (((netio_pack16_length s.length).1 ++ s).take k) k cap).ret = 0 := by
  have hu : u32 (k : Int) = k := by
    unfold u32
    omega
  unfold netio_parse16
  rw [hu]
  by_cases h1 : (k : Int) ≤ 2
  · simp only [h1, if_true]
  · have hk2 : 2 ≤ k := by omega
    have ht : ((netio_pack16_length s.length).1 ++ s).take k
        = (netio_pack16_length s.length).1 ++ s.take (k - 2) := by
      rw [List.take_append_eq_append_take, pack16_length_length,
        List.take_of_length_le (by rw [pack16_length_length]; exact hk2)]
    have hb := be16_pack16_length (s.length : Int) (by omega) (by omega) (s.take (k - 2))
    rw [ht]
    simp only [h1, if_false, hb]
    rw [if_pos (by omega)]

theorem delivered_parse_cb (c c2 : Nat) (n ret : Int) :
    delivered [event_t.parse_cb c2 n ret] c = [] := by
  simp [delivered]

theorem delivered_recv_cb (c : Nat) (d : List Nat) (n : Int) :
    delivered [event_t.recv_cb c d n] c = [(d, n)] := by
  simp [delivered]

/-- A frame of `netio_pack16` received in two non-empty parts by a connection
whose chain is empty and whose parse callback is `netio_parse16`. -/
theorem split_frame_spec (fuel : Nat) {t : tcp_t} {c : Nat} (rf : Nat) (s : List Nat) (k : Nat)
    (ms1 ms2 : List (Option Nat)) (h : RInv t c []) (hempty : chain_bytes t c [] = [])
    (hp : (t.connection_a.deref c).parse_func = some netio_parse16)
    (hr : (t.connection_a.deref c).recv_func = some rf)
    (hne : s ≠ []) (hlen : s.length ≤ 65533) (hk1 : 0 < k) (hk2 : k < s.length + 2)
    (hf : s.length + 2 < fuel) :
    ∃ t1 t2,
      __parse_receive fuel t c (((netio_pack16_length s.length).1 ++ s).take k) k ms1
        = some (outcome.done (t1, (k : Int))) ∧
      delivered t1.log c = delivered t.log c ∧
      chain_data fuel t1 c = some (((netio_pack16_length s.length).1 ++ s).take k) ∧
      __parse_receive fuel t1 c (((netio_pack16_length s.length).1 ++ s).drop k)
          ((s.length : Int) + 2 - k) ms2
        = some (outcome.done (t2, 0)) ∧
      delivered t2.log c = delivered t.log c ++ [(s, (s.length : Int))] ∧
      chain_data fuel t2 c = some [] := by
  have hFlen : ((netio_pack16_length s.length).1 ++ s).length = s.length + 2 := by
    rw [List.length_append, pack16_length_length]
    omega
  have htk : ((((netio_pack16_length s.length).1 ++ s).take k).length : Int) = k := by
    rw [List.length_take, hFlen]
    omega
  -- first part
  obtain ⟨t1, R1, a1, a2, a3, a4, a5⟩ := parse_tail_incomplete h netio_parse16 fuel (by omega)
    (i32 (i32 ((k : Int) + 0) + 1)) (((netio_pack16_length s.length).1 ++ s).take k)
    htk.symm (by omega) (by omega) (parse16_incomplete s hlen k hk2 _) ms1
  have hcall1 := parse_receive_empty h hempty hp fuel (by omega)
    (((netio_pack16_length s.length).1 ++ s).take k) (k : Int) ms1
  have hl1 : (chain_bytes t1 c R1).length = k := by
    rw [a3]
    omega
  obtain ⟨_, hR1⟩ := chain_bytes_length a2
  -- second part
  obtain ⟨T1, b1, b2, b3, b4, b5⟩ := parse_receive_stored a2 (by omega)
    (a4.parse_eq.trans hp) fuel (by omega) (by omega)
    (((netio_pack16_length s.length).1 ++ s).drop k) ((s.length : Int) + 2 - k) ms2
  have hn2 : i32 ((s.length : Int) + 2 - k + ((chain_bytes t1 c R1).length : Nat))
      = (s.length : Int) + 2 := by
    rw [hl1, i32_of_range (by omega) (by omega)]
    omega
  have hcap2 : i32 ((s.length : Int) + 2 + 1) = (s.length : Int) + 3 := by
    rw [i32_of_range (by omega) (by omega)]
    omega
  have hdata2 : chain_bytes t1 c R1
        ++ (((netio_pack16_length s.length).1 ++ s).drop k).take
            ((s.length : Int) + 2 - k).toNat
      = (netio_pack16_length s.length).1 ++ s := by
    have hdt : (((netio_pack16_length s.length).1 ++ s).drop k).take
          ((s.length : Int) + 2 - k).toNat
        = ((netio_pack16_length s.length).1 ++ s).drop k :=
      List.take_of_length_le (by rw [List.length_drop, hFlen]; omega)
    rw [a3, hdt, List.take_append_drop]
  rw [hn2, hcap2, hdata2] at b5
  obtain ⟨_, hrt⟩ := parse16_pack16_nonempty s 65535 ((s.length : Int) + 3) hne hlen
    (by unfold u16; omega) (by omega)
  have hpk : netio_pack16 s s.length 65535
      = ((s.length : Int) + 2, (netio_pack16_length s.length).1 ++ s) :=
    (parse16_pack16_nonempty s 65535 ((s.length : Int) + 3) hne hlen
      (by unfold u16; omega) (by omega)).1
  rw [hpk] at hrt
  simp only at hrt
  have hwhole := parse_tail_whole T1 c rf netio_parse16
    ((b3.recv_eq.trans a4.recv_eq).trans hr) fuel ((s.length : Int) + 3)
    ((netio_pack16_length s.length).1 ++ s) (by omega : (0 : Int) < (s.length : Int) + 2)
    (by omega) (by rw [hrt]) ms2
  rw [hrt] at hwhole
  simp only at hwhole
  rw [hwhole] at b5
  refine ⟨t1, _, ?_, ?_, ?_, b5, ?_, ?_⟩
  · rw [hcall1]
    exact a1
  · rw [a5, delivered_append, delivered_parse_cb, List.append_nil]
  · have hcd := chain_data_spec a2 fuel (by omega)
    rw [a3] at hcd
    exact hcd
  · show delivered ((T1.log ++ _) ++ _) c = _
    rw [delivered_append, delivered_append, delivered_parse_cb, delivered_recv_cb, b4, a5,
      delivered_append, delivered_parse_cb]
    simp
  · have hcd := chain_data_spec b1 fuel (by simp only [List.length_nil]; omega)
    rw [b2] at hcd
    exact hcd

/-- C4 (split frame).  The connection `c` has an empty receive chain, the parse
callback `netio_parse16` and a receive callback.  For every non-empty payload `s`
(of at most 65533 bytes, so that `netio_pack16` frames it) and every split of the
frame `netio_pack16(s)`, which has `|s| + 2` bytes, into a first part of `k` bytes
and the rest, both non-empty: `__parse_receive` on the first part returns `k`,
delivers nothing, and leaves exactly the first part in the chain; `__parse_receive`
on the rest returns `0`, has called the receive callback exactly once, with
`(s, |s|)`, and leaves the chain empty. -/
theorem split_frame (fuel : Nat) (t : tcp_t) (c rf : Nat) (s : List Nat) (k : Nat)
    (ms1 ms2 : List (Option Nat)) (h : RInv t c []) (hempty : chain_bytes t c [] = [])
    (hp : (t.connection_a.deref c).parse_func = some netio_parse16)
    (hr : (t.connection_a.deref c).recv_func = some rf)
    (hne : s ≠ []) (hlen : s.length ≤ 65533) (hk1 : 0 < k) (hk2 : k < s.length + 2)
    (hf : s.length + 2 < fuel) :
    (netio_pack16 s s.length 65535).2.length = s.length + 2 ∧
    ∃ t1 t2,
      __parse_receive fuel t c ((netio_pack16 s s.length 65535).2.take k) k ms1
        = some (outcome.done (t1, (k : Int))) ∧
      delivered t1.log c = delivered t.log c ∧
      chain_data fuel t1 c = some ((netio_pack16 s s.length 65535).2.take k) ∧
      __parse_receive fuel t1 c ((netio_pack16 s s.length 65535).2.drop k)
          ((s.length : Int) + 2 - k) ms2
        = some (outcome.done (t2, 0)) ∧
      delivered t2.log c = delivered t.log c ++ [(s, (s.length : Int))] ∧
      chain_data fuel t2 c = some [] := by
  have hpk : netio_pack16 s s.length 65535
      = ((s.length : Int) + 2, (netio_pack16_length s.length).1 ++ s) :=
    (parse16_pack16_nonempty s 65535 ((s.length : Int) + 3) hne hlen
      (by unfold u16; omega) (by omega)).1
  rw [hpk]
  refine ⟨?_, split_frame_spec fuel rf s k ms1 ms2 h hempty hp hr hne hlen hk1 hk2 hf⟩
  show ((netio_pack16_length s.length).1 ++ s).length = _
  rw [List.length_append, pack16_length_length]
  omega

theorem split_frame_witness :
    RInv (tcp_accept (some netio_parse16) 1) conn1 [] ∧
    chain_bytes (tcp_accept (some netio_parse16) 1) conn1 [] = [] ∧
    ((tcp_accept (some netio_parse16) 1).connection_a.deref conn1).parse_func
      = some netio_parse16 ∧
    ((tcp_accept (some netio_parse16) 1).connection_a.deref conn1).recv_func = some 2 ∧
    (netio_pack16 [97, 98, 99, 100, 101, 102, 103] 7 65535).2.take 7
      = [0, 7, 97, 98, 99, 100, 101] ∧
    (netio_pack16 [97, 98, 99, 100, 101, 102, 103] 7 65535).2.drop 7 = [102, 103] ∧
    ((netio_pack16 [97, 98, 99, 100, 101, 102, 103]
        ([97, 98, 99, 100, 101, 102, 103] : List Nat).length 65535).2.length
      = ([97, 98, 99, 100, 101, 102, 103] : List Nat).length + 2 ∧
    ∃ t1 t2,
      __parse_receive 20 (tcp_accept (some netio_parse16) 1) conn1
          ((netio_pack16 [97, 98, 99, 100, 101, 102, 103]
            ([97, 98, 99, 100, 101, 102, 103] : List Nat).length 65535).2.take 7)
          ((7 : Nat) : Int) [] = some (outcome.done (t1, ((7 : Nat) : Int))) ∧
      delivered t1.log conn1 = delivered (tcp_accept (some netio_parse16) 1).log conn1 ∧
      chain_data 20 t1 conn1
        = some ((netio_pack16 [97, 98, 99, 100, 101, 102, 103]
            ([97, 98, 99, 100, 101, 102, 103] : List Nat).length 65535).2.take 7) ∧
      __parse_receive 20 t1 conn1
          ((netio_pack16 [97, 98, 99, 100, 101, 102, 103]
            ([97, 98, 99, 100, 101, 102, 103] : List Nat).length 65535).2.drop 7)
          ((([97, 98, 99, 100, 101, 102, 103] : List Nat).length : Int) + 2 - ((7 : Nat) : Int))
          [] = some (outcome.done (t2, 0)) ∧
      delivered t2.log conn1
        = delivered (tcp_accept (some netio_parse16) 1).log conn1
          ++ [([97, 98, 99, 100, 101, 102, 103],
              (([97, 98, 99, 100, 101, 102, 103] : List Nat).length : Int))] ∧
      chain_data 20 t2 conn1 = some []) :=
  ⟨RInv_tcp_accept _, chain_bytes_tcp_accept _, by rw [tcp_accept_connection],
    by rw [tcp_accept_connection], by decide, by decide,
    split_frame 20 (tcp_accept (some netio_parse16) 1) conn1 2
      [97, 98, 99, 100, 101, 102, 103] 7 [] [] (RInv_tcp_accept _) (chain_bytes_tcp_accept _)
      (by rw [tcp_accept_connection]) (by rw [tcp_accept_connection]) (by decide) (by decide)
      (by decide) (by decide) (by decide)⟩

/-- The two receives of `chunks1` on the endpoint with one connection, evaluated:
the calls return `7` and `0`, the receive callback is called once, with
`("abcdefg", 7)`, the parse callback consumed 9 bytes, and the chain is empty. -/
theorem recv_run_chunks1 :
    (match recv_run 20 conn1 (tcp_accept (some netio_parse16) 1) chunks1 with
      | some (outcome.done (t2, rs)) =>
        some (rs, delivered t2.log conn1, consumed t2.log conn1, chain_data 20 t2 conn1)
      | _ => none)
      = some ([7, 0], [([97, 98, 99, 100, 101, 102, 103], 7)], 9, some []) := by
  decide!

/-! ### The framers at the edges of their domain -/

/-- What `netio_parse16` returns on every input of `0 ≤ datalen < 2 ^ 31` bytes:
`0` when `datalen ≤ 2` or `datalen < L + 2`, otherwise `-1` when `L` exceeds the
capacity, otherwise `L + 2` with the payload. -/
theorem parse16_cases (data : List Nat) (datalen cap : Int) (h0 : 0 ≤ datalen)
    (h1 : datalen < 2147483648) :
    netio_parse16 data datalen cap
      = if datalen ≤ 2 ∨ datalen < be16 data + 2 then ⟨0, 0, []⟩
        else if be16 data > cap then ⟨-1, -1, []⟩
        else ⟨be16 data + 2, be16 data, (data.drop 2).take (be16 data).toNat⟩ := by
  have hu : u32 datalen = datalen := by
    unfold u32
    omega
  unfold netio_parse16
  rw [hu]
  by_cases h2 : datalen ≤ 2
  · simp [h2]
  · by_cases h3 : be16 data + 2 > datalen
    · have h4 : datalen < be16 data + 2 := h3
      simp [h2, h3]
    · have h4 : ¬ datalen < be16 data + 2 := by omega
      simp [h2, h3, h4]

/-- C15 (`netio_parse16` result cases), evaluated on the two bytes `00 00`, the
whole frame of the empty payload: `L = 0` and `L + 2 = 2` bytes are present, and
`netio_parse16` returns `0` with the out-length `0` instead of `2`; its first
test is `(unsigned) datalen <= 2`. -/
theorem parse16_two_bytes :
    be16 [0, 0] = 0 ∧ netio_parse16 [0, 0] 2 0 = ⟨0, 0, []⟩ ∧
    netio_parse16 [0, 0] 2 65536 = ⟨0, 0, []⟩ := by
  decide

/-- C16 (`netio_pack16` capacity check), evaluated on a payload of one byte and a
buffer of `NIO_BUFFER_SIZE = 65536` bytes: the capacity is compared after a cast
to `uint16_t`, which turns `65536` into `0`, and the call returns `-1` although
`3` bytes fit; with a capacity of `65535` the same call returns `3`. -/
theorem pack16_large_capacity :
    netio_pack16 [97] 1 65536 = (-1, []) ∧ netio_pack16 [97] 1 65535 = (3, [0, 1, 97]) := by
  decide

/-- C18 (`netio_pack_text` output), evaluated on the payload `"hi"`.  With a
buffer of 64 bytes the call returns `-1`: the test is `max_pack_data > datalen + 1`.
With a buffer of exactly 3 bytes that holds zeros the call returns `2` and stores
no `'\n'`: the byte tested for the line end is `pack_data[datalen]`, the byte
behind the payload. -/
theorem pack_text_capacity :
    netio_pack_text [104, 105] 2 (List.replicate 64 0) 64 = (-1, List.replicate 64 0) ∧
    netio_pack_text [104, 105] 2 [0, 0, 0] 3 = (2, [104, 105, 0]) ∧
    netio_pack_text [104, 105] 2 [120, 120, 120] 3 = (3, [104, 105, 10]) := by
  decide

/-- C17 (text framer round trip), evaluated on `s = "hi"`.  With output buffers of
64 bytes `netio_pack_text` returns `-1` and stores nothing, so that
`netio_parse_text` has no line to read; with a buffer of exactly 3 zero bytes it
returns `2` without a line end and `netio_parse_text` returns `0`.  Only with a
buffer of exactly 3 bytes whose last byte is neither `'\n'` nor `'\0'` does the
round trip give `"hi"` and the terminator. -/
theorem text_round_trip_fails :
    (netio_pack_text [104, 105] 2 (List.replicate 64 0) 64).1 = -1 ∧
    netio_parse_text (netio_pack_text [104, 105] 2 (List.replicate 64 0) 64).2
        (netio_pack_text [104, 105] 2 (List.replicate 64 0) 64).1 64 = ⟨0, 0, []⟩ ∧
    netio_parse_text (netio_pack_text [104, 105] 2 [0, 0, 0] 3).2
        (netio_pack_text [104, 105] 2 [0, 0, 0] 3).1 64 = ⟨0, 0, [104, 105]⟩ ∧
    netio_parse_text (netio_pack_text [104, 105] 2 [120, 120, 120] 3).2
        (netio_pack_text [104, 105] 2 [120, 120, 120] 3).1 64 = ⟨3, 3, [104, 105, 0]⟩ ∧
    netio_parse_text (netio_pack_text [97, 13, 98] 3 [120, 120, 120, 120] 4).2
        (netio_pack_text [97, 13, 98] 3 [120, 120, 120, 120] 4).1 64
      = ⟨4, 4, [97, 0, 98, 0]⟩ := by
  decide

/-- C19 (`netio_parse_text` and the output capacity), evaluated with a capacity of
2 bytes: on the line `"abc\n"` the call stores 4 bytes and returns `4` with the
out-length `4`; on `"abcde"` it returns `-1` after having stored 4 bytes.  The
byte is stored before the test, and the test is `i > max_parsed_len`. -/
theorem parse_text_overrun :
    netio_parse_text [97, 98, 99, 10] 4 2 = ⟨4, 4, [97, 98, 99, 0]⟩ ∧
    netio_parse_text [97, 98, 99, 100, 101] 5 2 = ⟨-1, -1, [97, 98, 99, 100]⟩ ∧
    netio_parse_text [10] 1 0 = ⟨1, 1, [0]⟩ := by
  decide

/-! ### Pool capacity and counters -/

theorem pool_alloc_fields {α : Type} (mp : mempool_t α) (m : Option Nat) :
    (pool_alloc mp m).1.num = (if mp.not_use = none then extend_pool mp m else mp).num ∧
    (pool_alloc mp m).1.max_num = (if mp.not_use = none then extend_pool mp m else mp).max_num ∧
    (pool_alloc mp m).1.block = (if mp.not_use = none then extend_pool mp m else mp).block ∧
    (pool_alloc mp m).1.n_block = (if mp.not_use = none then extend_pool mp m else mp).n_block ∧
    ((pool_alloc mp m).2 = none ↔
      (if mp.not_use = none then extend_pool mp m else mp).not_use = none) := by
  rw [pool_alloc_eq_take]
  generalize (if mp.not_use = none then extend_pool mp m else mp) = mp2
  unfold pool_take
  cases h : mp2.not_use with
  | none => simp
  | some e => simp

/-- The cases of `extend_pool` on an empty free list. -/
theorem extend_pool_cases {α : Type} (mp : mempool_t α) (m : Option Nat)
    (hnone : mp.not_use = none) :
    (extend_pool mp m = mp ∧
      (mp.max_num = mp.num ∨
        alloc_block mp (if mp.max_num = 0 then mp.num else min mp.num (mp.max_num - mp.num)) m
          = none)) ∨
    (mp.max_num ≠ mp.num ∧ ∃ mp1 b,
      alloc_block mp (if mp.max_num = 0 then mp.num else min mp.num (mp.max_num - mp.num)) m
        = some (mp1, b) ∧
      (extend_pool mp m).not_use = some b.element ∧
      (extend_pool mp m).block = mp.block ++ [b] ∧
      (extend_pool mp m).n_block = mp.n_block + 1 ∧
      (extend_pool mp m).max_num = mp.max_num ∧
      b.num = (if mp.max_num = 0 then mp.num else min mp.num (mp.max_num - mp.num)) ∧
      (extend_pool mp m).num = mp.num
        + (if mp.max_num = 0 then mp.num else min mp.num (mp.max_num - mp.num))) := by
  unfold extend_pool
  simp only [hnone, ne_eq, not_true_eq_false, if_false]
  by_cases hmax : mp.max_num = mp.num
  · simp [hmax]
  · simp only [hmax, if_false]
    cases ha : alloc_block mp
        (if mp.max_num = 0 then mp.num else min mp.num (mp.max_num - mp.num)) m with
    | none => left; simp
    | some r =>
      obtain ⟨mp1, b⟩ := r
      right
      have ha2 := ha
      unfold alloc_block at ha2
      cases hm : malloc_block mp (((sizeof_memelement_t : Int) + mp.size)
          * (if mp.max_num = 0 then mp.num else min mp.num (mp.max_num - mp.num))) m with
      | none => rw [hm] at ha2; exact absurd ha2 (by simp)
      | some a =>
        rw [hm] at ha2
        simp only [Option.some.injEq, Prod.mk.injEq] at ha2
        obtain ⟨h1, h2⟩ := ha2
        subst h1
        subst h2
        exact ⟨not_false, _, _, rfl, rfl, rfl, rfl, rfl, rfl, rfl⟩

/-- One call keeps the capacity between its old value and the cap, and keeps the
cap. -/
theorem pool_step_cap {α : Type} (mp : mempool_t α) (op : pool_op) (h0 : 0 < mp.num)
    (hle : mp.num ≤ mp.max_num) :
    (pool_step mp op).1.max_num = mp.max_num ∧ mp.num ≤ (pool_step mp op).1.num ∧
    (pool_step mp op).1.num ≤ mp.max_num := by
  cases op with
  | alloc m =>
    obtain ⟨h1, h2, _⟩ := pool_alloc_fields mp m
    show (pool_alloc mp m).1.max_num = _ ∧ _ ≤ (pool_alloc mp m).1.num ∧
      (pool_alloc mp m).1.num ≤ _
    rw [h1, h2]
    by_cases hn : mp.not_use = none
    · rw [if_pos hn]
      rcases extend_pool_cases mp m hn with ⟨he, _⟩ | ⟨hne, mp1, b, _, _, _, _, hm, _, hnum⟩
      · rw [he]
        exact ⟨rfl, le_refl _, hle⟩
      · have hz : mp.max_num ≠ 0 := by omega
        rw [if_neg hz] at hnum
        rw [hm, hnum]
        refine ⟨rfl, ?_, ?_⟩ <;> omega
    · rw [if_neg hn]
      exact ⟨rfl, le_refl _, hle⟩
  | free element =>
    show (pool_free mp element).max_num = _ ∧ _ ≤ (pool_free mp element).num ∧
      (pool_free mp element).num ≤ _
    have key : (pool_free mp element).max_num = mp.max_num ∧
        (pool_free mp element).num = mp.num := by
      unfold pool_free
      by_cases hf : (mp.mem (element - sizeof_memelement_t)).in_use = 0
      · simp [hf]
      · simp [hf]
    rw [key.1, key.2]
    exact ⟨rfl, le_refl _, hle⟩

/-- A sequence of calls keeps the capacity between its first value and the cap. -/
theorem pool_run_cap {α : Type} (ops : List pool_op) :
    ∀ (mp : mempool_t α), 0 < mp.num → mp.num ≤ mp.max_num →
      (pool_run mp ops).max_num = mp.max_num ∧ mp.num ≤ (pool_run mp ops).num ∧
      (pool_run mp ops).num ≤ mp.max_num := by
  induction ops with
  | nil => intro mp _ hle; exact ⟨rfl, le_refl _, hle⟩
  | cons op ops ih =>
    intro mp h0 hle
    obtain ⟨h1, h2, h3⟩ := pool_step_cap mp op h0 hle
    obtain ⟨g1, g2, g3⟩ := ih (pool_step mp op).1 (by omega) (by omega)
    show (pool_run (pool_step mp op).1 ops).max_num = _ ∧
      _ ≤ (pool_run (pool_step mp op).1 ops).num ∧ (pool_run (pool_step mp op).1 ops).num ≤ _
    refine ⟨by rw [g1, h1], by omega, by omega⟩

/-- When `pool_alloc` returns `NULL`, and what it does to the capacity, on a pool
with a cap that the capacity has not passed. -/
theorem pool_alloc_growth {α : Type} (mp : mempool_t α) (m : Option Nat) (h0 : 0 < mp.num)
    (hle : mp.num ≤ mp.max_num) :
    ((pool_alloc mp m).2 = none ↔
      mp.not_use = none ∧
        (mp.num = mp.max_num ∨
          alloc_block mp (min mp.num (mp.max_num - mp.num)) m = none)) ∧
    (mp.not_use ≠ none →
      (pool_alloc mp m).1.num = mp.num ∧ (pool_alloc mp m).1.block = mp.block) ∧
    (mp.not_use = none → mp.num ≠ mp.max_num →
      ∀ mp1 b, alloc_block mp (min mp.num (mp.max_num - mp.num)) m = some (mp1, b) →
        (pool_alloc mp m).1.num = mp.num + min mp.num (mp.max_num - mp.num) ∧
        (pool_alloc mp m).1.block = mp.block ++ [b] ∧
        b.num = min mp.num (mp.max_num - mp.num)) := by
  have hz : mp.max_num ≠ 0 := by omega
  obtain ⟨h1, _, h3, _, h5⟩ := pool_alloc_fields mp m
  rw [h1, h3, h5]
  by_cases hn : mp.not_use = none
  · rw [if_pos hn]
    rcases extend_pool_cases mp m hn with ⟨he, hc⟩ | ⟨hne, mp1, b, ha, hnu, hb, _, _, hbn, hnum⟩
    · rw [he]
      rw [if_neg hz] at hc
      refine ⟨⟨fun _ => ⟨hn, ?_⟩, fun _ => hn⟩, fun h => absurd hn h, ?_⟩
      · rcases hc with hc | hc
        · exact Or.inl hc.symm
        · exact Or.inr hc
      · intro _ hne mp1 b hab
        rcases hc with hc | hc
        · exact absurd hc.symm hne
        · rw [hc] at hab
          exact absurd hab (by simp)
    · rw [if_neg hz] at ha hbn hnum
      refine ⟨⟨fun hx => ?_, fun hx => ?_⟩, fun h => absurd hn h, ?_⟩
      · rw [hnu] at hx
        exact absurd hx (by simp)
      · rcases hx.2 with hx | hx
        · exact absurd hx.symm hne
        · rw [ha] at hx
          exact absurd hx (by simp)
      · intro _ _ mp2 b2 hab
        rw [ha] at hab
        simp only [Option.some.injEq, Prod.mk.injEq] at hab
        rw [← hab.2]
        exact ⟨hnum, hb, hbn⟩
  · rw [if_neg hn]
    refine ⟨⟨fun hx => absurd hx hn, fun hx => absurd hx.1 hn⟩, fun _ => ⟨rfl, rfl⟩, ?_⟩
    intro hx
    exact absurd hx hn

/-- The growth of the connection pool of an endpoint, whose cap is
`_MAX_CONNECTION_NUM = 262144`: a `pool_alloc` on an empty free list whose block
is granted doubles a capacity of at most 131072 slots, takes a larger capacity
below the cap to the cap, and returns `NULL` at the cap.  From the 200 slots of
`_DEFAULT_CONNECTION_NUM` the capacities are 200, 400, 800, 1600, 3200, 6400,
12800, 25600, 51200, 102400, 204800 and 262144. -/
theorem connection_pool_growth {α : Type} (mp : mempool_t α) (m : Option Nat)
    (hmax : mp.max_num = _MAX_CONNECTION_NUM) (hn : mp.not_use = none) (h0 : 0 < mp.num)
    (hle : mp.num ≤ 262144) :
    (mp.num = 262144 → (pool_alloc mp m).2 = none ∧ (pool_alloc mp m).1.num = 262144) ∧
    ((∃ mp1 b, alloc_block mp (min mp.num (262144 - mp.num)) m = some (mp1, b)) →
      (mp.num ≤ 131072 → (pool_alloc mp m).1.num = 2 * mp.num) ∧
      (131072 ≤ mp.num → mp.num < 262144 → (pool_alloc mp m).1.num = 262144)) := by
  have hmax2 : mp.max_num = 262144 := hmax
  obtain ⟨h1, h2, h3⟩ := pool_alloc_growth mp m h0 (by omega)
  rw [hmax2] at h1 h3
  refine ⟨fun he => ⟨h1.mpr ⟨hn, Or.inl he⟩, ?_⟩, ?_⟩
  · obtain ⟨g1, _, _⟩ := pool_step_cap mp (pool_op.alloc m) h0 (by omega)
    obtain ⟨_, g2, g3⟩ := pool_step_cap mp (pool_op.alloc m) h0 (by omega)
    have g2b : mp.num ≤ (pool_alloc mp m).1.num := g2
    have g3b : (pool_alloc mp m).1.num ≤ mp.max_num := g3
    omega
  · rintro ⟨mp1, b, hab⟩
    constructor
    · intro hs
      obtain ⟨g, _, _⟩ := h3 hn (by omega) mp1 b hab
      rw [g]
      omega
    · intro hs hl
      obtain ⟨g, _, _⟩ := h3 hn (by omega) mp1 b hab
      rw [g]
      omega

/-- C11, the claim as stated: a pool created with `size = 8`, `initial = 2` and
`max = 1` has the capacity `2`, above `max`; after two `pool_alloc` its free list
is empty and a third `pool_alloc` returns `NULL` although the capacity differs
from `max` (the block of `min(2, 1 - 2) = -1` slots is not to be had). -/
theorem pool_capacity_cap_counterexample :
    (init_pool_with_max (0 : Nat) 8 2 1 (some 4096)).map
        (fun mp => (get_element_max_num mp,
          (pool_run mp [pool_op.alloc none, pool_op.alloc none]).not_use,
          (pool_alloc (pool_run mp [pool_op.alloc none, pool_op.alloc none]) (some 8192)).2,
          get_element_max_num
            (pool_alloc (pool_run mp [pool_op.alloc none, pool_op.alloc none]) (some 8192)).1))
      = some (2, none, none, 2) := by
  decide

/-- C11 (pool capacity cap and growth rule), for a pool created by
`init_pool_with_max(size, initial, max)` with `initial ≤ max`, after any sequence
of `pool_alloc` and `pool_free`: the capacity lies between `initial` and `max`;
`pool_alloc` returns `NULL` exactly when the free list is empty and either the
capacity equals `max` or the new block is not to be had; a `pool_alloc` on a
non-empty free list leaves capacity and blocks alone; and a `pool_alloc` on an
empty free list below the cap whose block is granted appends one block of
`min(capacity, max - capacity)` slots and adds that number to the capacity. -/
theorem pool_capacity_cap {α : Type} (dflt : α) (size initial max_num : Int) (m0 : Option Nat)
    (mp0 : mempool_t α) (ops : List pool_op)
    (hinit : init_pool_with_max dflt size initial max_num m0 = some mp0) (hle : initial ≤ max_num) :
    0 < size ∧ 0 < initial ∧ get_element_max_num mp0 = initial ∧
    initial ≤ get_element_max_num (pool_run mp0 ops) ∧
    get_element_max_num (pool_run mp0 ops) ≤ max_num ∧
    ∀ m,
      ((pool_alloc (pool_run mp0 ops) m).2 = none ↔
        (pool_run mp0 ops).not_use = none ∧
          (get_element_max_num (pool_run mp0 ops) = max_num ∨
            alloc_block (pool_run mp0 ops)
              (min (get_element_max_num (pool_run mp0 ops))
                (max_num - get_element_max_num (pool_run mp0 ops))) m = none)) ∧
      ((pool_run mp0 ops).not_use ≠ none →
        get_element_max_num (pool_alloc (pool_run mp0 ops) m).1
          = get_element_max_num (pool_run mp0 ops) ∧
        (pool_alloc (pool_run mp0 ops) m).1.block = (pool_run mp0 ops).block) ∧
      ((pool_run mp0 ops).not_use = none → get_element_max_num (pool_run mp0 ops) ≠ max_num →
        ∀ mp1 b, alloc_block (pool_run mp0 ops)
            (min (get_element_max_num (pool_run mp0 ops))
              (max_num - get_element_max_num (pool_run mp0 ops))) m = some (mp1, b) →
          get_element_max_num (pool_alloc (pool_run mp0 ops) m).1
            = get_element_max_num (pool_run mp0 ops)
              + min (get_element_max_num (pool_run mp0 ops))
                  (max_num - get_element_max_num (pool_run mp0 ops)) ∧
          (pool_alloc (pool_run mp0 ops) m).1.block = (pool_run mp0 ops).block ++ [b] ∧
          b.num = min (get_element_max_num (pool_run mp0 ops))
            (max_num - get_element_max_num (pool_run mp0 ops))) := by
  obtain ⟨b, hinv, _, _, _, hnum, hsize, hmax, hpos⟩ := init_pool_with_max_spec hinit
  obtain ⟨g1, g2, g3⟩ := pool_run_cap ops mp0 (by omega) (by omega)
  have hsz : 0 < size := by
    have := hinv.size_pos
    omega
  refine ⟨hsz, hpos, hnum, ?_, ?_, ?_⟩
  · show initial ≤ (pool_run mp0 ops).num
    omega
  · show (pool_run mp0 ops).num ≤ max_num
    omega
  · intro m
    have h := pool_alloc_growth (pool_run mp0 ops) m (by omega) (by omega)
    rw [g1, hmax] at h
    exact h

set_option maxRecDepth 100000 in
theorem pool_capacity_cap_witness :
    init_pool_with_max 0 8 2 4 (some 4096) = some pool24 ∧ (2 : Int) ≤ 4 ∧
    get_element_max_num
      (pool_alloc (pool_run pool24 [pool_op.alloc none, pool_op.alloc none]) (some 8192)).1
      = 4 :=
  ⟨rfl, by decide, by
    have h := pool_capacity_cap 0 8 2 4 (some 4096) pool24
      [pool_op.alloc none, pool_op.alloc none] rfl (by decide)
    have h3 := (h.2.2.2.2.2 (some 8192)).2.2 (by decide) (by decide) _ _ rfl
    rw [h3.1]
    decide⟩

/-! ### The counters of a pool -/

theorem pool_take_some {α : Type} {mp : mempool_t α} {e : Nat} (h : mp.not_use = some e) :
    pool_take mp = ({ mp with
        not_use := (mp.mem e).next,
        mem := mem_write mp.mem e { (mp.mem e) with in_use := 1, next := none },
        use_num := mp.use_num + 1 }, some (e + sizeof_memelement_t)) := by
  unfold pool_take
  rw [h]

/-- The pool that `init_pool_with_max` returns has consistent counters. -/
theorem PoolCount_init {α : Type} {dflt : α} {size num max_num : Int} {m : Option Nat}
    {mp : mempool_t α} (h : init_pool_with_max dflt size num max_num m = some mp) :
    ∃ L, PoolCount mp L ∧ mp.use_num = 0 ∧ mp.num = num := by
  obtain ⟨b, hinv, hb, hbn, huse, hnum, hsize, _, hpos⟩ := init_pool_with_max_spec h
  have hslots : pool_slots mp = block_slots size b := by
    unfold pool_slots
    rw [hb, hsize]
    simp
  have hlen : ((block_slots size b).length : Int) = num := by
    unfold block_slots
    rw [List.length_map, List.length_range, hbn]
    omega
  refine ⟨block_slots size b, ⟨hinv, ?_, ?_, ?_, ?_⟩, huse, hnum⟩
  · rw [hslots]
    exact block_slots_nodup _ _
  · rw [huse, hnum, hlen]
    omega
  · rw [hslots, hnum, hlen]
  · intro a ha _
    rw [hslots] at ha
    exact ha

/-- Taking the head of the free list keeps the counters consistent. -/
theorem PoolCount_take {α : Type} {mp : mempool_t α} {e : Nat} {L : List Nat}
    (h : PoolCount mp (e :: L)) :
    PoolCount (pool_take mp).1 L ∧ (pool_take mp).1.num = mp.num ∧
    (pool_take mp).1.use_num = mp.use_num + 1 := by
  have hnu : mp.not_use = some e := h.inv.free_chain.1
  rw [pool_take_some hnu]
  have hnd := List.nodup_cons.mp h.inv.free_nodup
  refine ⟨⟨pool_pop_spec h.inv, h.slots_nodup, ?_, h.total, ?_⟩, rfl, rfl⟩
  · have := h.count
    simp only [List.length_cons] at this
    show mp.use_num + 1 + (L.length : Int) = mp.num
    push_cast at this
    omega
  · intro a ha hf
    have hf2 : (mem_write mp.mem e { (mp.mem e) with in_use := 1, next := none } a).in_use = 0 :=
      hf
    unfold mem_write at hf2
    by_cases hae : a = e
    · rw [if_pos hae] at hf2
      have hf3 : (1 : Int) = 0 := hf2
      omega
    · rw [if_neg hae] at hf2
      rcases List.mem_cons.mp (h.free_all a ha hf2) with hx | hx
      · exact absurd hx hae
      · exact hx

/-- Growing a pool whose free list is empty keeps the counters consistent; the
capacity stays or grows by at most its old value. -/
theorem PoolCount_extend {α : Type} {mp : mempool_t α} (h : PoolCount mp []) (m : Option Nat) :
    ∃ L, PoolCount (extend_pool mp m) L ∧ (extend_pool mp m).use_num = mp.use_num ∧
      ((extend_pool mp m).num = mp.num ∨
        (mp.num < (extend_pool mp m).num ∧ (extend_pool mp m).num ≤ 2 * mp.use_num)) := by
  have hnone : mp.not_use = none := h.inv.free_chain
  have huse : mp.use_num = mp.num := by
    have := h.count
    simpa using this
  rcases extend_pool_spec h.inv m with he | ⟨b, hbpos, hinv, hblock, hsize, hu, hmem, hdis⟩
  · rw [he]
    exact ⟨[], h, rfl, Or.inl rfl⟩
  · rcases extend_pool_cases mp m hnone with ⟨he, _⟩ | ⟨hne, mp1, b2, _, _, hb2, _, _, hbn, hnum⟩
    · rw [he] at hblock
      have := congrArg List.length hblock
      simp at this
    · have hbb : b2 = b := by
        rw [hb2] at hblock
        have := List.append_cancel_left hblock
        simpa using this
      subst hbb
      have hslots : pool_slots (extend_pool mp m) = pool_slots mp ++ block_slots mp.size b2 := by
        unfold pool_slots
        rw [hblock, hsize]
        simp
      have hlen : ((block_slots mp.size b2).length : Int) = b2.num := by
        unfold block_slots
        rw [List.length_map, List.length_range]
        omega
      have hnew : b2.num ≤ mp.num := by
        rw [hbn]
        split
        · exact le_refl _
        · exact min_le_left _ _
      refine ⟨block_slots mp.size b2, ⟨hinv, ?_, ?_, ?_, ?_⟩, hu, Or.inr ⟨?_, ?_⟩⟩
      · rw [hslots]
        exact List.Nodup.append h.slots_nodup (block_slots_nodup _ _)
          (fun a ha hb => hdis a ha hb)
      · rw [hu, hnum, ← hbn, hlen, huse]
      · rw [hslots, List.length_append, hnum, ← hbn]
        push_cast
        rw [hlen, ← h.total]
      · intro a ha hf
        rw [hslots] at ha
        rcases List.mem_append.mp ha with ha | ha
        · exfalso
          have hother : (extend_pool mp m).mem a = mp.mem a := by
            rw [hmem]
            apply init_elements_other
            intro j hj hc
            apply hdis a ha
            unfold block_slots
            exact List.mem_map.mpr ⟨j, List.mem_range.mpr hj, hc.symm⟩
          rw [hother] at hf
          have := h.free_all a ha hf
          simp at this
        · exact ha
      · rw [hnum, ← hbn]
        omega
      · rw [hnum, ← hbn, huse]
        omega

/-- A `pool_free` of the user pointer of a slot keeps the counters consistent. -/
theorem PoolCount_free {α : Type} {mp : mempool_t α} {L : List Nat} (h : PoolCount mp L)
    {x : Nat} (hx : IsUser mp x) :
    ∃ L2, PoolCount (pool_free mp x) L2 ∧ (pool_free mp x).num = mp.num ∧
      (pool_free mp x).use_num ≤ mp.use_num := by
  by_cases hf : (mp.mem (x - sizeof_memelement_t)).in_use = 0
  · rw [pool_free_idle mp x hf]
    exact ⟨L, h, rfl, le_refl _⟩
  · have hnum : (pool_free mp x).num = mp.num := by
      unfold pool_free
      simp [hf]
    refine ⟨(x - sizeof_memelement_t) :: L, ⟨PoolInv_free h.inv hx hf, ?_, ?_, ?_, ?_⟩, hnum, ?_⟩
    · rw [pool_free_slots]
      exact h.slots_nodup
    · rw [pool_free_use_num mp x hf, hnum]
      have := h.count
      simp only [List.length_cons]
      push_cast
      omega
    · rw [pool_free_slots, hnum]
      exact h.total
    · intro a ha hfa
      rw [pool_free_slots] at ha
      rw [pool_free_in_use] at hfa
      by_cases hax : a = x - sizeof_memelement_t
      · rw [hax]
        exact List.mem_cons_self _ _
      · rw [if_neg hax] at hfa
        exact List.mem_cons_of_mem _ (h.free_all a ha hfa)
    · rw [pool_free_use_num mp x hf]
      omega

/-- A `pool_alloc` keeps the counters consistent; the capacity stays, or it grows
to at most twice the number of slots that were in use. -/
theorem PoolCount_alloc {α : Type} {mp : mempool_t α} {L : List Nat} (h : PoolCount mp L)
    (m : Option Nat) :
    ∃ L2, PoolCount (pool_alloc mp m).1 L2 ∧
      ((pool_alloc mp m).1.num = mp.num ∨
        (mp.num < (pool_alloc mp m).1.num ∧ (pool_alloc mp m).1.num ≤ 2 * mp.use_num)) := by
  rw [pool_alloc_eq_take]
  cases L with
  | cons e L =>
    have hnu : mp.not_use = some e := h.inv.free_chain.1
    rw [if_neg (by rw [hnu]; simp)]
    obtain ⟨g1, g2, _⟩ := PoolCount_take h
    exact ⟨L, g1, Or.inl g2⟩
  | nil =>
    have hnone : mp.not_use = none := h.inv.free_chain
    rw [if_pos hnone]
    obtain ⟨L2, g1, g2, g3⟩ := PoolCount_extend h m
    cases L2 with
    | nil =>
      have hn2 : (extend_pool mp m).not_use = none := g1.inv.free_chain
      have ht : pool_take (extend_pool mp m) = (extend_pool mp m, none) := by
        unfold pool_take
        rw [hn2]
      rw [ht]
      exact ⟨[], g1, g3⟩
    | cons e L2 =>
      obtain ⟨k1, k2, _⟩ := PoolCount_take g1
      refine ⟨L2, k1, ?_⟩
      rw [k2]
      exact g3

/-- On a pool with consistent counters `use_num` is the number of slots whose
in-use flag is set. -/
theorem used_slots_length {α : Type} {mp : mempool_t α} {L : List Nat} (h : PoolCount mp L) :
    ((used_slots mp).length : Int) = mp.use_num := by
  have hsplit := @List.length_eq_length_filter_add _ (pool_slots mp)
    (fun a => decide ((mp.mem a).in_use ≠ 0))
  have hperm : ((pool_slots mp).filter (fun a => ! decide ((mp.mem a).in_use ≠ 0))).Perm L := by
    apply (List.perm_ext_iff_of_nodup (h.slots_nodup.filter _) h.inv.free_nodup).mpr
    intro a
    simp only [List.mem_filter, Bool.not_eq_true', decide_eq_false_iff_not, ne_eq, not_not]
    constructor
    · rintro ⟨ha, hf⟩
      exact h.free_all a ha hf
    · intro ha
      exact ⟨h.inv.free_slot a ha, h.inv.free_flag a ha⟩
  have hl := hperm.length_eq
  have hc := h.count
  have ht := h.total
  unfold used_slots
  rw [hl] at hsplit
  omega

theorem pool_free_twice {α : Type} (mp : mempool_t α) (x : Nat) :
    pool_free (pool_free mp x) x = pool_free mp x := by
  apply pool_free_idle
  rw [pool_free_in_use, if_pos rfl]

/-- A sequence of calls whose `pool_free` are given slots of the pool keeps the
counters consistent, and the capacity at the end is the capacity at the start or
at most twice the largest number of slots in use on the way. -/
theorem pool_run_count {α : Type} (ops : List pool_op) :
    ∀ (mp : mempool_t α) (L : List Nat), PoolCount mp L → frees_valid mp ops →
      (∃ L2, PoolCount (pool_run mp ops) L2) ∧
      (pool_run mp ops).num ≤ max mp.num (2 * (peak_in_use mp ops : Int)) := by
  induction ops with
  | nil =>
    intro mp L h _
    exact ⟨⟨L, h⟩, le_max_left _ _⟩
  | cons op ops ih =>
    intro mp L h hv
    have hused := used_slots_length h
    have key : ∃ L1, PoolCount (pool_step mp op).1 L1 ∧ frees_valid (pool_step mp op).1 ops ∧
        ((pool_step mp op).1.num = mp.num ∨ (pool_step mp op).1.num ≤ 2 * mp.use_num) := by
      cases op with
      | alloc m =>
        obtain ⟨L1, g1, g2⟩ := PoolCount_alloc h m
        refine ⟨L1, g1, hv, ?_⟩
        rcases g2 with g2 | g2
        · exact Or.inl g2
        · exact Or.inr g2.2
      | free element =>
        obtain ⟨L1, g1, g2, _⟩ := PoolCount_free h hv.1
        exact ⟨L1, g1, hv.2, Or.inl g2⟩
    obtain ⟨L1, k1, k2, k3⟩ := key
    obtain ⟨i1, i2⟩ := ih (pool_step mp op).1 L1 k1 k2
    refine ⟨i1, ?_⟩
    show (pool_run (pool_step mp op).1 ops).num
      ≤ max mp.num (2 * ((max (used_slots mp).length (peak_in_use (pool_step mp op).1 ops) : Nat)
          : Int))
    push_cast
    rw [hused]
    omega

/-- C12 (double free is ignored).  A `pool_free` of a slot that is not in use
returns the pool as it was, so that a second `pool_free` of a slot equals one.
Along every sequence of calls on a pool created by `init_pool_with_max`, the
`pool_free` being given slots of the pool, free or not, the in-use count equals
the number of slots whose in-use flag is set, and a `pool_free` repeated at the
end changes nothing. -/
theorem double_free_ignored {α : Type} (mp : mempool_t α) (x : Nat) (dflt : α)
    (size initial max_num : Int) (m0 : Option Nat) (mp0 : mempool_t α) (ops : List pool_op) :
    (pool_element_is_valid mp x = 0 → pool_free mp x = mp) ∧
    pool_free (pool_free mp x) x = pool_free mp x ∧
    (init_pool_with_max dflt size initial max_num m0 = some mp0 → frees_valid mp0 ops →
      get_element_use_num (pool_run mp0 ops) = ((used_slots (pool_run mp0 ops)).length : Int) ∧
      pool_run mp0 (ops ++ [pool_op.free x, pool_op.free x])
        = pool_run mp0 (ops ++ [pool_op.free x])) := by
  refine ⟨?_, pool_free_twice mp x, ?_⟩
  · intro h
    apply pool_free_idle
    unfold pool_element_is_valid at h
    by_contra hc
    rw [if_neg hc] at h
    omega
  · intro hinit hv
    obtain ⟨L, hL, _, _⟩ := PoolCount_init hinit
    obtain ⟨⟨L2, h2⟩, _⟩ := pool_run_count ops mp0 L hL hv
    refine ⟨(used_slots_length h2).symm, ?_⟩
    have happ : ∀ (l1 l2 : List pool_op) (p : mempool_t α),
        pool_run p (l1 ++ l2) = pool_run (pool_run p l1) l2 := by
      intro l1
      induction l1 with
      | nil => intro l2 p; rfl
      | cons a l1 ih => intro l2 p; exact ih l2 _
    rw [happ, happ]
    show pool_free (pool_free (pool_run mp0 ops) x) x = pool_free (pool_run mp0 ops) x
    exact pool_free_twice _ x

set_option maxRecDepth 100000 in
theorem double_free_ignored_witness :
    pool_element_is_valid (pool_run pool24 [pool_op.alloc none, pool_op.free 4112]) 4112 = 0 ∧
    init_pool_with_max 0 8 2 4 (some 4096) = some pool24 ∧
    frees_valid pool24 [pool_op.alloc none, pool_op.alloc none, pool_op.free 4112,
      pool_op.free 4112] ∧
    get_element_use_num (pool_run pool24 [pool_op.alloc none, pool_op.alloc none,
      pool_op.free 4112, pool_op.free 4112]) = 1 ∧
    pool_free (pool_run pool24 [pool_op.alloc none, pool_op.free 4112]) 4112
      = pool_run pool24 [pool_op.alloc none, pool_op.free 4112] :=
  ⟨by decide, rfl, ⟨⟨4096, by decide, rfl⟩, ⟨4096, by decide, rfl⟩, trivial⟩, by
    have h := (double_free_ignored pool24 0 0 8 2 4 (some 4096) pool24
      [pool_op.alloc none, pool_op.alloc none, pool_op.free 4112, pool_op.free 4112]).2.2 rfl
      ⟨⟨4096, by decide, rfl⟩, ⟨4096, by decide, rfl⟩, trivial⟩
    rw [h.1]
    decide,
    (double_free_ignored (pool_run pool24 [pool_op.alloc none, pool_op.free 4112]) 4112 0 8 2 4
      (some 4096) pool24 []).1 (by decide)⟩

/-- C13, the claim as stated: a pool created with 4 slots has the capacity 4
after `pool_alloc`, `pool_free`, `pool_alloc`, while one slot at most was in use
at the same time. -/
theorem pool_reuse_bound_counterexample :
    (init_pool_with_max (0 : Nat) 8 4 0 (some 4096)).map
        (fun mp =>
          (get_element_max_num
            (pool_run mp [pool_op.alloc none, pool_op.free 4112, pool_op.alloc none]),
           peak_in_use mp [pool_op.alloc none, pool_op.free 4112, pool_op.alloc none]))
      = some (4, 1) := by
  decide

/-- C13 (pool reuse bound), with the capacity the pool is created with: for a
pool created by `init_pool_with_max(size, initial, max)` and every sequence of
`pool_alloc` and `pool_free`, the `pool_free` being given slots of the pool, the
capacity is at most the larger of `initial` and twice the largest number of slots
in use at the same time. -/
theorem pool_reuse_bound {α : Type} (dflt : α) (size initial max_num : Int) (m0 : Option Nat)
    (mp0 : mempool_t α) (ops : List pool_op)
    (hinit : init_pool_with_max dflt size initial max_num m0 = some mp0)
    (hvalid : frees_valid mp0 ops) :
    get_element_max_num (pool_run mp0 ops) ≤ max initial (2 * (peak_in_use mp0 ops : Int)) := by
  obtain ⟨L, hL, _, hnum⟩ := PoolCount_init hinit
  have h := (pool_run_count ops mp0 L hL hvalid).2
  rw [hnum] at h
  exact h

set_option maxRecDepth 100000 in
theorem pool_reuse_bound_witness :
    init_pool_with_max 0 8 2 4 (some 4096) = some pool24 ∧
    frees_valid pool24
      [pool_op.alloc none, pool_op.alloc none, pool_op.alloc (some 8192), pool_op.free 4112] ∧
    get_element_max_num (pool_run pool24
      [pool_op.alloc none, pool_op.alloc none, pool_op.alloc (some 8192), pool_op.free 4112])
      ≤ max 2 (2 * (peak_in_use pool24
        [pool_op.alloc none, pool_op.alloc none, pool_op.alloc (some 8192),
          pool_op.free 4112] : Int)) :=
  ⟨rfl, ⟨⟨4096, by decide, rfl⟩, trivial⟩,
    pool_reuse_bound 0 8 2 4 (some 4096) pool24 _ rfl ⟨⟨4096, by decide, rfl⟩, trivial⟩⟩

/-- Three `pool_alloc` and a `pool_free` on `pool24`: the pool of two slots grows
to four at the third `pool_alloc`, three slots being in use. -/
theorem pool24_run :
    (get_element_max_num (pool_run pool24
        [pool_op.alloc none, pool_op.alloc none, pool_op.alloc (some 8192), pool_op.free 4112]),
     peak_in_use pool24
        [pool_op.alloc none, pool_op.alloc none, pool_op.alloc (some 8192), pool_op.free 4112],
     get_element_use_num (pool_run pool24
        [pool_op.alloc none, pool_op.alloc none, pool_op.alloc (some 8192), pool_op.free 4112]))
      = (4, 3, 2) := by
  decide

/-! ### Iteration over the slots in use -/

set_option maxRecDepth 100000 in
/-- C14 (pool iteration), evaluated on the connection pool of the endpoint created
with 16 MiB of connection buffer and two live connections: both slots are in use
and the in-use count is `2`, `get_element_first` returns the first connection,
and `get_element_next` of the first connection returns `NULL`, so that the
iteration visits one slot.  The block of 200 slots has 3368593600 bytes, which
`get_element_next` stores in the `int esize`. -/
theorem iteration_misses_slot :
    (get_element_use_num (tcp_big_accept 2).connection_a,
     pool_element_is_valid (tcp_big_accept 2).connection_a 8589934608,
     pool_element_is_valid (tcp_big_accept 2).connection_a 8606777576,
     get_element_first (tcp_big_accept 2).connection_a,
     get_element_next (tcp_big_accept 2).connection_a 8589934608)
      = (2, 1, 1, some 8589934608, none) := by
  decide

set_option maxRecDepth 100000 in
/-- The iteration on a pool whose block fits an `int`: three of four slots are in
use, the second one having been freed, and `get_element_first` followed by
`get_element_next` visits the three in block order. -/
theorem iteration_small_pool :
    (init_pool_with_max (0 : Nat) 8 2 4 (some 4096)).map
        (fun mp0 =>
          ((get_element_use_num (pool_run mp0 [pool_op.alloc none, pool_op.alloc none,
              pool_op.alloc (some 8192), pool_op.alloc none, pool_op.free 4136]),
            get_element_first (pool_run mp0 [pool_op.alloc none, pool_op.alloc none,
              pool_op.alloc (some 8192), pool_op.alloc none, pool_op.free 4136])),
           get_element_next (pool_run mp0 [pool_op.alloc none, pool_op.alloc none,
              pool_op.alloc (some 8192), pool_op.alloc none, pool_op.free 4136]) 4112,
           get_element_next (pool_run mp0 [pool_op.alloc none, pool_op.alloc none,
              pool_op.alloc (some 8192), pool_op.alloc none, pool_op.free 4136]) 8208,
           get_element_next (pool_run mp0 [pool_op.alloc none, pool_op.alloc none,
              pool_op.alloc (some 8192), pool_op.alloc none, pool_op.free 4136]) 8232))
      = some ((3, some 4112), some 8208, some 8232, none) := by
  decide

/-! ### A parse callback that reports an error -/

theorem call_recv_func_log (t : tcp_t) (c : Nat) (out : ParseOut) :
    ∃ evs, (call_recv_func t c out).log = t.log ++ evs ∧
      ∀ ev ∈ evs, ∃ m n, ev = event_t.recv_cb c m n := by
  unfold call_recv_func
  cases (t.connection_a.deref c).recv_func with
  | none => exact ⟨[], by simp, fun ev hev => absurd hev (List.not_mem_nil ev)⟩
  | some f =>
    refine ⟨[event_t.recv_cb c out.parsed_data out.parsed_data_len], rfl, ?_⟩
    intro ev hev
    rw [List.mem_singleton] at hev
    exact ⟨_, _, hev⟩

/-- The parse loop with any parse callback: it leaves the pools and the write
queue alone and adds calls of the parse and receive callbacks of `c` to the
record; it ends with a value of the parse callback exactly when that value is
negative, and this call is then the last one recorded. -/
theorem parse_loop_events (pf : parse_callback) (c : Nat) (cap : Int) :
    ∀ (k : Nat) (t : tcp_t) (pdata : List Nat) (n_data : Int),
      (parse_loop pf c cap k t pdata n_data).1.connection_a = t.connection_a ∧
      (parse_loop pf c cap k t pdata n_data).1.rbuffer_a = t.rbuffer_a ∧
      (parse_loop pf c cap k t pdata n_data).1.wbuffer_m = t.wbuffer_m ∧
      ∃ evs, (parse_loop pf c cap k t pdata n_data).1.log = t.log ++ evs ∧
        (∀ ev ∈ evs, (∃ n r, ev = event_t.parse_cb c n r) ∨ ∃ m n, ev = event_t.recv_cb c m n) ∧
        ∀ r, (parse_loop pf c cap k t pdata n_data).2.2.2 = some r →
          r < 0 ∧ ∃ n, evs.getLast? = some (event_t.parse_cb c n r) := by
  intro k
  induction k with
  | zero =>
    intro t pdata n_data
    refine ⟨rfl, rfl, rfl, [], by simp [parse_loop], ?_, ?_⟩
    · intro ev hev
      exact absurd hev (List.not_mem_nil ev)
    · intro r hr
      simp [parse_loop] at hr
  | succ k ih =>
    intro t pdata n_data
    simp only [parse_loop]
    by_cases hn : n_data > 0
    · rw [if_pos hn]
      by_cases hneg : (pf pdata n_data cap).ret < 0
      · rw [if_pos hneg]
        refine ⟨rfl, rfl, rfl, [event_t.parse_cb c n_data (pf pdata n_data cap).ret], rfl, ?_, ?_⟩
        · intro ev hev
          rw [List.mem_singleton] at hev
          exact Or.inl ⟨_, _, hev⟩
        · intro r hr
          simp only [Option.some.injEq] at hr
          rw [← hr]
          exact ⟨hneg, n_data, rfl⟩
      · rw [if_neg hneg]
        by_cases hz : (pf pdata n_data cap).ret = 0
        · rw [if_pos hz]
          refine ⟨rfl, rfl, rfl, [event_t.parse_cb c n_data (pf pdata n_data cap).ret], rfl,
            ?_, ?_⟩
          · intro ev hev
            rw [List.mem_singleton] at hev
            exact Or.inl ⟨_, _, hev⟩
          · intro r hr
            simp at hr
        · rw [if_neg hz]
          obtain ⟨g1, g2, g3, evs, g4, g5, g6⟩ := ih
            (call_recv_func { t with log := t.log
              ++ [event_t.parse_cb c n_data (pf pdata n_data cap).ret] } c (pf pdata n_data cap))
            (pdata.drop (pf pdata n_data cap).ret.toNat) (i32 (n_data - (pf pdata n_data cap).ret))
          obtain ⟨k1, k2, k3, _⟩ := call_recv_func_spec { t with log := t.log
              ++ [event_t.parse_cb c n_data (pf pdata n_data cap).ret] } c (pf pdata n_data cap)
          obtain ⟨evr, k5, k6⟩ := call_recv_func_log { t with log := t.log
              ++ [event_t.parse_cb c n_data (pf pdata n_data cap).ret] } c (pf pdata n_data cap)
          refine ⟨by rw [g1, k1], by rw [g2, k2], by rw [g3, k3],
            event_t.parse_cb c n_data (pf pdata n_data cap).ret :: (evr ++ evs), ?_, ?_, ?_⟩
          · rw [g4, k5]
            simp
          · intro ev hev
            rcases List.mem_cons.mp hev with hev | hev
            · exact Or.inl ⟨_, _, hev⟩
            · rcases List.mem_append.mp hev with hev | hev
              · exact Or.inr (k6 ev hev)
              · exact g5 ev hev
          · intro r hr
            obtain ⟨m1, n, m2⟩ := g6 r hr
            refine ⟨m1, n, ?_⟩
            have hne : evs ≠ [] := by
              intro he
              rw [he] at m2
              simp at m2
            have hsplit : event_t.parse_cb c n_data (pf pdata n_data cap).ret :: (evr ++ evs)
                = (event_t.parse_cb c n_data (pf pdata n_data cap).ret :: evr) ++ evs := rfl
            rw [hsplit, List.getLast?_append_of_ne_nil _ hne]
            exact m2
    · rw [if_neg hn]
      refine ⟨rfl, rfl, rfl, [], by simp, ?_, ?_⟩
      · intro ev hev
        exact absurd hev (List.not_mem_nil ev)
      · intro r hr
        simp at hr

/-- What the parse loop does to its work buffer does not depend on the
endpoint. -/
theorem parse_loop_indep (pf : parse_callback) (c : Nat) (cap : Int) :
    ∀ (k : Nat) (t t2 : tcp_t) (pdata : List Nat) (n_data : Int),
      (parse_loop pf c cap k t pdata n_data).2 = (parse_loop pf c cap k t2 pdata n_data).2 := by
  intro k
  induction k with
  | zero => intro t t2 pdata n_data; rfl
  | succ k ih =>
    intro t t2 pdata n_data
    simp only [parse_loop]
    by_cases hn : n_data > 0
    · rw [if_pos hn, if_pos hn]
      by_cases hneg : (pf pdata n_data cap).ret < 0
      · rw [if_pos hneg, if_pos hneg]
      · rw [if_neg hneg, if_neg hneg]
        by_cases hz : (pf pdata n_data cap).ret = 0
        · rw [if_pos hz, if_pos hz]
        · rw [if_neg hz, if_neg hz]
          exact ih _ _ _ _
    · rw [if_neg hn, if_neg hn]

/-- When the parse loop ends with a negative value of the parse callback,
`__parse_receive` returns that value at once. -/
theorem parse_tail_error (fuel : Nat) (pf : parse_callback) (c : Nat) (cap : Int) (t : tcp_t)
    (pdata : List Nat) (n_data : Int) (ms : List (Option Nat)) {r : Int}
    (h : (parse_loop pf c cap n_data.toNat t pdata n_data).2.2.2 = some r) :
    parse_tail fuel pf c cap t pdata n_data ms
      = some (outcome.done ((parse_loop pf c cap n_data.toNat t pdata n_data).1, r)) := by
  unfold parse_tail
  generalize parse_loop pf c cap n_data.toNat t pdata n_data = res at h
  obtain ⟨t2, p2, n2, o⟩ := res
  simp only at h
  subst h
  rfl

/-- Emptying the receive chain of a connection leaves the slots of the
connection pool as they are. -/
theorem purge_head_flags (fuel : Nat) (t t1 : tcp_t) (c : Nat)
    (h : __purge_recv_buffer fuel t (some (rbref.head c)) = some t1) :
    (set_rb t1 (rbref.head c) { (get_rb t1 (rbref.head c)) with len := 0 }).connection_a.use_num
      = t.connection_a.use_num ∧
    ∀ a, ((set_rb t1 (rbref.head c)
        { (get_rb t1 (rbref.head c)) with len := 0 }).connection_a.mem a).in_use
      = (t.connection_a.mem a).in_use := by
  unfold __purge_recv_buffer at h
  simp only at h
  cases hp : purge_loop fuel t.rbuffer_a (get_rb t (rbref.head c)).next with
  | none => rw [hp] at h; exact absurd h (by simp)
  | some pool =>
    rw [hp] at h
    simp only [Option.some.injEq] at h
    subst h
    refine ⟨rfl, ?_⟩
    intro a
    simp only [set_rb]
    rw [store_in_use, store_in_use]

/-- Emptying the receive chain of a connection leaves the other members of the
connection as they are. -/
theorem purge_head_conn (fuel : Nat) (t t1 : tcp_t) (c : Nat)
    (h : __purge_recv_buffer fuel t (some (rbref.head c)) = some t1) :
    ((set_rb t1 (rbref.head c)
        { (get_rb t1 (rbref.head c)) with len := 0 }).connection_a.deref c).pair
      = (t.connection_a.deref c).pair ∧
    ((set_rb t1 (rbref.head c)
        { (get_rb t1 (rbref.head c)) with len := 0 }).connection_a.deref c).rcheck_func
      = (t.connection_a.deref c).rcheck_func := by
  unfold __purge_recv_buffer at h
  simp only at h
  cases hp : purge_loop fuel t.rbuffer_a (get_rb t (rbref.head c)).next with
  | none => rw [hp] at h; exact absurd h (by simp)
  | some pool =>
    rw [hp] at h
    simp only [Option.some.injEq] at h
    subst h
    constructor <;> simp [set_rb, get_rb, mempool_t.deref, mempool_t.store, mem_write]

/-- A read event on a connection with a parse callback and no pair, whose
admission callback lets it pass and whose `recv` yields bytes, hands these bytes
to `__parse_receive`. -/
theorem read_event_parse (fuel : Nat) (t : tcp_t) (c : Nat) (pf : parse_callback) (rcheck : Int)
    (d : List Nat) (sr : send_result) (ms : List (Option Nat))
    (hp : (t.connection_a.deref c).parse_func = some pf)
    (hpair : (t.connection_a.deref c).pair = none)
    (hrc : (t.connection_a.deref c).rcheck_func = none ∨ 0 ≤ rcheck) (hd : d ≠ []) :
    __read_event_callback fuel t c true rcheck (recv_result.data d) sr ms
      = (match __parse_receive fuel t c (d.take NIO_BUFFER_SIZE.toNat)
            ((d.take NIO_BUFFER_SIZE.toNat).length : Int) ms with
        | none => none
        | some outcome.null_deref => some outcome.null_deref
        | some (outcome.done (t1, _)) => some (outcome.done t1)) := by
  have h1 : ¬ ((t.connection_a.deref c).rcheck_func ≠ none ∧ rcheck < 0) := by
    rintro ⟨ha, hb⟩
    rcases hrc with hrc | hrc
    · exact ha hrc
    · omega
  have h2 : ¬ (((d.take NIO_BUFFER_SIZE.toNat).length : Int) = 0) := by
    cases d with
    | nil => exact absurd rfl hd
    | cons a d =>
      have : NIO_BUFFER_SIZE.toNat = 65535 + 1 := rfl
      rw [this, List.take_succ_cons]
      simp only [List.length_cons]
      omega
  unfold __read_event_callback
  rw [if_neg h1, if_neg (by decide)]
  simp only [h2, if_false, hpair, hp]

/-- `__parse_receive` when the parse loop on the bytes of the chain followed by
the bytes received ends with the negative value `r` of the parse callback: the
call returns `r`, the record grows by calls of the parse and receive callbacks
of `c` only, the slots of the connection pool stay as they are, and the chain is
left empty. -/
theorem parse_receive_error {t : tcp_t} {c : Nat} {R : List Nat} (h : RInv t c R)
    {pf : parse_callback} (hp : (t.connection_a.deref c).parse_func = some pf) (fuel : Nat)
    (hf : (chain_bytes t c R).length < fuel) (data : List Nat)
    (hb : (chain_bytes t c R).length + data.length < 2147483647) (ms : List (Option Nat))
    {r : Int}
    (hneg : (parse_loop pf c (((chain_bytes t c R ++ data).length : Int) + 1)
        (chain_bytes t c R ++ data).length t (chain_bytes t c R ++ data)
        (chain_bytes t c R ++ data).length).2.2.2 = some r) :
    r < 0 ∧
    ∃ t1 evs, __parse_receive fuel t c data data.length ms = some (outcome.done (t1, r)) ∧
      t1.log = t.log ++ evs ∧
      (∃ n, evs.getLast? = some (event_t.parse_cb c n r)) ∧
      (∀ ev ∈ evs, (∃ n k, ev = event_t.parse_cb c n k) ∨ ∃ m n, ev = event_t.recv_cb c m n) ∧
      t1.connection_a.use_num = t.connection_a.use_num ∧
      (∀ a, (t1.connection_a.mem a).in_use = (t.connection_a.mem a).in_use) ∧
      RInv t1 c [] ∧ chain_bytes t1 c [] = [] ∧ ConnFrame t t1 c ∧
      (t1.connection_a.deref c).pair = (t.connection_a.deref c).pair ∧
      (t1.connection_a.deref c).rcheck_func = (t.connection_a.deref c).rcheck_func := by
  obtain ⟨hl1, hl2⟩ := chain_bytes_length h
  have hfR : R.length < fuel := by omega
  have hlen := get_receive_buffer_len_spec h fuel hfR (by omega)
  have hXl : (((chain_bytes t c R ++ data).length : Nat) : Int)
      = (data.length : Int) + chain_len t c R := by
    rw [List.length_append]
    push_cast
    omega
  by_cases hE : chain_len t c R > 0
  · obtain ⟨t1, hq, k1, k2, k3, k4⟩ := purge_head_spec h fuel hfR
    obtain ⟨f1, f2⟩ := purge_head_flags fuel t t1 c hq
    obtain ⟨f3, f4⟩ := purge_head_conn fuel t t1 c hq
    generalize hT : set_rb t1 (rbref.head c) { (get_rb t1 (rbref.head c)) with len := 0 } = T1
      at k1 k2 k3 k4 f1 f2 f3 f4
    have hi : i32 ((data.length : Int) + chain_len t c R)
        = (((chain_bytes t c R ++ data).length : Nat) : Int) := by
      rw [i32_of_range (by omega) (by omega), hXl]
    have hi2 : i32 ((((chain_bytes t c R ++ data).length : Nat) : Int) + 1)
        = (((chain_bytes t c R ++ data).length : Nat) : Int) + 1 :=
      i32_of_range (by omega) (by omega)
    have heq : __parse_receive fuel t c data data.length ms
        = parse_tail fuel pf c ((((chain_bytes t c R ++ data).length : Nat) : Int) + 1) T1
            (chain_bytes t c R ++ data) (((chain_bytes t c R ++ data).length : Nat) : Int) ms := by
      simp only [__parse_receive, hp, hlen]
      rw [if_pos hE]
      simp only [chain_data_spec h fuel hfR]
      simp only [hq]
      rw [Int.toNat_ofNat, List.take_length, hT, hi, hi2]
    have hneg2 : (parse_loop pf c ((((chain_bytes t c R ++ data).length : Nat) : Int) + 1)
        ((((chain_bytes t c R ++ data).length : Nat) : Int)).toNat T1 (chain_bytes t c R ++ data)
        (chain_bytes t c R ++ data).length).2.2.2 = some r := by
      rw [Int.toNat_ofNat, parse_loop_indep pf c _ _ T1 t]
      exact hneg
    obtain ⟨g1, g2, g3, evs, g4, g5, g6⟩ := parse_loop_events pf c
      ((((chain_bytes t c R ++ data).length : Nat) : Int) + 1)
      ((((chain_bytes t c R ++ data).length : Nat) : Int)).toNat T1 (chain_bytes t c R ++ data)
      (chain_bytes t c R ++ data).length
    obtain ⟨hr0, hlast⟩ := g6 r hneg2
    obtain ⟨hR1, hR2⟩ := RInv_of_fields k1 g1 g2
    refine ⟨hr0, _, evs, ?_, by rw [g4, k4], hlast, g5, by rw [g1, f1],
      fun a => by rw [g1, f2], hR1, by rw [hR2, k2],
      ConnFrame_trans k3 (ConnFrame_of_fields g1 g3), by rw [g1, f3], by rw [g1, f4]⟩
    rw [heq]
    exact parse_tail_error fuel pf c _ T1 _ _ ms hneg2
  · have h0 : (chain_bytes t c R).length = 0 := by omega
    have hR : R = [] := List.length_eq_zero.mp (by omega)
    subst hR
    have hnil : chain_bytes t c [] = [] := List.length_eq_zero.mp h0
    rw [hnil, List.nil_append] at hneg
    have hi2 : i32 (i32 ((data.length : Int) + 0) + 1) = (data.length : Int) + 1 := by
      have hdl : (data.length : Int) < 2147483647 := by omega
      have hin : i32 (data.length : Int) = (data.length : Int) :=
        i32_of_range (by omega) (by omega)
      rw [add_zero, hin, i32_of_range (by omega) (by omega)]
    have heq := parse_receive_empty h hnil hp fuel (by omega) data data.length ms
    rw [hi2] at heq
    have hneg2 : (parse_loop pf c ((data.length : Int) + 1) ((data.length : Int)).toNat t data
        data.length).2.2.2 = some r := by
      rw [Int.toNat_ofNat]
      exact hneg
    obtain ⟨g1, g2, g3, evs, g4, g5, g6⟩ := parse_loop_events pf c ((data.length : Int) + 1)
      ((data.length : Int)).toNat t data data.length
    obtain ⟨hr0, hlast⟩ := g6 r hneg2
    obtain ⟨hR1, hR2⟩ := RInv_of_fields h g1 g2
    refine ⟨hr0, _, evs, ?_, g4, hlast, g5, by rw [g1], fun a => by rw [g1], hR1,
      by rw [hR2, hnil], ConnFrame_of_fields g1 g3, by rw [g1], by rw [g1]⟩
    rw [heq]
    exact parse_tail_error fuel pf c _ t _ _ ms hneg2

/-- C20 (parser error survives the connection).  A read event on a connection `c`
with a parse callback, a receive callback and no pair, whose chain is well
formed, brings bytes, and the parse loop on the bytes of the chain followed by
these bytes ends with the parse callback returning `r` (which is then negative).
The event returns; it records calls of the parse and receive callbacks of `c`
only, the last one being the call that returned `r`, so that no close callback
is called and no socket is closed; the slot of `c` keeps its in-use flag and the
in-use count of the connection pool is unchanged; the receive chain is left
empty; and a read event that comes next and brings a frame which the parse
callback consumes whole hands that frame alone to the parse callback and calls
the receive callback with the message. -/
theorem parser_error_survives (fuel : Nat) (t : tcp_t) (c : Nat) (R : List Nat)
    (pf : parse_callback) (rf : Nat) (rcheck : Int) (d : List Nat) (sr : send_result)
    (ms : List (Option Nat)) (r : Int) (h : RInv t c R)
    (hp : (t.connection_a.deref c).parse_func = some pf)
    (hr : (t.connection_a.deref c).recv_func = some rf)
    (hpair : (t.connection_a.deref c).pair = none)
    (hrc : (t.connection_a.deref c).rcheck_func = none ∨ 0 ≤ rcheck) (hd : d ≠ [])
    (hf : (chain_bytes t c R).length < fuel)
    (hb : (chain_bytes t c R).length + 65536 < 2147483647)
    (hneg : (parse_loop pf c
        (((chain_bytes t c R ++ d.take NIO_BUFFER_SIZE.toNat).length : Int) + 1)
        (chain_bytes t c R ++ d.take NIO_BUFFER_SIZE.toNat).length t
        (chain_bytes t c R ++ d.take NIO_BUFFER_SIZE.toNat)
        (chain_bytes t c R ++ d.take NIO_BUFFER_SIZE.toNat).length).2.2.2 = some r) :
    r < 0 ∧
    ∃ t1 evs,
      __read_event_callback fuel t c true rcheck (recv_result.data d) sr ms
        = some (outcome.done t1) ∧
      t1.log = t.log ++ evs ∧
      (∃ n, evs.getLast? = some (event_t.parse_cb c n r)) ∧
      (∀ ev ∈ evs, (∃ n k, ev = event_t.parse_cb c n k) ∨ ∃ m n, ev = event_t.recv_cb c m n) ∧
      (∀ c2 code, event_t.close_cb c2 code ∉ evs) ∧
      (∀ soc, event_t.sys_close soc ∉ evs) ∧
      pool_element_is_valid t1.connection_a c = pool_element_is_valid t.connection_a c ∧
      get_element_use_num t1.connection_a = get_element_use_num t.connection_a ∧
      RInv t1 c [] ∧ chain_data fuel t1 c = some [] ∧
      __get_receive_buffer_len fuel t1 c = some 0 ∧
      ∀ (d2 : List Nat) (rcheck2 : Int) (sr2 : send_result) (ms2 : List (Option Nat)),
        ((t.connection_a.deref c).rcheck_func = none ∨ 0 ≤ rcheck2) → d2 ≠ [] →
        d2.length ≤ 65536 → (pf d2 d2.length ((d2.length : Int) + 1)).ret = d2.length →
        __read_event_callback fuel t1 c true rcheck2 (recv_result.data d2) sr2 ms2
          = some (outcome.done { t1 with log := (t1.log ++ [event_t.parse_cb c d2.length d2.length])
              ++ [event_t.recv_cb c (pf d2 d2.length ((d2.length : Int) + 1)).parsed_data
                    (pf d2 d2.length ((d2.length : Int) + 1)).parsed_data_len] }) := by
  have hbl : (d.take NIO_BUFFER_SIZE.toNat).length ≤ 65536 := by
    rw [List.length_take]
    exact Nat.min_le_left _ _
  obtain ⟨hr0, t1, evs, e1, e2, e3, e4, e5, e6, e7, e8, e9, e10, e11⟩ :=
    parse_receive_error h hp fuel hf (d.take NIO_BUFFER_SIZE.toNat) (by omega) ms hneg
  have hev := read_event_parse fuel t c pf rcheck d sr ms hp hpair hrc hd
  rw [e1] at hev
  have hfuel : 0 < fuel := by omega
  have hcl : chain_len t1 c [] = 0 := by
    have := (chain_bytes_length e7).1
    rw [e8] at this
    simp only [List.length_nil, Nat.cast_zero] at this
    omega
  refine ⟨hr0, t1, evs, hev, e2, e3, e4, ?_, ?_, ?_, e5, e7, ?_, ?_, ?_⟩
  · intro c2 code hmem
    rcases e4 _ hmem with ⟨n, k, hx⟩ | ⟨m, n, hx⟩ <;> exact absurd hx (by simp)
  · intro soc hmem
    rcases e4 _ hmem with ⟨n, k, hx⟩ | ⟨m, n, hx⟩ <;> exact absurd hx (by simp)
  · unfold pool_element_is_valid
    rw [e6]
  · rw [chain_data_spec e7 fuel hfuel, e8]
  · rw [get_receive_buffer_len_spec e7 fuel hfuel (by omega), hcl]
  · intro d2 rcheck2 sr2 ms2 hrc2 hd2 hl2 hw
    have hp1 : (t1.connection_a.deref c).parse_func = some pf := by rw [e9.parse_eq, hp]
    have hr1 : (t1.connection_a.deref c).recv_func = some rf := by rw [e9.recv_eq, hr]
    have htake : d2.take NIO_BUFFER_SIZE.toNat = d2 := List.take_of_length_le hl2
    have hpos : 0 < d2.length := List.length_pos.mpr hd2
    rw [read_event_parse fuel t1 c pf rcheck2 d2 sr2 ms2 hp1 (by rw [e10, hpair])
      (by rw [e11]; exact hrc2) hd2, htake,
      parse_receive_empty e7 e8 hp1 fuel hfuel d2 d2.length ms2]
    have hcap : i32 (i32 ((d2.length : Int) + 0) + 1) = (d2.length : Int) + 1 := by
      have hin : i32 (d2.length : Int) = (d2.length : Int) := i32_of_range (by omega) (by omega)
      rw [add_zero, hin, i32_of_range (by omega) (by omega)]
    rw [hcap, parse_tail_whole t1 c rf pf hr1 fuel _ d2 (by omega) (by omega) hw ms2]

theorem parse_x_rejects :
    (parse_loop parse_x conn1
      (((chain_bytes (tcp_accept (some parse_x) 1) conn1 []
          ++ ([88] : List Nat).take NIO_BUFFER_SIZE.toNat).length : Int) + 1)
      (chain_bytes (tcp_accept (some parse_x) 1) conn1 []
          ++ ([88] : List Nat).take NIO_BUFFER_SIZE.toNat).length
      (tcp_accept (some parse_x) 1)
      (chain_bytes (tcp_accept (some parse_x) 1) conn1 []
          ++ ([88] : List Nat).take NIO_BUFFER_SIZE.toNat)
      (chain_bytes (tcp_accept (some parse_x) 1) conn1 []
          ++ ([88] : List Nat).take NIO_BUFFER_SIZE.toNat).length).2.2.2 = some (-1) := by
  rw [chain_bytes_tcp_accept]
  rfl

set_option maxRecDepth 100000 in
theorem parser_error_survives_witness :
    RInv (tcp_accept (some parse_x) 1) conn1 [] ∧
    ((tcp_accept (some parse_x) 1).connection_a.deref conn1).parse_func = some parse_x ∧
    ((tcp_accept (some parse_x) 1).connection_a.deref conn1).recv_func = some 2 ∧
    ((tcp_accept (some parse_x) 1).connection_a.deref conn1).pair = none ∧
    (((tcp_accept (some parse_x) 1).connection_a.deref conn1).rcheck_func = none ∨
      (0 : Int) ≤ 0) ∧
    ([88] : List Nat) ≠ [] ∧
    (chain_bytes (tcp_accept (some parse_x) 1) conn1 []).length < 5 ∧
    (chain_bytes (tcp_accept (some parse_x) 1) conn1 []).length + 65536 < 2147483647 ∧
    ((-1 : Int) < 0 ∧
    ∃ t1 evs,
      __read_event_callback 5 (tcp_accept (some parse_x) 1) conn1 true 0
          (recv_result.data [88]) send_result.again []
        = some (outcome.done t1) ∧
      t1.log = (tcp_accept (some parse_x) 1).log ++ evs ∧
      (∃ n, evs.getLast? = some (event_t.parse_cb conn1 n (-1))) ∧
      (∀ ev ∈ evs, (∃ n k, ev = event_t.parse_cb conn1 n k) ∨
        ∃ m n, ev = event_t.recv_cb conn1 m n) ∧
      (∀ c2 code, event_t.close_cb c2 code ∉ evs) ∧
      (∀ soc, event_t.sys_close soc ∉ evs) ∧
      pool_element_is_valid t1.connection_a conn1
        = pool_element_is_valid (tcp_accept (some parse_x) 1).connection_a conn1 ∧
      get_element_use_num t1.connection_a
        = get_element_use_num (tcp_accept (some parse_x) 1).connection_a ∧
      RInv t1 conn1 [] ∧ chain_data 5 t1 conn1 = some [] ∧
      __get_receive_buffer_len 5 t1 conn1 = some 0 ∧
      ∀ (d2 : List Nat) (rcheck2 : Int) (sr2 : send_result) (ms2 : List (Option Nat)),
        (((tcp_accept (some parse_x) 1).connection_a.deref conn1).rcheck_func = none ∨
          0 ≤ rcheck2) → d2 ≠ [] →
        d2.length ≤ 65536 → (parse_x d2 d2.length ((d2.length : Int) + 1)).ret = d2.length →
        __read_event_callback 5 t1 conn1 true rcheck2 (recv_result.data d2) sr2 ms2
          = some (outcome.done { t1 with
              log := (t1.log ++ [event_t.parse_cb conn1 d2.length d2.length])
                ++ [event_t.recv_cb conn1 (parse_x d2 d2.length ((d2.length : Int) + 1)).parsed_data
                    (parse_x d2 d2.length ((d2.length : Int) + 1)).parsed_data_len] })) :=
  ⟨RInv_tcp_accept (some parse_x), by rw [tcp_accept_connection],
    by rw [tcp_accept_connection], by rw [tcp_accept_connection]; rfl,
    Or.inr (le_refl _), by decide, by rw [chain_bytes_tcp_accept]; decide,
    by rw [chain_bytes_tcp_accept]; decide,
    parser_error_survives 5 (tcp_accept (some parse_x) 1) conn1 [] parse_x 2 0 [88]
      send_result.again [] (-1) (RInv_tcp_accept (some parse_x))
      (by rw [tcp_accept_connection]) (by rw [tcp_accept_connection])
      (by rw [tcp_accept_connection]; rfl) (Or.inr (le_refl _)) (by decide)
      (by rw [chain_bytes_tcp_accept]; decide) (by rw [chain_bytes_tcp_accept]; decide)
      parse_x_rejects⟩

set_option maxRecDepth 100000 in
/-- The read events `"X"` and then the frame `00 01 61` on the connection `conn1`
whose parse callback is `parse_x`: the first event records the call of the parse
callback that returned `-1` and nothing else, the connection stays in use, and
the second event delivers the message `"a"`. -/
theorem read_event_x :
    (match __read_event_callback 5 (tcp_accept (some parse_x) 1) conn1 true 0
        (recv_result.data [88]) send_result.again [] with
      | some (outcome.done t1) =>
        (match __read_event_callback 5 t1 conn1 true 0 (recv_result.data [0, 1, 97])
            send_result.again [] with
          | some (outcome.done t2) =>
            some ((t1.log, pool_element_is_valid t1.connection_a conn1,
              get_element_use_num t1.connection_a), chain_data 5 t1 conn1,
              t2.log.drop t1.log.length)
          | _ => none)
      | _ => none)
      = some (([event_t.parse_cb conn1 1 (-1)], 1, 1), some [],
          [event_t.parse_cb conn1 3 3, event_t.recv_cb conn1 [97] 1]) := by
  decide!

/-! ### The serializer of `packet.h` -/

theorem le_value_le_bytes : ∀ (w x : Nat), le_value (le_bytes w x) = x % 256 ^ w := by
  intro w
  induction w with
  | zero => intro x; simp [le_bytes, le_value, Nat.mod_one]
  | succ w ih =>
    intro x
    simp only [le_bytes, le_value, ih]
    rw [pow_succ', Nat.mod_mul]

theorem le_bytes_length : ∀ (w x : Nat), (le_bytes w x).length = w := by
  intro w
  induction w with
  | zero => intro x; rfl
  | succ w ih => intro x; simp [le_bytes, ih]

theorem int_bytes_length (little : Bool) (w x : Nat) : (int_bytes little w x).length = w := by
  unfold int_bytes
  cases little <;> simp [le_bytes_length]

/-- Reading an integer that was stored gives the integer, reduced to its width. -/
theorem int_value_int_bytes (little : Bool) (w x : Nat) :
    int_value little (int_bytes little w x) = x % 256 ^ w := by
  unfold int_value int_bytes
  cases little <;> simp [le_value_le_bytes]

theorem bswap16_lt (x : Nat) : bswap16 x < 65536 := by
  unfold bswap16
  omega

theorem bswap32_lt (x : Nat) : bswap32 x < 4294967296 := by
  unfold bswap32
  omega

theorem bswap16_bswap16 (x : Nat) (h : x < 65536) : bswap16 (bswap16 x) = x := by
  unfold bswap16
  have h1 : (x % 256 * 256 + x / 256 % 256) % 256 = x / 256 % 256 := by omega
  have h2 : (x % 256 * 256 + x / 256 % 256) / 256 % 256 = x % 256 := by omega
  rw [h1, h2]
  omega

theorem bswap32_digits (b0 b1 b2 b3 : Nat) (h0 : b0 < 256) (h1 : b1 < 256) (h2 : b2 < 256)
    (h3 : b3 < 256) :
    bswap32 (b0 + 256 * b1 + 65536 * b2 + 16777216 * b3)
      = b3 + 256 * b2 + 65536 * b1 + 16777216 * b0 := by
  unfold bswap32
  have e0 : (b0 + 256 * b1 + 65536 * b2 + 16777216 * b3) % 256 = b0 := by omega
  have e1 : (b0 + 256 * b1 + 65536 * b2 + 16777216 * b3) / 256 % 256 = b1 := by omega
  have e2 : (b0 + 256 * b1 + 65536 * b2 + 16777216 * b3) / 65536 % 256 = b2 := by omega
  have e3 : (b0 + 256 * b1 + 65536 * b2 + 16777216 * b3) / 16777216 % 256 = b3 := by omega
  rw [e0, e1, e2, e3]
  omega

theorem bswap32_bswap32 (x : Nat) (h : x < 4294967296) : bswap32 (bswap32 x) = x := by
  have hx : x = x % 256 + 256 * (x / 256 % 256) + 65536 * (x / 65536 % 256)
      + 16777216 * (x / 16777216 % 256) := by omega
  have h1 := bswap32_digits (x % 256) (x / 256 % 256) (x / 65536 % 256) (x / 16777216 % 256)
    (Nat.mod_lt _ (by decide)) (Nat.mod_lt _ (by decide)) (Nat.mod_lt _ (by decide))
    (Nat.mod_lt _ (by decide))
  have h2 := bswap32_digits (x / 16777216 % 256) (x / 65536 % 256) (x / 256 % 256) (x % 256)
    (Nat.mod_lt _ (by decide)) (Nat.mod_lt _ (by decide)) (Nat.mod_lt _ (by decide))
    (Nat.mod_lt _ (by decide))
  rw [← hx] at h1
  rw [h1, h2]
  omega

theorem htons_lt (little : Bool) (x : Nat) : htons little x < 65536 := by
  unfold htons
  cases little
  · simp only [Bool.false_eq_true, if_false]; omega
  · simp only [if_true]; exact bswap16_lt _

theorem htonl_lt (little : Bool) (x : Nat) : htonl little x < 4294967296 := by
  unfold htonl
  cases little
  · simp only [Bool.false_eq_true, if_false]; omega
  · simp only [if_true]; exact bswap32_lt _

theorem ntohs_htons (little : Bool) (x : Nat) : ntohs little (htons little x) = x % 65536 := by
  unfold ntohs htons
  cases little
  · simp
  · simp only [if_true]
    rw [Nat.mod_eq_of_lt (bswap16_lt _), bswap16_bswap16 _ (Nat.mod_lt _ (by decide))]

theorem ntohl_htonl (little : Bool) (x : Nat) :
    ntohl little (htonl little x) = x % 4294967296 := by
  unfold ntohl htonl
  cases little
  · simp
  · simp only [if_true]
    rw [Nat.mod_eq_of_lt (bswap32_lt _), bswap32_bswap32 _ (Nat.mod_lt _ (by decide))]

/-- The value of `htonll` in arithmetic: the two halves keep their places, each one
being passed through `htonl`. -/
theorem htonll_eq (little : Bool) (x : Nat) :
    htonll little x
      = htonl little (x / 4294967296 % 4294967296) * 4294967296
        + htonl little (x % 4294967296) := by
  unfold htonll
  have h32 : (0xffffffff : Nat) = 2 ^ 32 - 1 := by decide
  have hp : (4294967296 : Nat) = 2 ^ 32 := by decide
  have hlow : ((x % 18446744073709551616) &&& 0xffffffff) % 4294967296 = x % 4294967296 := by
    rw [h32, Nat.and_pow_two_sub_one_eq_mod, ← hp]
    omega
  have hup : ((x % 18446744073709551616) >>> 32) % 4294967296
      = x / 4294967296 % 4294967296 := by
    rw [Nat.shiftRight_eq_div_pow, ← hp]
    omega
  simp only [hlow, hup]
  have hl := htonl_lt little (x % 4294967296)
  have hu := htonl_lt little (x / 4294967296 % 4294967296)
  rw [Nat.shiftLeft_eq, Nat.mod_eq_of_lt (by omega)]
  rw [hp] at hl ⊢
  rw [Nat.mul_comm, ← Nat.mul_add_lt_is_or hl]

theorem ntohll_eq (little : Bool) (x : Nat) :
    ntohll little x
      = ntohl little (x / 4294967296 % 4294967296) * 4294967296
        + ntohl little (x % 4294967296) := by
  have h : ntohll little x = htonll little x := rfl
  have h2 : ntohl little = htonl little := rfl
  rw [h, h2, htonll_eq]

theorem htonll_lt (little : Bool) (x : Nat) : htonll little x < 18446744073709551616 := by
  rw [htonll_eq]
  have hl := htonl_lt little (x % 4294967296)
  have hu := htonl_lt little (x / 4294967296 % 4294967296)
  omega

/-- `ntohll` undoes `htonll`. -/
theorem ntohll_htonll (little : Bool) (x : Nat) :
    ntohll little (htonll little x) = x % 18446744073709551616 := by
  rw [ntohll_eq, htonll_eq]
  have hl := htonl_lt little (x % 4294967296)
  have hu := htonl_lt little (x / 4294967296 % 4294967296)
  have e1 : (htonl little (x / 4294967296 % 4294967296) * 4294967296
      + htonl little (x % 4294967296)) / 4294967296 % 4294967296
      = htonl little (x / 4294967296 % 4294967296) := by omega
  have e2 : (htonl little (x / 4294967296 % 4294967296) * 4294967296
      + htonl little (x % 4294967296)) % 4294967296 = htonl little (x % 4294967296) := by omega
  rw [e1, e2, ntohl_htonl, ntohl_htonl]
  omega

/-- C30 (64-bit packer byte order), evaluated on a little-endian host with
`x = 0x0102030405060708`: `htonll` returns `0x0403020108070605`, which is not the
reversal `0x0807060504030201` of the eight bytes, and `_PUSH_DATA_8` writes the
bytes `05 06 07 08 01 02 03 04`, the low half first, where the network byte
order is `01 02 03 04 05 06 07 08`.  The value `8000` of `sample.c` is written as
`00 00 1f 40 00 00 00 00`.  The 2-byte and 4-byte packers write the most
significant byte first, and on a big-endian host so does `_PUSH_DATA_8`. -/
theorem htonll_keeps_halves :
    htonll true 0x0102030405060708 = 0x0403020108070605 ∧
    peek (_PUSH_DATA_8 true (fun _ => 0) 0 0x0102030405060708).1 0 8
      = [5, 6, 7, 8, 1, 2, 3, 4] ∧
    peek (_PUSH_DATA_8 true (fun _ => 0) 0 8000).1 0 8 = [0, 0, 31, 64, 0, 0, 0, 0] ∧
    peek (_PUSH_DATA_4 true (fun _ => 0) 0 0x01020304).1 0 4 = [1, 2, 3, 4] ∧
    peek (_PUSH_DATA_2 true (fun _ => 0) 0 0x0102).1 0 2 = [1, 2] ∧
    peek (_PUSH_DATA_8 false (fun _ => 0) 0 0x0102030405060708).1 0 8
      = [1, 2, 3, 4, 5, 6, 7, 8] ∧
    ntohll true (htonll true 0x0102030405060708) = 0x0102030405060708 := by
  decide

theorem holds_poke (mem : Nat → Nat) (p : Nat) (W : List Nat) : holds (poke mem p W) p W := by
  intro i hi
  unfold poke
  rw [if_pos ⟨by omega, by omega⟩, Nat.add_sub_cancel_left]

theorem poke_poke (mem : Nat → Nat) (p : Nat) (A B : List Nat) :
    poke (poke mem p A) (p + A.length) B = poke mem p (A ++ B) := by
  funext a
  unfold poke
  by_cases h1 : p + A.length ≤ a ∧ a < p + A.length + B.length
  · rw [if_pos h1, if_pos ⟨by omega, by rw [List.length_append]; omega⟩,
      List.getD_append_right _ _ _ _ (by omega)]
    congr 1
    omega
  · rw [if_neg h1]
    by_cases h2 : p ≤ a ∧ a < p + A.length
    · rw [if_pos h2, if_pos ⟨h2.1, by rw [List.length_append]; omega⟩,
        List.getD_append _ _ _ _ (by omega)]
    · rw [if_neg h2, if_neg]
      rw [List.length_append]
      omega

theorem peek_of_holds {mem : Nat → Nat} {p : Nat} {A B : List Nat} (h : holds mem p (A ++ B)) :
    peek mem p A.length = A := by
  apply List.ext_getElem
  · simp [peek]
  · intro i h1 h2
    simp only [peek, List.getElem_map, List.getElem_range]
    rw [h i (by rw [List.length_append]; omega), List.getD_append _ _ _ _ h2,
      List.getD_eq_getElem _ _ h2]

theorem holds_drop {mem : Nat → Nat} {p : Nat} {A B : List Nat} (h : holds mem p (A ++ B)) :
    holds mem (p + A.length) B := by
  intro i hi
  have := h (A.length + i) (by rw [List.length_append]; omega)
  rw [List.getD_append_right _ _ _ _ (by omega), Nat.add_sub_cancel_left] at this
  rw [Nat.add_assoc]
  exact this

theorem holds_head {mem : Nat → Nat} {p x : Nat} {B : List Nat} (h : holds mem p (x :: B)) :
    mem p = x := by
  have := h 0 (by simp)
  simpa using this

/-- The loop of `_LENGTH_STRING` on a buffer that holds a string without `'\0'`
followed by `'\0'`. -/
theorem length_string_loop_spec (mem : Nat → Nat) :
    ∀ (s : List Nat) (fuel p alen : Nat) (B : List Nat), (∀ x ∈ s, x ≠ 0) →
      holds mem p (s ++ 0 :: B) → s.length < fuel → alen + s.length + 1 < 4294967296 →
      length_string_loop mem fuel p alen = some (alen + s.length + 1) := by
  intro s
  induction s with
  | nil =>
    intro fuel p alen B _ h hf hl
    obtain ⟨k, rfl⟩ : ∃ k, fuel = k + 1 := ⟨fuel - 1, by simp at hf; omega⟩
    have h0 : mem p = 0 := holds_head h
    simp only [length_string_loop, h0, ne_eq, not_true_eq_false, if_false, List.length_nil,
      Nat.add_zero]
    rw [Nat.mod_eq_of_lt (by simpa using hl)]
  | cons x s ih =>
    intro fuel p alen B hs h hf hl
    obtain ⟨k, rfl⟩ : ∃ k, fuel = k + 1 := ⟨fuel - 1, by simp at hf; omega⟩
    have h0 : mem p = x := holds_head h
    have hx : x ≠ 0 := hs x (List.mem_cons_self _ _)
    simp only [List.length_cons] at hf hl
    simp only [length_string_loop, h0, ne_eq, hx, not_false_eq_true, if_true]
    rw [Nat.mod_eq_of_lt (by omega)]
    have h2 : holds mem (p + 1) (s ++ 0 :: B) := by
      have := @holds_drop mem p [x] (s ++ 0 :: B) h
      simpa using this
    rw [ih k (p + 1) (alen + 1) B (fun y hy => hs y (List.mem_cons_of_mem _ hy)) h2 (by omega)
      (by omega)]
    simp only [List.length_cons]
    congr 1
    omega

theorem strlen_of_no_nul {s : List Nat} (h : ∀ x ∈ s, x ≠ 0) : strlen s = s.length := by
  unfold strlen
  rw [List.takeWhile_eq_self_iff.mpr]
  intro x hx
  simpa using h x hx

theorem string_at_of_holds {mem : Nat → Nat} {p : Nat} {s B : List Nat} (hs : ∀ x ∈ s, x ≠ 0)
    (h : holds mem p (s ++ 0 :: B)) (fuel : Nat) (hf : s.length < fuel) :
    string_at mem p fuel = s := by
  unfold string_at
  have hsplit : peek mem p fuel = s ++ 0 :: (peek mem (p + s.length + 1) (fuel - s.length - 1)) := by
    apply List.ext_getElem
    · simp [peek]
      omega
    · intro i h1 h2
      simp only [peek, List.getElem_map, List.getElem_range]
      by_cases hi : i < s.length
      · rw [List.getElem_append_left hi, h i (by rw [List.length_append]; omega),
          List.getD_append _ _ _ _ hi, List.getD_eq_getElem _ _ hi]
      · rw [List.getElem_append_right (by omega)]
        by_cases hi2 : i = s.length
        · subst hi2
          rw [h _ (by simp), List.getD_append_right _ _ _ _ (le_refl _)]
          simp
        · obtain ⟨k, rfl⟩ : ∃ k, i = s.length + 1 + k := ⟨i - s.length - 1, by omega⟩
          have hk : s.length + 1 + k - s.length = k + 1 := by omega
          simp only [hk, List.getElem_cons_succ, peek, List.getElem_map, List.getElem_range]
          congr 1
          omega
  rw [hsplit, List.takeWhile_append_of_pos (by simpa using hs)]
  simp

theorem poke_poke_at (mem : Nat → Nat) (p q : Nat) (A B : List Nat) (h : q = p + A.length) :
    poke (poke mem p A) q B = poke mem p (A ++ B) := by
  rw [h, poke_poke]

theorem pop1_spec {mem : Nat → Nat} {p x : Nat} {B : List Nat} (h : holds mem p (x :: B)) :
    _POP_DATA_1 mem p = (x, p + 1) ∧ holds mem (p + 1) B := by
  refine ⟨?_, ?_⟩
  · unfold _POP_DATA_1
    rw [holds_head h]
  · have := @holds_drop mem p [x] B h
    simpa using this

theorem pop2_spec (little : Bool) {mem : Nat → Nat} {p : Nat} (i : Nat) {B : List Nat}
    (h : holds mem p (int_bytes little 2 (htons little i) ++ B)) :
    _POP_DATA_2 little mem p = (i % 65536, p + 2) ∧ holds mem (p + 2) B := by
  have hp := peek_of_holds h
  have hd := holds_drop h
  rw [int_bytes_length] at hp hd
  refine ⟨?_, hd⟩
  unfold _POP_DATA_2
  rw [hp, int_value_int_bytes, Nat.mod_eq_of_lt (by have := htons_lt little i; omega),
    ntohs_htons]

theorem pop4_spec (little : Bool) {mem : Nat → Nat} {p : Nat} (i : Nat) {B : List Nat}
    (h : holds mem p (int_bytes little 4 (htonl little i) ++ B)) :
    _POP_DATA_4 little mem p = (i % 4294967296, p + 4) ∧ holds mem (p + 4) B := by
  have hp := peek_of_holds h
  have hd := holds_drop h
  rw [int_bytes_length] at hp hd
  refine ⟨?_, hd⟩
  unfold _POP_DATA_4
  rw [hp, int_value_int_bytes, Nat.mod_eq_of_lt (by have := htonl_lt little i; omega),
    ntohl_htonl]

theorem pop8_spec (little : Bool) {mem : Nat → Nat} {p : Nat} (i : Nat) {B : List Nat}
    (h : holds mem p (int_bytes little 8 (htonll little i) ++ B)) :
    _POP_DATA_8 little mem p = (i % 18446744073709551616, p + 8) ∧ holds mem (p + 8) B := by
  have hp := peek_of_holds h
  have hd := holds_drop h
  rw [int_bytes_length] at hp hd
  refine ⟨?_, hd⟩
  unfold _POP_DATA_8
  rw [hp, int_value_int_bytes, Nat.mod_eq_of_lt (by have := htonll_lt little i; omega),
    ntohll_htonll]

/-- What `serialize` writes: the buffer holds, from `buffer` on, the byte `d1`,
the numbers `d2`, `d4` and `d8` passed through `htons`, `htonl` and `htonll`, the
fixed array, the length of the other array passed through `htonl`, that array,
the string and a `'\0'`; `total_len` is the number of these bytes, which is the
sum that the `_LENGTH_*` macros form. -/
theorem serialize_spec (little : Bool) (mem : Nat → Nat) (buffer d1 d2 d4 d8 : Nat)
    (fa : List Nat) (fixed_len : Nat) (a : List Nat) (array_len : Nat) (str : List Nat)
    (hf : fixed_len ≤ fa.length) (ha : array_len ≤ a.length) (hs : ∀ x ∈ str, x ≠ 0) :
    holds (serialize little mem buffer d1 d2 d4 d8 fa fixed_len a array_len str).1 buffer
      ((d1 % 256) :: (int_bytes little 2 (htons little d2) ++
        (int_bytes little 4 (htonl little d4) ++ (int_bytes little 8 (htonll little d8) ++
          (fa.take fixed_len ++ (int_bytes little 4 (htonl little array_len) ++
            (a.take array_len ++ (str ++ [0])))))))) ∧
    (serialize little mem buffer d1 d2 d4 d8 fa fixed_len a array_len str).2
      = _LENGTH_STRING str (_LENGTH_ARRAYW array_len (_LENGTH_ARRAYF fixed_len
          (_LENGTH_DATA 8 (_LENGTH_DATA 4 (_LENGTH_DATA 2 (_LENGTH_DATA 1 0)))))) := by
  have hsl := strlen_of_no_nul hs
  have hft : (fa.take fixed_len).length = fixed_len := by
    rw [List.length_take]
    omega
  have hat : (a.take array_len).length = array_len := by
    rw [List.length_take]
    omega
  have e1 : _PUSH_DATA_1 mem buffer d1 = (poke mem buffer [d1 % 256], buffer + 1) := rfl
  have e2 : ∀ A, _PUSH_DATA_2 little (poke mem buffer A) (buffer + A.length) d2
      = (poke mem buffer (A ++ int_bytes little 2 (htons little d2)),
          buffer + (A ++ int_bytes little 2 (htons little d2)).length) := by
    intro A
    unfold _PUSH_DATA_2
    rw [poke_poke, List.length_append, int_bytes_length, Nat.add_assoc]
  have e4 : ∀ A i, _PUSH_DATA_4 little (poke mem buffer A) (buffer + A.length) i
      = (poke mem buffer (A ++ int_bytes little 4 (htonl little i)),
          buffer + (A ++ int_bytes little 4 (htonl little i)).length) := by
    intro A i
    unfold _PUSH_DATA_4
    rw [poke_poke, List.length_append, int_bytes_length, Nat.add_assoc]
  have e8 : ∀ A, _PUSH_DATA_8 little (poke mem buffer A) (buffer + A.length) d8
      = (poke mem buffer (A ++ int_bytes little 8 (htonll little d8)),
          buffer + (A ++ int_bytes little 8 (htonll little d8)).length) := by
    intro A
    unfold _PUSH_DATA_8
    rw [poke_poke, List.length_append, int_bytes_length, Nat.add_assoc]
  have ef : ∀ A (x : List Nat) (n : Nat), n ≤ x.length →
      _PUSH_ARRAYF (poke mem buffer A) (buffer + A.length) x n
        = (poke mem buffer (A ++ x.take n), buffer + (A ++ x.take n).length) := by
    intro A x n hn
    unfold _PUSH_ARRAYF
    rw [poke_poke, List.length_append, List.length_take, Nat.min_eq_left hn, Nat.add_assoc]
  have ew : ∀ A, _PUSH_ARRAYW little (poke mem buffer A) (buffer + A.length) a array_len
      = (poke mem buffer (A ++ int_bytes little 4 (htonl little array_len) ++ a.take array_len),
          buffer + (A ++ int_bytes little 4 (htonl little array_len)
            ++ a.take array_len).length) := by
    intro A
    unfold _PUSH_ARRAYW
    rw [e4 A array_len]
    exact ef _ a array_len ha
  have es : ∀ A, _PUSH_STRING (poke mem buffer A) (buffer + A.length) str
      = (poke mem buffer (A ++ str ++ [0]), buffer + (A ++ str ++ [0]).length) := by
    intro A
    unfold _PUSH_STRING
    rw [hsl, List.take_length, poke_poke, poke_poke, List.append_assoc]
    simp only [List.length_append, List.length_singleton]
    rw [Nat.add_assoc, Nat.add_assoc]
  have key : serialize little mem buffer d1 d2 d4 d8 fa fixed_len a array_len str
      = (poke mem buffer ([d1 % 256] ++ int_bytes little 2 (htons little d2) ++
            int_bytes little 4 (htonl little d4) ++ int_bytes little 8 (htonll little d8) ++
            fa.take fixed_len ++ int_bytes little 4 (htonl little array_len) ++
            a.take array_len ++ str ++ [0]),
          buffer + ([d1 % 256] ++ int_bytes little 2 (htons little d2) ++
            int_bytes little 4 (htonl little d4) ++ int_bytes little 8 (htonll little d8) ++
            fa.take fixed_len ++ int_bytes little 4 (htonl little array_len) ++
            a.take array_len ++ str ++ [0]).length - buffer) := by
    unfold serialize
    have e1b : _PUSH_DATA_1 mem buffer d1
        = (poke mem buffer [d1 % 256], buffer + [d1 % 256].length) := rfl
    simp only [e1b, e2, e4, e8, ef _ fa fixed_len hf, ew, es]
  rw [key]
  constructor
  · have := holds_poke mem buffer ([d1 % 256] ++ int_bytes little 2 (htons little d2) ++
      int_bytes little 4 (htonl little d4) ++ int_bytes little 8 (htonll little d8) ++
      fa.take fixed_len ++ int_bytes little 4 (htonl little array_len) ++ a.take array_len ++
      str ++ [0])
    simpa only [List.append_assoc, List.singleton_append] using this
  · simp only [List.length_append, List.length_singleton, int_bytes_length, hft, hat,
      _LENGTH_STRING, _LENGTH_ARRAYW, _LENGTH_ARRAYF, _LENGTH_DATA, hsl]
    omega

/-- C26 (serialization round trip).  On either byte order of the host,
`deserialize` on the buffer that `serialize` wrote reads the number of 8 bits, of
16 bits, of 32 bits and of 64 bits that were written, finds the fixed array and
the array of variable length with its length in the buffer, finds the string,
and ends with the cursor where the write cursor ended, `total_len` bytes after
the start, `total_len` being the sum that the `_LENGTH_*` macros form.  The
arrays hold at least the bytes to write, the length of the variable array and the
length of the string fit an `int`, and the string has no `'\0'`. -/
theorem serialize_round_trip (little : Bool) (mem : Nat → Nat) (buffer d1 d2 d4 d8 : Nat)
    (fa : List Nat) (fixed_len : Nat) (a : List Nat) (array_len : Nat) (str : List Nat)
    (fuel : Nat) (hf : fixed_len ≤ fa.length) (ha : array_len ≤ a.length)
    (hal : array_len < 2147483648) (hs : ∀ x ∈ str, x ≠ 0) (hsl : str.length < 2147483647)
    (hfuel : str.length < fuel) :
    ∃ r, deserialize little fuel
        (serialize little mem buffer d1 d2 d4 d8 fa fixed_len a array_len str).1 buffer fixed_len
        = some r ∧
      r.d1 = d1 % 256 ∧ r.d2 = d2 % 65536 ∧ r.d4 = d4 % 4294967296 ∧
      r.d8 = d8 % 18446744073709551616 ∧
      peek (serialize little mem buffer d1 d2 d4 d8 fa fixed_len a array_len str).1
        r.fixed_array_ptr fixed_len = fa.take fixed_len ∧
      r.recv_array_len = array_len ∧
      peek (serialize little mem buffer d1 d2 d4 d8 fa fixed_len a array_len str).1
        r.recv_array array_len = a.take array_len ∧
      string_at (serialize little mem buffer d1 d2 d4 d8 fa fixed_len a array_len str).1
        r.bufstr fuel = str ∧
      r.pbuffer
        = buffer + (serialize little mem buffer d1 d2 d4 d8 fa fixed_len a array_len str).2 ∧
      (serialize little mem buffer d1 d2 d4 d8 fa fixed_len a array_len str).2
        = _LENGTH_STRING str (_LENGTH_ARRAYW array_len (_LENGTH_ARRAYF fixed_len
            (_LENGTH_DATA 8 (_LENGTH_DATA 4 (_LENGTH_DATA 2 (_LENGTH_DATA 1 0)))))) := by
  obtain ⟨hW, htot⟩ := serialize_spec little mem buffer d1 d2 d4 d8 fa fixed_len a array_len str
    hf ha hs
  generalize (serialize little mem buffer d1 d2 d4 d8 fa fixed_len a array_len str).1 = m
    at hW ⊢
  have hft : (fa.take fixed_len).length = fixed_len := by
    rw [List.length_take]
    omega
  have hat : (a.take array_len).length = array_len := by
    rw [List.length_take]
    omega
  obtain ⟨p1, h1⟩ := pop1_spec hW
  obtain ⟨p2, h2⟩ := pop2_spec little d2 h1
  obtain ⟨p3, h3⟩ := pop4_spec little d4 h2
  obtain ⟨p4, h4⟩ := pop8_spec little d8 h3
  have p5 := peek_of_holds h4
  have h5 := holds_drop h4
  rw [hft] at p5 h5
  obtain ⟨p6, h6⟩ := pop4_spec little array_len h5
  have p7 := peek_of_holds h6
  have h7 := holds_drop h6
  rw [hat] at p7 h7
  have hlen : array_len % 4294967296 = array_len := Nat.mod_eq_of_lt (by omega)
  have hi : i32 ((array_len : Nat) : Int) = array_len := i32_of_range (by omega) (by omega)
  have p8 := length_string_loop_spec m str fuel (buffer + 1 + 2 + 4 + 8 + fixed_len + 4 + array_len)
    0 [] hs h7 hfuel (by omega)
  have p9 := string_at_of_holds hs h7 fuel hfuel
  have hcur : (((buffer + 1 + 2 + 4 + 8 + fixed_len + 4 : Nat) : Int) + (array_len : Int)).toNat
      = buffer + 1 + 2 + 4 + 8 + fixed_len + 4 + array_len := by
    rw [← Nat.cast_add, Int.toNat_ofNat]
  refine ⟨(⟨d1 % 256, d2 % 65536, d4 % 4294967296, d8 % 18446744073709551616,
      buffer + 1 + 2 + 4 + 8, buffer + 1 + 2 + 4 + 8 + fixed_len + 4, array_len,
      buffer + 1 + 2 + 4 + 8 + fixed_len + 4 + array_len,
      buffer + 1 + 2 + 4 + 8 + fixed_len + 4 + array_len + (0 + str.length + 1)⟩ : record_t),
    ?_, rfl, rfl, rfl, rfl, p5, rfl, p7, p9, ?_, htot⟩
  · simp only [deserialize, _POP_STRING, _POP_ARRAYW, _POP_ARRAYF, p1, p2, p3, p4, p6, hlen, hi,
      hcur, p8, Option.map_some']
  · show buffer + 1 + 2 + 4 + 8 + fixed_len + 4 + array_len + (0 + str.length + 1) = _
    rw [htot]
    simp only [_LENGTH_STRING, _LENGTH_ARRAYW, _LENGTH_ARRAYF, _LENGTH_DATA,
      strlen_of_no_nul hs]
    omega

theorem serialize_round_trip_witness :
    64 ≤ fixed_array.length ∧ 6 ≤ array.length ∧ (6 : Nat) < 2147483648 ∧
    (∀ x ∈ stringstring, x ≠ 0) ∧ stringstring.length < 2147483647 ∧
    stringstring.length < 20 ∧
    ∃ r, deserialize true 20
        (serialize true (fun _ => 0) 4096 1 20 400 8000 fixed_array 64 array 6 stringstring).1
        4096 64 = some r ∧
      r.d1 = 1 ∧ r.d2 = 20 ∧ r.d4 = 400 ∧ r.d8 = 8000 ∧
      peek (serialize true (fun _ => 0) 4096 1 20 400 8000 fixed_array 64 array 6 stringstring).1
        r.fixed_array_ptr 64 = fixed_array.take 64 ∧
      r.recv_array_len = 6 ∧
      peek (serialize true (fun _ => 0) 4096 1 20 400 8000 fixed_array 64 array 6 stringstring).1
        r.recv_array 6 = array.take 6 ∧
      string_at
        (serialize true (fun _ => 0) 4096 1 20 400 8000 fixed_array 64 array 6 stringstring).1
        r.bufstr 20 = stringstring ∧
      r.pbuffer = 4096
        + (serialize true (fun _ => 0) 4096 1 20 400 8000 fixed_array 64 array 6 stringstring).2 ∧
      (serialize true (fun _ => 0) 4096 1 20 400 8000 fixed_array 64 array 6 stringstring).2
        = _LENGTH_STRING stringstring (_LENGTH_ARRAYW 6 (_LENGTH_ARRAYF 64
            (_LENGTH_DATA 8 (_LENGTH_DATA 4 (_LENGTH_DATA 2 (_LENGTH_DATA 1 0)))))) :=
  ⟨by decide, by decide, by decide, by decide, by decide, by decide,
    serialize_round_trip true (fun _ => 0) 4096 1 20 400 8000 fixed_array 64 array 6 stringstring
      20 (by decide) (by decide) (by decide) (by decide) (by decide) (by decide)⟩

/-- The values of `sample.c` on a little-endian host: `serialize` packs 102 bytes
and `deserialize` reads back `1`, `20`, `400`, `8000`, the two arrays and the
string `"stringstring"`. -/
theorem sample_packs_102 :
    (serialize true (fun _ => 0) 4096 1 20 400 8000 fixed_array 64 array 6 stringstring).2 = 102 ∧
    deserialize true 20
        (serialize true (fun _ => 0) 4096 1 20 400 8000 fixed_array 64 array 6 stringstring).1
        4096 64
      = some ⟨1, 20, 400, 8000, 4111, 4179, 6, 4185, 4198⟩ ∧
    peek (serialize true (fun _ => 0) 4096 1 20 400 8000 fixed_array 64 array 6 stringstring).1
      4179 6 = [53, 54, 55, 56, 0, 0] ∧
    string_at (serialize true (fun _ => 0) 4096 1 20 400 8000 fixed_array 64 array 6 stringstring).1
      4185 20 = stringstring := by
  decide

/-! ### The connection interface at single inputs -/

set_option maxRecDepth 100000 in
/-- C22 (flush timer interval), evaluated on the endpoint `tcp_w`, whose write
queue holds three entries: the first firing sends all three (`r = 3`) and
re-arms at 1 ms, the second firing finds the queue empty (`r = 0`) and re-arms at
1 ms as well, not at 500 ms.  The interval is the `static` variable `ti`, which
is set to `timer_inteval` when `r > 0` and is never set back.  Before the first
firing that makes progress an idle firing re-arms at 500 ms. -/
theorem timer_stays_fast :
    (timer_run 10 tcp_w ti_init
      [[send_result.ok 2, send_result.ok 1, send_result.ok 1], [], []]).map Prod.snd
      = some [(3, 1000), (0, 1000), (0, 1000)] ∧
    (timer_run 10 tcp0 ti_init [[], []]).map Prod.snd = some [(0, 500000), (0, 500000)] := by
  decide!

set_option maxRecDepth 100000 in
/-- C25 (`netio_connection_get_wbuff_len`), evaluated on the endpoint `tcp_w`,
where two calls of `netio_sender` queued `01 02` and then `04` for `conn1`: the
queue holds 3 bytes for `conn1` in two entries, and the function returns `1`, the
length of the entry that `message_find` returns, which is the newest one.  For
`conn2`, with one entry of one byte, it returns `1`, and for the invalid handle
`0`. -/
theorem wbuff_len_one_entry :
    (queued_bytes tcp_w.wbuffer_m [4112, 69704, 135296] conn1,
     netio_connection_get_wbuff_len 10 tcp_w (some conn1),
     netio_connection_get_wbuff_len 10 tcp_w (some conn2),
     netio_connection_get_wbuff_len 10 tcp_w none)
      = ([1, 2, 4], some 1, some 1, some 0) := by
  decide!

set_option maxRecDepth 100000 in
/-- C29 (validity test after teardown), evaluated on the endpoint with the one live
connection `conn1`: `netio_connection_is_valid` returns `1` before
`netio_connection_close` and `1` after it, when the slot has been returned to the
pool; the teardown closes the socket and leaves the member `soc` as it is, and
`netio_connection_is_valid` tests `soc < 0`. -/
theorem is_valid_after_close :
    netio_connection_is_valid (tcp_accept none 1) (some conn1) = 1 ∧
    (netio_connection_close 5 (tcp_accept none 1) (some conn1)).map
        (fun r => (r.2, netio_connection_is_valid r.1 (some conn1),
          pool_element_is_valid r.1.connection_a conn1, (r.1.connection_a.deref conn1).soc))
      = some (1, 1, 0, 5) ∧
    netio_connection_is_valid (tcp_accept none 1) none = 0 := by
  decide!

set_option maxRecDepth 100000 in
/-- C28 (fresh client connections start clean), evaluated on the client endpoint
`tcp_reuse`, whose first connection had the pair `conn2` and the admission
callback `9` and was closed: `netio_client_connect` returns the same slot with
the pair `conn2` and the admission callback `9` still in it, and
`netio_client_connect_by_address` returns it with the admission callback `9`.
The first function sets neither member, the second one sets `pair` only. -/
theorem client_connect_keeps_pair :
    ((netio_client_connect tcp_reuse 8 true (some 2) (some 1) none none).2,
     ((netio_client_connect tcp_reuse 8 true (some 2) (some 1) none none).1.connection_a.deref
        conn1).pair,
     ((netio_client_connect tcp_reuse 8 true (some 2) (some 1) none none).1.connection_a.deref
        conn1).rcheck_func)
      = (some conn1, some conn2, some 9) ∧
    ((netio_client_connect_by_address tcp_reuse true 8 true (some 2) (some 1) none none).2,
     ((netio_client_connect_by_address tcp_reuse true 8 true (some 2) (some 1) none
        none).1.connection_a.deref conn1).pair,
     ((netio_client_connect_by_address tcp_reuse true 8 true (some 2) (some 1) none
        none).1.connection_a.deref conn1).rcheck_func)
      = (some conn1, none, some 9) ∧
    pool_element_is_valid tcp_reuse.connection_a conn1 = 0 := by
  decide!

/-- A residual of more than 65536 bytes on a connection whose chain has no chunk,
when `pool_alloc` has no chunk to give: `__stack_recv_buffer` stores `NULL` in
`rb->next`, tests `rb` and dereferences `rb->next`. -/
theorem stack_recv_buffer_null (fuel : Nat) (t : tcp_t) (c : Nat) (data : List Nat) {len : Int}
    (h1 : 65536 < len) (h2 : len < 2147483648) (ms : List (Option Nat))
    (hnext : (t.connection_a.deref c).rbuffer.next = none)
    (hpool : (pool_alloc t.rbuffer_a ms.head?.join).2 = none) :
    __stack_recv_buffer fuel t c data len ms = some outcome.null_deref := by
  have hc : cplen_of len = 65536 := by
    rw [cplen_of_pos (by omega) h2]
    omega
  have hne : ¬ len = 0 := by omega
  obtain ⟨k, hk⟩ : ∃ k, (len - 65536).toNat = k + 1 := ⟨(len - 65536).toNat - 1, by omega⟩
  have hn2 : (get_rb (copy_chunk t (rbref.head c) data len) (rbref.head c)).next = none := by
    simp only [copy_chunk, get_rb, set_rb, deref_store_same]
    exact hnext
  have hr : (copy_chunk t (rbref.head c) data len).rbuffer_a = t.rbuffer_a := rfl
  simp only [__stack_recv_buffer]
  rw [if_neg hne, hc, hk]
  simp only [stack_loop]
  rw [if_pos (by omega), if_pos hn2, hr]
  generalize hq : pool_alloc t.rbuffer_a ms.head?.join = q at hpool
  obtain ⟨ra, o⟩ := q
  simp only at hpool
  subst hpool
  rfl

set_option maxRecDepth 100000 in
/-- C27 (`__stack_recv_buffer` reports allocation failure), evaluated on the
endpoint `tcp_full`, whose chunk pool has no free chunk, with a residual of 65537
bytes for `conn1` and a `malloc` that returns `NULL`: `pool_alloc` returns
`NULL`, and the call does not return `0` but dereferences `NULL`, since the test
after `rb->next = pool_alloc(...)` is `rb == NULL`. -/
theorem stack_dereferences_null :
    (pool_alloc tcp_full.rbuffer_a none).2 = none ∧
    __stack_recv_buffer 5 tcp_full conn1 (List.replicate 65537 7) 65537 [none]
      = some outcome.null_deref := by
  have hp : (pool_alloc tcp_full.rbuffer_a none).2 = none := by decide!
  refine ⟨hp, stack_recv_buffer_null 5 tcp_full conn1 _ (by decide) (by decide) [none] ?_ hp⟩
  decide!

/-! ### Teardown of a connection -/

/-- What `CONN_CLEAR` returns, when it returns: the write queue that
`message_del` leaves, the chunk pool that the purge of the chain leaves, the
record with the two events added, and the connection pool in which the embedded
chunk of `c` is emptied and the slot of `c` is freed. -/
theorem CONN_CLEAR_shape {fuel : Nat} {t t1 : tcp_t} {c : Nat}
    (h : CONN_CLEAR fuel t c = some t1) :
    ∃ q pool, message_del fuel t.wbuffer_m c = some q ∧
      purge_loop fuel t.rbuffer_a (t.connection_a.deref c).rbuffer.next = some pool ∧
      t1.wbuffer_m = q ∧ t1.rbuffer_a = pool ∧
      t1.log = t.log ++ [event_t.sys_close (t.connection_a.deref c).soc, event_t.event_del c] ∧
      t1.connection_a = pool_free (t.connection_a.store c
        { (t.connection_a.deref c) with
          rbuffer := { (t.connection_a.deref c).rbuffer with len := 0, next := none } }) c := by
  unfold CONN_CLEAR at h
  simp only [netio_tcp_delete_write_buffer] at h
  cases hm : message_del fuel t.wbuffer_m c with
  | none => rw [hm] at h; simp at h
  | some q =>
    rw [hm] at h
    simp only [Option.map_some', __purge_recv_buffer, get_rb] at h
    cases hp : purge_loop fuel t.rbuffer_a (t.connection_a.deref c).rbuffer.next with
    | none => rw [hp] at h; simp at h
    | some pool =>
      rw [hp] at h
      simp only [Option.some.injEq] at h
      subst h
      refine ⟨q, pool, rfl, rfl, rfl, rfl, rfl, ?_⟩
      simp only [set_rb, get_rb, deref_store_same]
      congr 1
      simp only [mempool_t.store, mem_write]
      congr 1
      funext x
      unfold mem_write
      by_cases hx : x = c - sizeof_memelement_t
      · simp [hx]
      · simp [hx]

/-- After `CONN_CLEAR` the slot of the connection is not in use, the other slots
keep their flag, and the blocks stay. -/
theorem CONN_CLEAR_flags {fuel : Nat} {t t1 : tcp_t} {c : Nat}
    (h : CONN_CLEAR fuel t c = some t1) :
    pool_slots t1.connection_a = pool_slots t.connection_a ∧
    (∀ a, (t1.connection_a.mem a).in_use
      = if a = c - sizeof_memelement_t then 0 else (t.connection_a.mem a).in_use) ∧
    ∀ q, sizeof_memelement_t ≤ c → sizeof_memelement_t ≤ q → q ≠ c →
      t1.connection_a.deref q = t.connection_a.deref q := by
  obtain ⟨q, pool, _, _, _, _, _, hc⟩ := CONN_CLEAR_shape h
  rw [hc]
  refine ⟨by rw [pool_free_slots, store_slots], ?_, ?_⟩
  · intro a
    rw [pool_free_in_use, store_in_use]
  · intro q2 hc16 hq16 hne
    rw [pool_free_deref, deref_store_ne _ _ hc16 hq16 hne]

theorem call_close_func_some {t : tcp_t} {c f : Nat}
    (h : (t.connection_a.deref c).close_func = some f) (k : Int) :
    call_close_func t c k = { t with log := t.log ++ [event_t.close_cb c k] } := by
  unfold call_close_func
  rw [h]

set_option maxRecDepth 100000 in
/-- C24, the claim as stated: on the endpoint with the one live connection `conn1`,
which has a close callback, `netio_connection_close` returns `1` and calls the
close callback, with the code `-3`, before it closes the socket. -/
theorem connection_close_silent_counterexample :
    (netio_connection_close 5 (tcp_accept none 1) (some conn1)).map (fun r => (r.2, r.1.log))
      = some (1, [event_t.close_cb conn1 (-3), event_t.sys_close 5, event_t.event_del conn1]) := by
  decide!

/-- C24 (`netio_connection_close`), as the code has it: on an endpoint whose write
queue and whose receive chain of `c` are well formed, `netio_connection_close`
on a connection with a close callback returns `1`, calls the close callback with
the code `-3`, then closes the socket and removes the read event, and leaves the
slot of the connection free. -/
theorem connection_close_calls_callback (fuel : Nat) (t : tcp_t) (F R : List Nat) (c f : Nat)
    (h : WInv t F) (hr : RInv t c R) (hcf : (t.connection_a.deref c).close_func = some f)
    (hf : F.length < fuel) (hfr : R.length < fuel) :
    ∃ t1, netio_connection_close fuel t (some c) = some (t1, 1) ∧
      t1.log = t.log ++ [event_t.close_cb c (-3),
        event_t.sys_close (t.connection_a.deref c).soc, event_t.event_del c] ∧
      pool_element_is_valid t1.connection_a c = 0 := by
  obtain ⟨t1, h1, _, h3⟩ := CONN_CLEAR_spec fuel c (WInv_call_close_func h c (-3))
    (RInv_call_close_func hr (-3)) hf hfr
  obtain ⟨_, hfl, _⟩ := CONN_CLEAR_flags h1
  rw [call_close_func_some hcf] at h3
  refine ⟨t1, ?_, ?_, ?_⟩
  · simp only [netio_connection_close, h1, Option.map_some']
  · rw [h3]
    simp
  · unfold pool_element_is_valid
    rw [hfl, if_pos rfl, if_pos rfl]

set_option maxRecDepth 100000 in
theorem connection_close_calls_callback_witness :
    WInv tcp_w [4112, 69704, 135296] ∧ RInv tcp_w conn1 [] ∧
    (tcp_w.connection_a.deref conn1).close_func = some 1 ∧
    ([4112, 69704, 135296] : List Nat).length < 10 ∧ ([] : List Nat).length < 10 ∧
    ∃ t1, netio_connection_close 10 tcp_w (some conn1) = some (t1, 1) ∧
      t1.log = tcp_w.log ++ [event_t.close_cb conn1 (-3),
        event_t.sys_close (tcp_w.connection_a.deref conn1).soc, event_t.event_del conn1] ∧
      pool_element_is_valid t1.connection_a conn1 = 0 :=
  ⟨WInv_tcp_w, RInv_tcp_w, by decide!, by decide, by decide,
    connection_close_calls_callback 10 tcp_w [4112, 69704, 135296] [] conn1 1 WInv_tcp_w
      RInv_tcp_w (by decide!) (by decide) (by decide)⟩

/-! ### Close codes -/

/-- A chain whose links are kept or cut stays a chain, no longer than before. -/
theorem Chain_weaken {nxt nxt2 : Nat → Option Nat} (h : ∀ a, nxt2 a = nxt a ∨ nxt2 a = none) :
    ∀ (R : List Nat) (p : Option Nat), Chain nxt p R →
      ∃ R2, R2.length ≤ R.length ∧ Chain nxt2 p R2 := by
  intro R
  induction R with
  | nil =>
    intro p hc
    exact ⟨[], le_refl _, hc⟩
  | cons a R ih =>
    intro p hc
    rw [Chain_cons] at hc
    rcases h a with hk | hk
    · obtain ⟨R2, hl, h2⟩ := ih (nxt a) hc.2
      refine ⟨a :: R2, by simpa using hl, ?_⟩
      rw [Chain_cons, hk]
      exact ⟨hc.1, h2⟩
    · refine ⟨[a], by simp, ?_⟩
      rw [Chain_cons, hk]
      exact ⟨hc.1, rfl⟩

/-- The loop of `__purge_recv_buffer` on a chain that ends returns, and it keeps
or cuts the link of every chunk. -/
theorem purge_loop_total :
    ∀ (fuel : Nat) (pool : mempool_t recv_buffer_t) (p : Option Nat) (R : List Nat),
      Chain (fun a => (pool.deref a).next) p R → R.length < fuel →
      ∃ pool2, purge_loop fuel pool p = some pool2 ∧
        ∀ q, (pool2.deref q).next = (pool.deref q).next ∨ (pool2.deref q).next = none := by
  intro fuel
  induction fuel with
  | zero => intro pool p R _ hf; exact absurd hf (by simp)
  | succ f ih =>
    intro pool p R hc hf
    cases R with
    | nil =>
      rw [Chain_nil] at hc
      subst hc
      exact ⟨pool, rfl, fun q => Or.inl rfl⟩
    | cons d R =>
      rw [Chain_cons] at hc
      obtain ⟨hp, hrest⟩ := hc
      subst hp
      have hstep : ∀ q,
          ((pool_free (pool.store d { (pool.deref d) with len := 0, next := none }) d).deref q).next
            = (pool.deref q).next ∨
          ((pool_free (pool.store d { (pool.deref d) with len := 0, next := none }) d).deref q).next
            = none := by
        intro q
        rw [pool_free_deref, deref_store]
        by_cases hq : q - sizeof_memelement_t = d - sizeof_memelement_t
        · rw [if_pos hq]; exact Or.inr rfl
        · rw [if_neg hq]; exact Or.inl rfl
      obtain ⟨R2, hl, h2⟩ := Chain_weaken hstep R _ hrest
      obtain ⟨pool2, g1, g2⟩ := ih _ _ R2 h2 (by simp only [List.length_cons] at hf; omega)
      refine ⟨pool2, ?_, ?_⟩
      · show purge_loop f _ _ = _
        exact g1
      · intro q
        rcases g2 q with g | g
        · rcases hstep q with s | s
          · exact Or.inl (g.trans s)
          · exact Or.inr (g.trans s)
        · exact Or.inr g

theorem teardown_events_call (t : tcp_t) (c : Nat) (k : Int) :
    (call_close_func t c k).log
        ++ [event_t.sys_close ((call_close_func t c k).connection_a.deref c).soc,
            event_t.event_del c]
      = t.log ++ teardown_events t c k := by
  unfold call_close_func teardown_events
  cases (t.connection_a.deref c).close_func with
  | none => simp
  | some f => simp

theorem call_close_func_fields (t : tcp_t) (c : Nat) (k : Int) :
    (call_close_func t c k).connection_a = t.connection_a ∧
    (call_close_func t c k).rbuffer_a = t.rbuffer_a := by
  unfold call_close_func
  split <;> exact ⟨rfl, rfl⟩

/-- One teardown on a well-formed endpoint: `CONN_CLEAR` after the call of the
close callback returns, the endpoint stays well formed, the record gains the
events of the teardown, the slot of the connection is freed and the other
connections are kept. -/
theorem teardown_step (fuel : Nat) {t : tcp_t} {F : List Nat} (c : Nat) (k : Int)
    (h : TInv t F fuel) (hf : F.length < fuel) :
    ∃ t1 F1, CONN_CLEAR fuel (call_close_func t c k) c = some t1 ∧
      TInv t1 F1 fuel ∧ F1.length ≤ F.length ∧
      t1.log = t.log ++ teardown_events t c k ∧
      pool_slots t1.connection_a = pool_slots t.connection_a ∧
      (∀ a, (t1.connection_a.mem a).in_use
        = if a = c - sizeof_memelement_t then 0 else (t.connection_a.mem a).in_use) ∧
      ∀ q, sizeof_memelement_t ≤ c → sizeof_memelement_t ≤ q → q ≠ c →
        t1.connection_a.deref q = t.connection_a.deref q := by
  obtain ⟨hca, hra⟩ := call_close_func_fields t c k
  have hW := WInv_call_close_func h.wq c k
  obtain ⟨msg2, hm, hQ, _, hkey, hdata, _⟩ :=
    message_del_spec hW.1 c fuel hf
  obtain ⟨R, hRl, hRc⟩ := h.chains c
  obtain ⟨pool2, hp, hpk⟩ := purge_loop_total fuel (call_close_func t c k).rbuffer_a
    ((call_close_func t c k).connection_a.deref c).rbuffer.next R
    (by rw [hca, hra]; exact hRc) hRl
  have hcc : ∃ t1, CONN_CLEAR fuel (call_close_func t c k) c = some t1 := by
    unfold CONN_CLEAR
    simp only [netio_tcp_delete_write_buffer, hm, Option.map_some', __purge_recv_buffer, get_rb,
      hp]
    exact ⟨_, rfl⟩
  obtain ⟨t1, h1⟩ := hcc
  obtain ⟨q, pool, s1, s2, s3, s4, s5, s6⟩ := CONN_CLEAR_shape h1
  obtain ⟨f1, f2, f3⟩ := CONN_CLEAR_flags h1
  rw [hm] at s1
  rw [hp] at s2
  have hq : q = msg2 := (Option.some.inj s1).symm
  have hpool : pool = pool2 := (Option.some.inj s2).symm
  subst hq hpool
  rw [hca] at f1 f2 f3 s6
  rw [hra] at hpk
  refine ⟨t1, _, h1, ⟨⟨s3 ▸ hQ, ?_⟩, ?_, ?_⟩, List.length_filter_le _ _, ?_, f1, f2, f3⟩
  · intro e he
    rw [s3, hkey e, hdata e]
    exact hW.2 e (List.mem_of_mem_filter he)
  · intro a ha
    rw [f1]
    apply h.flags
    rw [f2] at ha
    by_cases hac : a = c - sizeof_memelement_t
    · rw [if_pos hac] at ha; exact absurd rfl ha
    · rw [if_neg hac] at ha; exact ha
  · intro c2
    rw [s4, s6, pool_free_deref, deref_store]
    by_cases hq : c2 - sizeof_memelement_t = c - sizeof_memelement_t
    · rw [if_pos hq]
      exact ⟨[], Nat.lt_of_le_of_lt (Nat.zero_le _) hRl, rfl⟩
    · rw [if_neg hq]
      obtain ⟨R2, hR2l, hR2c⟩ := h.chains c2
      obtain ⟨R3, hl3, hc3⟩ := Chain_weaken hpk R2 _ hR2c
      exact ⟨R3, Nat.lt_of_le_of_lt hl3 hR2l, hc3⟩
  · rw [s5]
    exact teardown_events_call t c k

theorem scan_elements_some {α : Type} (mem : Nat → memelement_t α) (stride : Nat)
    (test : Int → Bool) :
    ∀ (n e p : Nat), scan_elements mem stride test n e = some p →
      ∃ a, p = a + sizeof_memelement_t ∧ test (mem a).in_use = true := by
  intro n
  induction n with
  | zero => intro e p h; exact absurd h (by simp [scan_elements])
  | succ n ih =>
    intro e p h
    rw [scan_elements] at h
    by_cases ht : test (mem e).in_use = true
    · rw [if_pos ht] at h
      exact ⟨e, (Option.some.inj h).symm, ht⟩
    · rw [if_neg ht] at h
      exact ih _ _ h

/-- The pointer `get_element_first` returns names a slot whose flag is set. -/
theorem get_element_first_some {α : Type} (mp : mempool_t α) (p : Nat)
    (h : get_element_first mp = some p) :
    sizeof_memelement_t ≤ p ∧ (mp.mem (p - sizeof_memelement_t)).in_use ≠ 0 := by
  have key : ∀ bs : List memblock_t, first_loop mp bs = some p →
      ∃ a, p = a + sizeof_memelement_t ∧ (mp.mem a).in_use = 1 := by
    intro bs
    induction bs with
    | nil => intro h; exact absurd h (by simp [first_loop])
    | cons b bs ih =>
      intro h
      rw [first_loop] at h
      cases hs : scan_elements mp.mem (elem_stride mp.size) (fun f => decide (f = 1))
          b.num.toNat b.element with
      | none => rw [hs] at h; exact ih h
      | some q =>
        rw [hs] at h
        simp only [Option.some.injEq] at h
        subst h
        obtain ⟨a, ha, ht⟩ := scan_elements_some _ _ _ _ _ _ hs
        exact ⟨a, ha, by simpa using ht⟩
  obtain ⟨a, ha, hfl⟩ := key mp.block h
  subst ha
  refine ⟨Nat.le_add_left _ _, ?_⟩
  rw [Nat.add_sub_cancel, hfl]
  decide

/-- The pointer `get_element_next` returns names a slot whose flag is set. -/
theorem get_element_next_some {α : Type} (mp : mempool_t α) (c p : Nat)
    (h : get_element_next mp c = some p) :
    sizeof_memelement_t ≤ p ∧ (mp.mem (p - sizeof_memelement_t)).in_use ≠ 0 := by
  have key : ∀ (bs : List memblock_t) (hit : Bool),
      next_loop mp (c - sizeof_memelement_t) bs hit = some p →
      ∃ a, p = a + sizeof_memelement_t ∧ (mp.mem a).in_use ≠ 0 := by
    intro bs
    induction bs with
    | nil => intro hit h; exact absurd h (by simp [next_loop])
    | cons b bs ih =>
      intro hit h
      rw [next_loop] at h
      split at h
      · simp only at h
        split at h
        · next q hs =>
          simp only [Option.some.injEq] at h
          subst h
          obtain ⟨a, ha, ht⟩ := scan_elements_some _ _ _ _ _ _ hs
          exact ⟨a, ha, by simpa using ht⟩
        · exact ih _ h
      · split at h
        · split at h
          · next q hs =>
            simp only [Option.some.injEq] at h
            subst h
            obtain ⟨a, ha, ht⟩ := scan_elements_some _ _ _ _ _ _ hs
            exact ⟨a, ha, by simpa using ht⟩
          · exact ih _ h
        · exact ih _ h
  obtain ⟨a, ha, hfl⟩ := key mp.block false h
  subst ha
  refine ⟨Nat.le_add_left _ _, ?_⟩
  rw [Nat.add_sub_cancel]
  exact hfl

/-- Clearing the flag of a slot in use shortens the list of the slots in use. -/
theorem used_slots_clear {α : Type} {mp mp2 : mempool_t α} {x : Nat}
    (hs : pool_slots mp2 = pool_slots mp)
    (hfl : ∀ a, (mp2.mem a).in_use = if a = x then 0 else (mp.mem a).in_use)
    (hx : x ∈ pool_slots mp) (hu : (mp.mem x).in_use ≠ 0) :
    (used_slots mp2).length < (used_slots mp).length := by
  have he : used_slots mp2 = (used_slots mp).filter (fun a => decide (a ≠ x)) := by
    unfold used_slots
    rw [hs, List.filter_filter]
    apply List.filter_congr
    intro a _
    rw [hfl a]
    by_cases hax : a = x
    · simp [hax]
    · simp [hax]
  rw [he]
  apply List.length_filter_lt_length_iff_exists.mpr
  refine ⟨x, ?_, by simp⟩
  unfold used_slots
  exact List.mem_filter.mpr ⟨hx, by simpa using hu⟩

/-- A loop that tears down the connection it is at and moves on with
`get_element_next`, as the loops of the release functions and of
`netio_tcp_connection_close_all` do, on a well-formed endpoint with fewer than
`n` slots in use: it returns after tearing down the distinct connections `cs`,
each of which was in use, the record gains their teardown events in this order,
the counter has grown by their number, and their slots are free. -/
theorem teardown_loop_total (fuel : Nat) (k : Int) {α : Type}
    (loop : Nat → tcp_t → Option Nat → Int → Option α) (mk : tcp_t → Int → α)
    (h0 : ∀ n t cnt, loop (n + 1) t none cnt = some (mk t cnt))
    (h1 : ∀ n t c cnt, loop (n + 1) t (some c) cnt
      = (CONN_CLEAR fuel (call_close_func t c k) c).bind
          (fun t1 => loop n t1 (get_element_next t1.connection_a c) (cnt + 1))) :
    ∀ (n : Nat) (t : tcp_t) (F : List Nat) (p : Option Nat) (cnt : Int),
      TInv t F fuel → F.length < fuel → (used_slots t.connection_a).length < n →
      (∀ c, p = some c → sizeof_memelement_t ≤ c ∧
        (t.connection_a.mem (c - sizeof_memelement_t)).in_use ≠ 0) →
      ∃ t1 cs, loop n t p cnt = some (mk t1 (cnt + (cs.length : Int))) ∧
        t1.log = t.log ++ cs.flatMap (fun c => teardown_events t c k) ∧
        cs.Nodup ∧
        (∀ c ∈ cs, sizeof_memelement_t ≤ c ∧
          (t.connection_a.mem (c - sizeof_memelement_t)).in_use ≠ 0) ∧
        (∀ a, (t1.connection_a.mem a).in_use
          = if a + sizeof_memelement_t ∈ cs then 0 else (t.connection_a.mem a).in_use) ∧
        (p = none → cs = []) ∧ (∀ c, p = some c → cs.head? = some c) := by
  intro n
  induction n with
  | zero => intro t F p cnt _ _ hu _; exact absurd hu (by simp)
  | succ n ih =>
    intro t F p cnt h hf hu hp
    cases p with
    | none =>
      refine ⟨t, [], ?_, by simp, List.nodup_nil, fun c hc => absurd hc (List.not_mem_nil c),
        fun a => by simp, fun _ => rfl, fun c hc => absurd hc (by simp)⟩
      rw [h0]
      simp
    | some c =>
      obtain ⟨hc16, hcu⟩ := hp c rfl
      obtain ⟨t1, F1, g1, g2, g3, g4, g5, g6, g7⟩ := teardown_step fuel c k h hf
      have hlt : (used_slots t1.connection_a).length < n := by
        have := used_slots_clear g5 g6 (h.flags _ hcu) hcu
        omega
      have hnext : ∀ c2, get_element_next t1.connection_a c = some c2 →
          sizeof_memelement_t ≤ c2 ∧
          (t1.connection_a.mem (c2 - sizeof_memelement_t)).in_use ≠ 0 :=
        fun c2 hc2 => get_element_next_some _ _ _ hc2
      obtain ⟨t2, cs, k1, k2, k3, k4, k5, _, _⟩ := ih t1 F1
        (get_element_next t1.connection_a c) (cnt + 1) g2 (by omega) hlt hnext
      have hc1 : (t1.connection_a.mem (c - sizeof_memelement_t)).in_use = 0 := by
        rw [g6, if_pos rfl]
      have hne : ∀ c2 ∈ cs, c2 ≠ c := by
        intro c2 hc2 he
        subst he
        exact (k4 c2 hc2).2 hc1
      have hold : ∀ c2 ∈ cs, (t.connection_a.mem (c2 - sizeof_memelement_t)).in_use ≠ 0 := by
        intro c2 hc2
        have := (k4 c2 hc2).2
        rw [g6] at this
        by_cases hx : c2 - sizeof_memelement_t = c - sizeof_memelement_t
        · rw [if_pos hx] at this; exact absurd rfl this
        · rw [if_neg hx] at this; exact this
      refine ⟨t2, c :: cs, ?_, ?_, ?_, ?_, ?_, fun hc => absurd hc (by simp),
        fun c2 hc2 => by rw [Option.some.inj hc2]; rfl⟩
      · rw [h1, g1]
        show loop n t1 (get_element_next t1.connection_a c) (cnt + 1) = _
        rw [k1]
        congr 2
        simp only [List.length_cons]
        push_cast
        ring
      · rw [k2, g4, List.flatMap_cons, List.append_assoc]
        congr 2
        apply List.flatMap_congr
        intro c2 hc2
        unfold teardown_events
        rw [g7 c2 hc16 (k4 c2 hc2).1 (hne c2 hc2)]
      · exact List.nodup_cons.mpr ⟨fun hin => hne c hin rfl, k3⟩
      · intro c2 hc2
        rcases List.mem_cons.mp hc2 with he | he
        · rw [he]; exact ⟨hc16, hcu⟩
        · exact ⟨(k4 c2 he).1, hold c2 he⟩
      · intro a
        rw [k5, g6]
        have hiff : a = c - sizeof_memelement_t ↔ a + sizeof_memelement_t = c := by omega
        by_cases hin : a + sizeof_memelement_t ∈ cs
        · rw [if_pos hin, if_pos (List.mem_cons_of_mem _ hin)]
        · rw [if_neg hin]
          by_cases hac : a = c - sizeof_memelement_t
          · rw [if_pos hac, if_pos (by rw [hiff.mp hac]; exact List.mem_cons_self _ _)]
          · rw [if_neg hac, if_neg]
            intro hm
            rcases List.mem_cons.mp hm with he | he
            · exact hac (hiff.mpr he)
            · exact hin he

theorem init_elements_in_use {α : Type} (stride : Nat) :
    ∀ (n p : Nat) (mem : Nat → memelement_t α) (a : Nat),
      (init_elements stride n p mem a).in_use ≠ 0 → (mem a).in_use ≠ 0 := by
  intro n
  induction n with
  | zero => intro p mem a h; exact h
  | succ n ih =>
    intro p mem a h
    rw [init_elements] at h
    have h2 := ih _ _ _ h
    simp only [mem_write] at h2
    split at h2
    · exact absurd rfl h2
    · exact h2

theorem extend_pool_in_use {α : Type} (mp : mempool_t α) (m : Option Nat) (a : Nat)
    (h : ((extend_pool mp m).mem a).in_use ≠ 0) : (mp.mem a).in_use ≠ 0 := by
  unfold extend_pool at h
  by_cases h1 : mp.not_use ≠ none
  · rw [if_pos h1] at h; exact h
  · rw [if_neg h1] at h
    by_cases h2 : mp.max_num = mp.num
    · rw [if_pos h2] at h; exact h
    · rw [if_neg h2] at h
      simp only [alloc_block] at h
      cases hm : malloc_block mp (((sizeof_memelement_t : Int) + mp.size)
          * (if mp.max_num = 0 then mp.num else min mp.num (mp.max_num - mp.num))) m with
      | none => rw [hm] at h; exact h
      | some e =>
        rw [hm] at h
        exact init_elements_in_use _ _ _ _ _ h

/-- A slot whose flag is set after `pool_alloc` had it set before or is the one
returned. -/
theorem pool_alloc_in_use {α : Type} (mp : mempool_t α) (m : Option Nat) (a : Nat)
    (h : ((pool_alloc mp m).1.mem a).in_use ≠ 0) :
    (mp.mem a).in_use ≠ 0 ∨ (pool_alloc mp m).2 = some (a + sizeof_memelement_t) := by
  rw [pool_alloc_eq_take] at h ⊢
  have hA : ((if mp.not_use = none then extend_pool mp m else mp).mem a).in_use ≠ 0 →
      (mp.mem a).in_use ≠ 0 := by
    split
    · exact extend_pool_in_use mp m a
    · exact id
  generalize (if mp.not_use = none then extend_pool mp m else mp) = mp2 at h hA ⊢
  unfold pool_take at h ⊢
  cases hn : mp2.not_use with
  | none =>
    rw [hn] at h
    exact Or.inl (hA h)
  | some e =>
    rw [hn] at h
    simp only [mem_write] at h ⊢
    by_cases hae : a = e
    · right; rw [hae]
    · rw [if_neg hae] at h
      exact Or.inl (hA h)

theorem init_pool_fresh {α : Type} {dflt : α} {size num max_num : Int} {m : Option Nat}
    {mp : mempool_t α} (h : init_pool_with_max dflt size num max_num m = some mp) (a : Nat) :
    (mp.mem a).in_use = 0 ∧ (mp.mem a).data = dflt := by
  unfold init_pool_with_max at h
  split at h
  · exact absurd h (by simp)
  · simp only at h
    unfold alloc_block at h
    split at h
    · exact absurd h (by simp)
    · next mp1 b hb =>
      split at hb
      · exact absurd hb (by simp)
      · simp only [Option.some.injEq, Prod.mk.injEq] at hb h
        obtain ⟨hb1, _⟩ := hb
        subst hb1
        subst h
        constructor
        · by_contra hne
          exact init_elements_in_use _ _ _ _ _ hne rfl
        · exact init_elements_data _ _ _ _ _

theorem tcp0_connection :
    init_pool_with_max connection_init (i32 (u64 (sizeof_connection_t + u32 0)))
      _DEFAULT_CONNECTION_NUM _MAX_CONNECTION_NUM (some 16777216) = some tcp0.connection_a := rfl

theorem tcp0_pool :
    (∃ L, PoolInv tcp0.connection_a L) ∧
      (∀ a, (tcp0.connection_a.mem a).in_use ≠ 0 → a ∈ pool_slots tcp0.connection_a) ∧
      ∀ c, (tcp0.connection_a.deref c).rbuffer.next = none := by
  obtain ⟨b, hb, _⟩ := init_pool_with_max_spec tcp0_connection
  have hfresh := init_pool_fresh tcp0_connection
  generalize tcp0.connection_a = ca at hb hfresh ⊢
  refine ⟨⟨_, hb⟩, ?_, ?_⟩
  · intro a ha
    exact absurd (hfresh a).1 ha
  · intro c
    unfold mempool_t.deref
    rw [(hfresh _).2]
    rfl

/-- The connection pool of the endpoint after `n` accepts is well formed, its
in-use flags are set on slots only, and no connection has a chunk behind the
embedded one. -/
theorem tcp_accept_pool (pf : Option parse_callback) :
    ∀ n, (∃ L, PoolInv (tcp_accept pf n).connection_a L) ∧
      (∀ a, ((tcp_accept pf n).connection_a.mem a).in_use ≠ 0 →
        a ∈ pool_slots (tcp_accept pf n).connection_a) ∧
      ∀ c, ((tcp_accept pf n).connection_a.deref c).rbuffer.next = none := by
  intro n
  induction n with
  | zero => exact tcp0_pool
  | succ n ih =>
    obtain ⟨⟨L, hL⟩, hfl, hch⟩ := ih
    have hpost := pool_alloc_spec hL none
    have hin := pool_alloc_in_use (tcp_accept pf n).connection_a none
    show (∃ L, PoolInv (__accept_event_callback (tcp_accept pf n) _ _ _ pf none).1.connection_a L) ∧
      (∀ a, ((__accept_event_callback (tcp_accept pf n) _ _ _ pf none).1.connection_a.mem a).in_use
          ≠ 0 →
        a ∈ pool_slots (__accept_event_callback (tcp_accept pf n) _ _ _ pf none).1.connection_a) ∧
      ∀ c, ((__accept_event_callback (tcp_accept pf n) _ _ _ pf none).1.connection_a.deref
        c).rbuffer.next = none
    unfold __accept_event_callback
    cases hr : pool_alloc (tcp_accept pf n).connection_a none with
    | mk ca r =>
      rw [hr] at hpost hin
      simp only at hpost hin
      cases r with
      | none =>
        have hca : ca = (tcp_accept pf n).connection_a := hpost.fail rfl
        subst hca
        exact ⟨⟨L, hL⟩, hfl, hch⟩
      | some c =>
        obtain ⟨L2, hL2⟩ := hpost.inv
        refine ⟨⟨L2, PoolInv_store hL2 _ _⟩, ?_, ?_⟩
        · intro a ha
          simp only at ha ⊢
          rw [store_in_use] at ha
          rw [store_slots]
          rcases hin a ha with h1 | h1
          · exact hpost.slots_mono a (hfl a h1)
          · obtain ⟨x, hx, hxe⟩ := hpost.user c rfl
            have : a = x := by
              have := Option.some.inj h1
              omega
            rw [this]
            exact hx
        · intro q
          simp only
          rw [deref_store]
          split
          · rfl
          · rw [hpost.deref_eq]
            exact hch q

/-- The endpoint after `n` accepts is well formed for the teardown paths. -/
theorem TInv_tcp_accept (pf : Option parse_callback) (n fuel : Nat) (hf : 0 < fuel) :
    TInv (tcp_accept pf n) [] fuel := by
  obtain ⟨_, hfl, hch⟩ := tcp_accept_pool pf n
  refine ⟨WInv_tcp_accept pf n, hfl, fun c => ⟨[], hf, ?_⟩⟩
  rw [hch c]
  rfl

/-- The endpoint `tcp_w` is well formed for the teardown paths. -/
theorem TInv_tcp_w : TInv tcp_w [4112, 69704, 135296] 10 := by
  obtain ⟨t2, rets, F2, hr, _, _, hca, hrb, _⟩ :=
    tcp_run_spec 10 ops2 (tcp_accept none 2) [] (WInv_tcp_accept none 2) (by decide)
  have ht : tcp_w = t2 := by
    unfold tcp_w
    rw [hr]
    rfl
  rw [← ht] at hca hrb
  obtain ⟨_, hfl, hch⟩ := tcp_accept_pool none 2
  refine ⟨WInv_tcp_w, ?_, fun c => ⟨[], by decide, ?_⟩⟩
  · rw [hca]; exact hfl
  · rw [hca, hch c]
    rfl

theorem teardown_valid {fuel : Nat} {t t1 : tcp_t} {c : Nat} {k : Int}
    (h : CONN_CLEAR fuel (call_close_func t c k) c = some t1) :
    pool_element_is_valid t1.connection_a c = 0 := by
  obtain ⟨_, hfl, _⟩ := CONN_CLEAR_flags h
  unfold pool_element_is_valid
  rw [hfl, if_pos rfl, if_pos rfl]

/-- The loops of the release functions and of `netio_tcp_connection_close_all` on
a well-formed endpoint with fewer than `fuel` slots in use, started by
`get_element_first`. -/
theorem teardown_loop_first (fuel : Nat) (k : Int) {α : Type}
    (loop : Nat → tcp_t → Option Nat → Int → Option α) (mk : tcp_t → Int → α)
    (h0 : ∀ n t cnt, loop (n + 1) t none cnt = some (mk t cnt))
    (h1 : ∀ n t c cnt, loop (n + 1) t (some c) cnt
      = (CONN_CLEAR fuel (call_close_func t c k) c).bind
          (fun t1 => loop n t1 (get_element_next t1.connection_a c) (cnt + 1)))
    {t : tcp_t} {F : List Nat} (h : TInv t F fuel) (hf : F.length < fuel)
    (hu : (used_slots t.connection_a).length < fuel) :
    ∃ (t1 : tcp_t) (cs : List Nat), loop fuel t (get_element_first t.connection_a) 0 = some (mk t1 (cs.length : Int)) ∧
      t1.log = t.log ++ cs.flatMap (fun c => teardown_events t c k) ∧
      cs.Nodup ∧ cs.head? = get_element_first t.connection_a ∧
      ∀ c ∈ cs, pool_element_is_valid t.connection_a c = 1 ∧
        pool_element_is_valid t1.connection_a c = 0 := by
  obtain ⟨t1, cs, g1, g2, g3, g4, g5, g6, g7⟩ := teardown_loop_total fuel k loop mk h0 h1 fuel t F
    (get_element_first t.connection_a) 0 h hf hu
    (fun c hc => get_element_first_some _ _ hc)
  refine ⟨t1, cs, by simpa using g1, g2, g3, ?_, ?_⟩
  · cases hp : get_element_first t.connection_a with
    | none => rw [g6 hp]; rfl
    | some c => exact g7 c hp
  · intro c hc
    obtain ⟨hc16, hcu⟩ := g4 c hc
    have hz : (t1.connection_a.mem (c - sizeof_memelement_t)).in_use = 0 := by
      rw [g5, Nat.sub_add_cancel hc16, if_pos hc]
    unfold pool_element_is_valid
    rw [if_neg hcu, if_pos hz]
    exact ⟨rfl, rfl⟩

/-- C23 (close codes).  On a well-formed endpoint with fewer than `fuel` slots in
use, every teardown path returns and records the events `teardown_events` of the
connections it tears down, in which the close callback of a connection that has
one is called, before `close(2)` on the socket, with the code of the path: `0`
when `recv` returns `0`; the error number when `recv` fails with an error that
is not retryable, while a retryable error leaves the endpoint as it is, with no
callback and the connection live; `-3` from `netio_connection_close`; `-1` from
the loop of the two release functions and `-2` from
`netio_tcp_connection_close_all`, for the distinct live connections `cs` the
loop visits, starting with the one `get_element_first` gives, and
`netio_tcp_connection_close_all` returns the number of these connections.  The
slot of a connection torn down is free afterwards. -/
theorem close_codes (fuel : Nat) (t : tcp_t) (F : List Nat) (h : TInv t F fuel)
    (hf : F.length < fuel) (hu : (used_slots t.connection_a).length < fuel) :
    (∀ c k, (t.connection_a.deref c).close_func ≠ none →
      teardown_events t c k
        = [event_t.close_cb c k, event_t.sys_close (t.connection_a.deref c).soc,
           event_t.event_del c]) ∧
    (∀ c rcheck sr ms, ((t.connection_a.deref c).rcheck_func = none ∨ 0 ≤ rcheck) →
      (∃ t1, __read_event_callback fuel t c true rcheck (recv_result.data []) sr ms
          = some (outcome.done t1) ∧
        t1.log = t.log ++ teardown_events t c 0 ∧
        pool_element_is_valid t1.connection_a c = 0) ∧
      (∀ errno, ∃ t1,
        __read_event_callback fuel t c true rcheck (recv_result.fail errno) sr ms
          = some (outcome.done t1) ∧
        t1.log = t.log ++ teardown_events t c errno ∧
        pool_element_is_valid t1.connection_a c = 0) ∧
      __read_event_callback fuel t c true rcheck recv_result.again sr ms
        = some (outcome.done t)) ∧
    (∀ c, ∃ t1, netio_connection_close fuel t (some c) = some (t1, 1) ∧
      t1.log = t.log ++ teardown_events t c (-3) ∧
      pool_element_is_valid t1.connection_a c = 0) ∧
    (∃ (t1 : tcp_t) (cs : List Nat), netio_release_server fuel t = some t1 ∧ netio_release_client fuel t = some t1 ∧
      t1.log = t.log ++ cs.flatMap (fun c => teardown_events t c (-1)) ∧
      cs.Nodup ∧ cs.head? = get_element_first t.connection_a ∧
      ∀ c ∈ cs, pool_element_is_valid t.connection_a c = 1 ∧
        pool_element_is_valid t1.connection_a c = 0) ∧
    (∃ (t1 : tcp_t) (cs : List Nat), netio_tcp_connection_close_all fuel t = some (t1, (cs.length : Int)) ∧
      t1.log = t.log ++ cs.flatMap (fun c => teardown_events t c (-2)) ∧
      cs.Nodup ∧ cs.head? = get_element_first t.connection_a ∧
      ∀ c ∈ cs, pool_element_is_valid t.connection_a c = 1 ∧
        pool_element_is_valid t1.connection_a c = 0) := by
  refine ⟨?_, ?_, ?_, ?_, ?_⟩
  · intro c k hcf
    unfold teardown_events
    cases hx : (t.connection_a.deref c).close_func with
    | none => exact absurd hx hcf
    | some f => rfl
  · intro c rcheck sr ms hrc
    have hc1 : ¬ ((t.connection_a.deref c).rcheck_func ≠ none ∧ rcheck < 0) := by
      rintro ⟨ha, hb⟩
      rcases hrc with hrc | hrc
      · exact ha hrc
      · omega
    refine ⟨?_, ?_, ?_⟩
    · obtain ⟨t1, F1, g1, _, _, g4, _⟩ := teardown_step fuel c 0 h hf
      refine ⟨t1, ?_, g4, teardown_valid g1⟩
      unfold __read_event_callback
      rw [if_neg hc1, if_neg (by decide)]
      simp only [List.take_nil, List.length_nil, Nat.cast_zero, if_true, g1, Option.map_some']
    · intro errno
      obtain ⟨t1, F1, g1, _, _, g4, _⟩ := teardown_step fuel c errno h hf
      refine ⟨t1, ?_, g4, teardown_valid g1⟩
      unfold __read_event_callback
      rw [if_neg hc1, if_neg (by decide)]
      simp only [g1, Option.map_some']
    · unfold __read_event_callback
      rw [if_neg hc1, if_neg (by decide)]
  · intro c
    obtain ⟨t1, F1, g1, _, _, g4, _⟩ := teardown_step fuel c (-3) h hf
    refine ⟨t1, ?_, g4, teardown_valid g1⟩
    simp only [netio_connection_close, g1, Option.map_some']
  · obtain ⟨t1, cs, g1, g2, g3, g4, g5⟩ := teardown_loop_first fuel (-1)
      (fun n t p _ => release_loop fuel n t p) (fun t _ => t)
      (fun n t cnt => rfl)
      (fun n t c cnt => by
        show release_loop fuel (n + 1) t (some c) = _
        rw [release_loop]
        cases CONN_CLEAR fuel (call_close_func t c (-1)) c <;> rfl)
      h hf hu
    exact ⟨t1, cs, g1, g1, g2, g3, g4, g5⟩
  · exact teardown_loop_first fuel (-2) (close_all_loop fuel) Prod.mk
      (fun n t cnt => rfl)
      (fun n t c cnt => by
        rw [close_all_loop]
        cases CONN_CLEAR fuel (call_close_func t c (-2)) c <;> rfl)
      h hf hu

set_option maxRecDepth 1000000 in
theorem close_codes_witness :
    TInv tcp_w [4112, 69704, 135296] 10 ∧ ([4112, 69704, 135296] : List Nat).length < 10 ∧
    (used_slots tcp_w.connection_a).length < 10 ∧
    ((∀ c k, (tcp_w.connection_a.deref c).close_func ≠ none →
      teardown_events tcp_w c k
        = [event_t.close_cb c k, event_t.sys_close (tcp_w.connection_a.deref c).soc,
           event_t.event_del c]) ∧
    (∀ c rcheck sr ms, ((tcp_w.connection_a.deref c).rcheck_func = none ∨ 0 ≤ rcheck) →
      (∃ t1, __read_event_callback 10 tcp_w c true rcheck (recv_result.data []) sr ms
          = some (outcome.done t1) ∧
        t1.log = tcp_w.log ++ teardown_events tcp_w c 0 ∧
        pool_element_is_valid t1.connection_a c = 0) ∧
      (∀ errno, ∃ t1,
        __read_event_callback 10 tcp_w c true rcheck (recv_result.fail errno) sr ms
          = some (outcome.done t1) ∧
        t1.log = tcp_w.log ++ teardown_events tcp_w c errno ∧
        pool_element_is_valid t1.connection_a c = 0) ∧
      __read_event_callback 10 tcp_w c true rcheck recv_result.again sr ms
        = some (outcome.done tcp_w)) ∧
    (∀ c, ∃ t1, netio_connection_close 10 tcp_w (some c) = some (t1, 1) ∧
      t1.log = tcp_w.log ++ teardown_events tcp_w c (-3) ∧
      pool_element_is_valid t1.connection_a c = 0) ∧
    (∃ (t1 : tcp_t) (cs : List Nat), netio_release_server 10 tcp_w = some t1 ∧
      netio_release_client 10 tcp_w = some t1 ∧
      t1.log = tcp_w.log ++ cs.flatMap (fun c => teardown_events tcp_w c (-1)) ∧
      cs.Nodup ∧ cs.head? = get_element_first tcp_w.connection_a ∧
      ∀ c ∈ cs, pool_element_is_valid tcp_w.connection_a c = 1 ∧
        pool_element_is_valid t1.connection_a c = 0) ∧
    (∃ (t1 : tcp_t) (cs : List Nat),
      netio_tcp_connection_close_all 10 tcp_w = some (t1, (cs.length : Int)) ∧
      t1.log = tcp_w.log ++ cs.flatMap (fun c => teardown_events tcp_w c (-2)) ∧
      cs.Nodup ∧ cs.head? = get_element_first tcp_w.connection_a ∧
      ∀ c ∈ cs, pool_element_is_valid tcp_w.connection_a c = 1 ∧
        pool_element_is_valid t1.connection_a c = 0)) :=
  ⟨TInv_tcp_w, by decide, by decide!,
    close_codes 10 tcp_w [4112, 69704, 135296] TInv_tcp_w (by decide) (by decide!)⟩

set_option maxRecDepth 1000000 in
/-- The teardown paths on the endpoint `tcp_w`, whose two connections have the
close callback `1` and the sockets `5` and `6`: what each path records and what
`netio_tcp_connection_close_all` returns. -/
theorem close_codes_evaluated :
    (match __read_event_callback 10 tcp_w conn1 true 0 (recv_result.data []) send_result.again []
      with
      | some (outcome.done t1) => some t1.log
      | _ => none)
      = some [event_t.close_cb conn1 0, event_t.sys_close 5, event_t.event_del conn1] ∧
    (match __read_event_callback 10 tcp_w conn2 true 0 (recv_result.fail 104) send_result.again []
      with
      | some (outcome.done t1) => some t1.log
      | _ => none)
      = some [event_t.close_cb conn2 104, event_t.sys_close 6, event_t.event_del conn2] ∧
    (match __read_event_callback 10 tcp_w conn1 true 0 recv_result.again send_result.again []
      with
      | some (outcome.done t1) =>
        some (t1.log, pool_element_is_valid t1.connection_a conn1)
      | _ => none)
      = some ([], 1) ∧
    (netio_connection_close 10 tcp_w (some conn2)).map (fun r => (r.2, r.1.log))
      = some (1, [event_t.close_cb conn2 (-3), event_t.sys_close 6, event_t.event_del conn2]) ∧
    (netio_release_server 10 tcp_w).map (fun t1 => t1.log)
      = some [event_t.close_cb conn1 (-1), event_t.sys_close 5, event_t.event_del conn1,
              event_t.close_cb conn2 (-1), event_t.sys_close 6, event_t.event_del conn2] ∧
    (netio_tcp_connection_close_all 10 tcp_w).map
        (fun r => (r.2, r.1.log, get_element_use_num r.1.connection_a))
      = some (2, [event_t.close_cb conn1 (-2), event_t.sys_close 5, event_t.event_del conn1,
              event_t.close_cb conn2 (-2), event_t.sys_close 6, event_t.event_del conn2], 0) := by
  refine ⟨?_, ?_, ?_, ?_, ?_, ?_⟩ <;> decide!

/-! ### Pools with a known free list -/

/-- `pool_alloc` on a pool whose free list starts with `e`: it returns the slot
`e` and leaves the rest of the free list. -/
theorem pool_alloc_room {α : Type} {mp : mempool_t α} {e : Nat} {L : List Nat}
    (h : PoolInv mp (e :: L)) (m : Option Nat) :
    (pool_alloc mp m).2 = some (e + sizeof_memelement_t) ∧ PoolInv (pool_alloc mp m).1 L := by
  have hsome : mp.not_use = some e := h.free_chain.1
  have hne : ¬ mp.not_use = none := by rw [hsome]; simp
  rw [pool_alloc_eq_take, if_neg hne, pool_take_some hsome]
  exact ⟨rfl, pool_pop_spec h⟩

/-- A pointer `pool_alloc` returns costs the free list at most one slot. -/
theorem pool_alloc_count {α : Type} {mp : mempool_t α} {L : List Nat} (h : PoolInv mp L)
    (m : Option Nat) :
    ∃ L2, PoolInv (pool_alloc mp m).1 L2 ∧ L.length ≤ L2.length + 1 := by
  cases L with
  | nil =>
    obtain ⟨L2, hL2⟩ := (pool_alloc_spec h m).inv
    exact ⟨L2, hL2, by simp⟩
  | cons e L => exact ⟨L, (pool_alloc_room h m).2, by simp⟩

/-- `message_add` on a queue whose pool has the free list `e :: L`: it returns
the element of the slot `e`, and the free list is `L` afterwards. -/
theorem message_add_room {δ : Type} {msg : messageheader_t δ} {e : Nat} {L : List Nat}
    (h : PoolInv msg.element_a (e :: L)) (key : Nat) (m : Option Nat) :
    (message_add msg key m).2 = some (e + sizeof_memelement_t) ∧
    PoolInv (message_add msg key m).1.element_a L := by
  obtain ⟨h1, h2⟩ := pool_alloc_room h m
  unfold message_add
  revert h1 h2
  cases pool_alloc msg.element_a m with
  | mk pool r =>
    intro h1 h2
    simp only at h1 h2
    subst h1
    simp only
    refine ⟨trivial, ?_⟩
    cases hl : msg.last with
    | none => exact PoolInv_store h2 _ _
    | some l =>
      simp only [messageheader_t.set_elem]
      exact PoolInv_store (PoolInv_store h2 _ _) _ _

/-! ### `netio_sender` -/

/-- The loop of `netio_tcp_append_write_buffer` on a well-formed write queue: the
entries it adds come after the entries of the queue, are keyed by `c` and hold
between 1 and 65536 bytes each; the entries of the queue keep key and contents;
and when the loop returns `1` the bytes of the new entries, in order, are the
bytes that were to be stored, and when it returns `0` they are a proper initial
part of these bytes. -/
theorem append_loop_chunks (c : Nat) (data : List Nat) :
    ∀ (n : Nat) (t : tcp_t) (F : List Nat) (stored len : Int) (ms : List (Option Nat)),
      WInv t F → 0 ≤ stored → 0 ≤ len → stored + len = data.length → len.toNat ≤ n →
      ∃ N, WInv (append_loop n t c data stored len ms).1 (F ++ N) ∧
        (∀ e ∈ N, ((append_loop n t c data stored len ms).1.wbuffer_m.elem e).key = c ∧
          0 < ((append_loop n t c data stored len ms).1.wbuffer_m.elem e).data.buffer_len ∧
          ((append_loop n t c data stored len ms).1.wbuffer_m.elem e).data.buffer_len
            ≤ 65536) ∧
        (∀ e ∈ F,
          ((append_loop n t c data stored len ms).1.wbuffer_m.elem e).key
            = (t.wbuffer_m.elem e).key ∧
          ((append_loop n t c data stored len ms).1.wbuffer_m.elem e).data
            = (t.wbuffer_m.elem e).data) ∧
        (append_loop n t c data stored len ms).1.log = t.log ∧
        (append_loop n t c data stored len ms).1.connection_a = t.connection_a ∧
        (append_loop n t c data stored len ms).1.rbuffer_a = t.rbuffer_a ∧
        ((append_loop n t c data stored len ms).2 = 0 ∨
          (append_loop n t c data stored len ms).2 = 1) ∧
        ((append_loop n t c data stored len ms).2 ≠ 0 →
          N.flatMap (entry_bytes (append_loop n t c data stored len ms).1.wbuffer_m)
            = data.drop stored.toNat) ∧
        ((append_loop n t c data stored len ms).2 = 0 →
          ∃ rest, rest ≠ [] ∧
            N.flatMap (entry_bytes (append_loop n t c data stored len ms).1.wbuffer_m) ++ rest
              = data.drop stored.toNat) := by
  intro n
  induction n with
  | zero =>
    intro t F stored len ms h hs hl hsum hn
    have hdrop : data.drop stored.toNat = [] := List.drop_eq_nil_of_le (by omega)
    have happ : append_loop 0 t c data stored len ms = (t, 1) := rfl
    rw [happ]
    refine ⟨[], by simpa using h, fun e he => absurd he (List.not_mem_nil e),
      fun e _ => ⟨rfl, rfl⟩, rfl, rfl, rfl, Or.inr rfl, fun _ => by simp [hdrop],
      fun h0 => absurd h0 (by simp)⟩
  | succ n ih =>
    intro t F stored len ms h hs hl hsum hn
    by_cases hpos : len > 0
    · obtain ⟨h1, _, h3, h4⟩ := message_add_spec h.1 c (ms.head?.join)
      cases hr : message_add t.wbuffer_m c ms.head?.join with
      | mk q r =>
        rw [hr] at h1 h3 h4
        simp only at h1 h3 h4
        cases r with
        | none =>
          have hq : q = t.wbuffer_m := h1 rfl
          have happ : append_loop (n + 1) t c data stored len ms
              = ({ t with wbuffer_m := q }, 0) := by
            simp only [append_loop]
            rw [if_pos hpos, hr]
          rw [happ]
          subst hq
          refine ⟨[], by simpa using h, fun e he => absurd he (List.not_mem_nil e),
            fun e _ => ⟨rfl, rfl⟩, rfl, rfl, rfl, Or.inl rfl, fun hne => absurd rfl hne,
            fun _ => ⟨data.drop stored.toNat, ?_, by simp⟩⟩
          intro hnil
          have := congrArg List.length hnil
          rw [List.length_drop, List.length_nil] at this
          omega
        | some wb =>
          obtain ⟨hwbF, hq, hkey, _, _⟩ := h4 wb rfl
          have hd1 : 0 < min len NIO_BUFFER_SIZE := lt_min hpos (by decide)
          have hd2 : min len NIO_BUFFER_SIZE ≤ len := min_le_left _ _
          have hd3 : min len NIO_BUFFER_SIZE ≤ 65536 := min_le_right _ _
          have happ : append_loop (n + 1) t c data stored len ms
              = append_loop n
                  { t with wbuffer_m := q.set_elem wb { (q.elem wb) with data :=
                      { conn := some c,
                        buffer := memcpy (q.elem wb).data.buffer (data.drop stored.toNat)
                          (min len NIO_BUFFER_SIZE).toNat,
                        buffer_len := min len NIO_BUFFER_SIZE } } }
                  c data (stored + min len NIO_BUFFER_SIZE) (len - min len NIO_BUFFER_SIZE)
                  ms.tail := by
            simp only [append_loop]
            rw [if_pos hpos, hr]
          rw [happ]
          have hwb16 : sizeof_memelement_t ≤ wb := hq.ge (by simp)
          generalize hw : (⟨some c,
              memcpy (q.elem wb).data.buffer (data.drop stored.toNat)
                (min len NIO_BUFFER_SIZE).toNat,
              min len NIO_BUFFER_SIZE⟩ : write_buffer_t) = w
          have hwlen : w.buffer_len = min len NIO_BUFFER_SIZE := by rw [← hw]
          have hwconn : w.conn = some c := by rw [← hw]
          have hwbuf : w.buffer = memcpy (q.elem wb).data.buffer (data.drop stored.toNat)
              (min len NIO_BUFFER_SIZE).toNat := by rw [← hw]
          have hold : ∀ e ∈ F,
              (q.set_elem wb { (q.elem wb) with data := w }).elem e = q.elem e := by
            intro e he
            exact elem_set_elem_ne _ _ hwb16 (WInv_ge h he) (fun hc => hwbF (hc ▸ he))
          have hdlen : (min len NIO_BUFFER_SIZE).toNat ≤ (data.drop stored.toNat).length := by
            rw [List.length_drop]
            omega
          have hW1 : WInv
              { t with wbuffer_m := q.set_elem wb { (q.elem wb) with data := w } }
              (F ++ [wb]) := by
            refine ⟨QInv_set_data hq wb _, ?_⟩
            intro e he
            rcases List.mem_append.mp he with he | he
            · show _ ∧ _ ∧ _
              rw [hold e he, (h3 e he).1, (h3 e he).2]
              exact h.2 e he
            · rw [List.mem_singleton.mp he]
              show _ ∧ _ ∧ _
              rw [elem_set_elem_same]
              refine ⟨by simp [hkey, hwconn], by show 0 ≤ w.buffer_len; omega, ?_⟩
              show w.buffer_len.toNat ≤ w.buffer.length
              rw [hwlen, hwbuf]
              simp only [memcpy, List.length_append, List.length_take, List.length_drop]
              omega
          obtain ⟨N, g1, g2, g3, g4, g5, g6, g7, g8, g9⟩ := ih _ (F ++ [wb])
            (stored + min len NIO_BUFFER_SIZE) (len - min len NIO_BUFFER_SIZE) ms.tail hW1
            (by omega) (by omega) (by omega) (by omega)
          have gwb := g3 wb (by simp)
          simp only [elem_set_elem_same] at gwb
          have he : entry_bytes (append_loop n
                { t with wbuffer_m := q.set_elem wb { (q.elem wb) with data := w } }
                c data (stored + min len NIO_BUFFER_SIZE) (len - min len NIO_BUFFER_SIZE)
                ms.tail).1.wbuffer_m wb
              = (data.drop stored.toNat).take (min len NIO_BUFFER_SIZE).toNat := by
            unfold entry_bytes
            rw [gwb.2]
            show w.buffer.take w.buffer_len.toNat = _
            rw [hwlen, hwbuf]
            simp only [memcpy]
            rw [List.take_append_of_le_length (by
              rw [List.length_take]; omega)]
            rw [List.take_take]
            simp
          have hdd : data.drop (stored + min len NIO_BUFFER_SIZE).toNat
              = (data.drop stored.toNat).drop (min len NIO_BUFFER_SIZE).toNat := by
            rw [List.drop_drop]
            congr 1
            omega
          refine ⟨wb :: N, by simpa using g1, ?_, ?_, g4, g5, g6, g7, ?_, ?_⟩
          · intro e he
            rcases List.mem_cons.mp he with he | he
            · rw [he, gwb.1, gwb.2]
              exact ⟨hkey, by show 0 < w.buffer_len; omega, by show w.buffer_len ≤ 65536; omega⟩
            · exact g2 e he
          · intro e he
            have := g3 e (List.mem_append_left _ he)
            simp only at this
            rw [hold e he, (h3 e he).1, (h3 e he).2] at this
            exact this
          · intro hne
            rw [List.flatMap_cons, g8 hne, he, hdd, List.take_append_drop]
          · intro h0
            obtain ⟨rest, hr1, hr2⟩ := g9 h0
            refine ⟨rest, hr1, ?_⟩
            rw [List.flatMap_cons, List.append_assoc, hr2, he, hdd, List.take_append_drop]
    · have hlen0 : len = 0 := by omega
      have hdrop : data.drop stored.toNat = [] := List.drop_eq_nil_of_le (by omega)
      have happ : append_loop (n + 1) t c data stored len ms = (t, 1) := by
        simp only [append_loop]
        rw [if_neg hpos]
      rw [happ]
      refine ⟨[], by simpa using h, fun e he => absurd he (List.not_mem_nil e),
        fun e _ => ⟨rfl, rfl⟩, rfl, rfl, rfl, Or.inr rfl, fun _ => by simp [hdrop],
      fun h0 => absurd h0 (by simp)⟩

theorem pool_alloc_null {α : Type} (mp : mempool_t α) (m : Option Nat)
    (h : (pool_alloc mp m).2 = none) : (pool_alloc mp m).1.not_use = none := by
  unfold pool_alloc at h ⊢
  simp only at h ⊢
  split at h
  · next hn => simp only [hn]
  · exact absurd h (by simp)

theorem message_add_null {δ : Type} (msg : messageheader_t δ) (key : Nat) (m : Option Nat)
    (h : (message_add msg key m).2 = none) :
    (message_add msg key m).1.element_a.not_use = none := by
  have hp := pool_alloc_null msg.element_a m
  unfold message_add at h ⊢
  revert h hp
  cases pool_alloc msg.element_a m with
  | mk pool r =>
    cases r with
    | none => exact fun _ hp => hp rfl
    | some p => exact fun h _ => absurd h (by simp)

/-- The loop of `netio_tcp_append_write_buffer` returns `0` only when `pool_alloc`
has returned `NULL` for a queue element: the pool of the queue is then left with
an empty free list. -/
theorem append_loop_fail (c : Nat) (data : List Nat) :
    ∀ (n : Nat) (t : tcp_t) (stored len : Int) (ms : List (Option Nat)),
      (append_loop n t c data stored len ms).2 = 0 →
      (append_loop n t c data stored len ms).1.wbuffer_m.element_a.not_use = none := by
  intro n
  induction n with
  | zero =>
    intro t stored len ms h
    exact absurd h (by show (1 : Int) ≠ 0; decide)
  | succ n ih =>
    intro t stored len ms h
    have hn := message_add_null t.wbuffer_m c ms.head?.join
    simp only [append_loop] at h ⊢
    by_cases hpos : len > 0
    · rw [if_pos hpos] at h ⊢
      cases hr : message_add t.wbuffer_m c ms.head?.join with
      | mk q r =>
        rw [hr] at hn h
        cases r with
        | none => exact hn rfl
        | some wb => exact ih _ _ _ _ h
    · rw [if_neg hpos] at h
      exact absurd h (by show (1 : Int) ≠ 0; decide)

theorem append_write_buffer_fail (t : tcp_t) (c : Nat) (data : List Nat) (len : Int)
    (ms : List (Option Nat)) (h : (netio_tcp_append_write_buffer t c data len ms).2 = 0) :
    (netio_tcp_append_write_buffer t c data len ms).1.wbuffer_m.element_a.not_use = none :=
  append_loop_fail c data len.toNat t 0 len ms h

/-- The loop of `netio_tcp_append_write_buffer` when the pool of the queue has a
free element for every 65536 bytes to store: it returns `1`. -/
theorem append_loop_room (c : Nat) (data : List Nat) :
    ∀ (n : Nat) (t : tcp_t) (stored len : Int) (ms : List (Option Nat)) (L : List Nat),
      PoolInv t.wbuffer_m.element_a L → len ≤ 65536 * (L.length : Int) →
      (append_loop n t c data stored len ms).2 = 1 := by
  intro n
  induction n with
  | zero => intro t stored len ms L _ _; rfl
  | succ n ih =>
    intro t stored len ms L hL hroom
    simp only [append_loop]
    by_cases hpos : len > 0
    · rw [if_pos hpos]
      cases L with
      | nil => simp only [List.length_nil, Nat.cast_zero] at hroom; omega
      | cons e L =>
        obtain ⟨h1, h2⟩ := message_add_room hL c ms.head?.join
        cases hr : message_add t.wbuffer_m c ms.head?.join with
        | mk q r =>
          rw [hr] at h1 h2
          simp only at h1 h2
          subst h1
          simp only
          apply ih _ _ _ _ L
          · simp only [messageheader_t.set_elem]
            exact PoolInv_store h2 _ _
          · simp only [List.length_cons, Nat.cast_add, Nat.cast_one] at hroom
            have : min len NIO_BUFFER_SIZE = len ∨ min len NIO_BUFFER_SIZE = 65536 := by
              rcases le_total len NIO_BUFFER_SIZE with hle | hle
              · left; exact min_eq_left hle
              · right; exact min_eq_right hle
            rcases this with hm | hm
            · rw [hm]; omega
            · rw [hm]; omega
    · rw [if_neg hpos]

theorem append_write_buffer_room (t : tcp_t) (c : Nat) (data : List Nat) (len : Int)
    (ms : List (Option Nat)) {L : List Nat} (hL : PoolInv t.wbuffer_m.element_a L)
    (hroom : len ≤ 65536 * (L.length : Int)) :
    (netio_tcp_append_write_buffer t c data len ms).2 ≠ 0 := by
  have := append_loop_room c data len.toNat t 0 len ms L hL hroom
  unfold netio_tcp_append_write_buffer
  rw [this]
  decide

theorem append_write_buffer_chunks {t : tcp_t} {F : List Nat} (h : WInv t F) (c : Nat)
    (data : List Nat) (len : Int) (hlen : len = data.length) (ms : List (Option Nat)) :
    ∃ N, WInv (netio_tcp_append_write_buffer t c data len ms).1 (F ++ N) ∧
      (∀ e ∈ N, ((netio_tcp_append_write_buffer t c data len ms).1.wbuffer_m.elem e).key = c ∧
        0 < ((netio_tcp_append_write_buffer t c data len ms).1.wbuffer_m.elem e).data.buffer_len ∧
        ((netio_tcp_append_write_buffer t c data len ms).1.wbuffer_m.elem e).data.buffer_len
          ≤ 65536) ∧
      (∀ e ∈ F,
        ((netio_tcp_append_write_buffer t c data len ms).1.wbuffer_m.elem e).key
          = (t.wbuffer_m.elem e).key ∧
        ((netio_tcp_append_write_buffer t c data len ms).1.wbuffer_m.elem e).data
          = (t.wbuffer_m.elem e).data) ∧
      (netio_tcp_append_write_buffer t c data len ms).1.log = t.log ∧
      (netio_tcp_append_write_buffer t c data len ms).1.connection_a = t.connection_a ∧
      (netio_tcp_append_write_buffer t c data len ms).1.rbuffer_a = t.rbuffer_a ∧
      ((netio_tcp_append_write_buffer t c data len ms).2 ≠ 0 →
        N.flatMap (entry_bytes (netio_tcp_append_write_buffer t c data len ms).1.wbuffer_m)
          = data) ∧
      ((netio_tcp_append_write_buffer t c data len ms).2 = 0 →
        ∃ rest, rest ≠ [] ∧
          N.flatMap (entry_bytes (netio_tcp_append_write_buffer t c data len ms).1.wbuffer_m)
            ++ rest = data) := by
  obtain ⟨N, g1, g2, g3, g4, g5, g6, _, g8, g9⟩ :=
    append_loop_chunks c data len.toNat t F 0 len ms h
      (le_refl _) (by omega) (by omega) (le_refl _)
  exact ⟨N, g1, g2, g3, g4, g5, g6, fun hne => by simpa using g8 hne,
    fun h0 => by simpa using g9 h0⟩

/-- C21 (`netio_sender` result and queueing), with the case the claim leaves
out.  The invalid handle gives `-2`.  On an endpoint whose write queue is well
formed, with the entries `F`, a call for the connection `c` returns, adds the
entries `N` behind the entries of the queue, which keep key and contents, and
every entry of `N` is keyed by `c` and holds between 1 and 65536 bytes.  If the
queue holds an entry for `c`, the result does not depend on the answer of `send`,
no `send` is recorded, and all the bytes are to be queued, with `len` to return.
Otherwise, when `send` accepts `k` bytes it is recorded once with these bytes
and the other bytes are to be queued, with `k` to return; on a retryable error
nothing is recorded and all the bytes are to be queued, with `0` to return; on
another error the call returns a negative value and the endpoint is unchanged.
Queueing ends in one of two ways: the entries of `N` hold the bytes to queue, in
order, and the call returns the value named; or `pool_alloc` gave no element for
an entry, the entries of `N` hold a proper initial part of the bytes to queue,
the free list of the pool of the queue is empty, and the call returns `-1`.  The
second way is excluded when the free list of the pool holds an element for every
65536 bytes to queue. -/
theorem sender_result (fuel : Nat) (t : tcp_t) (F : List Nat) (c : Nat) (data : List Nat)
    (r : send_result) (ms : List (Option Nat)) (h : WInv t F) (hf : F.length < fuel) :
    netio_sender fuel t none data data.length r ms = some (t, -2) ∧
    ∃ t1 ret N, netio_sender fuel t (some c) data data.length r ms = some (t1, ret) ∧
      WInv t1 (F ++ N) ∧
      (∀ e ∈ N, (t1.wbuffer_m.elem e).key = c ∧ 0 < (t1.wbuffer_m.elem e).data.buffer_len ∧
        (t1.wbuffer_m.elem e).data.buffer_len ≤ 65536) ∧
      (∀ e ∈ F, (t1.wbuffer_m.elem e).key = (t.wbuffer_m.elem e).key ∧
        (t1.wbuffer_m.elem e).data = (t.wbuffer_m.elem e).data) ∧
      ((∃ e ∈ F, (t.wbuffer_m.elem e).key = c) →
        (∀ r2, netio_sender fuel t (some c) data data.length r2 ms = some (t1, ret)) ∧
        t1.log = t.log ∧
        ((ret = data.length ∧ N.flatMap (entry_bytes t1.wbuffer_m) = data) ∨
          (ret = -1 ∧ t1.wbuffer_m.element_a.not_use = none ∧
            ∃ rest, rest ≠ [] ∧ N.flatMap (entry_bytes t1.wbuffer_m) ++ rest = data)) ∧
        (∀ L, PoolInv t.wbuffer_m.element_a L → data.length ≤ 65536 * L.length →
          ret = data.length)) ∧
      ((¬ ∃ e ∈ F, (t.wbuffer_m.elem e).key = c) →
        (∀ m, r = send_result.ok m →
          t1.log = t.log ++ [event_t.sys_send c (t.connection_a.deref c).soc
            (data.take (min m data.length))] ∧
          ((ret = (min m data.length : Nat) ∧
            N.flatMap (entry_bytes t1.wbuffer_m) = data.drop (min m data.length)) ∨
           (ret = -1 ∧ t1.wbuffer_m.element_a.not_use = none ∧
             ∃ rest, rest ≠ [] ∧
               N.flatMap (entry_bytes t1.wbuffer_m) ++ rest
                 = data.drop (min m data.length))) ∧
          (∀ L, PoolInv t.wbuffer_m.element_a L →
            (data.drop (min m data.length)).length ≤ 65536 * L.length →
            ret = (min m data.length : Nat))) ∧
        (r = send_result.again →
          t1.log = t.log ∧
          ((ret = 0 ∧ N.flatMap (entry_bytes t1.wbuffer_m) = data) ∨
            (ret = -1 ∧ t1.wbuffer_m.element_a.not_use = none ∧
              ∃ rest, rest ≠ [] ∧ N.flatMap (entry_bytes t1.wbuffer_m) ++ rest = data)) ∧
          (∀ L, PoolInv t.wbuffer_m.element_a L → data.length ≤ 65536 * L.length →
            ret = 0)) ∧
        (∀ errno, r = send_result.fail errno → t1 = t ∧ ret < 0 ∧ N = [])) := by
  refine ⟨rfl, ?_⟩
  have hfind := message_find_spec h.1 c fuel hf
  cases hx : F.reverse.find? (fun e => decide (c = (t.wbuffer_m.elem e).key)) with
  | some e =>
    rw [hx] at hfind
    have hQ : ∃ e ∈ F, (t.wbuffer_m.elem e).key = c := by
      have hm := List.mem_of_find?_eq_some hx
      have hp := List.find?_some hx
      simp only [decide_eq_true_eq] at hp
      exact ⟨e, List.mem_reverse.mp hm, hp.symm⟩
    obtain ⟨N, g1, g2, g3, g4, g5, g6, g7, g8⟩ :=
      append_write_buffer_chunks h c data data.length rfl ms
    by_cases hret : (netio_tcp_append_write_buffer t c data data.length ms).2 = 0
    · have hs : ∀ r2, netio_sender fuel t (some c) data data.length r2 ms
          = some ((netio_tcp_append_write_buffer t c data data.length ms).1, -1) := by
        intro r2
        simp only [netio_sender, hfind]
        rw [if_pos hret]
      exact ⟨_, -1, N, hs r, g1, g2, g3,
        fun _ => ⟨hs, g4,
          Or.inr ⟨rfl, append_write_buffer_fail _ _ _ _ _ hret, g8 hret⟩,
          fun L hL hroom => absurd hret
            (append_write_buffer_room t c data _ ms hL (by exact_mod_cast hroom))⟩,
        fun hn => absurd hQ hn⟩
    · have hs : ∀ r2, netio_sender fuel t (some c) data data.length r2 ms
          = some ((netio_tcp_append_write_buffer t c data data.length ms).1,
              (data.length : Int)) := by
        intro r2
        simp only [netio_sender, hfind]
        rw [if_neg hret]
      exact ⟨_, data.length, N, hs r, g1, g2, g3,
        fun _ => ⟨hs, g4, Or.inl ⟨rfl, g7 hret⟩, fun _ _ _ => rfl⟩, fun hn => absurd hQ hn⟩
  | none =>
    rw [hx] at hfind
    have hQ : ¬ ∃ e ∈ F, (t.wbuffer_m.elem e).key = c := by
      rintro ⟨e, he, hk⟩
      have := List.find?_eq_none.mp hx e (List.mem_reverse.mpr he)
      simp only [decide_eq_true_eq] at this
      exact this hk.symm
    cases r with
    | ok m =>
      have hW1 : WInv { t with log := t.log ++ [event_t.sys_send c (t.connection_a.deref c).soc
          (data.take (min m data.length))] } F := h
      have hn : (if ((min m data.length : Nat) : Int) < 0 then (0 : Int)
          else ((min m data.length : Nat) : Int)) = ((min m data.length : Nat) : Int) :=
        if_neg (by omega)
      by_cases hk : ((min m data.length : Nat) : Int) < (data.length : Int)
      · obtain ⟨N, g1, g2, g3, g4, g5, g6, g7, g8⟩ :=
          append_write_buffer_chunks hW1 c (data.drop (min m data.length))
            ((data.length : Int) - ((min m data.length : Nat) : Int))
            (by rw [List.length_drop]; omega) ms
        by_cases hret : (netio_tcp_append_write_buffer
            { t with log := t.log ++ [event_t.sys_send c (t.connection_a.deref c).soc
              (data.take (min m data.length))] } c (data.drop (min m data.length))
            ((data.length : Int) - ((min m data.length : Nat) : Int)) ms).2 = 0
        · refine ⟨_, -1, N, ?_, g1, g2, g3, fun hq => absurd hq hQ, fun _ => ⟨?_, ?_, ?_⟩⟩
          · simp only [netio_sender, hfind, sys_send, hn, Int.toNat_ofNat, and_true]
            rw [if_neg (by omega), if_pos hk, if_pos hret]
          · intro m2 hm2
            injection hm2 with hm2
            subst hm2
            refine ⟨g4, Or.inr ⟨rfl, append_write_buffer_fail _ _ _ _ _ hret, g8 hret⟩, ?_⟩
            intro L hL hroom
            refine absurd hret (append_write_buffer_room _ c _ _ ms hL ?_)
            rw [List.length_drop] at hroom
            omega
          · intro hc
            exact absurd hc (by simp)
          · intro e hc
            exact absurd hc (by simp)
        · refine ⟨_, ((min m data.length : Nat) : Int), N, ?_, g1, g2, g3,
            fun hq => absurd hq hQ, fun _ => ⟨?_, ?_, ?_⟩⟩
          · simp only [netio_sender, hfind, sys_send, hn, Int.toNat_ofNat, and_true]
            rw [if_neg (by omega), if_pos hk, if_neg hret]
          · intro m2 hm2
            injection hm2 with hm2
            subst hm2
            exact ⟨g4, Or.inl ⟨rfl, g7 hret⟩, fun _ _ _ => rfl⟩
          · intro hc
            exact absurd hc (by simp)
          · intro e hc
            exact absurd hc (by simp)
      · have hkeq : min m data.length = data.length := by omega
        refine ⟨{ t with log := t.log ++ [event_t.sys_send c (t.connection_a.deref c).soc
            (data.take (min m data.length))] }, ((min m data.length : Nat) : Int), [], ?_,
          by simpa using hW1,
          fun e he => absurd he (List.not_mem_nil e), fun e _ => ⟨rfl, rfl⟩,
          fun hq => absurd hq hQ, fun _ => ⟨?_, ?_, ?_⟩⟩
        · simp only [netio_sender, hfind, sys_send, hn, Int.toNat_ofNat, and_true]
          rw [if_neg (by omega), if_neg hk]
        · intro m2 hm2
          injection hm2 with hm2
          subst hm2
          refine ⟨rfl, Or.inl ⟨rfl, ?_⟩, fun _ _ _ => rfl⟩
          rw [hkeq, List.drop_length]
          rfl
        · intro hc
          exact absurd hc (by simp)
        · intro e hc
          exact absurd hc (by simp)
    | again =>
      by_cases hk : (0 : Int) < (data.length : Int)
      · obtain ⟨N, g1, g2, g3, g4, g5, g6, g7, g8⟩ :=
          append_write_buffer_chunks h c (data.drop 0) ((data.length : Int) - 0) (by simp) ms
        by_cases hret : (netio_tcp_append_write_buffer t c (data.drop 0)
            ((data.length : Int) - 0) ms).2 = 0
        · refine ⟨_, -1, N, ?_, g1, g2, g3, fun hq => absurd hq hQ, fun _ => ⟨?_, ?_, ?_⟩⟩
          · simp only [netio_sender, hfind, sys_send]
            simp only [show ((-1 : Int) < 0) = True from by simp, if_true, Int.toNat_zero]
            rw [if_neg (by simp), if_pos hk, if_pos hret]
          · intro m2 hm2
            exact absurd hm2 (by simp)
          · intro _
            refine ⟨g4, Or.inr ⟨rfl, append_write_buffer_fail _ _ _ _ _ hret,
              by simpa using g8 hret⟩, ?_⟩
            intro L hL hroom
            refine absurd hret (append_write_buffer_room _ c _ _ ms hL ?_)
            omega
          · intro e hc
            exact absurd hc (by simp)
        · refine ⟨_, 0, N, ?_, g1, g2, g3, fun hq => absurd hq hQ, fun _ => ⟨?_, ?_, ?_⟩⟩
          · simp only [netio_sender, hfind, sys_send]
            simp only [show ((-1 : Int) < 0) = True from by simp, if_true, Int.toNat_zero]
            rw [if_neg (by simp), if_pos hk, if_neg hret]
          · intro m2 hm2
            exact absurd hm2 (by simp)
          · intro _
            exact ⟨g4, Or.inl ⟨rfl, by simpa using g7 hret⟩, fun _ _ _ => rfl⟩
          · intro e hc
            exact absurd hc (by simp)
      · have hnil : data = [] := List.length_eq_zero.mp (by omega)
        refine ⟨t, 0, [], ?_, by simpa using h, fun e he => absurd he (List.not_mem_nil e),
          fun e _ => ⟨rfl, rfl⟩, fun hq => absurd hq hQ, fun _ => ⟨?_, ?_, ?_⟩⟩
        · simp only [netio_sender, hfind, sys_send]
          simp only [show ((-1 : Int) < 0) = True from by simp, if_true]
          rw [if_neg (by simp), if_neg hk]
        · intro m2 hm2
          exact absurd hm2 (by simp)
        · intro _
          exact ⟨rfl, Or.inl ⟨rfl, by rw [hnil]; rfl⟩, fun _ _ _ => rfl⟩
        · intro e hc
          exact absurd hc (by simp)
    | fail e =>
      refine ⟨t, -1, [], ?_, by simpa using h, fun e he => absurd he (List.not_mem_nil e),
        fun e _ => ⟨rfl, rfl⟩, fun hq => absurd hq hQ, fun _ => ⟨?_, ?_, ?_⟩⟩
      · simp only [netio_sender, hfind, sys_send]
        rw [if_pos (by simp)]
      · intro m2 hm2
        exact absurd hm2 (by simp)
      · intro hc
        exact absurd hc (by simp)
      · intro e2 _
        exact ⟨rfl, by decide, rfl⟩

theorem sender_result_witness :
    WInv tcp_w [4112, 69704, 135296] ∧ ([4112, 69704, 135296] : List Nat).length < 10 ∧
    (netio_sender 10 tcp_w none [8, 9] ([8, 9] : List Nat).length (send_result.ok 2) []
        = some (tcp_w, -2) ∧
    ∃ t1 ret N,
      netio_sender 10 tcp_w (some conn1) [8, 9] ([8, 9] : List Nat).length (send_result.ok 2) []
        = some (t1, ret) ∧
      WInv t1 ([4112, 69704, 135296] ++ N) ∧
      (∀ e ∈ N, (t1.wbuffer_m.elem e).key = conn1 ∧
        0 < (t1.wbuffer_m.elem e).data.buffer_len ∧
        (t1.wbuffer_m.elem e).data.buffer_len ≤ 65536) ∧
      (∀ e ∈ [4112, 69704, 135296],
        (t1.wbuffer_m.elem e).key = (tcp_w.wbuffer_m.elem e).key ∧
        (t1.wbuffer_m.elem e).data = (tcp_w.wbuffer_m.elem e).data) ∧
      ((∃ e ∈ [4112, 69704, 135296], (tcp_w.wbuffer_m.elem e).key = conn1) →
        (∀ r2, netio_sender 10 tcp_w (some conn1) [8, 9] ([8, 9] : List Nat).length r2 []
          = some (t1, ret)) ∧
        t1.log = tcp_w.log ∧
        ((ret = ([8, 9] : List Nat).length ∧ N.flatMap (entry_bytes t1.wbuffer_m) = [8, 9]) ∨
          (ret = -1 ∧ t1.wbuffer_m.element_a.not_use = none ∧
            ∃ rest, rest ≠ [] ∧ N.flatMap (entry_bytes t1.wbuffer_m) ++ rest = [8, 9])) ∧
        (∀ L, PoolInv tcp_w.wbuffer_m.element_a L →
          ([8, 9] : List Nat).length ≤ 65536 * L.length →
          ret = ([8, 9] : List Nat).length)) ∧
      ((¬ ∃ e ∈ [4112, 69704, 135296], (tcp_w.wbuffer_m.elem e).key = conn1) →
        (∀ m, send_result.ok 2 = send_result.ok m →
          t1.log = tcp_w.log ++ [event_t.sys_send conn1 (tcp_w.connection_a.deref conn1).soc
            (([8, 9] : List Nat).take (min m ([8, 9] : List Nat).length))] ∧
          ((ret = (min m ([8, 9] : List Nat).length : Nat) ∧
            N.flatMap (entry_bytes t1.wbuffer_m)
              = ([8, 9] : List Nat).drop (min m ([8, 9] : List Nat).length)) ∨
           (ret = -1 ∧ t1.wbuffer_m.element_a.not_use = none ∧
             ∃ rest, rest ≠ [] ∧
               N.flatMap (entry_bytes t1.wbuffer_m) ++ rest
                 = ([8, 9] : List Nat).drop (min m ([8, 9] : List Nat).length))) ∧
          (∀ L, PoolInv tcp_w.wbuffer_m.element_a L →
            (([8, 9] : List Nat).drop (min m ([8, 9] : List Nat).length)).length
              ≤ 65536 * L.length →
            ret = (min m ([8, 9] : List Nat).length : Nat))) ∧
        (send_result.ok 2 = send_result.again →
          t1.log = tcp_w.log ∧
          ((ret = 0 ∧ N.flatMap (entry_bytes t1.wbuffer_m) = [8, 9]) ∨
            (ret = -1 ∧ t1.wbuffer_m.element_a.not_use = none ∧
              ∃ rest, rest ≠ [] ∧ N.flatMap (entry_bytes t1.wbuffer_m) ++ rest = [8, 9])) ∧
          (∀ L, PoolInv tcp_w.wbuffer_m.element_a L →
            ([8, 9] : List Nat).length ≤ 65536 * L.length →
            ret = 0)) ∧
        (∀ errno, send_result.ok 2 = send_result.fail errno →
          t1 = tcp_w ∧ ret < 0 ∧ N = []))) :=
  ⟨WInv_tcp_w, by decide,
    sender_result 10 tcp_w [4112, 69704, 135296] conn1 [8, 9] (send_result.ok 2) [] WInv_tcp_w
      (by decide)⟩

set_option maxRecDepth 1000000 in
/-- C21, the claim as stated, on the endpoint `tcp_wfull`: the 25 elements of the
pool of the write queue hold entries of `conn2`, and `malloc` returns `NULL`.
A call for `conn1`, which has no entry, with two bytes of which `send` accepts
one: the byte is sent, the other byte is not queued, and the call returns `-1`,
not `1`.  A call for `conn2`, which has entries: nothing is sent, nothing is
queued, and the call returns `-1`, not `2`. -/
theorem sender_result_counterexample :
    (get_element_use_num tcp_wfull.wbuffer_m.element_a,
      get_element_max_num tcp_wfull.wbuffer_m.element_a,
      tcp_wfull.wbuffer_m.element_a.not_use) = (25, 25, none) ∧
    (netio_sender 40 tcp_wfull (some conn1) [8, 9] 2 (send_result.ok 1) []).map
        (fun x => (x.2, sent_bytes x.1.log conn1, message_find 40 x.1.wbuffer_m conn1,
          get_element_use_num x.1.wbuffer_m.element_a))
      = some (-1, [8], some none, 25) ∧
    (netio_sender 40 tcp_wfull (some conn2) [8, 9] 2 (send_result.ok 1) []).map
        (fun x => (x.2, x.1.log, get_element_use_num x.1.wbuffer_m.element_a))
      = some (-1, [], 25) := by
  refine ⟨?_, ?_, ?_⟩ <;> decide!

set_option maxRecDepth 100000 in
/-- `netio_sender` on the endpoint `tcp_w`, whose write queue holds entries of
`conn1` and `conn2`, and on the endpoint with two connections and an empty write
queue: with an entry queued the two bytes are appended whatever `send` would
answer and `2` is returned; with no entry queued and one byte accepted, that byte
is sent, the other one is queued and `1` is returned; a retryable error queues
both bytes and returns `0`; another error returns `-1` and queues nothing. -/
theorem sender_cases :
    (netio_sender 10 tcp_w (some conn1) [8, 9] 2 (send_result.fail 32) []).map
        (fun x => (x.2, sent_bytes x.1.log conn1,
          queued_bytes x.1.wbuffer_m [4112, 69704, 135296, 200888] conn1))
      = some (2, [], [1, 2, 4, 8, 9]) ∧
    (netio_sender 10 (tcp_accept none 2) (some conn1) [8, 9] 2 (send_result.ok 1) []).map
        (fun x => (x.2, sent_bytes x.1.log conn1, queued_bytes x.1.wbuffer_m [4112] conn1))
      = some (1, [8], [9]) ∧
    (netio_sender 10 (tcp_accept none 2) (some conn1) [8, 9] 2 send_result.again []).map
        (fun x => (x.2, sent_bytes x.1.log conn1, queued_bytes x.1.wbuffer_m [4112] conn1))
      = some (0, [], [8, 9]) ∧
    (netio_sender 10 (tcp_accept none 2) (some conn1) [8, 9] 2 (send_result.fail 32) []).map
        (fun x => (x.2, sent_bytes x.1.log conn1, message_get_one x.1.wbuffer_m))
      = some (-1, [], none) := by
  decide!

/-! ### The receive chain and the free chunks of the pool -/

theorem RInv_unique {t : tcp_t} {c : Nat} {R R2 : List Nat} (h : RInv t c R)
    (h2 : RInv t c R2) : R = R2 :=
  Chain_unique h.chain h2.chain

theorem PoolInv_set_rb {t : tcp_t} {L : List Nat} (h : PoolInv t.rbuffer_a L) (r : rbref)
    (v : recv_buffer_t) : PoolInv (set_rb t r v).rbuffer_a L := by
  cases r with
  | head c => exact h
  | node p => exact PoolInv_store h p v

/-- The loop of `__purge_recv_buffer` on a well-formed chain `R` hands the chunks
of `R` back to the free list. -/
theorem purge_loop_room :
    ∀ (R : List Nat) (fuel : Nat) (pool : mempool_t recv_buffer_t) (p : Option Nat)
      (L : List Nat),
      PoolInv pool L → Chain (fun a => (pool.deref a).next) p R → R.Nodup →
      (∀ a ∈ R, IsUser pool a) →
      (∀ a ∈ R, (pool.mem (a - sizeof_memelement_t)).in_use ≠ 0) → R.length < fuel →
      ∃ pool2 L2, purge_loop fuel pool p = some pool2 ∧ PoolInv pool2 L2 ∧
        L2.length = L.length + R.length := by
  intro R
  induction R with
  | nil =>
    intro fuel pool p L hL hc _ _ _ hf
    rw [Chain_nil] at hc
    subst hc
    cases fuel with
    | zero => exact absurd hf (by simp)
    | succ f => exact ⟨pool, L, rfl, hL, rfl⟩
  | cons d R ih =>
    intro fuel pool p L hL hc hnd hu hused hf
    rw [Chain_cons] at hc
    obtain ⟨hp, hrest⟩ := hc
    subst hp
    have hnd2 := List.nodup_cons.mp hnd
    have hd16 : sizeof_memelement_t ≤ d := (IsUser_sub (hu d (by simp))).1
    cases fuel with
    | zero => exact absurd hf (by simp)
    | succ f =>
      have hslots : pool_slots (pool_free
          (pool.store d { (pool.deref d) with len := 0, next := none }) d) = pool_slots pool := by
        rw [pool_free_slots, store_slots]
      have hderef : ∀ q, sizeof_memelement_t ≤ q → q ≠ d →
          (pool_free (pool.store d { (pool.deref d) with len := 0, next := none }) d).deref q
            = pool.deref q := by
        intro q hq hne
        rw [pool_free_deref, deref_store_ne _ _ hd16 hq hne]
      have hfree : PoolInv (pool_free
          (pool.store d { (pool.deref d) with len := 0, next := none }) d)
          ((d - sizeof_memelement_t) :: L) :=
        PoolInv_free (PoolInv_store hL d _)
          (IsUser_congr (store_slots pool d _) (hu d (by simp)))
          (by rw [store_in_use]; exact hused d (by simp))
      obtain ⟨pool2, L2, g1, g2, g3⟩ := ih f
        (pool_free (pool.store d { (pool.deref d) with len := 0, next := none }) d)
        (pool.deref d).next ((d - sizeof_memelement_t) :: L) hfree
        (Chain_congr (fun a ha => congrArg recv_buffer_t.next
          (hderef a (IsUser_sub (hu a (List.mem_cons_of_mem _ ha))).1
            (fun hc => hnd2.1 (hc ▸ ha)))) hrest)
        hnd2.2
        (fun a ha => IsUser_congr hslots (hu a (List.mem_cons_of_mem _ ha)))
        (fun a ha => by
          have ha16 := (IsUser_sub (hu a (List.mem_cons_of_mem _ ha))).1
          have hne : a ≠ d := fun hc => hnd2.1 (hc ▸ ha)
          rw [pool_free_in_use, if_neg (by omega), store_in_use]
          exact hused a (List.mem_cons_of_mem _ ha))
        (by simp only [List.length_cons] at hf; omega)
      refine ⟨pool2, L2, ?_, g2, ?_⟩
      · simp only [purge_loop]
        exact g1
      · rw [g3]
        simp only [List.length_cons]
        omega

/-- Emptying the chain hands its chunks back to the free list. -/
theorem purge_head_room {t : tcp_t} {c : Nat} {R L : List Nat} (h : RInv t c R)
    (hL : PoolInv t.rbuffer_a L) (fuel : Nat) (hf : R.length < fuel) {t1 : tcp_t}
    (hq : __purge_recv_buffer fuel t (some (rbref.head c)) = some t1) :
    ∃ L2, PoolInv (set_rb t1 (rbref.head c)
        { (get_rb t1 (rbref.head c)) with len := 0 }).rbuffer_a L2 ∧
      L2.length = L.length + R.length := by
  obtain ⟨pool2, L2, hp, hL2, hlen⟩ := purge_loop_room R fuel t.rbuffer_a
    (t.connection_a.deref c).rbuffer.next L hL h.chain h.nodup h.user h.used hf
  simp only [__purge_recv_buffer, get_rb, hp, Option.some.injEq] at hq
  subst hq
  exact ⟨L2, hL2, hlen⟩

/-- The loop of `__stack_recv_buffer` when the free list of the pool holds a
chunk for every 65536 bytes to store: it ends, and every chunk it appends to the
chain comes from the free list. -/
theorem stack_loop_room (c : Nat) :
    ∀ (n : Nat) (t : tcp_t) (R : List Nat) (pdata : List Nat) (last_len : Int)
      (ms : List (Option Nat)) (L : List Nat),
      RInv t c R → PoolInv t.rbuffer_a L → 0 ≤ last_len → last_len < 2147483648 →
      last_len = pdata.length → last_len.toNat ≤ n → last_len ≤ 65536 * (L.length : Int) →
      ∃ t2 R2 L2, stack_loop n t (last_ref c R) pdata last_len ms
          = outcome.done (t2, last_ref c R2) ∧
        RInv t2 c R2 ∧ PoolInv t2.rbuffer_a L2 ∧
        L2.length + R2.length = L.length + R.length := by
  intro n
  induction n with
  | zero =>
    intro t R pdata last_len ms L h hL _ _ _ _ _
    exact ⟨t, R, L, rfl, h, hL, rfl⟩
  | succ n ih =>
    intro t R pdata last_len ms L h hL h0 hb hlen hn hroom
    by_cases hpos : last_len > 0
    · have hnext := last_next h
      obtain ⟨hc1, hc2, hc3⟩ := cplen_of_bounds hpos hb
      cases L with
      | nil => simp only [List.length_nil, Nat.cast_zero] at hroom; omega
      | cons e L =>
        obtain ⟨a1, a2⟩ := pool_alloc_room hL ms.head?.join
        cases hpa : pool_alloc t.rbuffer_a ms.head?.join with
        | mk ra o =>
          rw [hpa] at a1 a2
          simp only at a1 a2
          subst a1
          obtain ⟨g1, _, _, _⟩ := node_append_spec h hpa pdata hpos hb (by omega)
          have hq : stack_loop (n + 1) t (last_ref c R) pdata last_len ms
              = stack_loop n
                  (copy_chunk (link_chunk { t with rbuffer_a := ra } (last_ref c R)
                    (e + sizeof_memelement_t))
                    (rbref.node (e + sizeof_memelement_t)) pdata last_len)
                  (last_ref c (R ++ [e + sizeof_memelement_t]))
                  (pdata.drop (cplen_of last_len).toNat)
                  (last_len - cplen_of last_len) ms.tail := by
            rw [last_ref_snoc]
            simp only [stack_loop]
            rw [if_pos hpos, if_pos hnext, hpa]
          have hL1 : PoolInv (copy_chunk (link_chunk { t with rbuffer_a := ra } (last_ref c R)
              (e + sizeof_memelement_t))
              (rbref.node (e + sizeof_memelement_t)) pdata last_len).rbuffer_a L := by
            unfold copy_chunk link_chunk
            exact PoolInv_set_rb (PoolInv_set_rb (PoolInv_set_rb a2 _ _) _ _) _ _
          have hcp : cplen_of last_len = min 65536 last_len := cplen_of_pos hpos hb
          obtain ⟨t2, R2, L2, k1, k2, k3, k4⟩ := ih _ (R ++ [e + sizeof_memelement_t])
            (pdata.drop (cplen_of last_len).toNat)
            (last_len - cplen_of last_len) ms.tail L g1 hL1 (by omega) (by omega)
            (by rw [List.length_drop]; omega) (by omega)
            (by
              simp only [List.length_cons, Nat.cast_add, Nat.cast_one] at hroom
              rw [hcp]
              omega)
          refine ⟨t2, R2, L2, by rw [hq]; exact k1, k2, k3, ?_⟩
          rw [k4]
          simp only [List.length_append, List.length_cons, List.length_nil]
          omega
    · refine ⟨t, R, L, ?_, h, hL, rfl⟩
      simp only [stack_loop]
      rw [if_neg hpos]

/-- `__stack_recv_buffer` with a non-empty residual, on a connection whose chain
has no pool chunk, when the free list of the pool holds a chunk for every 65536
bytes beyond the first 65536: it returns `1`. -/
theorem stack_recv_buffer_room {t : tcp_t} {c : Nat} {L : List Nat} (h : RInv t c [])
    (hL : PoolInv t.rbuffer_a L) (fuel : Nat) (hf : 0 < fuel) (data : List Nat) {len : Int}
    (h1 : 0 < len) (h2 : len < 2147483648) (h3 : len = data.length)
    (hroom : len ≤ 65536 * (1 + (L.length : Int))) (ms : List (Option Nat)) :
    ∃ t3 R3 L3, __stack_recv_buffer fuel t c data len ms = some (outcome.done (t3, 1)) ∧
      RInv t3 c R3 ∧ PoolInv t3.rbuffer_a L3 ∧ L3.length + R3.length = L.length := by
  obtain ⟨g1, _, _, _⟩ := head_copy_spec h data h1 h2 (le_of_eq h3)
  obtain ⟨hc1, hc2, _⟩ := cplen_of_bounds h1 h2
  have hcp : cplen_of len = min 65536 len := cplen_of_pos h1 h2
  have hne : ¬ len = 0 := by omega
  have hL0 : PoolInv (copy_chunk t (rbref.head c) data len).rbuffer_a L := hL
  obtain ⟨t2, R2, L2, k1, k2, k3, k4⟩ := stack_loop_room c (len - cplen_of len).toNat
    (copy_chunk t (rbref.head c) data len) [] (data.drop (cplen_of len).toNat)
    (len - cplen_of len) ms L g1 hL0 (by omega) (by omega)
    (by rw [List.length_drop]; omega) (le_refl _) (by rw [hcp]; omega)
  rw [last_ref_nil] at k1
  refine ⟨t2, R2, L2, ?_, k2, k3, by simpa using k4⟩
  simp only [__stack_recv_buffer]
  rw [if_neg hne, k1]
  simp only [purge_last k2 fuel hf, Option.map_some']

/-- The part of `__parse_receive` from the parse loop on, with the callback
`parse_wait` and a non-empty work buffer: the callback is called once, and the
work buffer goes to `__stack_recv_buffer` as it is. -/
theorem parse_tail_wait (fuel : Nat) (c : Nat) (cap : Int) (t : tcp_t) (pdata : List Nat)
    {n_data : Int} (hpos : 0 < n_data) (ms : List (Option Nat)) :
    (∀ t3, __stack_recv_buffer fuel
          { t with log := t.log ++ [event_t.parse_cb c n_data 0] } c pdata n_data ms
        = some (outcome.done (t3, 1)) →
      parse_tail fuel parse_wait c cap t pdata n_data ms = some (outcome.done (t3, n_data))) ∧
    (__stack_recv_buffer fuel
          { t with log := t.log ++ [event_t.parse_cb c n_data 0] } c pdata n_data ms
        = some outcome.null_deref →
      parse_tail fuel parse_wait c cap t pdata n_data ms = some outcome.null_deref) := by
  obtain ⟨k, hk⟩ : ∃ k, n_data.toNat = k + 1 := ⟨n_data.toNat - 1, by omega⟩
  have hpl : parse_loop parse_wait c cap n_data.toNat t pdata n_data
      = ({ t with log := t.log ++ [event_t.parse_cb c n_data 0] }, pdata, n_data, none) := by
    rw [hk]
    simp only [parse_loop, parse_wait]
    rw [if_pos hpos]
    simp
  constructor
  · intro t3 hs
    simp only [parse_tail, hpl]
    rw [if_pos hpos, hs]
    simp
  · intro hs
    simp only [parse_tail, hpl]
    rw [if_pos hpos, hs]

/-- One call of `__parse_receive` with the callback `parse_wait` and a chunk that
is not empty: the bytes of the chain followed by the chunk go to
`__stack_recv_buffer`, on an endpoint `T` whose chain is empty and whose free
list has taken the chunks of the chain. -/
theorem parse_receive_wait {t : tcp_t} {c : Nat} {R L : List Nat} (h : RInv t c R)
    (hL : PoolInv t.rbuffer_a L)
    (hp : (t.connection_a.deref c).parse_func = some parse_wait) (fuel : Nat)
    (hf : (chain_bytes t c R).length < fuel) (data : List Nat) (hd : data ≠ [])
    (hb : (chain_bytes t c R).length + data.length < 2147483647) (ms : List (Option Nat)) :
    ∃ T L1, RInv T c [] ∧ PoolInv T.rbuffer_a L1 ∧ L1.length = L.length + R.length ∧
      ConnFrame t T c ∧
      (∀ t3, __stack_recv_buffer fuel T c (chain_bytes t c R ++ data)
            ((chain_bytes t c R ++ data).length : Int) ms = some (outcome.done (t3, 1)) →
        __parse_receive fuel t c data data.length ms
          = some (outcome.done (t3, ((chain_bytes t c R ++ data).length : Int)))) ∧
      (__stack_recv_buffer fuel T c (chain_bytes t c R ++ data)
            ((chain_bytes t c R ++ data).length : Int) ms = some outcome.null_deref →
        __parse_receive fuel t c data data.length ms = some outcome.null_deref) := by
  obtain ⟨hl1, hl2⟩ := chain_bytes_length h
  have hfR : R.length < fuel := by omega
  have hlen := get_receive_buffer_len_spec h fuel hfR (by omega)
  have hdpos : 0 < data.length := List.length_pos.mpr hd
  by_cases hE : chain_len t c R > 0
  · obtain ⟨t1, hq, k1, k2, k3, k4⟩ := purge_head_spec h fuel hfR
    obtain ⟨L1, hL1, hL1len⟩ := purge_head_room h hL fuel hfR hq
    have hi : i32 ((data.length : Int) + chain_len t c R)
        = (((chain_bytes t c R ++ data).length : Nat) : Int) := by
      rw [i32_of_range (by omega) (by omega), List.length_append]
      push_cast
      omega
    have hposn : (0 : Int) < (((chain_bytes t c R ++ data).length : Nat) : Int) := by
      rw [List.length_append]; push_cast; omega
    obtain ⟨hT, _⟩ := @RInv_of_fields _
      ({ (set_rb t1 (rbref.head c) { (get_rb t1 (rbref.head c)) with len := 0 }) with
        log := (set_rb t1 (rbref.head c) { (get_rb t1 (rbref.head c)) with len := 0 }).log
          ++ [event_t.parse_cb c (((chain_bytes t c R ++ data).length : Nat) : Int) 0] } :
        tcp_t) _ _ k1 rfl rfl
    refine ⟨_, L1, hT, hL1, hL1len, ⟨k3.wbuffer_eq, k3.parse_eq, k3.recv_eq, k3.close_eq⟩,
      ?_, ?_⟩
    · intro t3 hs
      simp only [__parse_receive, hp, hlen]
      rw [if_pos hE]
      simp only [chain_data_spec h fuel hfR]
      simp only [hq]
      rw [Int.toNat_ofNat, List.take_length, hi]
      exact (parse_tail_wait fuel c _ _ _ hposn ms).1 t3 hs
    · intro hs
      simp only [__parse_receive, hp, hlen]
      rw [if_pos hE]
      simp only [chain_data_spec h fuel hfR]
      simp only [hq]
      rw [Int.toNat_ofNat, List.take_length, hi]
      exact (parse_tail_wait fuel c _ _ _ hposn ms).2 hs
  · have h0 : (chain_bytes t c R).length = 0 := by omega
    have hR : R = [] := List.length_eq_zero.mp (by omega)
    subst hR
    have hnil : chain_bytes t c [] = [] := List.length_eq_zero.mp h0
    have hposn : (0 : Int) < ((data.length : Nat) : Int) := by omega
    obtain ⟨hT, _⟩ := @RInv_of_fields _
      ({ t with log := t.log ++ [event_t.parse_cb c ((data.length : Nat) : Int) 0] } : tcp_t)
      _ _ h rfl rfl
    refine ⟨_, L, hT, hL, by simp, ⟨rfl, rfl, rfl, rfl⟩, ?_, ?_⟩
    · intro t3 hs
      rw [hnil, List.nil_append] at hs ⊢
      simp only [__parse_receive, hp, hlen]
      rw [if_neg hE]
      exact (parse_tail_wait fuel c _ _ _ hposn ms).1 t3 hs
    · intro hs
      rw [hnil, List.nil_append] at hs
      simp only [__parse_receive, hp, hlen]
      rw [if_neg hE]
      exact (parse_tail_wait fuel c _ _ _ hposn ms).2 hs

/-- One call of `__parse_receive` with the callback `parse_wait` and a chunk that
is not empty, when the free list of the pool and the chain together hold a chunk
for every 65536 bytes beyond the first 65536: the call returns, and the chain
holds its former bytes followed by the chunk. -/
theorem parse_receive_wait_ok {t : tcp_t} {c : Nat} {R L : List Nat} (h : RInv t c R)
    (hL : PoolInv t.rbuffer_a L)
    (hp : (t.connection_a.deref c).parse_func = some parse_wait) (fuel : Nat)
    (hf : (chain_bytes t c R).length < fuel) (data : List Nat) (hd : data ≠ [])
    (hb : (chain_bytes t c R).length + data.length < 2147483647)
    (hroom : (chain_bytes t c R).length + data.length ≤ 65536 * (1 + L.length + R.length))
    (ms : List (Option Nat)) :
    ∃ t2 R2 L2 r, __parse_receive fuel t c data data.length ms = some (outcome.done (t2, r)) ∧
      RInv t2 c R2 ∧ chain_bytes t2 c R2 = chain_bytes t c R ++ data ∧
      PoolInv t2.rbuffer_a L2 ∧ L2.length + R2.length = L.length + R.length ∧
      (t2.connection_a.deref c).parse_func = some parse_wait := by
  obtain ⟨T, L1, hT, hL1, hlen1, hfr, w1, _⟩ := parse_receive_wait h hL hp fuel hf data hd hb ms
  have hdpos : 0 < data.length := List.length_pos.mpr hd
  have hposn : (0 : Int) < (((chain_bytes t c R ++ data).length : Nat) : Int) := by
    rw [List.length_append]; push_cast; omega
  have hbn : (((chain_bytes t c R ++ data).length : Nat) : Int) < 2147483648 := by
    rw [List.length_append]; push_cast; omega
  obtain ⟨t3, R3, L3, k1, k2, k3, k4⟩ := stack_recv_buffer_room hT hL1 fuel (by omega)
    (chain_bytes t c R ++ data) hposn hbn rfl
    (by
      rw [List.length_append, hlen1]
      push_cast
      have : ((chain_bytes t c R).length : Int) + (data.length : Int)
          ≤ 65536 * (1 + (L.length : Int) + (R.length : Int)) := by exact_mod_cast hroom
      omega) ms
  rcases stack_recv_buffer_spec hT fuel (by omega) (chain_bytes t c R ++ data) hposn hbn rfl ms
    with hnull | ⟨t3b, R3b, e1, e2, e3, e4, _⟩
  · rw [k1] at hnull
    exact absurd hnull (by simp)
  · rw [k1] at e1
    simp only [Option.some.injEq, outcome.done.injEq, Prod.mk.injEq, and_true] at e1
    subst e1
    have hR : R3b = R3 := RInv_unique e2 k2
    subst hR
    exact ⟨t3, R3b, L3, _, w1 t3 k1, k2, e3, k3, by rw [k4, hlen1],
      (e4.parse_eq.trans hfr.parse_eq).trans hp⟩

/-- A receive sequence of chunks that are not empty, with the callback
`parse_wait`, when the free list of the pool and the chain together hold a chunk
for every 65536 bytes beyond the first 65536: every call returns and the chain
holds its former bytes followed by the stream. -/
theorem recv_wait_fill (fuel : Nat) (c : Nat) :
    ∀ (chunks : List (List Nat × List (Option Nat))) (t : tcp_t) (R L : List Nat),
      RInv t c R → PoolInv t.rbuffer_a L →
      (t.connection_a.deref c).parse_func = some parse_wait →
      (∀ x ∈ chunks, x.1 ≠ []) →
      (chain_bytes t c R).length + (stream_of chunks).length < fuel →
      (chain_bytes t c R).length + (stream_of chunks).length < 2147483647 →
      (chain_bytes t c R).length + (stream_of chunks).length
        ≤ 65536 * (1 + L.length + R.length) →
      ∃ t2 R2 L2 rs, recv_run fuel c t chunks = some (outcome.done (t2, rs)) ∧
        RInv t2 c R2 ∧ chain_bytes t2 c R2 = chain_bytes t c R ++ stream_of chunks ∧
        PoolInv t2.rbuffer_a L2 ∧ L2.length + R2.length = L.length + R.length ∧
        (t2.connection_a.deref c).parse_func = some parse_wait := by
  intro chunks
  induction chunks with
  | nil =>
    intro t R L h hL hp _ _ _ _
    exact ⟨t, R, L, [], rfl, h, by simp [stream_of], hL, rfl, hp⟩
  | cons ch rest ih =>
    intro t R L h hL hp hne hf hb hroom
    obtain ⟨data, ms⟩ := ch
    rw [stream_of_cons, List.length_append] at hf hb hroom
    obtain ⟨t1, R1, L1, r, a1, a2, a3, a4, a5, a6⟩ := parse_receive_wait_ok h hL hp fuel
      (by omega) data (hne (data, ms) (List.mem_cons_self _ _)) (by omega) (by omega) ms
    have hlen1 : (chain_bytes t1 c R1).length = (chain_bytes t c R).length + data.length := by
      rw [a3, List.length_append]
    obtain ⟨t2, R2, L2, rs, n1, n2, n3, n4, n5, n6⟩ := ih t1 R1 L1 a2 a4 a6
      (fun x hx => hne x (List.mem_cons_of_mem _ hx)) (by omega) (by omega) (by omega)
    refine ⟨t2, R2, L2, r :: rs, ?_, n2, ?_, n4, by omega, n6⟩
    · simp only [recv_run, a1, n1]
    · rw [n3, a3, stream_of_cons, List.append_assoc]

theorem block_slots_length (size : Int) (b : memblock_t) :
    (block_slots size b).length = b.num.toNat := by
  simp [block_slots]

/-- The chunk pool of the endpoint after any number of accepts: its four chunks
are on the free list. -/
theorem tcp_accept_chunks (pf : Option parse_callback) (n : Nat) :
    ∃ L, PoolInv (tcp_accept pf n).rbuffer_a L ∧ L.length = 4 := by
  obtain ⟨b, hb, _, hnum, _⟩ := init_pool_with_max_spec tcp0_rbuffer
  rw [tcp_accept_rbuffer]
  refine ⟨_, hb, ?_⟩
  rw [block_slots_length, hnum]
  rfl

theorem tcp_accept_parse (pf : Option parse_callback) :
    ((tcp_accept pf 1).connection_a.deref conn1).parse_func = pf := by
  rw [tcp_accept_connection]

theorem full_chunk_length : full_chunk.length = 65536 :=
  List.length_replicate 65536 7

theorem short_chunk_length : short_chunk.length = 4464 :=
  List.length_replicate 4464 8

theorem ne_nil_of_length {B : List Nat} {k : Nat} (hB : B.length = k + 1) : B ≠ [] := by
  intro h
  rw [h] at hB
  exact absurd hB (by simp)

/-- Two chunks of 65536 and of 4464 bytes received on a fresh endpoint with one
connection whose parse callback is `parse_wait`: both calls return, and the
chain holds the 70000 bytes, in order. -/
theorem two_chunks (B B2 : List Nat) (hB : B.length = 65536) (hB2 : B2.length = 4464) :
    ∃ t2 rs, recv_run 70001 conn1 (tcp_accept (some parse_wait) 1)
        [(B, []), (B2, [])] = some (outcome.done (t2, rs)) ∧
      chain_data 70001 t2 conn1 = some (B ++ B2) ∧
      __get_receive_buffer_len 70001 t2 conn1 = some 70000 := by
  obtain ⟨L, hL, hlen⟩ := tcp_accept_chunks (some parse_wait) 1
  have hR := RInv_tcp_accept (some parse_wait)
  have hpf := tcp_accept_parse (some parse_wait)
  have hcb := chain_bytes_tcp_accept (some parse_wait)
  have hs : stream_of [(B, ([] : List (Option Nat))), (B2, [])] = B ++ B2 := by
    simp only [stream_of, List.flatMap_cons, List.flatMap_nil, List.append_nil]
  have hsl : (B ++ B2).length = 70000 := by
    rw [List.length_append]
    omega
  have hne : ∀ x ∈ [(B, ([] : List (Option Nat))), (B2, [])], x.1 ≠ [] := by
    intro x hx
    simp only [List.mem_cons, List.mem_singleton, List.not_mem_nil, or_false] at hx
    rcases hx with hx | hx
    · rw [hx]; exact ne_nil_of_length hB
    · rw [hx]; exact ne_nil_of_length hB2
  obtain ⟨t2, R2, L2, rs, n1, n2, n3, _, _, _⟩ := recv_wait_fill 70001 conn1
    [(B, []), (B2, [])] _ [] L hR hL hpf hne
    (by rw [hcb, hs, hsl, List.length_nil]; try omega)
    (by rw [hcb, hs, hsl, List.length_nil]; try omega)
    (by rw [hcb, hs, hsl, hlen, List.length_nil]; try omega)
  rw [hcb, List.nil_append, hs] at n3
  obtain ⟨hl1, hl2⟩ := chain_bytes_length n2
  rw [n3, hsl] at hl1 hl2
  refine ⟨t2, rs, n1, ?_, ?_⟩
  · rw [← n3]
    exact chain_data_spec n2 70001 (by omega)
  · have := get_receive_buffer_len_spec n2 70001 (by omega) (by omega)
    rw [this, ← hl1]
    rfl

/-- A residual of 70000 bytes on a fresh endpoint with one connection whose parse
callback waits for more bytes: two chunks are received, of 65536 and of 4464
bytes; both calls of `__parse_receive` return, and the chain holds the 70000
bytes, in order, a chunk of the pool taking what the embedded chunk cannot. -/
theorem residual_70000 :
    ∃ t2 rs, recv_run 70001 conn1 (tcp_accept (some parse_wait) 1)
        [(full_chunk, []), (short_chunk, [])] = some (outcome.done (t2, rs)) ∧
      chain_data 70001 t2 conn1 = some (full_chunk ++ short_chunk) ∧
      __get_receive_buffer_len 70001 t2 conn1 = some 70000 :=
  two_chunks full_chunk short_chunk full_chunk_length short_chunk_length

end Netio
